import Mathlib

/-!
# jsontemplate: the renderer and the builder, embedded in Lean

The Go package `jsontemplate` compiles a JSON-like template into a tree of
nodes (`parse.go`) and evaluates that tree against input data (`render.go`).
This file embeds both in Lean and proves properties of them.

Modelling decisions:

* Go values of static type `interface{}` are the inductive `GoValue`; the
  part of package `reflect` that the renderer uses (`Type`, `Kind`,
  `AssignableTo`, `Zero`, `New`, `Call`) is modelled over the type universe
  `GoType`.
* The two collaborators whose code is outside the package, the JSONPath
  engine (`k8s.io/client-go/util/jsonpath`) and the bodies of the registered
  Go functions, are the fields of a `Host`, over which every theorem
  quantifies.
* Panics are explicit: every function of the renderer returns
  `Except PanicValue _`.
* A compiled JSONPath expression is a mutable Go object (its
  `allowMissingKeys` flag is set by the renderer before each resolution), so
  evaluation threads a `World` holding those flags, together with a trace of
  the calls made to the collaborators.
* A Go map is a list of entries with `mapassign` and `mapaccess`; the order
  of the list stands for the (unspecified) order in which `range` visits it.
-/

namespace jsontemplate

/-! ## Package reflect: types -/

/-- The kinds of `reflect.Kind` that occur in the modelled type universe. -/
inductive reflect.Kind where
  | Bool | Int | Float64 | String | Interface | Ptr | Slice | Map | Chan | Func | Struct
  deriving DecidableEq, Repr

/-- Go types (`reflect.Type`). `bool`, `int`, `float64` and `string` are the
predeclared types, `iface` is the empty interface `interface{}`, `struct n` is
the struct type declared under the name `n`, and `named n u` is a defined type
`type n u`. The composite constructors are the unnamed type literals. -/
inductive GoType where
  | bool | int | float64 | string
  | iface
  | ptr (elem : GoType)
  | slice (elem : GoType)
  | map (key elem : GoType)
  | chan (elem : GoType)
  | func (ins : List GoType) (variadic : Bool) (outs : List GoType)
  | struct (name : String)
  | named (name : String) (underlying : GoType)

mutual
/-- Type identity, decided structurally. -/
def GoType.identical : GoType → GoType → Bool
  | .bool, .bool => true
  | .int, .int => true
  | .float64, .float64 => true
  | .string, .string => true
  | .iface, .iface => true
  | .ptr a, .ptr b => GoType.identical a b
  | .slice a, .slice b => GoType.identical a b
  | .chan a, .chan b => GoType.identical a b
  | .map k a, .map l b => GoType.identical k l && GoType.identical a b
  | .func i v o, .func j u p =>
    GoType.identicalList i j && v == u && GoType.identicalList o p
  | .struct n, .struct m => n == m
  | .named n a, .named m b => n == m && GoType.identical a b
  | _, _ => false
/-- Pointwise identity of two lists of types. -/
def GoType.identicalList : List GoType → List GoType → Bool
  | [], [] => true
  | a :: as, b :: bs => GoType.identical a b && GoType.identicalList as bs
  | _, _ => false
end

/-- The underlying type: a defined type is unfolded down to its type literal
or predeclared type. -/
def GoType.underlying : GoType → GoType
  | .named _ u => GoType.underlying u
  | t => t

/-- The method `Type.Kind()`. -/
def GoType.Kind : GoType → reflect.Kind
  | .bool => .Bool
  | .int => .Int
  | .float64 => .Float64
  | .string => .String
  | .iface => .Interface
  | .ptr _ => .Ptr
  | .slice _ => .Slice
  | .map _ _ => .Map
  | .chan _ => .Chan
  | .func _ _ _ => .Func
  | .struct _ => .Struct
  | .named _ u => GoType.Kind u

/-- Whether a type has a name (predeclared types, declared structs and
defined types), as opposed to being a type literal. -/
def GoType.hasName : GoType → Bool
  | .bool | .int | .float64 | .string => true
  | .struct _ => true
  | .named _ _ => true
  | _ => false

/-- The function `directlyAssignable(T, V)` of package reflect: `V` is
identical to `T`, or at most one of them has a name, their kinds agree and
their underlying types are identical. (Channel directions are not modelled.) -/
def reflect.directlyAssignable (T V : GoType) : Bool :=
  if GoType.identical T V then true
  else if (T.hasName && V.hasName) || T.Kind ≠ V.Kind then false
  else GoType.identical T.underlying V.underlying

/-- The function `implements(T, V)` of package reflect. The only interface
types of the universe are the empty interface and the types defined from it;
they have no methods, so every type implements them. -/
def reflect.implements (T _V : GoType) : Bool :=
  if T.Kind ≠ reflect.Kind.Interface then false else true

/-- The method `V.AssignableTo(T)`. -/
def GoType.AssignableTo (V T : GoType) : Bool :=
  reflect.directlyAssignable T V || reflect.implements T V

/-- The method `Type.IsVariadic()`; it panics on a type that is not a function
type. -/
def GoType.IsVariadic (t : GoType) : Except String Bool :=
  match t.underlying with
  | .func _ v _ => .ok v
  | _ => .error "reflect: IsVariadic of non-func type"

/-- The method `Type.NumIn()`. -/
def GoType.NumIn (t : GoType) : Except String Nat :=
  match t.underlying with
  | .func ins _ _ => .ok ins.length
  | _ => .error "reflect: NumIn of non-func type"

/-- The outcome of the method `Type.In(i)`: the parameter type, a panic with a
string (the type is not a function type), or the runtime error of indexing the
parameter list out of range. -/
inductive reflect.InResult where
  | ok (t : GoType)
  | notFunc
  | outOfRange

/-- The method `Type.In(i)`. -/
def GoType.In (t : GoType) (i : Nat) : reflect.InResult :=
  match t.underlying with
  | .func ins _ _ =>
    match ins[i]? with
    | some p => .ok p
    | none => .outOfRange
  | _ => .notFunc

/-- The method `Type.Elem()`; it panics on a type that has no element type. -/
def GoType.Elem (t : GoType) : Except String GoType :=
  match t.underlying with
  | .ptr e => .ok e
  | .slice e => .ok e
  | .chan e => .ok e
  | .map _ e => .ok e
  | _ => .error "reflect: Elem of invalid type"

/-! ## Go values -/

/-- The values a Go `interface{}` can hold, as far as the renderer can tell
them apart. `nil` is the nil interface. `float64` carries the number as an
exact rational: the renderer never computes with numbers. `slice e xs` is a
`[]e`, `map e kvs` a `map[string]e`, `ptr e v` a non-nil `*e` pointing to a
cell of its own that holds `v`, `struct n fs` a value of the struct type `n`,
`func ins variadic outs body` a non-nil function whose code is the body number
`body` of the host, and `zero t` the nil value of the nilable, non-interface
type `t` (a nil pointer, map, slice, channel or function). -/
inductive GoValue where
  | nil
  | bool (b : Bool)
  | int (n : Int)
  | float64 (x : Rat)
  | string (s : String)
  | slice (elem : GoType) (xs : List GoValue)
  | map (elem : GoType) (kvs : List (String × GoValue))
  | ptr (elem : GoType) (pointee : GoValue)
  | struct (name : String) (fields : List (String × GoValue))
  | func (ins : List GoType) (variadic : Bool) (outs : List GoType) (body : Nat)
  | zero (t : GoType)

/-- The test `v == nil` on a value of type `interface{}`. -/
def GoValue.isNil : GoValue → Bool
  | .nil => true
  | _ => false

/-- The function `reflect.TypeOf`: the dynamic type of a value, `none` (the nil
`Type`) for the nil interface. -/
def reflect.TypeOf : GoValue → Option GoType
  | .nil => none
  | .bool _ => some .bool
  | .int _ => some .int
  | .float64 _ => some .float64
  | .string _ => some .string
  | .slice e _ => some (.slice e)
  | .map e _ => some (.map .string e)
  | .ptr e _ => some (.ptr e)
  | .struct n _ => some (.struct n)
  | .func ins variadic outs _ => some (.func ins variadic outs)
  | .zero t => some t

/-- The function `reflect.Zero(t)`, as the callee sees it: a parameter of an
interface type receives the nil interface, one of another nilable type the
nil value of that type. -/
def reflect.Zero (t : GoType) : GoValue :=
  if t.Kind = reflect.Kind.Interface then .nil else .zero t

/-- A `reflect.Value`: the zero (invalid) Value, a Value holding a Go value,
which `Interface()` returns, or a Value that holds a Go value reached through
an unexported struct field, which `Interface()` refuses to return. -/
inductive reflect.Value where
  | invalid
  | valid (v : GoValue)
  | readOnly (v : GoValue)

/-- The method `Value.IsValid()`. -/
def reflect.Value.IsValid : reflect.Value → Bool
  | .invalid => false
  | .valid _ => true
  | .readOnly _ => true

/-! ## Panics -/

/-- The values of type `error` that the package and package reflect panic
with; each keeps the arguments of its message. -/
inductive Error where
  /-- The error "jsontemplate: cannot execute query, input is null". -/
  | queryNullInput
  /-- The error "jsontemplate: error executing query: %v". -/
  | queryFailed (err : String)
  /-- The error "jsontemplate: cannot generate array, input is null". -/
  | generatorNullInput
  /-- The error of the JSONPath engine itself, which the generator panics with. -/
  | jsonpath (err : String)
  /-- The error "jsontemplate: cannot pass nil as argument %d of %s, expecting %v". -/
  | nilArgument (position : Nat) (fname : String) (expected : GoType)
  /-- The error "jsontemplate: cannot pass %v (%v) as argument %d of %s, expecting %v". -/
  | argumentMismatch (val : GoValue) (actual : GoType) (position : Nat) (fname : String)
      (expected : GoType)
  /-- The error "jsontemplate: no such function: %s". -/
  | noSuchFunction (fname : String)
  /-- The error "jsontemplate: invalid jsonpath: %v". -/
  | invalidJSONPath (err : String)
  /-- A `*reflect.ValueError`: the named method was called on a Value of the
  wrong kind. -/
  | valueError (method : String)
  /-- An error value a registered function panics with. -/
  | host (msg : String)
  /-- The error "jsontemplate: parse error: %v". -/
  | parseError (err : String)

/-- What a panic carries, by the three classes that `Render` and `Parse` tell
apart when they recover: a `runtime.Error`, another `error`, anything else. -/
inductive PanicValue where
  | runtimeError (msg : String)
  | error (e : Error)
  | other (msg : String)

/-! ## The collaborators -/

/-- The code outside the package. `Parse` is `(*JSONPath).Parse` on the text of
a JSONPath template (`none` when it succeeds), `FindResults` is
`(*JSONPath).FindResults` of the expression compiled from that text, under the
given value of its `allowMissingKeys` flag, and `call body args` runs the code
of the Go function number `body` on the arguments it receives (the variadic
ones in line with the others), giving its results or the value it panics
with. -/
structure Host where
  Parse : String → Option String
  FindResults : String → Bool → GoValue → Except String (List (List reflect.Value))
  call : Nat → List GoValue → Except PanicValue (List GoValue)

/-- A `*jsonpath.JSONPath`: the address of the object and the template text it
was parsed from. -/
structure JSONPath where
  addr : Nat
  text : String

/-- A call made to a collaborator, or a line printed on the standard output. -/
inductive Event where
  | AllowMissingKeys (addr : Nat) (allow : Bool)
  | FindResults (addr : Nat) (data : GoValue)
  | Call (body : Nat) (args : List GoValue)
  | Println (line : String)

/-- The mutable state around an evaluation: the `allowMissingKeys` flag of
every JSONPath object, by address, and the calls made so far, oldest first. -/
structure World where
  allowMissingKeys : Nat → Bool
  trace : List Event

/-- The method `(*JSONPath).AllowMissingKeys(allow)`: it sets the flag of the
object. -/
def JSONPath.AllowMissingKeys (j : JSONPath) (allow : Bool) (w : World) : World :=
  ⟨fun a => if a = j.addr then allow else w.allowMissingKeys a,
   w.trace ++ [Event.AllowMissingKeys j.addr allow]⟩

/-- The method `(*JSONPath).FindResults(data)`: it resolves the expression
under the flag the object currently has. -/
def JSONPath.FindResults (h : Host) (j : JSONPath) (data : GoValue) (w : World) :
    Except String (List (List reflect.Value)) × World :=
  (h.FindResults j.text (w.allowMissingKeys j.addr) data,
   ⟨w.allowMissingKeys, w.trace ++ [Event.FindResults j.addr data]⟩)

/-- The method `Value.Interface()`; on the invalid Value it panics with a
`*ValueError`, on a read-only Value with a string. -/
def reflect.Value.Interface : reflect.Value → Except PanicValue GoValue
  | .invalid => .error (.error (.valueError "reflect.Value.Interface"))
  | .valid v => .ok v
  | .readOnly _ =>
    .error (.other "reflect.Value.Interface: cannot return value obtained from unexported field")

/-- The method `Value.Call(in)` of `reflect.ValueOf(fn)`. It panics with a
`*ValueError` unless `fn` is a function, with a string on a nil function and
on too few or too many arguments, and otherwise runs the function. (Its
assignability checks repeat those `function.interpolate` has made on the same
expected types, and are left out.) -/
def reflect.Call (h : Host) (fn : GoValue) (args : List GoValue) (w : World) :
    Except PanicValue (List GoValue) × World :=
  match fn with
  | .func ins variadic _ body =>
    let n := if variadic then ins.length - 1 else ins.length
    if args.length < n then
      (.error (.other "reflect: Call with too few input arguments"), w)
    else if !variadic && args.length > n then
      (.error (.other "reflect: Call with too many input arguments"), w)
    else
      (h.call body args, ⟨w.allowMissingKeys, w.trace ++ [Event.Call body args]⟩)
  | .zero t =>
    if t.Kind = reflect.Kind.Func then
      (.error (.other "reflect: call of nil function"), w)
    else
      (.error (.error (.valueError "reflect.Value.Call")), w)
  | _ => (.error (.error (.valueError "reflect.Value.Call")), w)

/-! ## render.go: the node tree -/

/-- The type `MissingKeyPolicy`, a Go `int`. -/
abbrev MissingKeyPolicy := Int

/-- The constant `NullOnMissing` (`iota`, so 0). -/
def NullOnMissing : MissingKeyPolicy := 0

/-- The constant `ErrorOnMissing`. -/
def ErrorOnMissing : MissingKeyPolicy := 1

/-- The struct `options`. -/
structure options where
  MissingKeys : MissingKeyPolicy

/-- The struct `query`. -/
structure query where
  expression : JSONPath

mutual
/-- The interface `template`, as the sum of the types that implement it. -/
inductive template where
  | stringConstant (s : String)
  | boolConstant (b : Bool)
  | numberConstant (n : Rat)
  | nullConstant
  | object (o : List (String × field))
  | array (a : List template)
  | query (q : query)
  | generator (g : generator)
  | function (f : function)
/-- The struct `field`. -/
inductive field where
  | mk (value : template) ( annotation : String)
/-- The struct `generator`. -/
inductive generator where
  | mk (over : query) (template : template)
/-- The struct `function`. -/
inductive function where
  | mk (name : String) (function : GoValue) (args : List template)
end

/-- The type `object`, a `map[string]field`. -/
abbrev object := List (String × field)

/-- The type `array`, a `[]template`. -/
abbrev array := List template

/-- The field `value` of a `field`. -/
def field.value : field → template
  | .mk value _ => value

/-- The field `annotation` of a `field`. -/
def field.annotation : field → String
  | .mk _ a => a

/-- The map assignment `m[k] = v`: the entry of `k` is replaced where it is,
a new key is added. -/
def mapassign {α : Type} (m : List (String × α)) (k : String) (v : α) : List (String × α) :=
  match m with
  | [] => [(k, v)]
  | (k1, v1) :: rest => if k1 = k then (k, v) :: rest else (k1, v1) :: mapassign rest k v

/-- The map lookup `m[k]` with its `ok`. -/
def mapaccess {α : Type} (m : List (String × α)) (k : String) : Option α :=
  match m with
  | [] => none
  | (k1, v1) :: rest => if k1 = k then some v1 else mapaccess rest k

/-! ## render.go: function.interpolate, the treatment of one argument -/

/-- Lines 147-153 of `function.interpolate`: the expected type of argument
`i`, with `ftype = reflect.TypeOf(f.function)`. On the nil `Type` the method
call is a nil dereference. -/
def function.expected (fn : GoValue) (i : Nat) : Except PanicValue GoType :=
  match reflect.TypeOf fn with
  | none => .error (.runtimeError "invalid memory address or nil pointer dereference")
  | some ftype =>
    match ftype.IsVariadic with
    | .error msg => .error (.other msg)
    | .ok variadic =>
      match ftype.NumIn with
      | .error msg => .error (.other msg)
      | .ok numIn =>
        if variadic && decide ((i : Int) ≥ (numIn : Int) - 1) then
          match ftype.In (numIn - 1) with
          | .notFunc => .error (.other "reflect: In of non-func type")
          | .outOfRange => .error (.runtimeError "index out of range")
          | .ok last =>
            match last.Elem with
            | .error msg => .error (.other msg)
            | .ok e => .ok e
        else
          match ftype.In i with
          | .notFunc => .error (.other "reflect: In of non-func type")
          | .outOfRange => .error (.runtimeError "index out of range")
          | .ok t => .ok t

/-- The kinds listed at lines 156-157: the types that can be assigned nil. -/
def nilable : reflect.Kind → Bool
  | .Chan | .Func | .Interface | .Map | .Ptr | .Slice => true
  | _ => false

/-- Lines 147-182 of `function.interpolate`: the body of the loop from the
evaluated argument `val` on, giving the entry `args[i]`. -/
def function.argument (name : String) (fn : GoValue) (i : Nat) (val : GoValue) :
    Except PanicValue GoValue :=
  match function.expected fn i with
  | .error p => .error p
  | .ok expected =>
    match reflect.TypeOf val with
    | none =>
      if nilable expected.Kind then .ok (reflect.Zero expected)
      else .error (.error (.nilArgument (i + 1) name expected))
    | some actual =>
      if expected.Kind = reflect.Kind.Ptr ∧ actual.Kind ≠ reflect.Kind.Ptr then
        if (GoType.ptr actual).AssignableTo expected then .ok (.ptr actual val)
        else .error (.error (.argumentMismatch val actual (i + 1) name expected))
      else
        if actual.AssignableTo expected then .ok val
        else .error (.error (.argumentMismatch val actual (i + 1) name expected))

/-- Line 186 of `function.interpolate`: `Call(args)[0].Interface()`; taking
the first of no results is a runtime error. -/
def function.call (h : Host) (fn : GoValue) (args : List GoValue) (w : World) :
    Except PanicValue GoValue × World :=
  match reflect.Call h fn args w with
  | (.error p, w1) => (.error p, w1)
  | (.ok [], w1) => (.error (.runtimeError "index out of range [0] with length 0"), w1)
  | (.ok (r :: _), w1) => (.ok r, w1)

/-! ## render.go: query.interpolate and the loop of generator.interpolate -/

/-- Lines 106-110 of `query.interpolate`: `res[i] = v.Interface()` for every
hit in turn. -/
def query.interfaces : List reflect.Value → Except PanicValue (List GoValue)
  | [] => .ok []
  | v :: vs =>
    match v.Interface with
    | .error p => .error p
    | .ok x =>
      match query.interfaces vs with
      | .error p => .error p
      | .ok xs => .ok (x :: xs)

/-- The method `query.interpolate`. -/
def query.interpolate (h : Host) (q : query) (data : GoValue) (opt : options) (w : World) :
    Except PanicValue GoValue × World :=
  if data.isNil && decide (opt.MissingKeys = NullOnMissing) then (.ok .nil, w)
  else if data.isNil && decide (opt.MissingKeys = ErrorOnMissing) then
    (.error (.error .queryNullInput), w)
  else
    let w1 := q.expression.AllowMissingKeys (decide (opt.MissingKeys = NullOnMissing)) w
    match q.expression.FindResults h data w1 with
    | (.error err, w2) => (.error (.error (.queryFailed err)), w2)
    | (.ok [], w2) => (.error (.runtimeError "index out of range [0] with length 0"), w2)
    | (.ok (hits0 :: _), w2) =>
      match hits0 with
      | [] => (.ok .nil, w2)
      | [v] =>
        match v.Interface with
        | .error p => (.error p, w2)
        | .ok x => (.ok x, w2)
      | _ =>
        match query.interfaces hits0 with
        | .error p => (.error p, w2)
        | .ok res => (.ok (.slice .iface res), w2)

/-- Lines 129-135 of `generator.interpolate`: the loop over the hits, where
`body inner` is `g.template.interpolate(inner, opt)`. -/
def generator.range (body : GoValue → World → Except PanicValue GoValue × World) :
    List reflect.Value → World → Except PanicValue (List GoValue) × World
  | [], w => (.ok [], w)
  | v :: vs, w =>
    match (if v.IsValid then v.Interface else .ok GoValue.nil) with
    | .error p => (.error p, w)
    | .ok inner =>
      match body inner w with
      | (.error p, w1) => (.error p, w1)
      | (.ok r, w1) =>
        match generator.range body vs w1 with
        | (.error p, w2) => (.error p, w2)
        | (.ok rs, w2) => (.ok (r :: rs), w2)

/-! ## render.go: interpolate -/

mutual
/-- The method `interpolate` of the interface `template`: the dispatch on the
dynamic type of the node. -/
def template.interpolate (h : Host) :
    template → GoValue → options → World → Except PanicValue GoValue × World
  | .stringConstant s, _, _, w => (.ok (.string s), w)
  | .boolConstant b, _, _, w => (.ok (.bool b), w)
  | .numberConstant n, _, _, w => (.ok (.float64 n), w)
  | .nullConstant, _, _, w => (.ok .nil, w)
  | .object o, data, opt, w =>
    match object.interpolate h o data opt [] w with
    | (.error p, w1) => (.error p, w1)
    | (.ok res, w1) => (.ok (.map .iface res), w1)
  | .array a, data, opt, w =>
    match array.interpolate h a data opt w with
    | (.error p, w1) => (.error p, w1)
    | (.ok res, w1) => (.ok (.slice .iface res), w1)
  | .query q, data, opt, w => q.interpolate h data opt w
  | .generator g, data, opt, w => generator.interpolate h g data opt w
  | .function f, data, opt, w => function.interpolate h f data opt w
/-- The loop of `object.interpolate`, from the entries still to visit and the
map `res` built so far. -/
def object.interpolate (h : Host) :
    List (String × field) → GoValue → options → List (String × GoValue) → World →
      Except PanicValue (List (String × GoValue)) × World
  | [], _, _, res, w => (.ok res, w)
  | (name, .mk value _) :: rest, data, opt, res, w =>
    match template.interpolate h value data opt w with
    | (.error p, w1) => (.error p, w1)
    | (.ok v, w1) => object.interpolate h rest data opt (mapassign res name v) w1
/-- The loop of `array.interpolate`, from the elements still to visit. -/
def array.interpolate (h : Host) :
    List template → GoValue → options → World → Except PanicValue (List GoValue) × World
  | [], _, _, w => (.ok [], w)
  | templ :: rest, data, opt, w =>
    match template.interpolate h templ data opt w with
    | (.error p, w1) => (.error p, w1)
    | (.ok v, w1) =>
      match array.interpolate h rest data opt w1 with
      | (.error p, w2) => (.error p, w2)
      | (.ok vs, w2) => (.ok (v :: vs), w2)
/-- The method `generator.interpolate`. -/
def generator.interpolate (h : Host) :
    generator → GoValue → options → World → Except PanicValue GoValue × World
  | .mk over templ, data, opt, w =>
    if data.isNil && decide (opt.MissingKeys = NullOnMissing) then (.ok .nil, w)
    else if data.isNil && decide (opt.MissingKeys = ErrorOnMissing) then
      (.error (.error .generatorNullInput), w)
    else
      let w1 := over.expression.AllowMissingKeys (decide (opt.MissingKeys = NullOnMissing)) w
      match over.expression.FindResults h data w1 with
      | (.error err, w2) => (.error (.error (.jsonpath err)), w2)
      | (.ok [], w2) => (.error (.runtimeError "index out of range [0] with length 0"), w2)
      | (.ok (hits0 :: _), w2) =>
        match generator.range (fun inner w => template.interpolate h templ inner opt w)
            hits0 w2 with
        | (.error p, w3) => (.error p, w3)
        | (.ok res, w3) => (.ok (.slice .iface res), w3)
/-- The method `function.interpolate`. -/
def function.interpolate (h : Host) :
    function → GoValue → options → World → Except PanicValue GoValue × World
  | .mk name fn args, data, opt, w =>
    match function.arguments h name fn args 0 data opt w with
    | (.error p, w1) => (.error p, w1)
    | (.ok vals, w1) => function.call h fn vals w1
/-- The loop of `function.interpolate` (lines 142-183), from the argument
templates still to visit and the index `i` of the first of them. -/
def function.arguments (h : Host) (name : String) (fn : GoValue) :
    List template → Nat → GoValue → options → World →
      Except PanicValue (List GoValue) × World
  | [], _, _, _, w => (.ok [], w)
  | templ :: rest, i, data, opt, w =>
    match template.interpolate h templ data opt w with
    | (.error p, w1) => (.error p, w1)
    | (.ok val, w1) =>
      match function.argument name fn i val with
      | .error p => (.error p, w1)
      | .ok arg =>
        match function.arguments h name fn rest (i + 1) data opt w1 with
        | (.error p, w2) => (.error p, w2)
        | (.ok vals, w2) => (.ok (arg :: vals), w2)
end

/-- The struct `Template`. -/
structure Template where
  definition : template
  MissingKeys : MissingKeyPolicy

/-- The error `Render` returns, by the branch of its recover that made it. -/
inductive RenderError where
  /-- The error "jsontemplate: while rendering: %v\n%s". -/
  | whileRendering (msg : String)
  /-- The recovered error itself. -/
  | recovered (e : Error)
  /-- The error "jsontemplate: panic during interpolation: %v". -/
  | panicDuringInterpolation (msg : String)

/-- The method `(*Template).Render`: the pair `(res, err)`, where `res` stays
nil when the evaluation panics. The branch that recovers an `error` prints a
line first. -/
def Template.Render (h : Host) (t : Template) (data : GoValue) (w : World) :
    (GoValue × Option RenderError) × World :=
  match t.definition.interpolate h data ⟨t.MissingKeys⟩ w with
  | (.ok res, w1) => ((res, none), w1)
  | (.error (.runtimeError r), w1) => ((.nil, some (.whileRendering r)), w1)
  | (.error (.error r), w1) =>
    ((.nil, some (.recovered r)), ⟨w1.allowMissingKeys, w1.trace ++ [Event.Println "was here!"]⟩)
  | (.error (.other r), w1) => ((.nil, some (.panicDuringInterpolation r)), w1)

/-! ## internal/parse/grammar.go: the syntax tree -/

/-- The Go type `string`, under a name that the fields of the syntax tree do
not take. -/
abbrev gostring := String

/-- The Go type `bool`. -/
abbrev gobool := Bool

mutual
/-- The struct `parse.Value`: one field per alternative of the grammar, unset
(nil, or false for `Null`) unless the alternative was taken. -/
inductive parse.Value where
  | mk (String : Option gostring) (Number : Option Rat) (Object : Option parse.Object)
      (Array : Option (List parse.Value)) (Bool : Option gobool) (Null : gobool)
      (Generator : Option parse.Generator) (Extractor : Option gostring)
      (Function : Option parse.Function)
/-- The struct `parse.Object`. -/
inductive parse.Object where
  | mk (Fields : List parse.AnnotatedField)
/-- The struct `parse.AnnotatedField`. -/
inductive parse.AnnotatedField where
  | mk ( Annotation : gostring) (Key : gostring) (Value : parse.Value)
/-- The struct `parse.Generator`. -/
inductive parse.Generator where
  | mk (Range : gostring) (SubTemplate : parse.Value)
/-- The struct `parse.Function`. -/
inductive parse.Function where
  | mk (Name : gostring) (Args : List parse.Value)
end

/-- The struct `parse.Template`. -/
structure parse.Template where
  Root : parse.Value

/-- The field `Key` of a `parse.AnnotatedField`. -/
def parse.AnnotatedField.Key : parse.AnnotatedField → String
  | .mk _ key _ => key

/-! ## internal/parse/grammar.go: the lexer -/

/-- The token types of the lexer: the productions of its EBNF grammar whose
name starts with an upper-case letter, in the order of the grammar. -/
inductive parse.Symbol where
  | Comment | Ident | String | Number | Int | Float | JSONPath | JSONPathExpr | Punct
  | Whitespace
  deriving DecidableEq, Repr

/-- A `lexer.Token`: its type and its text. -/
structure parse.Token where
  symbol : parse.Symbol
  value : String
  deriving DecidableEq, Repr

/-- The production `alpha = "a"…"z" | "A"…"Z"`. -/
def parse.alpha (c : Char) : Bool :=
  (decide ('a' ≤ c) && decide (c ≤ 'z')) || (decide ('A' ≤ c) && decide (c ≤ 'Z'))

/-- The production `digit = "0"…"9"`. -/
def parse.digit (c : Char) : Bool := decide ('0' ≤ c) && decide (c ≤ '9')

/-- The production `any = "\u0000"…"\uffff"`. -/
def parse.any (c : Char) : Bool := decide (c.toNat ≤ 0xFFFF)

/-- The double quote. -/
def parse.quote : Char := Char.ofNat 34

/-- The backslash. -/
def parse.backslash : Char := Char.ofNat 92

/-- The line feed. -/
def parse.newline : Char := Char.ofNat 10

/-- What a production of the lexer gives on an input: the text it matches
and the input left, or `none`. A production is matched as a parsing
expression: a sequence matches when its items match one after the other, an
alternative is the first of its items that matches, an option and a repetition
take as much as they can. What a production has read before it fails is
given back here. The lexer of participle reads from one stream and does not
give it back, so the two differ on a text on which a production fails part
way: a path that ends in a dot or in a bracket left open, a sign that no digit
follows. The statements that depend on how a path or a number is split name
the texts they hold for (`parse.PathExpr.valid`, `parse.pathEnd`,
`parse.settled`). -/
abbrev parse.Matcher := List Char → Option (List Char × List Char)

/-- The characters `"\u0000"…"\uffff"-"\n"` that a comment goes on with. -/
def parse.commentChar (c : Char) : Bool := parse.any c && c != parse.newline

/-- The production `Comment = "#" { "\u0000"…"\uffff"-"\n" }`. -/
def parse.lexComment : parse.Matcher
  | c :: cs =>
    if c = '#' then some (c :: cs.takeWhile parse.commentChar, cs.dropWhile parse.commentChar)
    else none
  | [] => none

/-- The production `Ident = (alpha | "_") { "_" | alpha | digit }`. -/
def parse.lexIdent : parse.Matcher
  | c :: cs =>
    if parse.alpha c || c == '_' then
      some (c :: cs.takeWhile (fun x => x == '_' || parse.alpha x || parse.digit x),
        cs.dropWhile (fun x => x == '_' || parse.alpha x || parse.digit x))
    else none
  | [] => none

/-- The repetition `{ "\u0000"…"\uffff"-"\""-"\\" | "\\" any }` of the
production `String`: the text it takes and the input left. -/
def parse.lexStringBody : List Char → List Char × List Char
  | [] => ([], [])
  | c :: cs =>
    if parse.any c && c != parse.quote && c != parse.backslash then
      (c :: (parse.lexStringBody cs).1, (parse.lexStringBody cs).2)
    else if c = parse.backslash then
      match cs with
      | d :: ds =>
        if parse.any d then (c :: d :: (parse.lexStringBody ds).1, (parse.lexStringBody ds).2)
        else ([], c :: cs)
      | [] => ([], c :: cs)
    else ([], c :: cs)

/-- The production
`String = "\"" { "\u0000"…"\uffff"-"\""-"\\" | "\\" any } "\""`. -/
def parse.lexString : parse.Matcher
  | c :: cs =>
    if c = parse.quote then
      match (parse.lexStringBody cs).2 with
      | q :: rest =>
        if q = parse.quote then some (c :: (parse.lexStringBody cs).1 ++ [q], rest) else none
      | [] => none
    else none
  | [] => none

/-- The option `[ "-" ]`. -/
def parse.lexSign : List Char → List Char × List Char
  | c :: cs => if c = '-' then ([c], cs) else ([], c :: cs)
  | [] => ([], [])

/-- The production `Int = [ "-" ] digit { digit }`. -/
def parse.lexInt : parse.Matcher := fun cs =>
  match (parse.lexSign cs).2 with
  | d :: rest =>
    if parse.digit d then
      some ((parse.lexSign cs).1 ++ d :: rest.takeWhile parse.digit, rest.dropWhile parse.digit)
    else none
  | [] => none

/-- The option `[ digit ]`. -/
def parse.lexOptionalDigit : List Char → List Char × List Char
  | c :: cs => if parse.digit c then ([c], cs) else ([], c :: cs)
  | [] => ([], [])

/-- The production `Float = [ "-" ] [ digit ] "." digit { digit }`. -/
def parse.lexFloat : parse.Matcher := fun cs =>
  match (parse.lexOptionalDigit (parse.lexSign cs).2).2 with
  | p :: d :: rest =>
    if p = '.' ∧ parse.digit d = true then
      some ((parse.lexSign cs).1 ++ (parse.lexOptionalDigit (parse.lexSign cs).2).1 ++
          p :: d :: rest.takeWhile parse.digit,
        rest.dropWhile parse.digit)
    else none
  | _ => none

/-- The production `Number = Int | Float`. -/
def parse.lexNumber : parse.Matcher := fun cs =>
  match parse.lexInt cs with
  | some r => some r
  | none => parse.lexFloat cs

/-- The repetition `{ "[" { "\u0000"…"\uffff"-"]" } "]" }` of the production
`JSONPathExpr`, run for at most `fuel` rounds. -/
def parse.lexBrackets : Nat → List Char → List Char × List Char
  | 0, cs => ([], cs)
  | fuel + 1, cs =>
    match cs with
    | c :: rest =>
      if c = '[' then
        match rest.dropWhile (fun x => parse.any x && x != ']') with
        | q :: rest1 =>
          if q = ']' then
            (c :: rest.takeWhile (fun x => parse.any x && x != ']') ++ q ::
                (parse.lexBrackets fuel rest1).1,
              (parse.lexBrackets fuel rest1).2)
          else ([], cs)
        | [] => ([], cs)
      else ([], cs)
    | [] => ([], cs)

/-- The production
`JSONPathExpr = "*" | (Ident { "[" { "\u0000"…"\uffff"-"]" } "]" })`. -/
def parse.lexJSONPathExpr : parse.Matcher := fun cs =>
  match cs with
  | c :: rest =>
    if c = '*' then some ([c], rest)
    else
      match parse.lexIdent cs with
      | some (ident, rest1) =>
        some (ident ++ (parse.lexBrackets rest1.length rest1).1,
          (parse.lexBrackets rest1.length rest1).2)
      | none => none
  | [] => none

/-- The repetition `{ "." { "." } JSONPathExpr }` of the production
`JSONPath`, run for at most `fuel` rounds. -/
def parse.lexSegments : Nat → List Char → List Char × List Char
  | 0, cs => ([], cs)
  | fuel + 1, cs =>
    match cs with
    | c :: rest =>
      if c = '.' then
        match parse.lexJSONPathExpr (rest.dropWhile (fun x => x == '.')) with
        | some (expr, rest1) =>
          (c :: rest.takeWhile (fun x => x == '.') ++ expr ++ (parse.lexSegments fuel rest1).1,
            (parse.lexSegments fuel rest1).2)
        | none => ([], cs)
      else ([], cs)
    | [] => ([], cs)

/-- The production `JSONPath = "$" { "." { "." } JSONPathExpr }`. -/
def parse.lexJSONPath : parse.Matcher
  | c :: cs =>
    if c = '$' then
      some (c :: (parse.lexSegments cs.length cs).1, (parse.lexSegments cs.length cs).2)
    else none
  | [] => none

/-- The production
`Punct = "!"…"/" | ":"…"@" | "["…"\x60" | "\x7b"…"~"`. -/
def parse.lexPunct : parse.Matcher
  | c :: cs =>
    if (decide ('!' ≤ c) && decide (c ≤ '/')) || (decide (':' ≤ c) && decide (c ≤ '@')) ||
        (decide ('[' ≤ c) && decide (c.toNat ≤ 96)) ||
        (decide (123 ≤ c.toNat) && decide (c ≤ '~')) then
      some ([c], cs)
    else none
  | [] => none

/-- The characters `" " | "\t" | "\n" | "\r"`. -/
def parse.whitespace (c : Char) : Bool :=
  decide (c = ' ' ∨ c = Char.ofNat 9 ∨ c = parse.newline ∨ c = Char.ofNat 13)

/-- The production `Whitespace = " " | "\t" | "\n" | "\r"`. -/
def parse.lexWhitespace : parse.Matcher
  | c :: cs => if parse.whitespace c then some ([c], cs) else none
  | [] => none

/-- The token productions, in the order in which the lexer tries them. -/
def parse.productions : List (parse.Symbol × parse.Matcher) :=
  [(.Comment, parse.lexComment), (.Ident, parse.lexIdent), (.String, parse.lexString),
   (.Number, parse.lexNumber), (.Int, parse.lexInt), (.Float, parse.lexFloat),
   (.JSONPath, parse.lexJSONPath), (.JSONPathExpr, parse.lexJSONPathExpr),
   (.Punct, parse.lexPunct), (.Whitespace, parse.lexWhitespace)]

/-- The method `Next` of the lexer: the token of the first production that
matches the input, and the input left; `none` when no production matches. -/
def parse.lexNext (cs : List Char) : Option (parse.Token × List Char) :=
  parse.productions.findSome? fun pm =>
    match pm.2 cs with
    | some (text, rest) => some (⟨pm.1, String.mk text⟩, rest)
    | none => none

/-- The tokens of an input, read one after the other until its end, with at
most `fuel` tokens; `none` when some position matches no production. -/
def parse.lexAll : Nat → List Char → Option (List parse.Token)
  | _, [] => some []
  | 0, _ :: _ => none
  | fuel + 1, c :: cs =>
    match parse.lexNext (c :: cs) with
    | none => none
    | some (t, rest) =>
      match parse.lexAll fuel rest with
      | none => none
      | some ts => some (t :: ts)

/-- The tokens of a source text. Every token takes at least one character,
so the length of the text is fuel enough. -/
def parse.Lex (source : String) : Option (List parse.Token) :=
  parse.lexAll source.length source.data

/-! ## internal/parse/grammar.go: the parser that `participle` builds from
the struct tags -/

/-- The number that a text of decimal digits writes. -/
def strconv.digits (ds : List Char) : Nat :=
  ds.foldl (fun acc c => 10 * acc + (c.toNat - 48)) 0

/-- The function `strconv.ParseFloat` on the texts that the production
`Number` matches (an optional sign, digits, and digits after a point), as the
exact decimal value, without the rounding to a float64 and without the range
error of a text too long for one; `none` on any other text. -/
def strconv.ParseFloat (s : String) : Option Rat :=
  match (parse.lexSign s.data).2.dropWhile parse.digit with
  | [] =>
    if (parse.lexSign s.data).2 = [] then none
    else
      some (mkRat ((if (parse.lexSign s.data).1 = [] then 1 else -1) *
        (strconv.digits (parse.lexSign s.data).2 : Int)) 1)
  | p :: frac =>
    if p = '.' ∧ frac ≠ [] ∧ frac.all parse.digit = true then
      some (mkRat ((if (parse.lexSign s.data).1 = [] then 1 else -1) *
          (strconv.digits ((parse.lexSign s.data).2.takeWhile parse.digit ++ frac) : Int))
        (10 ^ frac.length))
    else none

/-- What a node of the grammar gives on the tokens ahead: a value and the
tokens left, no match, or no answer within the fuel. -/
inductive parse.Result (α : Type) where
  | ok (a : α) (rest : List parse.Token)
  | noMatch
  | outOfFuel

/-- Ordered choice: the second alternative is tried when the first does not
match. -/
def parse.Result.orElse {α : Type} (r : parse.Result α) (next : Unit → parse.Result α) :
    parse.Result α :=
  match r with
  | .noMatch => next ()
  | r => r

/-- The option `","?`. A literal of the grammar matches a token by its text,
whatever its type. -/
def parse.skipComma : List parse.Token → List parse.Token
  | c :: rest => if c.value = "," then rest else c :: rest
  | [] => []

/-- The repetition `("," @@)*`, for at most `fuel` rounds, with `item` for
the node `@@`. A round that does not match leaves the tokens where they were
before it. -/
def parse.parseMore {α : Type} (item : List parse.Token → parse.Result α) :
    Nat → List parse.Token → parse.Result (List α)
  | 0, _ => .outOfFuel
  | _ + 1, [] => .ok [] []
  | fuel + 1, c :: rest =>
    if c.value = "," then
      match item rest with
      | .ok x rest1 =>
        match parse.parseMore item fuel rest1 with
        | .ok xs rest2 => .ok (x :: xs) rest2
        | .noMatch => .noMatch
        | .outOfFuel => .outOfFuel
      | .noMatch => .ok [] (c :: rest)
      | .outOfFuel => .outOfFuel
    else .ok [] (c :: rest)

/-- The groups `(@@ ("," @@)* ","?)?` (with `trailing`) and
`(@@ ("," @@)*)?` (without). -/
def parse.parseList {α : Type} (item : List parse.Token → parse.Result α) (trailing : Bool)
    (fuel : Nat) (ts : List parse.Token) : parse.Result (List α) :=
  match item ts with
  | .ok x rest =>
    match parse.parseMore item fuel rest with
    | .ok xs rest1 => .ok (x :: xs) (if trailing then parse.skipComma rest1 else rest1)
    | .noMatch => .noMatch
    | .outOfFuel => .outOfFuel
  | .noMatch => .ok [] ts
  | .outOfFuel => .outOfFuel

/-- The tokens left after the group `("@" @Ident)?` and the text it
captures, the zero value `""` of the field when it matches nothing. -/
def parse.parseMarker : List parse.Token → String × List parse.Token
  | a :: i :: rest =>
    if a.value = "@" ∧ i.symbol = .Ident then (i.value, rest) else ("", a :: i :: rest)
  | ts => ("", ts)

/-- The struct `AnnotatedField`: `("@" @Ident)?`, `@String ":"`, `@@`, with
`value` for the node of `Value`. -/
def parse.parseAnnotatedField (value : List parse.Token → parse.Result parse.Value)
    (ts : List parse.Token) : parse.Result parse.AnnotatedField :=
  match (parse.parseMarker ts).2 with
  | k :: c :: rest =>
    if k.symbol = .String ∧ c.value = ":" then
      match value rest with
      | .ok v rest1 => .ok (.mk (parse.parseMarker ts).1 k.value v) rest1
      | .noMatch => .noMatch
      | .outOfFuel => .outOfFuel
    else .noMatch
  | _ => .noMatch

/-- The struct `Object`: `"\x7b" (@@ ("," @@)* ","?)? "\x7d"`. -/
def parse.parseObject (value : List parse.Token → parse.Result parse.Value) (fuel : Nat) :
    List parse.Token → parse.Result parse.Object
  | o :: rest =>
    if o.value = "\x7b" then
      match parse.parseList (parse.parseAnnotatedField value) true fuel rest with
      | .ok fields (c :: rest1) => if c.value = "\x7d" then .ok (.mk fields) rest1 else .noMatch
      | .ok _ [] => .noMatch
      | .noMatch => .noMatch
      | .outOfFuel => .outOfFuel
    else .noMatch
  | [] => .noMatch

/-- The field `Array` of `Value`: `"[" (@@ ("," @@)* ","?)? "]"`. -/
def parse.parseArray (value : List parse.Token → parse.Result parse.Value) (fuel : Nat) :
    List parse.Token → parse.Result (List parse.Value)
  | o :: rest =>
    if o.value = "[" then
      match parse.parseList value true fuel rest with
      | .ok elements (c :: rest1) => if c.value = "]" then .ok elements rest1 else .noMatch
      | .ok _ [] => .noMatch
      | .noMatch => .noMatch
      | .outOfFuel => .outOfFuel
    else .noMatch
  | [] => .noMatch

/-- The struct `Generator`: `"range" @JSONPath`, `"[" @@ "]"`. -/
def parse.parseGenerator (value : List parse.Token → parse.Result parse.Value) :
    List parse.Token → parse.Result parse.Generator
  | r :: p :: o :: rest =>
    if r.value = "range" ∧ p.symbol = .JSONPath ∧ o.value = "[" then
      match value rest with
      | .ok sub (c :: rest1) => if c.value = "]" then .ok (.mk p.value sub) rest1 else .noMatch
      | .ok _ [] => .noMatch
      | .noMatch => .noMatch
      | .outOfFuel => .outOfFuel
    else .noMatch
  | _ => .noMatch

/-- The struct `Function`: `@Ident`, `"(" (@@ ("," @@)*)? ")"`. -/
def parse.parseFunction (value : List parse.Token → parse.Result parse.Value) (fuel : Nat) :
    List parse.Token → parse.Result parse.Function
  | f :: o :: rest =>
    if f.symbol = .Ident ∧ o.value = "(" then
      match parse.parseList value false fuel rest with
      | .ok args (c :: rest1) => if c.value = ")" then .ok (.mk f.value args) rest1 else .noMatch
      | .ok _ [] => .noMatch
      | .noMatch => .noMatch
      | .outOfFuel => .outOfFuel
    else .noMatch
  | _ => .noMatch

/-- The alternative `@String` of `Value`. -/
def parse.altString : List parse.Token → parse.Result parse.Value
  | t :: rest =>
    if t.symbol = .String then
      .ok (.mk (some t.value) none none none none false none none none) rest
    else .noMatch
  | [] => .noMatch

/-- The alternative `@Number` of `Value`; the text is converted by
`strconv.ParseFloat`. -/
def parse.altNumber : List parse.Token → parse.Result parse.Value
  | t :: rest =>
    if t.symbol = .Number then
      match strconv.ParseFloat t.value with
      | some x => .ok (.mk none (some x) none none none false none none none) rest
      | none => .noMatch
    else .noMatch
  | [] => .noMatch

/-- The alternative `@@` of `Value` for the field `Object`. -/
def parse.altObject (value : List parse.Token → parse.Result parse.Value) (fuel : Nat)
    (ts : List parse.Token) : parse.Result parse.Value :=
  match parse.parseObject value fuel ts with
  | .ok o rest => .ok (.mk none none (some o) none none false none none none) rest
  | .noMatch => .noMatch
  | .outOfFuel => .outOfFuel

/-- The alternative of `Value` for the field `Array`. A slice that captures
no element stays nil. -/
def parse.altArray (value : List parse.Token → parse.Result parse.Value) (fuel : Nat)
    (ts : List parse.Token) : parse.Result parse.Value :=
  match parse.parseArray value fuel ts with
  | .ok [] rest => .ok (.mk none none none none none false none none none) rest
  | .ok (v :: vs) rest => .ok (.mk none none none (some (v :: vs)) none false none none none) rest
  | .noMatch => .noMatch
  | .outOfFuel => .outOfFuel

/-- The alternative `(@"true" | "false")` of `Value`: the literal `"true"`
is captured into the field `Bool`, the literal `"false"` is matched and not
captured. -/
def parse.altBool : List parse.Token → parse.Result parse.Value
  | t :: rest =>
    if t.value = "true" then .ok (.mk none none none none (some true) false none none none) rest
    else if t.value = "false" then .ok (.mk none none none none none false none none none) rest
    else .noMatch
  | [] => .noMatch

/-- The alternative `@"null"` of `Value`. -/
def parse.altNull : List parse.Token → parse.Result parse.Value
  | t :: rest =>
    if t.value = "null" then .ok (.mk none none none none none true none none none) rest
    else .noMatch
  | [] => .noMatch

/-- The alternative `@@` of `Value` for the field `Generator`. -/
def parse.altGenerator (value : List parse.Token → parse.Result parse.Value)
    (ts : List parse.Token) : parse.Result parse.Value :=
  match parse.parseGenerator value ts with
  | .ok g rest => .ok (.mk none none none none none false (some g) none none) rest
  | .noMatch => .noMatch
  | .outOfFuel => .outOfFuel

/-- The alternative `@JSONPath` of `Value`. -/
def parse.altExtractor : List parse.Token → parse.Result parse.Value
  | t :: rest =>
    if t.symbol = .JSONPath then
      .ok (.mk none none none none none false none (some t.value) none) rest
    else .noMatch
  | [] => .noMatch

/-- The alternative `@@` of `Value` for the field `Function`. -/
def parse.altFunction (value : List parse.Token → parse.Result parse.Value) (fuel : Nat)
    (ts : List parse.Token) : parse.Result parse.Value :=
  match parse.parseFunction value fuel ts with
  | .ok f rest => .ok (.mk none none none none none false none none (some f)) rest
  | .noMatch => .noMatch
  | .outOfFuel => .outOfFuel

/-- The struct `Value`: its alternatives in the order of the fields, the
first that matches being taken. The nesting of values is followed to the depth
`fuel`. -/
def parse.parseValue : Nat → List parse.Token → parse.Result parse.Value
  | 0, _ => .outOfFuel
  | fuel + 1, ts =>
    (parse.altString ts).orElse fun _ =>
    (parse.altNumber ts).orElse fun _ =>
    (parse.altObject (parse.parseValue fuel) fuel ts).orElse fun _ =>
    (parse.altArray (parse.parseValue fuel) fuel ts).orElse fun _ =>
    (parse.altBool ts).orElse fun _ =>
    (parse.altNull ts).orElse fun _ =>
    (parse.altGenerator (parse.parseValue fuel) ts).orElse fun _ =>
    (parse.altExtractor ts).orElse fun _ =>
    parse.altFunction (parse.parseValue fuel) fuel ts

/-- The option `participle.Elide("Whitespace", "Comment")`. -/
def parse.elide (ts : List parse.Token) : List parse.Token :=
  ts.filter fun t => decide (t.symbol ≠ .Whitespace ∧ t.symbol ≠ .Comment)

/-- The option `participle.Unquote("String")`: the text of every token of
type `String` is replaced by what `strconv.Unquote`, here `unquote`, makes of
it; `none` when it fails on one of them. -/
def parse.unquoteTokens (unquote : String → Option String) :
    List parse.Token → Option (List parse.Token)
  | [] => some []
  | t :: ts =>
    match (if t.symbol = .String then unquote t.value else some t.value),
        parse.unquoteTokens unquote ts with
    | some v, some rest => some (⟨t.symbol, v⟩ :: rest)
    | _, _ => none

/-- The root node on the tokens of the text: the struct `Template`, `@@`,
followed by the end of the text. A list of `n` tokens nests values less than
`n + 1` deep, so the last case does not occur. The texts of the errors stand
for those of the library. -/
def parse.parseTokens (ts : List parse.Token) : Except String parse.Template :=
  match parse.parseValue (ts.length + 1) ts with
  | .ok root [] => .ok ⟨root⟩
  | .ok _ (t :: _) => .error ("unexpected token " ++ t.value)
  | .noMatch => .error "unexpected token"
  | .outOfFuel => .error "nesting too deep"

/-- The tokens that the parser reads from a source text: those of the
lexer, with the texts of the strings unquoted and without whitespace and
comments. -/
def parse.tokens (unquote : String → Option String) (source : String) :
    Except String (List parse.Token) :=
  match parse.Lex source with
  | none => .error "invalid token"
  | some raw =>
    match parse.unquoteTokens unquote raw with
    | none => .error "invalid quoted string"
    | some ts => .ok (parse.elide ts)

/-- The method `Parser.Parse` of the parser built in `grammar.go`, on the
text read from the reader. -/
def parse.Parser.Parse (unquote : String → Option String) (source : String) :
    Except String parse.Template :=
  match parse.tokens unquote source with
  | .error err => .error err
  | .ok ts => parse.parseTokens ts

/-! ## parse.go: the builder -/

/-- The type `FunctionMap`, a `map[string]interface{}`. -/
abbrev FunctionMap := List (String × GoValue)

/-- The struct `builder`. -/
structure builder where
  funcs : FunctionMap

/-- The method `Value.Kind()` of `reflect.ValueOf(v)`; `none` is the kind
`Invalid` of the zero Value. -/
def reflect.KindOf (v : GoValue) : Option reflect.Kind :=
  match reflect.TypeOf v with
  | none => none
  | some t => some t.Kind

/-- The method `builder.buildQuery`. `jsonpath.New` allocates the JSONPath
object at the next free address `next`. -/
def builder.buildQuery (h : Host) (_b : builder) (q : String) (next : Nat) :
    Except PanicValue (query × Nat) :=
  match h.Parse ("\x7b" ++ q ++ "\x7d") with
  | some err => .error (.error (.invalidJSONPath err))
  | none => .ok (⟨⟨next, "\x7b" ++ q ++ "\x7d"⟩⟩, next + 1)

mutual
/-- The method `builder.buildValue`; the cases of its switch are tried in the
order of the source. -/
def builder.buildValue (h : Host) (b : builder) :
    parse.Value → Nat → Except PanicValue (template × Nat)
  | .mk (some s) _ _ _ _ _ _ _ _, next => .ok (.stringConstant s, next)
  | .mk none (some n) _ _ _ _ _ _ _, next => .ok (.numberConstant n, next)
  | .mk none none _ _ (some v) _ _ _ _, next => .ok (.boolConstant v, next)
  | .mk none none _ _ none true _ _ _, next => .ok (.nullConstant, next)
  | .mk none none (some o) _ none false _ _ _, next =>
    match builder.buildObject h b o next with
    | .error p => .error p
    | .ok (res, next1) => .ok (.object res, next1)
  | .mk none none none (some a) none false _ _ _, next =>
    match builder.buildValues h b a next with
    | .error p => .error p
    | .ok (res, next1) => .ok (.array res, next1)
  | .mk none none none none none false (some (.mk range sub)) _ _, next =>
    match b.buildQuery h range next with
    | .error p => .error p
    | .ok (over, next1) =>
      match builder.buildValue h b sub next1 with
      | .error p => .error p
      | .ok (templ, next2) => .ok (.generator (.mk over templ), next2)
  | .mk none none none none none false none (some q) _, next =>
    match b.buildQuery h q next with
    | .error p => .error p
    | .ok (res, next1) => .ok (.query res, next1)
  | .mk none none none none none false none none (some f), next =>
    builder.buildFunction h b f next
  | .mk none none none none none false none none none, _ =>
    .error (.other "unhandled case")
/-- The method `builder.buildObject`. -/
def builder.buildObject (h : Host) (b : builder) :
    parse.Object → Nat → Except PanicValue (object × Nat)
  | .mk fields, next => builder.buildFields h b fields [] next
/-- The loop of `builder.buildObject`, from the fields still to visit and the
map `res` built so far. -/
def builder.buildFields (h : Host) (b : builder) :
    List parse.AnnotatedField → object → Nat → Except PanicValue (object × Nat)
  | [], res, next => .ok (res, next)
  | (.mk ann key v) :: rest, res, next =>
    match builder.buildValue h b v next with
    | .error p => .error p
    | .ok (templ, next1) =>
      builder.buildFields h b rest (mapassign res key (field.mk templ ann)) next1
/-- The loop `res[i] = b.buildValue(&v)` of `builder.buildValue` (arrays) and
of `builder.buildFunction` (arguments). -/
def builder.buildValues (h : Host) (b : builder) :
    List parse.Value → Nat → Except PanicValue (List template × Nat)
  | [], next => .ok ([], next)
  | v :: rest, next =>
    match builder.buildValue h b v next with
    | .error p => .error p
    | .ok (templ, next1) =>
      match builder.buildValues h b rest next1 with
      | .error p => .error p
      | .ok (res, next2) => .ok (templ :: res, next2)
/-- The method `builder.buildFunction`. -/
def builder.buildFunction (h : Host) (b : builder) :
    parse.Function → Nat → Except PanicValue (template × Nat)
  | .mk name args, next =>
    match mapaccess b.funcs name with
    | none => .error (.error (.noSuchFunction name))
    | some fn =>
      if reflect.KindOf fn ≠ some reflect.Kind.Func then
        .error (.other (name ++ " is not a function"))
      else
        match builder.buildValues h b args next with
        | .error p => .error p
        | .ok (res, next1) => .ok (.function (.mk name fn res), next1)
end

/-- What a call of `Parse` comes to: a Template, an error, or a panic that
leaves `Parse`. -/
inductive ParseResult where
  | ok (t : Template)
  | err (e : PanicValue)
  | panic (msg : String)

/-- Lines 159-172 of `Parse`: the build of the Template from the syntax tree
`ast` that the parser has produced, with the recover around it. A recovered
`error` (a `runtime.Error` is one) is returned, any other value is panicked
with again. -/
def Parse.build (h : Host) (ast : parse.Template) (funcs : FunctionMap) : ParseResult :=
  match builder.buildValue h ⟨funcs⟩ ast.Root 0 with
  | .ok (definition, _) => .ok ⟨definition, 0⟩
  | .error (.other r) => .panic ("jsontemplate: panic during parsing: " ++ r)
  | .error r => .err r

/-- The function `Parse`, on the text read from the reader: the syntax tree
of the parser, or its error wrapped, then the build of the Template. -/
def Parse (h : Host) (unquote : String → Option String) (source : String)
    (funcs : FunctionMap) : ParseResult :=
  match parse.Parser.Parse unquote source with
  | .error err => .err (.error (.parseError err))
  | .ok ast => Parse.build h ast funcs

/-! ## Notions used to state the properties of the renderer and the builder -/

/-- The node `t'` is reached, with input `d'` and in world `w'`, while
`t.interpolate(d, opt)` runs from world `w`: it is the node itself, or it is
reached from a field of an object, an element of an array or an argument of a
call once those before it have been evaluated, or from the sub-template of a
generator applied to one of the hits once it has been applied to those before
it. -/
inductive Reaches (h : Host) (opt : options) :
    template → GoValue → World → template → GoValue → World → Prop where
  | here (t : template) (d : GoValue) (w : World) : Reaches h opt t d w t d w
  | ofField (pre : List (String × field)) (name : String) (f : field)
      (post : List (String × field)) (d : GoValue) (w : World)
      (res1 : List (String × GoValue)) (w1 : World) (t' : template) (d' : GoValue) (w' : World) :
      object.interpolate h pre d opt [] w = (.ok res1, w1) →
      Reaches h opt f.value d w1 t' d' w' →
      Reaches h opt (template.object (pre ++ (name, f) :: post)) d w t' d' w'
  | ofElement (pre : List template) (a : template) (post : List template) (d : GoValue)
      (w : World) (vs : List GoValue) (w1 : World) (t' : template) (d' : GoValue) (w' : World) :
      array.interpolate h pre d opt w = (.ok vs, w1) →
      Reaches h opt a d w1 t' d' w' →
      Reaches h opt (template.array (pre ++ a :: post)) d w t' d' w'
  | ofArgument (name : String) (fn : GoValue) (pre : List template) (a : template)
      (post : List template) (d : GoValue) (w : World) (vals : List GoValue) (w1 : World)
      (t' : template) (d' : GoValue) (w' : World) :
      function.arguments h name fn pre 0 d opt w = (.ok vals, w1) →
      Reaches h opt a d w1 t' d' w' →
      Reaches h opt (template.function (.mk name fn (pre ++ a :: post))) d w t' d' w'
  | ofHit (over : query) (templ : template) (d : GoValue) (w : World)
      (pre : List reflect.Value) (v : reflect.Value) (post : List reflect.Value)
      (more : List (List reflect.Value)) (w0 : World) (rs : List GoValue) (w1 : World)
      (inner : GoValue) (t' : template) (d' : GoValue) (w' : World) :
      (d.isNil && decide (opt.MissingKeys = NullOnMissing)) = false →
      (d.isNil && decide (opt.MissingKeys = ErrorOnMissing)) = false →
      over.expression.FindResults h d
          (over.expression.AllowMissingKeys (decide (opt.MissingKeys = NullOnMissing)) w)
        = (.ok ((pre ++ v :: post) :: more), w0) →
      generator.range (fun inner w => template.interpolate h templ inner opt w) pre w0
        = (.ok rs, w1) →
      (if v.IsValid then v.Interface else .ok GoValue.nil) = .ok inner →
      Reaches h opt templ inner w1 t' d' w' →
      Reaches h opt (template.generator (.mk over templ)) d w t' d' w'

mutual
/-- The JSON value that a node tree built only from constants, arrays and
objects denotes; `none` for a tree with another node in it. -/
def template.json : template → Option GoValue
  | .stringConstant s => some (.string s)
  | .boolConstant b => some (.bool b)
  | .numberConstant n => some (.float64 n)
  | .nullConstant => some .nil
  | .object o =>
    match template.jsonFields o [] with
    | some kvs => some (.map .iface kvs)
    | none => none
  | .array a =>
    match template.jsonElements a with
    | some vs => some (.slice .iface vs)
    | none => none
  | .query _ => none
  | .generator _ => none
  | .function _ => none
/-- The members that the fields of a plain JSON object denote, added in their
order to the members `res`. -/
def template.jsonFields :
    List (String × field) → List (String × GoValue) → Option (List (String × GoValue))
  | [], res => some res
  | (name, .mk value _) :: rest, res =>
    match template.json value with
    | some v => template.jsonFields rest (mapassign res name v)
    | none => none
/-- The values that the elements of a plain JSON array denote. -/
def template.jsonElements : List template → Option (List GoValue)
  | [] => some []
  | templ :: rest =>
    match template.json templ with
    | some v =>
      match template.jsonElements rest with
      | some vs => some (v :: vs)
      | none => none
    | none => none
end

/-- Lines 42-46 of `builder.buildFunction`: what the builder panics with at a
call of `name`, `none` when the name is registered with a function. -/
def builder.refuses (funcs : FunctionMap) (name : String) : Option PanicValue :=
  match mapaccess funcs name with
  | none => some (.error (.noSuchFunction name))
  | some fn =>
    if reflect.KindOf fn ≠ some reflect.Kind.Func then some (.other (name ++ " is not a function"))
    else none

mutual
/-- The names of the functions called in a syntax tree, in the order in which
`builder.buildValue` looks them up (a call before its arguments). -/
def parse.Value.calls : parse.Value → List String
  | .mk (some _) _ _ _ _ _ _ _ _ => []
  | .mk none (some _) _ _ _ _ _ _ _ => []
  | .mk none none _ _ (some _) _ _ _ _ => []
  | .mk none none _ _ none true _ _ _ => []
  | .mk none none (some o) _ none false _ _ _ => parse.Object.calls o
  | .mk none none none (some a) none false _ _ _ => parse.Value.callsOfValues a
  | .mk none none none none none false (some (.mk _ sub)) _ _ => parse.Value.calls sub
  | .mk none none none none none false none (some _) _ => []
  | .mk none none none none none false none none (some f) => parse.Function.calls f
  | .mk none none none none none false none none none => []
/-- The names of the functions called in an object. -/
def parse.Object.calls : parse.Object → List String
  | .mk fields => parse.Value.callsOfFields fields
/-- The names of the functions called in a list of fields. -/
def parse.Value.callsOfFields : List parse.AnnotatedField → List String
  | [] => []
  | (.mk _ _ v) :: rest => parse.Value.calls v ++ parse.Value.callsOfFields rest
/-- The names of the functions called in a list of values. -/
def parse.Value.callsOfValues : List parse.Value → List String
  | [] => []
  | v :: rest => parse.Value.calls v ++ parse.Value.callsOfValues rest
/-- The names of the functions called in a call: its own, then those of its
arguments. -/
def parse.Function.calls : parse.Function → List String
  | .mk name args => name :: parse.Value.callsOfValues args
end

mutual
/-- Whether every Value that `builder.buildValue` visits in a syntax tree has
one of its alternatives set. -/
def parse.Value.populated : parse.Value → Bool
  | .mk (some _) _ _ _ _ _ _ _ _ => true
  | .mk none (some _) _ _ _ _ _ _ _ => true
  | .mk none none _ _ (some _) _ _ _ _ => true
  | .mk none none _ _ none true _ _ _ => true
  | .mk none none (some o) _ none false _ _ _ => parse.Object.populated o
  | .mk none none none (some a) none false _ _ _ => parse.Value.populatedValues a
  | .mk none none none none none false (some (.mk _ sub)) _ _ => parse.Value.populated sub
  | .mk none none none none none false none (some _) _ => true
  | .mk none none none none none false none none (some f) => parse.Function.populated f
  | .mk none none none none none false none none none => false
/-- Whether the values of the fields of an object are populated. -/
def parse.Object.populated : parse.Object → Bool
  | .mk fields => parse.Value.populatedFields fields
/-- Whether the values of a list of fields are populated. -/
def parse.Value.populatedFields : List parse.AnnotatedField → Bool
  | [] => true
  | (.mk _ _ v) :: rest => parse.Value.populated v && parse.Value.populatedFields rest
/-- Whether the values of a list are populated. -/
def parse.Value.populatedValues : List parse.Value → Bool
  | [] => true
  | v :: rest => parse.Value.populated v && parse.Value.populatedValues rest
/-- Whether the arguments of a call are populated. -/
def parse.Function.populated : parse.Function → Bool
  | .mk _ args => parse.Value.populatedValues args
end

/-- What the lexer grants of a token, as far as the grammar tells tokens
apart: an `Ident` starts with a letter or an underscore, a `JSONPath` with a
dollar sign. -/
def parse.Token.lexical (t : parse.Token) : Bool :=
  match t.symbol, t.value.data with
  | .Ident, c :: _ => parse.alpha c || c == '_'
  | .Ident, [] => false
  | .JSONPath, c :: _ => c == '$'
  | .JSONPath, [] => false
  | _, _ => true

/-- The tokens ahead do not start with a token of text ":". -/
def parse.noColon (rest : List parse.Token) : Prop := ∀ t r, rest = t :: r → t.value ≠ ":"

/-- The tokens ahead do not start with a token of text ",". -/
def parse.noComma (rest : List parse.Token) : Prop := ∀ t r, rest = t :: r → t.value ≠ ","

/-- The node `g` answers as the node `f` wherever `f` answers within its
fuel. -/
def parse.Extends {α : Type} (f g : List parse.Token → parse.Result α) : Prop :=
  ∀ ts, f ts ≠ .outOfFuel → g ts = f ts

/-- A node that reads the tokens it takes, and of the tokens after them at
most whether the first one is a ":": on tokens as the lexer makes them, a
match takes a non-empty prefix `p` of the tokens, and the node matches `p` in
the same way before any other tokens that do not start with a ":". -/
def parse.Local {α : Type} (f : List parse.Token → parse.Result α) : Prop :=
  ∀ ts a rest, (∀ t ∈ ts, t.lexical = true) → f ts = .ok a rest →
    ∃ p, p ≠ [] ∧ ts = p ++ rest ∧
      ∀ rest', parse.noColon rest' → f (p ++ rest') = .ok a rest'

/-- A node that, when it matches, takes at least one token. -/
def parse.Consumes {α : Type} (f : List parse.Token → parse.Result α) : Prop :=
  ∀ ts a rest, f ts = .ok a rest → rest.length < ts.length

/-- A node that answers within its fuel on every list of fewer than `n`
tokens. -/
def parse.Answers {α : Type} (n : Nat) (f : List parse.Token → parse.Result α) : Prop :=
  ∀ ts, ts.length < n → f ts ≠ .outOfFuel

/-- A text of whitespace and comments only, read from outside a comment
(`inComment = false`) or from inside one: a comment starts at a `#` and
goes on to the next line feed or the end of the text. -/
def parse.blankFrom : Bool → List Char → Bool
  | _, [] => true
  | false, c :: cs =>
    if parse.whitespace c then parse.blankFrom false cs
    else if c = '#' then parse.blankFrom true cs
    else false
  | true, c :: cs =>
    if c = parse.newline then parse.blankFrom false cs
    else if parse.any c then parse.blankFrom true cs
    else false

/-- A source text that consists of whitespace and comments only. -/
def parse.blank (source : String) : Bool := parse.blankFrom false source.data

/-- Between the worlds `w` and `w1` every `allowMissingKeys` flag has kept its
value or has taken the value `b`. -/
def World.flagsWithin (b : Bool) (w w1 : World) : Prop :=
  ∀ a, w1.allowMissingKeys a = w.allowMissingKeys a ∨ w1.allowMissingKeys a = b

/-- Two Go values that are the same value: equal, or slices of the same
elements, maps with the same entries at every key — whatever the order in
which the entries were added —, or pointers to cells that hold the same. -/
inductive GoValue.Same : GoValue → GoValue → Prop where
  | refl (v : GoValue) : GoValue.Same v v
  | slice (e : GoType) (xs ys : List GoValue) :
      xs.length = ys.length →
      (∀ (i : Nat) x y, xs[i]? = some x → ys[i]? = some y → GoValue.Same x y) →
      GoValue.Same (.slice e xs) (.slice e ys)
  | map (e : GoType) (kvs kvs1 : List (String × GoValue)) :
      (∀ k, (mapaccess kvs k).isSome = (mapaccess kvs1 k).isSome) →
      (∀ k x y, mapaccess kvs k = some x → mapaccess kvs1 k = some y → GoValue.Same x y) →
      GoValue.Same (.map e kvs) (.map e kvs1)
  | ptr (e : GoType) (v v1 : GoValue) :
      GoValue.Same v v1 → GoValue.Same (.ptr e v) (.ptr e v1)

/-- Two lists of Go values are the same, position by position. -/
def GoValue.SameList (xs ys : List GoValue) : Prop :=
  xs.length = ys.length ∧ ∀ (i : Nat) x y, xs[i]? = some x → ys[i]? = some y → GoValue.Same x y

/-- Two outcomes of an evaluation are the same: both are values, the same
ones, or both are panics. -/
def Outcome.Same : Except PanicValue GoValue → Except PanicValue GoValue → Prop
  | .ok v, .ok v1 => GoValue.Same v v1
  | .error _, .error _ => True
  | _, _ => False

/-- Two outcomes of a loop of evaluations are the same: both are lists of
values, the same ones, or both are panics. -/
def Outcome.SameList :
    Except PanicValue (List GoValue) → Except PanicValue (List GoValue) → Prop
  | .ok vs, .ok vs1 => List.Forall₂ GoValue.Same vs vs1
  | .error _, .error _ => True
  | _, _ => False

/-- The functions of the host are functions of the values they receive: on
arguments that are the same they both panic, or both return, as many results
and the same ones. -/
def Host.pure (h : Host) : Prop :=
  ∀ (body : Nat) (args args1 : List GoValue), GoValue.SameList args args1 →
    match h.call body args, h.call body args1 with
    | .ok rs, .ok rs1 => GoValue.SameList rs rs1
    | .error _, .error _ => True
    | _, _ => False

/-- The node tree `t1` is the node tree `t` with the fields of its objects,
at any depth, in another order: an object of `t1` has the same keys as the one
of `t`, each once as in a Go map, and under each key a field with the same
mark and a value that is related in the same way. -/
inductive template.Reordered : template → template → Prop where
  | refl (t : template) : template.Reordered t t
  | object (fs fs1 : List (String × field)) :
      (fs.map Prod.fst).Nodup → (fs1.map Prod.fst).Nodup →
      (∀ k, (mapaccess fs k).isSome = (mapaccess fs1 k).isSome) →
      (∀ k f f1, mapaccess fs k = some f → mapaccess fs1 k = some f1 →
        f.annotation = f1.annotation) →
      (∀ k f f1, mapaccess fs k = some f → mapaccess fs1 k = some f1 →
        template.Reordered f.value f1.value) →
      template.Reordered (.object fs) (.object fs1)
  | array (a a1 : List template) :
      a.length = a1.length →
      (∀ (i : Nat) t t1, a[i]? = some t → a1[i]? = some t1 → template.Reordered t t1) →
      template.Reordered (.array a) (.array a1)
  | generator (over : jsontemplate.query) (t t1 : template) :
      template.Reordered t t1 →
      template.Reordered (.generator (.mk over t)) (.generator (.mk over t1))
  | function (name : String) (fn : GoValue) (args args1 : List template) :
      args.length = args1.length →
      (∀ (i : Nat) t t1, args[i]? = some t → args1[i]? = some t1 → template.Reordered t t1) →
      template.Reordered (.function (.mk name fn args)) (.function (.mk name fn args1))

/-- What follows the dots of a segment of a path: `*`, or an identifier
followed by bracketed parts, each given by the text between its brackets. -/
inductive parse.PathExpr where
  | wildcard
  | named (ident : List Char) (brackets : List (List Char))

/-- A segment of a path: a dot, `dots` more dots, and the expression. -/
structure parse.PathSegment where
  dots : Nat
  expr : parse.PathExpr

/-- The text of the expression of a segment. -/
def parse.PathExpr.text : parse.PathExpr → List Char
  | .wildcard => ['*']
  | .named ident brackets => ident ++ (brackets.map fun b => '[' :: (b ++ [']'])).flatten

/-- The text of a segment. -/
def parse.PathSegment.text (s : parse.PathSegment) : List Char :=
  '.' :: (List.replicate s.dots '.' ++ s.expr.text)

/-- The identifier of a segment is a letter or `_` followed by letters,
digits and `_`, and the text between two brackets has no `]` (and no
character above `\uffff`). -/
def parse.PathExpr.valid : parse.PathExpr → Bool
  | .wildcard => true
  | .named ident brackets =>
    (match ident with
      | [] => false
      | c :: cs =>
        (parse.alpha c || c == '_') &&
          cs.all fun x => x == '_' || parse.alpha x || parse.digit x) &&
    brackets.all fun b => b.all fun x => parse.any x && x != ']'

/-- The text of the path query with the segments `segs`. -/
def parse.pathText (segs : List parse.PathSegment) : List Char :=
  '$' :: (segs.map parse.PathSegment.text).flatten

/-- The text after a path does not go on with it: it is empty, or starts
with a character that is no dot, no `[` and no character of an identifier. -/
def parse.pathEnd : List Char → Bool
  | [] => true
  | c :: _ => !(c == '.' || c == '[' || c == '_' || parse.alpha c || parse.digit c)

/-- The tokens of the input read one after the other until `n` characters
are left, with at most `fuel` tokens; `none` when no token ends there. -/
def parse.lexUntil (n : Nat) : Nat → List Char → Option (List parse.Token)
  | 0, cs => if cs.length = n then some [] else none
  | fuel + 1, cs =>
    if cs.length = n then some []
    else
      match parse.lexNext cs with
      | none => none
      | some (t, rest) =>
        match parse.lexUntil n fuel rest with
        | none => none
        | some ts => some (t :: ts)

/-- No token of the list is a double quote left alone (a string that was
not closed), and no JSONPath token is followed at once by an opening bracket
(a bracketed part that was not closed). -/
def parse.settled : List parse.Token → Bool
  | [] => true
  | t :: ts =>
    !(decide (t = ⟨.Punct, String.mk [parse.quote]⟩)) &&
      !(decide (t.symbol = .JSONPath) &&
        (match ts with
          | n :: _ => decide (n.value = "[")
          | [] => false)) &&
      parse.settled ts

mutual
/-- The query strings of a syntax tree, each the text of an Extractor or the
range of a Generator, in the order in which `builder.buildValue` hands them to
`builder.buildQuery` (a range before the queries of its sub-template). -/
def parse.Value.queries : parse.Value → List String
  | .mk (some _) _ _ _ _ _ _ _ _ => []
  | .mk none (some _) _ _ _ _ _ _ _ => []
  | .mk none none _ _ (some _) _ _ _ _ => []
  | .mk none none _ _ none true _ _ _ => []
  | .mk none none (some o) _ none false _ _ _ => parse.Object.queries o
  | .mk none none none (some a) none false _ _ _ => parse.Value.queriesOfValues a
  | .mk none none none none none false (some (.mk range sub)) _ _ =>
    range :: parse.Value.queries sub
  | .mk none none none none none false none (some q) _ => [q]
  | .mk none none none none none false none none (some f) => parse.Function.queries f
  | .mk none none none none none false none none none => []
/-- The query strings of an object. -/
def parse.Object.queries : parse.Object → List String
  | .mk fields => parse.Value.queriesOfFields fields
/-- The query strings of a list of fields. -/
def parse.Value.queriesOfFields : List parse.AnnotatedField → List String
  | [] => []
  | (.mk _ _ v) :: rest => parse.Value.queries v ++ parse.Value.queriesOfFields rest
/-- The query strings of a list of values. -/
def parse.Value.queriesOfValues : List parse.Value → List String
  | [] => []
  | v :: rest => parse.Value.queries v ++ parse.Value.queriesOfValues rest
/-- The query strings of the arguments of a call. -/
def parse.Function.queries : parse.Function → List String
  | .mk _ args => parse.Value.queriesOfValues args
end

mutual
/-- Whether a syntax tree is a tagged union throughout: each of its Values has
exactly one of the nine alternatives set. -/
def parse.Value.tagged : parse.Value → Bool
  | .mk (some _) none none none none false none none none => true
  | .mk none (some _) none none none false none none none => true
  | .mk none none (some o) none none false none none none => parse.Object.tagged o
  | .mk none none none (some a) none false none none none => parse.Value.taggedValues a
  | .mk none none none none (some _) false none none none => true
  | .mk none none none none none true none none none => true
  | .mk none none none none none false (some (.mk _ sub)) none none => parse.Value.tagged sub
  | .mk none none none none none false none (some _) none => true
  | .mk none none none none none false none none (some f) => parse.Function.tagged f
  | _ => false
/-- Whether the values of the fields of an object are tagged unions. -/
def parse.Object.tagged : parse.Object → Bool
  | .mk fields => parse.Value.taggedFields fields
/-- Whether the values of a list of fields are tagged unions. -/
def parse.Value.taggedFields : List parse.AnnotatedField → Bool
  | [] => true
  | (.mk _ _ v) :: rest => parse.Value.tagged v && parse.Value.taggedFields rest
/-- Whether the values of a list are tagged unions. -/
def parse.Value.taggedValues : List parse.Value → Bool
  | [] => true
  | v :: rest => parse.Value.tagged v && parse.Value.taggedValues rest
/-- Whether the arguments of a call are tagged unions. -/
def parse.Function.tagged : parse.Function → Bool
  | .mk _ args => parse.Value.taggedValues args
end

mutual
/-- The function names of the calls anywhere in a syntax tree, under every
alternative that is set. -/
def parse.Value.functionNames : parse.Value → List String
  | .mk _ _ o a _ _ g _ f =>
    (match o with
      | some o => parse.Object.functionNames o
      | none => []) ++
    (match a with
      | some a => parse.Value.functionNamesOfValues a
      | none => []) ++
    (match g with
      | some (.mk _ sub) => parse.Value.functionNames sub
      | none => []) ++
    (match f with
      | some f => parse.Function.functionNames f
      | none => [])
/-- The function names of the calls in an object. -/
def parse.Object.functionNames : parse.Object → List String
  | .mk fields => parse.Value.functionNamesOfFields fields
/-- The function names of the calls in a list of fields. -/
def parse.Value.functionNamesOfFields : List parse.AnnotatedField → List String
  | [] => []
  | (.mk _ _ v) :: rest => parse.Value.functionNames v ++ parse.Value.functionNamesOfFields rest
/-- The function names of the calls in a list of values. -/
def parse.Value.functionNamesOfValues : List parse.Value → List String
  | [] => []
  | v :: rest => parse.Value.functionNames v ++ parse.Value.functionNamesOfValues rest
/-- The function names of a call: its own and those of its arguments. -/
def parse.Function.functionNames : parse.Function → List String
  | .mk name args => name :: parse.Value.functionNamesOfValues args
end

mutual
/-- The query strings anywhere in a syntax tree, under every alternative that
is set: the texts of the Extractors and the ranges of the Generators. -/
def parse.Value.queryStrings : parse.Value → List String
  | .mk _ _ o a _ _ g e f =>
    (match o with
      | some o => parse.Object.queryStrings o
      | none => []) ++
    (match a with
      | some a => parse.Value.queryStringsOfValues a
      | none => []) ++
    (match g with
      | some (.mk range sub) => range :: parse.Value.queryStrings sub
      | none => []) ++
    (match e with
      | some q => [q]
      | none => []) ++
    (match f with
      | some f => parse.Function.queryStrings f
      | none => [])
/-- The query strings in an object. -/
def parse.Object.queryStrings : parse.Object → List String
  | .mk fields => parse.Value.queryStringsOfFields fields
/-- The query strings in a list of fields. -/
def parse.Value.queryStringsOfFields : List parse.AnnotatedField → List String
  | [] => []
  | (.mk _ _ v) :: rest => parse.Value.queryStrings v ++ parse.Value.queryStringsOfFields rest
/-- The query strings in a list of values. -/
def parse.Value.queryStringsOfValues : List parse.Value → List String
  | [] => []
  | v :: rest => parse.Value.queryStrings v ++ parse.Value.queryStringsOfValues rest
/-- The query strings in the arguments of a call. -/
def parse.Function.queryStrings : parse.Function → List String
  | .mk _ args => parse.Value.queryStringsOfValues args
end

mutual
/-- A node tree mirrors a syntax tree: a literal is the constant of its value;
an object is a map with the keys of the fields, where each key holds the
annotation and a mirror of the value of the last field of that key; an array
is a list of mirrors of the elements, as many and in their order; a Generator
is a generator over the JSONPath of the text `\x7brange\x7d` with a mirror of
the sub-template; an Extractor is the JSONPath of the text `\x7bquery\x7d`; a
call is the function node of its name, with the value the registry `funcs`
holds under the name and mirrors of the arguments, as many and in their order.
The alternatives are read in the order of the switch of
`builder.buildValue`. -/
def parse.Value.mirroredBy (funcs : FunctionMap) : parse.Value → template → Prop
  | .mk (some s) _ _ _ _ _ _ _ _, t => t = .stringConstant s
  | .mk none (some x) _ _ _ _ _ _ _, t => t = .numberConstant x
  | .mk none none _ _ (some v) _ _ _ _, t => t = .boolConstant v
  | .mk none none _ _ none true _ _ _, t => t = .nullConstant
  | .mk none none (some o) _ none false _ _ _, t =>
    ∃ fs, t = .object fs ∧ parse.Object.mirroredBy funcs o fs
  | .mk none none none (some a) none false _ _ _, t =>
    ∃ ts, t = .array ts ∧ parse.Value.mirroredByList funcs a ts
  | .mk none none none none none false (some (.mk range sub)) _ _, t =>
    ∃ addr tsub, t = .generator (.mk ⟨⟨addr, "\x7b" ++ range ++ "\x7d"⟩⟩ tsub) ∧
      parse.Value.mirroredBy funcs sub tsub
  | .mk none none none none none false none (some q) _, t =>
    ∃ addr, t = .query ⟨⟨addr, "\x7b" ++ q ++ "\x7d"⟩⟩
  | .mk none none none none none false none none (some f), t =>
    parse.Function.mirroredBy funcs f t
  | .mk none none none none none false none none none, _ => False
/-- A map mirrors an object: it has the keys of the fields and no other, and
mirrors the fields. -/
def parse.Object.mirroredBy (funcs : FunctionMap) : parse.Object → object → Prop
  | .mk fields, fs =>
    (∀ k, (mapaccess fs k).isSome = true ↔ ∃ f ∈ fields, f.Key = k) ∧
      parse.Value.mirroredByFields funcs fields fs
/-- A map mirrors a list of fields: each field is followed by a field of the
same key, or the map holds under its key its annotation and a mirror of its
value. -/
def parse.Value.mirroredByFields (funcs : FunctionMap) :
    List parse.AnnotatedField → object → Prop
  | [], _ => True
  | (.mk ann key v) :: rest, fs =>
    ((∃ f ∈ rest, f.Key = key) ∨
        ∃ t, mapaccess fs key = some (field.mk t ann) ∧ parse.Value.mirroredBy funcs v t) ∧
      parse.Value.mirroredByFields funcs rest fs
/-- A list of nodes mirrors a list of values, position by position. -/
def parse.Value.mirroredByList (funcs : FunctionMap) :
    List parse.Value → List template → Prop
  | [], [] => True
  | v :: vs, t :: ts =>
    parse.Value.mirroredBy funcs v t ∧ parse.Value.mirroredByList funcs vs ts
  | [], _ :: _ => False
  | _ :: _, [] => False
/-- A function node mirrors a call. -/
def parse.Function.mirroredBy (funcs : FunctionMap) : parse.Function → template → Prop
  | .mk name args, t =>
    ∃ fn targs, t = .function (.mk name fn targs) ∧ mapaccess funcs name = some fn ∧
      parse.Value.mirroredByList funcs args targs
end

/-! ## A concrete host, for the examples -/

/-- The state in which `Parse` leaves the JSONPath objects (`jsonpath.New`
clears the flag), with no call made yet. -/
def World.init : World := ⟨fun _ => false, []⟩

/-- The resolution of the JSONPath `$.key` by the example host: the entry of
a map under `key`; a missing key gives no hit when missing keys are allowed
and an error otherwise. -/
def sample.field (key : String) (allow : Bool) (data : GoValue) :
    Except String (List (List reflect.Value)) :=
  match data with
  | .map _ kvs =>
    match mapaccess kvs key with
    | some x => .ok [[.valid x]]
    | none => if allow then .ok [[]] else .error (key ++ " is not found")
  | _ => if allow then .ok [[]] else .error (key ++ " is not found")

/-- The resolution of the JSONPath `$.key[*]` by the example host: the
elements of the slice under `key`. -/
def sample.elements (key : String) (allow : Bool) (data : GoValue) :
    Except String (List (List reflect.Value)) :=
  match data with
  | .map _ kvs =>
    match mapaccess kvs key with
    | some (.slice _ xs) => .ok [xs.map reflect.Value.valid]
    | _ => if allow then .ok [[]] else .error (key ++ " is not found")
  | _ => if allow then .ok [[]] else .error (key ++ " is not found")

/-- The function `strings.ToUpper` on the letters a to z. -/
def sample.ToUpper (s : String) : String :=
  String.mk (s.data.map fun c =>
    if 97 ≤ c.toNat ∧ c.toNat ≤ 122 then Char.ofNat (c.toNat - 32) else c)

/-- An example host. Its JSONPath engine accepts every template text and
resolves `$`, `$.name`, `$.n`, `$.a` and `$.items[*]`; its function 0 is
`strings.ToUpper`, its function 1 the function `fancy` of the package tests,
which returns "ok", and its function 2 has no result. -/
def sample.host : Host where
  Parse := fun _ => none
  FindResults := fun text allow data =>
    if text = "\x7b$\x7d" then
      match data with
      | .nil => .ok [[.invalid]]
      | _ => .ok [[.valid data]]
    else if text = "\x7b$.name\x7d" then sample.field "name" allow data
    else if text = "\x7b$.n\x7d" then sample.field "n" allow data
    else if text = "\x7b$.a\x7d" then sample.field "a" allow data
    else if text = "\x7b$.items[*]\x7d" then sample.elements "items" allow data
    else .error "unsupported"
  call := fun body args =>
    match body, args with
    | 0, [.string s] => .ok [.string (sample.ToUpper s)]
    | 1, _ => .ok [.string "ok"]
    | _, _ => .ok []

/-- The Go function value `strings.ToUpper`. -/
def sample.to_upper : GoValue := .func [.string] false [.string] 0

/-- The function `fancy` of `Test_function_interpolate`:
`func(n float64, np *float64, bs []byte, i interface{}, more ...interface{}) string`,
with `byte` taken as `int`. -/
def sample.fancy : GoValue :=
  .func [.float64, .ptr .float64, .slice .int, .iface, .slice .iface] true [.string] 1

/-- A stand-in for `strconv.Unquote` on texts without escapes: the text
without its first and last character. -/
def sample.unquote (s : String) : Option String :=
  some (String.mk (s.data.drop 1).dropLast)

/-- The syntax tree of the call `name(args)`. -/
def sample.callOf (name : String) (args : List parse.Value) : parse.Value :=
  .mk none none none none none false none none (some (.mk name args))

/-- The syntax tree of an array literal with the elements `elements`. -/
def sample.arrayOf (elements : List parse.Value) : parse.Value :=
  .mk none none none (some elements) none false none none none

/-- The Go function value `func() {}`, without results. -/
def sample.noResult : GoValue := .func [] false [] 2

/-- An object with the fields `a` and `b`, visited in this order. -/
def sample.ab : template :=
  .object [("a", .mk (.query ⟨⟨0, "\x7b$.a\x7d"⟩⟩) ""), ("b", .mk (.stringConstant "x") "")]

/-- The object `sample.ab` with its fields visited in the other order. -/
def sample.ba : template :=
  .object [("b", .mk (.stringConstant "x") ""), ("a", .mk (.query ⟨⟨0, "\x7b$.a\x7d"⟩⟩) "")]

/-- The segments of the path `$.foo.bar[234]..baz[*]`. -/
def sample.path : List parse.PathSegment :=
  [⟨0, .named ['f', 'o', 'o'] []⟩, ⟨0, .named ['b', 'a', 'r'] [['2', '3', '4']]⟩,
    ⟨1, .named ['b', 'a', 'z'] [['*']]⟩]

/-- A host whose JSONPath engine refuses a template text that does not start
with a brace, and is the example host otherwise. -/
def sample.strict : Host where
  Parse := fun text => if text.data.head? = some (Char.ofNat 123) then none else some "no braces"
  FindResults := sample.host.FindResults
  call := sample.host.call

/-- A host whose JSONPath engine compiles the texts `\x7b$.name\x7d` and
`\x7b$.items[*]\x7d` and refuses any other, and is the example host
otherwise. -/
def sample.narrow : Host where
  Parse := fun text =>
    if text = "\x7b$.name\x7d" ∨ text = "\x7b$.items[*]\x7d" then none else some "unsupported"
  FindResults := sample.host.FindResults
  call := sample.host.call

/-- The syntax tree of the Extractor `q`. -/
def sample.extractorOf (q : String) : parse.Value :=
  .mk none none none none none false none (some q) none

/-- The syntax tree of the source
`\x7b"names": range $.items[*] [to_upper($.name)], "rest": [null]\x7d`. -/
def sample.names : parse.Value :=
  .mk none none (some (.mk [.mk "" "names"
      (.mk none none none none none false
        (some (.mk "$.items[*]" (sample.callOf "to_upper" [sample.extractorOf "$.name"])))
        none none),
    .mk "" "rest" (sample.arrayOf [.mk none none none none none true none none none])]))
    none none false none none none

/-! ## Lemmas -/

theorem query_interpolate_fst (h : Host) (q : query) (d : GoValue) (o : options) (w w' : World) :
    (q.interpolate h d o w).1 = (q.interpolate h d o w').1 := by
  unfold query.interpolate
  by_cases c1 : (d.isNil && decide (o.MissingKeys = NullOnMissing)) = true
  · simp [c1]
  · by_cases c2 : (d.isNil && decide (o.MissingKeys = ErrorOnMissing)) = true
    · simp [c1, c2]
    · simp only [c1, c2, JSONPath.FindResults, JSONPath.AllowMissingKeys, if_true, if_false]
      simp only [Bool.false_eq_true, if_false, if_true]
      cases h.FindResults q.expression.text (decide (o.MissingKeys = NullOnMissing)) d with
      | error e => rfl
      | ok hits =>
        cases hits with
        | nil => rfl
        | cons hs tl =>
          cases hs with
          | nil => rfl
          | cons v vs =>
            cases vs with
            | nil => simp only []; cases v.Interface <;> rfl
            | cons v2 vs2 => simp only []; cases query.interfaces (v :: v2 :: vs2) <;> rfl

theorem generator_range_fst
    (body : GoValue → World → Except PanicValue GoValue × World)
    (hb : ∀ d w w', (body d w).1 = (body d w').1) :
    ∀ (hits : List reflect.Value) (w w' : World),
      (generator.range body hits w).1 = (generator.range body hits w').1
  | [], w, w' => by simp [generator.range]
  | v :: vs, w, w' => by
    simp only [generator.range]
    cases (if v.IsValid then v.Interface else .ok GoValue.nil) with
    | error p => rfl
    | ok inner =>
    simp only []
    have h1 := hb inner w w'
    rcases hx : body inner w with ⟨r, w1⟩
    rcases hy : body inner w' with ⟨r', w1'⟩
    rw [hx, hy] at h1
    simp only at h1
    subst h1
    cases r with
    | error p => rfl
    | ok x =>
      simp only []
      have h2 := generator_range_fst body hb vs w1 w1'
      rcases hx2 : generator.range body vs w1 with ⟨r2, w2⟩
      rcases hy2 : generator.range body vs w1' with ⟨r2', w2'⟩
      rw [hx2, hy2] at h2
      simp only at h2
      subst h2
      cases r2 <;> rfl

theorem reflect_Call_fst (h : Host) (fn : GoValue) (args : List GoValue) (w w' : World) :
    (reflect.Call h fn args w).1 = (reflect.Call h fn args w').1 := by
  unfold reflect.Call
  cases fn <;> simp only []
  · split_ifs <;> rfl
  · split_ifs <;> rfl

theorem function_call_fst (h : Host) (fn : GoValue) (args : List GoValue) (w w' : World) :
    (function.call h fn args w).1 = (function.call h fn args w').1 := by
  unfold function.call
  have h1 := reflect_Call_fst h fn args w w'
  rcases hx : reflect.Call h fn args w with ⟨r, w1⟩
  rcases hy : reflect.Call h fn args w' with ⟨r', w1'⟩
  rw [hx, hy] at h1
  simp only at h1
  subst h1
  cases r with
  | error p => rfl
  | ok rs => cases rs <;> rfl

mutual
theorem template_interpolate_fst (h : Host) :
    ∀ (t : template) (d : GoValue) (o : options) (w w' : World),
      (t.interpolate h d o w).1 = (t.interpolate h d o w').1
  | .stringConstant s, d, o, w, w' => by simp [template.interpolate]
  | .boolConstant s, d, o, w, w' => by simp [template.interpolate]
  | .numberConstant s, d, o, w, w' => by simp [template.interpolate]
  | .nullConstant, d, o, w, w' => by simp [template.interpolate]
  | .object fs, d, o, w, w' => by
    simp only [template.interpolate]
    have h1 := object_interpolate_fst h fs d o [] w w'
    rcases hx : object.interpolate h fs d o [] w with ⟨r, w1⟩
    rcases hy : object.interpolate h fs d o [] w' with ⟨r', w1'⟩
    rw [hx, hy] at h1
    simp only at h1
    subst h1
    cases r <;> rfl
  | .array a, d, o, w, w' => by
    simp only [template.interpolate]
    have h1 := array_interpolate_fst h a d o w w'
    rcases hx : array.interpolate h a d o w with ⟨r, w1⟩
    rcases hy : array.interpolate h a d o w' with ⟨r', w1'⟩
    rw [hx, hy] at h1
    simp only at h1
    subst h1
    cases r <;> rfl
  | .query q, d, o, w, w' => by
    simp only [template.interpolate]
    exact query_interpolate_fst h q d o w w'
  | .generator g, d, o, w, w' => by
    simp only [template.interpolate]
    exact generator_interpolate_fst h g d o w w'
  | .function f, d, o, w, w' => by
    simp only [template.interpolate]
    exact function_interpolate_fst h f d o w w'
theorem object_interpolate_fst (h : Host) :
    ∀ (fs : List (String × field)) (d : GoValue) (o : options) (res : List (String × GoValue))
      (w w' : World),
      (object.interpolate h fs d o res w).1 = (object.interpolate h fs d o res w').1
  | [], d, o, res, w, w' => by simp [object.interpolate]
  | (name, .mk value ann) :: rest, d, o, res, w, w' => by
    simp only [object.interpolate]
    have h1 := template_interpolate_fst h value d o w w'
    rcases hx : template.interpolate h value d o w with ⟨r, w1⟩
    rcases hy : template.interpolate h value d o w' with ⟨r', w1'⟩
    rw [hx, hy] at h1
    simp only at h1
    subst h1
    cases r with
    | error p => rfl
    | ok v => exact object_interpolate_fst h rest d o _ w1 w1'
theorem array_interpolate_fst (h : Host) :
    ∀ (a : List template) (d : GoValue) (o : options) (w w' : World),
      (array.interpolate h a d o w).1 = (array.interpolate h a d o w').1
  | [], d, o, w, w' => by simp [array.interpolate]
  | templ :: rest, d, o, w, w' => by
    simp only [array.interpolate]
    have h1 := template_interpolate_fst h templ d o w w'
    rcases hx : template.interpolate h templ d o w with ⟨r, w1⟩
    rcases hy : template.interpolate h templ d o w' with ⟨r', w1'⟩
    rw [hx, hy] at h1
    simp only at h1
    subst h1
    cases r with
    | error p => rfl
    | ok v =>
      simp only []
      have h2 := array_interpolate_fst h rest d o w1 w1'
      rcases hx2 : array.interpolate h rest d o w1 with ⟨r2, w2⟩
      rcases hy2 : array.interpolate h rest d o w1' with ⟨r2', w2'⟩
      rw [hx2, hy2] at h2
      simp only at h2
      subst h2
      cases r2 <;> rfl
theorem generator_interpolate_fst (h : Host) :
    ∀ (g : generator) (d : GoValue) (o : options) (w w' : World),
      (generator.interpolate h g d o w).1 = (generator.interpolate h g d o w').1
  | .mk over templ, d, o, w, w' => by
    simp only [generator.interpolate]
    by_cases c1 : (d.isNil && decide (o.MissingKeys = NullOnMissing)) = true
    · simp [c1]
    · by_cases c2 : (d.isNil && decide (o.MissingKeys = ErrorOnMissing)) = true
      · simp [c1, c2]
      · simp only [c1, c2, JSONPath.FindResults, JSONPath.AllowMissingKeys, if_true, if_false]
        simp only [Bool.false_eq_true, if_false, if_true]
        cases h.FindResults over.expression.text (decide (o.MissingKeys = NullOnMissing)) d with
        | error e => rfl
        | ok hits =>
          cases hits with
          | nil => rfl
          | cons hs tl =>
            simp only []
            have h1 := generator_range_fst
              (fun inner w => template.interpolate h templ inner o w)
              (fun d w w' => template_interpolate_fst h templ d o w w') hs
            generalize hwa : (World.mk _ _ : World) = wa
            generalize hwb : (World.mk _ _ : World) = wb
            have h2 := h1 wa wb
            rcases hx : generator.range
              (fun inner w => template.interpolate h templ inner o w) hs wa with ⟨r, w1⟩
            rcases hy : generator.range
              (fun inner w => template.interpolate h templ inner o w) hs wb with ⟨r', w1'⟩
            rw [hx, hy] at h2
            simp only at h2
            subst h2
            cases r <;> rfl
theorem function_interpolate_fst (h : Host) :
    ∀ (f : function) (d : GoValue) (o : options) (w w' : World),
      (function.interpolate h f d o w).1 = (function.interpolate h f d o w').1
  | .mk name fn args, d, o, w, w' => by
    simp only [function.interpolate]
    have h1 := function_arguments_fst h name fn args 0 d o w w'
    rcases hx : function.arguments h name fn args 0 d o w with ⟨r, w1⟩
    rcases hy : function.arguments h name fn args 0 d o w' with ⟨r', w1'⟩
    rw [hx, hy] at h1
    simp only at h1
    subst h1
    cases r with
    | error p => rfl
    | ok vals => exact function_call_fst h fn vals w1 w1'
theorem function_arguments_fst (h : Host) (name : String) (fn : GoValue) :
    ∀ (a : List template) (i : Nat) (d : GoValue) (o : options) (w w' : World),
      (function.arguments h name fn a i d o w).1 = (function.arguments h name fn a i d o w').1
  | [], i, d, o, w, w' => by simp [function.arguments]
  | templ :: rest, i, d, o, w, w' => by
    simp only [function.arguments]
    have h1 := template_interpolate_fst h templ d o w w'
    rcases hx : template.interpolate h templ d o w with ⟨r, w1⟩
    rcases hy : template.interpolate h templ d o w' with ⟨r', w1'⟩
    rw [hx, hy] at h1
    simp only at h1
    subst h1
    cases r with
    | error p => rfl
    | ok v =>
      simp only []
      cases function.argument name fn i v with
      | error p => rfl
      | ok arg =>
        simp only []
        have h2 := function_arguments_fst h name fn rest (i + 1) d o w1 w1'
        rcases hx2 : function.arguments h name fn rest (i + 1) d o w1 with ⟨r2, w2⟩
        rcases hy2 : function.arguments h name fn rest (i + 1) d o w1' with ⟨r2', w2'⟩
        rw [hx2, hy2] at h2
        simp only at h2
        subst h2
        cases r2 <;> rfl
end

mutual
theorem GoType_identical_eq : ∀ (a b : GoType), GoType.identical a b = true → a = b
  | .bool, b, h => by cases b <;> simp_all [GoType.identical]
  | .int, b, h => by cases b <;> simp_all [GoType.identical]
  | .float64, b, h => by cases b <;> simp_all [GoType.identical]
  | .string, b, h => by cases b <;> simp_all [GoType.identical]
  | .iface, b, h => by cases b <;> simp_all [GoType.identical]
  | .struct n, b, h => by cases b <;> simp_all [GoType.identical]
  | .ptr a, b, h => by
    cases b <;> simp [GoType.identical] at h
    rw [GoType_identical_eq a _ h]
  | .slice a, b, h => by
    cases b <;> simp [GoType.identical] at h
    rw [GoType_identical_eq a _ h]
  | .chan a, b, h => by
    cases b <;> simp [GoType.identical] at h
    rw [GoType_identical_eq a _ h]
  | .map k a, b, h => by
    cases b <;> simp [GoType.identical] at h
    rw [GoType_identical_eq k _ h.1, GoType_identical_eq a _ h.2]
  | .named n a, b, h => by
    cases b <;> simp [GoType.identical] at h
    rw [h.1, GoType_identical_eq a _ h.2]
  | .func i v o, b, h => by
    cases b <;> simp [GoType.identical] at h
    rw [GoType_identicalList_eq i _ h.1.1, h.1.2, GoType_identicalList_eq o _ h.2]
theorem GoType_identicalList_eq :
    ∀ (as bs : List GoType), GoType.identicalList as bs = true → as = bs
  | [], bs, h => by cases bs <;> simp_all [GoType.identicalList]
  | a :: as, bs, h => by
    cases bs <;> simp [GoType.identicalList] at h
    rw [GoType_identical_eq a _ h.1, GoType_identicalList_eq as _ h.2]
end

mutual
theorem GoType_identical_refl : ∀ (a : GoType), GoType.identical a a = true
  | .bool | .int | .float64 | .string | .iface => by simp [GoType.identical]
  | .struct n => by simp [GoType.identical]
  | .ptr a | .slice a | .chan a => by simp [GoType.identical, GoType_identical_refl a]
  | .map k a => by
    simp [GoType.identical, GoType_identical_refl a, GoType_identical_refl k]
  | .named n a => by simp [GoType.identical, GoType_identical_refl a]
  | .func i v o => by
    simp [GoType.identical, GoType_identicalList_refl i, GoType_identicalList_refl o]
theorem GoType_identicalList_refl : ∀ (as : List GoType), GoType.identicalList as as = true
  | [] => by simp [GoType.identicalList]
  | a :: as => by
    simp [GoType.identicalList, GoType_identical_refl a, GoType_identicalList_refl as]
end


theorem query_interpolate_of_hits (h : Host) (q : query) (data : GoValue) (opt : options)
    (w : World) (hdata : data ≠ GoValue.nil) :
    q.interpolate h data opt w =
      (match h.FindResults q.expression.text (decide (opt.MissingKeys = NullOnMissing)) data with
        | .error err => .error (.error (.queryFailed err))
        | .ok [] => .error (.runtimeError "index out of range [0] with length 0")
        | .ok ([] :: _) => .ok .nil
        | .ok ([v] :: _) => v.Interface
        | .ok (hits0 :: _) =>
          match query.interfaces hits0 with
          | .error p => .error p
          | .ok res => .ok (.slice .iface res),
       ⟨fun a => if a = q.expression.addr then decide (opt.MissingKeys = NullOnMissing)
          else w.allowMissingKeys a,
        w.trace ++ [Event.AllowMissingKeys q.expression.addr
            (decide (opt.MissingKeys = NullOnMissing)),
          Event.FindResults q.expression.addr data]⟩) := by
  have hn : data.isNil = false := by cases data <;> simp_all [GoValue.isNil]
  unfold query.interpolate
  simp only [hn, Bool.false_and, Bool.false_eq_true, if_false, JSONPath.FindResults,
    JSONPath.AllowMissingKeys, if_true, List.append_assoc, List.singleton_append]
  cases h.FindResults q.expression.text (decide (opt.MissingKeys = NullOnMissing)) data with
  | error e => rfl
  | ok hits =>
    cases hits with
    | nil => rfl
    | cons hs tl =>
      cases hs with
      | nil => rfl
      | cons v vs =>
        cases vs with
        | nil => simp only []; cases v.Interface <;> rfl
        | cons v2 vs2 => simp only []; cases query.interfaces (v :: v2 :: vs2) <;> rfl

theorem query_interfaces_valid (ms : List GoValue) :
    query.interfaces (ms.map reflect.Value.valid) = .ok ms := by
  induction ms with
  | nil => rfl
  | cons m ms ih => simp [query.interfaces, reflect.Value.Interface, ih]

/-- C1: query collapsing. For a Query node, a non-nil input and any policy,
when the JSONPath engine resolves the expression (under the tolerance the
policy selects) to the hit list `ms` (valid Values holding the matches, as the
first result list), the node evaluates to nil if `ms` is empty, to the match
itself if `ms` is a single match, and to the `[]interface{}` of all matches in
their order if there are two or more. -/
theorem query_collapses_matches (h : Host) (q : query) (data : GoValue) (opt : options)
    (w : World) (ms : List GoValue) (more : List (List reflect.Value))
    (hdata : data ≠ GoValue.nil)
    (hfind : h.FindResults q.expression.text (decide (opt.MissingKeys = NullOnMissing)) data
      = .ok (ms.map reflect.Value.valid :: more)) :
    (ms = [] → ((template.query q).interpolate h data opt w).1 = .ok GoValue.nil) ∧
    (∀ m, ms = [m] → ((template.query q).interpolate h data opt w).1 = .ok m) ∧
    (2 ≤ ms.length →
      ((template.query q).interpolate h data opt w).1 = .ok (GoValue.slice GoType.iface ms)) := by
  simp only [template.interpolate, query_interpolate_of_hits h q data opt w hdata, hfind]
  refine ⟨?_, ?_, ?_⟩
  · intro e; subst e; rfl
  · intro m e; subst e; rfl
  · intro hlen
    match ms, hlen with
    | m1 :: m2 :: ms, _ =>
      have := query_interfaces_valid (m1 :: m2 :: ms)
      simp only [List.map_cons] at this ⊢
      simp only [this]

theorem generator_interpolate_of_hits (h : Host) (over : query) (templ : template)
    (data : GoValue) (opt : options) (w : World) (hdata : data ≠ GoValue.nil) :
    generator.interpolate h (.mk over templ) data opt w =
      match h.FindResults over.expression.text (decide (opt.MissingKeys = NullOnMissing)) data with
      | .error err =>
        (.error (.error (.jsonpath err)),
          ⟨fun a => if a = over.expression.addr then decide (opt.MissingKeys = NullOnMissing)
            else w.allowMissingKeys a,
          w.trace ++ [Event.AllowMissingKeys over.expression.addr
              (decide (opt.MissingKeys = NullOnMissing)),
            Event.FindResults over.expression.addr data]⟩)
      | .ok [] =>
        (.error (.runtimeError "index out of range [0] with length 0"),
          ⟨fun a => if a = over.expression.addr then decide (opt.MissingKeys = NullOnMissing)
            else w.allowMissingKeys a,
          w.trace ++ [Event.AllowMissingKeys over.expression.addr
              (decide (opt.MissingKeys = NullOnMissing)),
            Event.FindResults over.expression.addr data]⟩)
      | .ok (hits0 :: _) =>
        match generator.range (fun inner w => template.interpolate h templ inner opt w) hits0
          ⟨fun a => if a = over.expression.addr then decide (opt.MissingKeys = NullOnMissing)
            else w.allowMissingKeys a,
          w.trace ++ [Event.AllowMissingKeys over.expression.addr
              (decide (opt.MissingKeys = NullOnMissing)),
            Event.FindResults over.expression.addr data]⟩ with
        | (.error p, w3) => (.error p, w3)
        | (.ok res, w3) => (.ok (.slice .iface res), w3) := by
  have hn : data.isNil = false := by cases data <;> simp_all [GoValue.isNil]
  simp only [generator.interpolate, hn, Bool.false_and, Bool.false_eq_true, if_false,
    JSONPath.FindResults, JSONPath.AllowMissingKeys, if_true, List.append_assoc,
    List.singleton_append]
  cases h.FindResults over.expression.text (decide (opt.MissingKeys = NullOnMissing)) data with
  | error e => rfl
  | ok hits =>
    cases hits with
    | nil => rfl
    | cons hs tl => rfl

theorem generator_range_of_results
    (body : GoValue → World → Except PanicValue GoValue × World)
    (hb : ∀ d w w', (body d w).1 = (body d w').1)
    (ms rs : List GoValue)
    (hsub : List.Forall₂ (fun m r => ∃ w0, (body m w0).1 = .ok r) ms rs) :
    ∀ w, (generator.range body (ms.map reflect.Value.valid) w).1 = .ok rs := by
  induction hsub with
  | nil => intro w; rfl
  | @cons m r ms rs hm _ ih =>
    intro w
    obtain ⟨w0, hw0⟩ := hm
    have h1 : (body m w).1 = .ok r := by rw [hb m w w0]; exact hw0
    simp only [List.map_cons, generator.range, reflect.Value.IsValid, reflect.Value.Interface,
      if_true]
    rcases hx : body m w with ⟨x, w1⟩
    rw [hx] at h1
    simp only at h1
    subst h1
    simp only []
    have h2 := ih w1
    rcases hy : generator.range body (List.map reflect.Value.valid ms) w1 with ⟨y, w2⟩
    rw [hy] at h2
    simp only at h2
    subst h2
    rfl

/-- C2: a Generator node on a non-nil input, whose query resolves to the hit
list `ms`, evaluates to the `[]interface{}` `rs` that has one element per match,
in match order, the element of a match being the result of evaluating the
sub-template with that match as input under the same policy. The result is a
sequence also for a single match. -/
theorem generator_maps_matches (h : Host) (over : query) (templ : template) (data : GoValue)
    (opt : options) (w : World) (ms rs : List GoValue) (more : List (List reflect.Value))
    (hdata : data ≠ GoValue.nil)
    (hfind : h.FindResults over.expression.text (decide (opt.MissingKeys = NullOnMissing)) data
      = .ok (ms.map reflect.Value.valid :: more))
    (hsub : List.Forall₂ (fun m r => ∃ w0, (templ.interpolate h m opt w0).1 = .ok r) ms rs) :
    ((template.generator (.mk over templ)).interpolate h data opt w).1
        = .ok (GoValue.slice GoType.iface rs) ∧
      rs.length = ms.length := by
  refine ⟨?_, hsub.length_eq.symm⟩
  simp only [template.interpolate, generator_interpolate_of_hits h over templ data opt w hdata,
    hfind]
  have h1 := generator_range_of_results (fun inner w => template.interpolate h templ inner opt w)
    (fun d w w' => template_interpolate_fst h templ d opt w w') ms rs hsub
  generalize (World.mk _ _ : World) = wa
  have h2 := h1 wa
  rcases hx : generator.range (fun inner w => template.interpolate h templ inner opt w)
    (List.map reflect.Value.valid ms) wa with ⟨x, w1⟩
  rw [hx] at h2
  simp only at h2
  subst h2
  rfl

/-- C3: on the nil input a Query node and a Generator node return nil under
`NullOnMissing` and panic with an error under `ErrorOnMissing`, and in both
cases the world is returned as it was: no call to the JSONPath engine is
traced, and the result depends neither on the host nor on the generator's
sub-template. -/
theorem null_input_short_circuits (h : Host) (q : query) (g : generator) (w : World) :
    (template.query q).interpolate h GoValue.nil ⟨NullOnMissing⟩ w = (.ok GoValue.nil, w) ∧
    (template.query q).interpolate h GoValue.nil ⟨ErrorOnMissing⟩ w
      = (.error (.error .queryNullInput), w) ∧
    (template.generator g).interpolate h GoValue.nil ⟨NullOnMissing⟩ w
      = (.ok GoValue.nil, w) ∧
    (template.generator g).interpolate h GoValue.nil ⟨ErrorOnMissing⟩ w
      = (.error (.error .generatorNullInput), w) := by
  cases g
  refine ⟨?_, ?_, ?_, ?_⟩ <;>
    simp [template.interpolate, query.interpolate, generator.interpolate, GoValue.isNil,
      NullOnMissing, ErrorOnMissing]

/-- C4: a Query node on a non-nil input sets the flag of its expression to
"the policy is `NullOnMissing`" and then resolves it (the two calls are the
ones added to the trace); an error of the resolution makes the evaluation
panic with an error. Hence, for a query that resolves to no hit when missing
keys are allowed and to an error when they are not, the result is nil under
`NullOnMissing` and a failure under `ErrorOnMissing`. -/
theorem query_tolerance_follows_policy (h : Host) (q : query) (data : GoValue) (opt : options)
    (w : World) (hdata : data ≠ GoValue.nil) :
    (((template.query q).interpolate h data opt w).2.allowMissingKeys q.expression.addr
        = decide (opt.MissingKeys = NullOnMissing) ∧
      ((template.query q).interpolate h data opt w).2.trace
        = w.trace ++ [Event.AllowMissingKeys q.expression.addr
            (decide (opt.MissingKeys = NullOnMissing)),
          Event.FindResults q.expression.addr data]) ∧
    (∀ err, h.FindResults q.expression.text (decide (opt.MissingKeys = NullOnMissing)) data
        = .error err →
      ((template.query q).interpolate h data opt w).1 = .error (.error (.queryFailed err))) ∧
    (∀ more err, h.FindResults q.expression.text true data = .ok ([] :: more) →
      h.FindResults q.expression.text false data = .error err →
      ((template.query q).interpolate h data ⟨NullOnMissing⟩ w).1 = .ok GoValue.nil ∧
      ((template.query q).interpolate h data ⟨ErrorOnMissing⟩ w).1
        = .error (.error (.queryFailed err))) := by
  refine ⟨?_, ?_, ?_⟩
  · simp [template.interpolate, query_interpolate_of_hits h q data opt w hdata]
  · intro err he
    simp [template.interpolate, query_interpolate_of_hits h q data opt w hdata, he]
  · intro more err ht hf
    simp [template.interpolate, query_interpolate_of_hits h q data _ w hdata, ht, hf,
      NullOnMissing, ErrorOnMissing]

theorem mapassign_fresh {α : Type} (m : List (String × α)) (k : String) (v : α)
    (hk : k ∉ m.map Prod.fst) : mapassign m k v = m ++ [(k, v)] := by
  induction m with
  | nil => rfl
  | cons e m ih =>
    obtain ⟨k1, v1⟩ := e
    simp only [List.map_cons, List.mem_cons, not_or] at hk
    have hne : ¬ k1 = k := fun e => hk.1 e.symm
    simp [mapassign, hne, ih hk.2]

theorem object_interpolate_of_results (h : Host) (d : GoValue) (o : options) :
    ∀ (fs : List (String × field)) (res : List (String × GoValue)) (w : World),
      (res.map Prod.fst ++ fs.map Prod.fst).Nodup →
      (∀ e ∈ fs, ∃ w0 v, (e.2.value.interpolate h d o w0).1 = .ok v) →
      ∃ kvs w', object.interpolate h fs d o res w = (.ok (res ++ kvs), w') ∧
        List.Forall₂ (fun (e : String × field) (kv : String × GoValue) =>
          kv.1 = e.1 ∧ ∀ w0, (e.2.value.interpolate h d o w0).1 = .ok kv.2) fs kvs := by
  intro fs
  induction fs with
  | nil =>
    intro res w _ _
    exact ⟨[], w, by simp [object.interpolate], List.Forall₂.nil⟩
  | cons e fs ih =>
    intro res w hnd hok
    obtain ⟨name, f⟩ := e
    obtain ⟨value, ann⟩ := f
    obtain ⟨w0, v, hv⟩ := hok (name, .mk value ann) (List.mem_cons_self _ _)
    have hv' : ∀ w1, (template.interpolate h value d o w1).1 = .ok v := by
      intro w1
      rw [template_interpolate_fst h value d o w1 w0]
      exact hv
    have hfresh : name ∉ res.map Prod.fst := by
      intro hmem
      have := List.nodup_append.mp hnd
      exact this.2.2 hmem (by simp)
    rcases hx : template.interpolate h value d o w with ⟨x, w1⟩
    have h1 := hv' w
    rw [hx] at h1
    simp only at h1
    subst h1
    have hnd' : ((mapassign res name v).map Prod.fst ++ fs.map Prod.fst).Nodup := by
      rw [mapassign_fresh res name v hfresh]
      simpa [List.map_append, List.append_assoc] using hnd
    obtain ⟨kvs, w', hrun, hrel⟩ := ih (mapassign res name v) w1 hnd'
      (fun e he => hok e (List.mem_cons_of_mem _ he))
    refine ⟨(name, v) :: kvs, w', ?_, List.Forall₂.cons ⟨rfl, hv'⟩ hrel⟩
    rw [mapassign_fresh res name v hfresh] at hrun
    simp only [object.interpolate, hx, mapassign_fresh res name v hfresh, hrun]
    simp

theorem mapaccess_of_forall2 (h : Host) (d : GoValue) (o : options)
    (fs : List (String × field)) (kvs : List (String × GoValue))
    (hrel : List.Forall₂ (fun (e : String × field) (kv : String × GoValue) =>
          kv.1 = e.1 ∧ ∀ w0, (e.2.value.interpolate h d o w0).1 = .ok kv.2) fs kvs) (k : String) :
    (∀ f, mapaccess fs k = some f →
        ∃ v, mapaccess kvs k = some v ∧ ∀ w0, (f.value.interpolate h d o w0).1 = .ok v) ∧
      (mapaccess fs k = none → mapaccess kvs k = none) := by
  induction hrel with
  | nil => simp [mapaccess]
  | @cons e kv fs kvs he _ ih =>
    obtain ⟨k1, f1⟩ := e
    obtain ⟨k2, v2⟩ := kv
    obtain ⟨hk, hv⟩ := he
    simp only at hk hv
    subst hk
    by_cases hkk : k2 = k
    · simp only [mapaccess, hkk, if_true]
      refine ⟨?_, by simp⟩
      intro f hf
      simp only [Option.some.injEq] at hf
      subst hf
      exact ⟨v2, rfl, hv⟩
    · simp only [mapaccess, hkk, if_false]
      exact ih

theorem object_interpolate_forgets (h : Host) (d : GoValue) (o : options) :
    ∀ (fs fs' : List (String × field)) (res : List (String × GoValue)) (w : World),
      fs.map (fun e => (e.1, e.2.value)) = fs'.map (fun e => (e.1, e.2.value)) →
      object.interpolate h fs d o res w = object.interpolate h fs' d o res w := by
  intro fs
  induction fs with
  | nil =>
    intro fs' res w he
    cases fs' with
    | nil => rfl
    | cons e fs' => simp at he
  | cons e fs ih =>
    intro fs' res w he
    cases fs' with
    | nil => simp at he
    | cons e' fs' =>
      obtain ⟨name, f⟩ := e
      obtain ⟨value, ann⟩ := f
      obtain ⟨name', f'⟩ := e'
      obtain ⟨value', ann'⟩ := f'
      simp only [List.map_cons, List.cons.injEq, Prod.mk.injEq, field.value] at he
      obtain ⟨⟨hn, hv⟩, hrest⟩ := he
      subst hn
      subst hv
      simp only [object.interpolate]
      rcases template.interpolate h value d o w with ⟨x, w1⟩
      cases x with
      | error p => rfl
      | ok v => exact ih fs' _ w1 hrest

/-- C5: an Object node (a map, so with distinct keys) all of whose field
nodes evaluate successfully on the input evaluates to a `map[string]interface{}`
with exactly the keys of the object, each key mapped to the result of
evaluating the node of its field on the same input and policy. The evaluation
of an object does not depend on the annotations: two objects that differ only
in them evaluate alike, and the object of the template with the field "x": 1
annotated `@deprecated` evaluates to the map with "x": 1. -/
theorem object_interpolate_maps_fields (h : Host) (o : List (String × field)) (data : GoValue)
    (opt : options) (w : World)
    (hkeys : (o.map Prod.fst).Nodup)
    (hok : ∀ e ∈ o, ∃ w0 v, (e.2.value.interpolate h data opt w0).1 = .ok v) :
    (∃ kvs w', (template.object o).interpolate h data opt w
          = (.ok (GoValue.map GoType.iface kvs), w') ∧
        (∀ k, (mapaccess kvs k).isSome = (mapaccess o k).isSome) ∧
        (∀ k f, mapaccess o k = some f →
          ∃ v, mapaccess kvs k = some v ∧
            ∀ w0, (f.value.interpolate h data opt w0).1 = .ok v)) ∧
    (∀ o' : List (String × field),
        o'.map (fun e => (e.1, e.2.value)) = o.map (fun e => (e.1, e.2.value)) →
        (template.object o').interpolate h data opt w
          = (template.object o).interpolate h data opt w) ∧
    (template.object [("x", field.mk (template.numberConstant 1) "deprecated")]).interpolate
        h data opt w
      = (.ok (GoValue.map GoType.iface [("x", GoValue.float64 1)]), w) := by
  refine ⟨?_, ?_, rfl⟩
  · obtain ⟨kvs, w', hrun, hrel⟩ :=
      object_interpolate_of_results h data opt o [] w (by simpa using hkeys) hok
    refine ⟨kvs, w', ?_, ?_, ?_⟩
    · simp only [template.interpolate, hrun, List.nil_append]
    · intro k
      have := mapaccess_of_forall2 h data opt o kvs hrel k
      cases hm : mapaccess o k with
      | none => simp [this.2 hm]
      | some f =>
        obtain ⟨v, hv, _⟩ := this.1 f hm
        simp [hv]
    · intro k f hf
      exact (mapaccess_of_forall2 h data opt o kvs hrel k).1 f hf
  · intro o' he
    simp only [template.interpolate, object_interpolate_forgets h data opt o' o [] w he]

theorem mapaccess_mapassign_same {α : Type} (m : List (String × α)) (k : String) (v : α) :
    mapaccess (mapassign m k v) k = some v := by
  induction m with
  | nil => simp [mapassign, mapaccess]
  | cons e m ih =>
    obtain ⟨k1, v1⟩ := e
    by_cases hk : k1 = k
    · simp [mapassign, mapaccess, hk]
    · simp [mapassign, mapaccess, hk, ih]

theorem mapaccess_mapassign_other {α : Type} (m : List (String × α)) (k k' : String) (v : α)
    (hne : k ≠ k') : mapaccess (mapassign m k v) k' = mapaccess m k' := by
  induction m with
  | nil => simp [mapassign, mapaccess, hne]
  | cons e m ih =>
    obtain ⟨k1, v1⟩ := e
    by_cases hk : k1 = k
    · subst hk
      simp [mapassign, mapaccess, hne]
    · by_cases hk' : k1 = k'
      · subst hk'
        simp [mapassign, mapaccess, hk]
      · simp [mapassign, mapaccess, hk, hk', ih]

theorem builder_buildFields_append (h : Host) (b : builder) (post : List parse.AnnotatedField)
    (ann key : String) (v : parse.Value) :
    ∀ (pre : List parse.AnnotatedField) (res : object) (next : Nat) (o : object) (next' : Nat),
      builder.buildFields h b (pre ++ parse.AnnotatedField.mk ann key v :: post) res next
        = .ok (o, next') →
      ∃ o1 n1 t n2, builder.buildFields h b pre res next = .ok (o1, n1) ∧
        builder.buildValue h b v n1 = .ok (t, n2) ∧
        builder.buildFields h b post (mapassign o1 key (field.mk t ann)) n2 = .ok (o, next') := by
  intro pre
  induction pre with
  | nil =>
    intro res next o next' hb
    simp only [List.nil_append, builder.buildFields] at hb
    cases hv : builder.buildValue h b v next with
    | error p => simp [hv] at hb
    | ok r =>
      obtain ⟨t, n2⟩ := r
      simp only [hv] at hb
      exact ⟨res, next, t, n2, by simp [builder.buildFields], hv, hb⟩
  | cons f pre ih =>
    intro res next o next' hb
    obtain ⟨ann1, key1, v1⟩ := f
    simp only [List.cons_append, builder.buildFields] at hb
    cases hv : builder.buildValue h b v1 next with
    | error p => simp [hv] at hb
    | ok r =>
      obtain ⟨t1, n1⟩ := r
      simp only [hv] at hb
      obtain ⟨o1, n1', t, n2, h1, h2, h3⟩ := ih _ _ _ _ hb
      exact ⟨o1, n1', t, n2, by simp only [builder.buildFields, hv, h1], h2, h3⟩

theorem builder_buildFields_keys (h : Host) (b : builder) :
    ∀ (fs : List parse.AnnotatedField) (res : object) (next : Nat) (o : object) (next' : Nat),
      builder.buildFields h b fs res next = .ok (o, next') →
      ∀ k, ((∀ f ∈ fs, f.Key ≠ k) → mapaccess o k = mapaccess res k) ∧
        ((mapaccess o k).isSome = true ↔
          ((mapaccess res k).isSome = true ∨ ∃ f ∈ fs, f.Key = k)) := by
  intro fs
  induction fs with
  | nil =>
    intro res next o next' hb k
    simp only [builder.buildFields, Except.ok.injEq, Prod.mk.injEq] at hb
    obtain ⟨rfl, _⟩ := hb
    simp
  | cons f fs ih =>
    intro res next o next' hb k
    obtain ⟨ann1, key1, v1⟩ := f
    simp only [builder.buildFields] at hb
    cases hv : builder.buildValue h b v1 next with
    | error p => simp [hv] at hb
    | ok r =>
      obtain ⟨t1, n1⟩ := r
      simp only [hv] at hb
      obtain ⟨ih1, ih2⟩ := ih _ _ _ _ hb k
      constructor
      · intro hno
        have hk1 : key1 ≠ k := hno (parse.AnnotatedField.mk ann1 key1 v1)
          (List.mem_cons_self _ _)
        rw [ih1 (fun f hf => hno f (List.mem_cons_of_mem _ hf)),
          mapaccess_mapassign_other res key1 k _ hk1]
      · rw [ih2]
        by_cases hk1 : key1 = k
        · subst hk1
          simp [mapaccess_mapassign_same, parse.AnnotatedField.Key]
        · rw [mapaccess_mapassign_other res key1 k _ hk1]
          simp [parse.AnnotatedField.Key, hk1]

/-- C6: when `buildObject` succeeds on a syntax object, the field of the
built node under a key is the one built from the last syntax field with that
key (its value built at the point of the loop where that field is reached,
with its annotation), and the keys of the node are exactly the keys of the
syntax fields. So the syntax tree of the template with the fields "a": 1 and
"a": 2 builds to the object with the single field "a": 2, which renders to the
map with "a": 2. -/
theorem buildObject_last_duplicate_wins (h : Host) (b : builder)
    (pre post : List parse.AnnotatedField) (ann key : String) (v : parse.Value)
    (next : Nat) (o : object) (next' : Nat) (funcs : FunctionMap) (data : GoValue) (w : World)
    (hbuild : builder.buildObject h b
        (parse.Object.mk (pre ++ parse.AnnotatedField.mk ann key v :: post)) next
      = .ok (o, next'))
    (hlast : ∀ f ∈ post, f.Key ≠ key) :
    (∃ o1 n1 t n2, builder.buildObject h b (parse.Object.mk pre) next = .ok (o1, n1) ∧
        builder.buildValue h b v n1 = .ok (t, n2) ∧
        mapaccess o key = some (field.mk t ann)) ∧
    (∀ k, (mapaccess o k).isSome = true ↔
        ∃ f ∈ pre ++ parse.AnnotatedField.mk ann key v :: post, f.Key = k) ∧
    (Parse.build h
        ⟨.mk none none (some (.mk [
          .mk "" "a" (.mk none (some 1) none none none false none none none),
          .mk "" "a" (.mk none (some 2) none none none false none none none)]))
          none none false none none none⟩ funcs
      = .ok ⟨template.object [("a", field.mk (template.numberConstant 2) "")], 0⟩ ∧
     Template.Render h ⟨template.object [("a", field.mk (template.numberConstant 2) "")], 0⟩
        data w
      = ((GoValue.map GoType.iface [("a", GoValue.float64 2)], none), w)) := by
  simp only [builder.buildObject] at hbuild ⊢
  refine ⟨?_, ?_, rfl, rfl⟩
  · obtain ⟨o1, n1, t, n2, h1, h2, h3⟩ :=
      builder_buildFields_append h b post ann key v pre [] next o next' hbuild
    refine ⟨o1, n1, t, n2, h1, h2, ?_⟩
    rw [(builder_buildFields_keys h b post _ n2 o next' h3 key).1 hlast,
      mapaccess_mapassign_same]
  · intro k
    rw [(builder_buildFields_keys h b _ [] next o next' hbuild k).2]
    simp [mapaccess]

theorem function_arguments_cons (h : Host) (name : String) (fn : GoValue) (templ : template)
    (tail : List template) (i : Nat) (data : GoValue) (opt : options) (w : World) :
    function.arguments h name fn (templ :: tail) i data opt w =
      match template.interpolate h templ data opt w with
      | (.error p, w1) => (.error p, w1)
      | (.ok val, w1) =>
        match function.argument name fn i val with
        | .error p => (.error p, w1)
        | .ok arg =>
          match function.arguments h name fn tail (i + 1) data opt w1 with
          | (.error p, w2) => (.error p, w2)
          | (.ok vals, w2) => (.ok (arg :: vals), w2) := by
  rw [function.arguments]

theorem function_arguments_append (h : Host) (name : String) (fn : GoValue)
    (a : template) (post : List template) (data : GoValue) (opt : options) :
    ∀ (pre : List template) (i : Nat) (w : World) (vals : List GoValue) (w1 : World),
      function.arguments h name fn pre i data opt w = (.ok vals, w1) →
      vals.length = pre.length ∧
      function.arguments h name fn (pre ++ a :: post) i data opt w =
        match a.interpolate h data opt w1 with
        | (.error p, w2) => (.error p, w2)
        | (.ok val, w2) =>
          match function.argument name fn (i + pre.length) val with
          | .error p => (.error p, w2)
          | .ok arg =>
            match function.arguments h name fn post (i + pre.length + 1) data opt w2 with
            | (.error p, w3) => (.error p, w3)
            | (.ok more, w3) => (.ok (vals ++ arg :: more), w3) := by
  intro pre
  induction pre with
  | nil =>
    intro i w vals w1 hpre
    simp only [function.arguments, Prod.mk.injEq, Except.ok.injEq] at hpre
    obtain ⟨rfl, rfl⟩ := hpre
    refine ⟨rfl, ?_⟩
    rw [List.nil_append, function_arguments_cons]
    simp only [List.length_nil, Nat.add_zero, List.nil_append]
  | cons t pre ih =>
    intro i w vals w1 hpre
    rw [function_arguments_cons] at hpre
    rcases hx : template.interpolate h t data opt w with ⟨x, wa⟩
    rw [hx] at hpre
    cases x with
    | error p => simp at hpre
    | ok v =>
      simp only [] at hpre
      cases hy : function.argument name fn i v with
      | error p => simp [hy] at hpre
      | ok arg =>
        simp only [hy] at hpre
        rcases hz : function.arguments h name fn pre (i + 1) data opt wa with ⟨z, wb⟩
        rw [hz] at hpre
        cases z with
        | error p => simp at hpre
        | ok vs =>
          simp only [Prod.mk.injEq, Except.ok.injEq] at hpre
          obtain ⟨rfl, rfl⟩ := hpre
          obtain ⟨hlen, hrun⟩ := ih (i + 1) wa vs wb hz
          refine ⟨by simp [hlen], ?_⟩
          rw [List.cons_append, function_arguments_cons, hx]
          simp only [hy, hrun, List.length_cons]
          have e1 : i + 1 + pre.length = i + (pre.length + 1) := by omega
          rw [e1]
          rcases template.interpolate h a data opt wb with ⟨x2, w2⟩
          cases x2 with
          | error p => rfl
          | ok val =>
            simp only []
            cases function.argument name fn (i + (pre.length + 1)) val with
            | error p => rfl
            | ok arg2 =>
              simp only []
              rcases function.arguments h name fn post (i + (pre.length + 1) + 1) data opt w2
                with ⟨x3, w3⟩
              cases x3 <;> rfl

theorem function_interpolate_at (h : Host) (name : String) (fn : GoValue)
    (pre : List template) (a : template) (post : List template) (data : GoValue)
    (opt : options) (w : World) (vals : List GoValue) (w1 : World)
    (hpre : function.arguments h name fn pre 0 data opt w = (.ok vals, w1)) :
    vals.length = pre.length ∧
    (template.function (.mk name fn (pre ++ a :: post))).interpolate h data opt w =
      match a.interpolate h data opt w1 with
      | (.error p, w2) => (.error p, w2)
      | (.ok val, w2) =>
        match function.argument name fn pre.length val with
        | .error p => (.error p, w2)
        | .ok arg =>
          match function.arguments h name fn post (pre.length + 1) data opt w2 with
          | (.error p, w3) => (.error p, w3)
          | (.ok more, w3) => function.call h fn (vals ++ arg :: more) w3 := by
  obtain ⟨hlen, hrun⟩ := function_arguments_append h name fn a post data opt pre 0 w vals w1 hpre
  refine ⟨hlen, ?_⟩
  simp only [template.interpolate, function.interpolate, hrun, Nat.zero_add]
  rcases template.interpolate h a data opt w1 with ⟨x2, w2⟩
  cases x2 with
  | error p => rfl
  | ok val =>
    simp only []
    cases function.argument name fn pre.length val with
    | error p => rfl
    | ok arg2 =>
      simp only []
      rcases function.arguments h name fn post (pre.length + 1) data opt w2 with ⟨x3, w3⟩
      cases x3 <;> rfl

/-- C8: when the loop of `function.interpolate` reaches argument `i` (the
arguments `pre` before it have given the entries `vals`) and that argument
evaluates to nil: if the expected type at `i` is of a nilable kind, the loop
goes on and the function, when the remaining arguments are accepted, is called
with the zero value of the expected type at position `i`; otherwise the
evaluation panics with the nil-argument error for position `i + 1`, in the
world reached by evaluating that argument, so without the function being
called. -/
theorem nil_argument_zero_or_error (h : Host) (name : String) (fn : GoValue)
    (pre : List template) (a : template) (post : List template) (data : GoValue)
    (opt : options) (w : World) (vals : List GoValue) (w1 w2 : World) (expected : GoType)
    (hpre : function.arguments h name fn pre 0 data opt w = (.ok vals, w1))
    (ha : a.interpolate h data opt w1 = (.ok GoValue.nil, w2))
    (hexp : function.expected fn pre.length = .ok expected) :
    vals.length = pre.length ∧
    (nilable expected.Kind = true →
      (template.function (.mk name fn (pre ++ a :: post))).interpolate h data opt w =
        match function.arguments h name fn post (pre.length + 1) data opt w2 with
        | (.error p, w3) => (.error p, w3)
        | (.ok more, w3) => function.call h fn (vals ++ reflect.Zero expected :: more) w3) ∧
    (nilable expected.Kind = false →
      (template.function (.mk name fn (pre ++ a :: post))).interpolate h data opt w =
        (.error (.error (.nilArgument (pre.length + 1) name expected)), w2)) := by
  obtain ⟨hlen, hrun⟩ := function_interpolate_at h name fn pre a post data opt w vals w1 hpre
  refine ⟨hlen, ?_, ?_⟩
  · intro hk
    rw [hrun, ha]
    simp only [function.argument, hexp, reflect.TypeOf, hk, if_true]
  · intro hk
    rw [hrun, ha]
    simp only [function.argument, hexp, reflect.TypeOf, hk, Bool.false_eq_true, if_false]

/-- C9: when the loop of `function.interpolate` reaches an argument that
evaluates to a value `val` of a type `T` that is not a pointer type, and the
expected type is `*T`, the argument is accepted as the pointer to a cell of its
own that holds `val`, and the function, when the remaining arguments are
accepted, is called with that pointer at the position of the argument. -/
theorem value_boxed_for_pointer_parameter (h : Host) (name : String) (fn : GoValue)
    (pre : List template) (a : template) (post : List template) (data : GoValue)
    (opt : options) (w : World) (vals : List GoValue) (w1 w2 : World) (val : GoValue)
    (T : GoType)
    (hpre : function.arguments h name fn pre 0 data opt w = (.ok vals, w1))
    (ha : a.interpolate h data opt w1 = (.ok val, w2))
    (hT : reflect.TypeOf val = some T)
    (hnp : T.Kind ≠ reflect.Kind.Ptr)
    (hexp : function.expected fn pre.length = .ok (GoType.ptr T)) :
    vals.length = pre.length ∧
    function.argument name fn pre.length val = .ok (GoValue.ptr T val) ∧
    (template.function (.mk name fn (pre ++ a :: post))).interpolate h data opt w =
      match function.arguments h name fn post (pre.length + 1) data opt w2 with
      | (.error p, w3) => (.error p, w3)
      | (.ok more, w3) => function.call h fn (vals ++ GoValue.ptr T val :: more) w3 := by
  obtain ⟨hlen, hrun⟩ := function_interpolate_at h name fn pre a post data opt w vals w1 hpre
  have harg : function.argument name fn pre.length val = .ok (GoValue.ptr T val) := by
    simp [function.argument, hexp, hT, GoType.Kind, hnp, GoType.AssignableTo,
      reflect.directlyAssignable, GoType.identical, GoType_identical_refl]
  refine ⟨hlen, harg, ?_⟩
  rw [hrun, ha]
  simp only [harg]

/-- C10: when the loop of `function.interpolate` reaches an argument that
evaluates to a non-nil value whose type (the pointer type to it, when the
expected type is of pointer kind and the type of the value is not) is not
assignable to the expected type, the evaluation panics with the
argument-mismatch error that carries the value, its type, the position counted
from 1, the name of the function and the expected type, in the world reached
by evaluating that argument, so without the function being called. -/
theorem unassignable_argument_fails (h : Host) (name : String) (fn : GoValue)
    (pre : List template) (a : template) (post : List template) (data : GoValue)
    (opt : options) (w : World) (vals : List GoValue) (w1 w2 : World) (val : GoValue)
    (actual expected : GoType)
    (hpre : function.arguments h name fn pre 0 data opt w = (.ok vals, w1))
    (ha : a.interpolate h data opt w1 = (.ok val, w2))
    (hT : reflect.TypeOf val = some actual)
    (hexp : function.expected fn pre.length = .ok expected)
    (hna : (if expected.Kind = reflect.Kind.Ptr ∧ actual.Kind ≠ reflect.Kind.Ptr
        then GoType.ptr actual else actual).AssignableTo expected = false) :
    (template.function (.mk name fn (pre ++ a :: post))).interpolate h data opt w =
      (.error (.error (.argumentMismatch val actual (pre.length + 1) name expected)), w2) := by
  obtain ⟨_, hrun⟩ := function_interpolate_at h name fn pre a post data opt w vals w1 hpre
  rw [hrun, ha]
  by_cases hbox : expected.Kind = reflect.Kind.Ptr ∧ actual.Kind ≠ reflect.Kind.Ptr
  · rw [if_pos hbox] at hna
    simp only [function.argument, hexp, hT, hbox, hna, if_true, Bool.false_eq_true, if_false,
      and_self, ne_eq, not_false_eq_true]
  · rw [if_neg hbox] at hna
    simp only [function.argument, hexp, hT, hbox, hna, if_true, Bool.false_eq_true, if_false]

theorem GoType_kind_of_identical (a b : GoType) (h : GoType.identical a b = true) :
    a.Kind = b.Kind := by
  rw [GoType_identical_eq a b h]

theorem GoType_pointer_of_assignable (V T : GoType) (h : V.AssignableTo T = true)
    (hp : T.Kind = reflect.Kind.Ptr) : V.Kind = reflect.Kind.Ptr := by
  simp only [GoType.AssignableTo, reflect.directlyAssignable, reflect.implements, hp,
    Bool.or_eq_true] at h
  rcases h with h | h
  · by_cases hid : GoType.identical T V = true
    · rw [← GoType_kind_of_identical T V hid, hp]
    · simp only [hid, Bool.false_eq_true, if_false] at h
      by_cases hk : reflect.Kind.Ptr = V.Kind
      · exact hk.symm
      · simp [hk] at h
  · simp at h

theorem function_argument_of_assignable (name : String) (fn : GoValue) (i : Nat)
    (v : GoValue) (actual expected : GoType)
    (hT : reflect.TypeOf v = some actual)
    (hexp : function.expected fn i = .ok expected)
    (hassign : actual.AssignableTo expected = true) :
    function.argument name fn i v = .ok v := by
  simp only [function.argument, hexp, hT]
  by_cases hp : expected.Kind = reflect.Kind.Ptr
  · have := GoType_pointer_of_assignable actual expected hassign hp
    simp [hp, this, hassign]
  · simp [hp, hassign]

theorem function_arguments_of_results (h : Host) (name : String) (fn : GoValue)
    (data : GoValue) (opt : options) (args : List template) (vals : List GoValue)
    (hargs : List.Forall₂ (fun a v => ∃ w0, (template.interpolate h a data opt w0).1 = .ok v)
      args vals) :
    ∀ (i : Nat) (w : World),
      (∀ j v, vals[j]? = some v → ∃ actual expected, reflect.TypeOf v = some actual ∧
        function.expected fn (i + j) = .ok expected ∧ actual.AssignableTo expected = true) →
      ∃ w1, function.arguments h name fn args i data opt w = (.ok vals, w1) := by
  induction hargs with
  | nil => intro i w _; exact ⟨w, by simp [function.arguments]⟩
  | @cons a v args vals ha _ ih =>
    intro i w hty
    obtain ⟨w0, hw0⟩ := ha
    have h1 : (template.interpolate h a data opt w).1 = .ok v := by
      rw [template_interpolate_fst h a data opt w w0]; exact hw0
    rcases hx : template.interpolate h a data opt w with ⟨x, w1⟩
    rw [hx] at h1
    simp only at h1
    subst h1
    obtain ⟨actual, expected, hT, hexp, hassign⟩ := hty 0 v (by simp)
    have harg := function_argument_of_assignable name fn i v actual expected hT
      (by simpa using hexp) hassign
    obtain ⟨w2, hrun⟩ := ih (i + 1) w1 (fun j u hu => by
      have := hty (j + 1) u (by simpa using hu)
      have e : i + (j + 1) = i + 1 + j := by omega
      rw [e] at this
      exact this)
    refine ⟨w2, ?_⟩
    rw [function.arguments]
    simp only [hx, harg, hrun]

/-- C7: a FunctionCall node on a function whose arguments correspond to its
parameters (as many arguments as parameters, or at least all parameters but
the last for a variadic function), whose argument nodes evaluate (on the input
and policy of the call) to the non-nil values `vals`, each of a type assignable
to the expected type of its position, calls the function on exactly `vals`, in
argument order, and evaluates to the first value `r` that the function
returns for them. -/
theorem function_returns_call_result (h : Host) (name : String) (ins : List GoType)
    (variadic : Bool) (outs : List GoType) (body : Nat) (args : List template)
    (vals : List GoValue) (data : GoValue) (opt : options) (w : World)
    (r : GoValue) (rs : List GoValue)
    (harity : if variadic = true then ins.length ≤ args.length + 1
      else args.length = ins.length)
    (hargs : List.Forall₂ (fun a v => ∃ w0, (template.interpolate h a data opt w0).1 = .ok v)
      args vals)
    (hassign : ∀ i v, vals[i]? = some v → ∃ actual expected,
      reflect.TypeOf v = some actual ∧
      function.expected (GoValue.func ins variadic outs body) i = .ok expected ∧
      actual.AssignableTo expected = true)
    (hcall : h.call body vals = .ok (r :: rs)) :
    ∃ w1 : World,
      (template.function (.mk name (GoValue.func ins variadic outs body) args)).interpolate
        h data opt w
      = (.ok r, ⟨w1.allowMissingKeys, w1.trace ++ [Event.Call body vals]⟩) := by
  obtain ⟨w1, hrun⟩ := function_arguments_of_results h name (GoValue.func ins variadic outs body)
    data opt args vals hargs 0 w (fun j v hv => by simpa using hassign j v hv)
  refine ⟨w1, ?_⟩
  have hlen : vals.length = args.length := hargs.length_eq.symm
  simp only [template.interpolate, function.interpolate, hrun, function.call, reflect.Call]
  cases variadic with
  | true =>
    simp only [if_true] at harity
    have : ¬ vals.length < ins.length - 1 := by omega
    simp [this, hcall]
  | false =>
    simp only [Bool.false_eq_true, if_false] at harity
    have h1 : ¬ vals.length < ins.length := by omega
    have h2 : ¬ vals.length > ins.length := by omega
    simp [h1, h2, hcall]

/-! ### The expected type of an argument -/

theorem function_expected_fixed (ins : List GoType) (variadic : Bool) (outs : List GoType)
    (body i : Nat) (P : GoType) (hP : ins[i]? = some P)
    (hv : variadic = false ∨ i + 1 < ins.length) :
    function.expected (GoValue.func ins variadic outs body) i = .ok P := by
  simp only [function.expected, reflect.TypeOf, GoType.IsVariadic, GoType.underlying,
    GoType.NumIn, GoType.In, hP]
  rcases hv with hv | hv
  · simp [hv]
  · have : ¬ ((ins.length : Int) - 1 ≤ (i : Int)) := by omega
    simp [this]

theorem function_expected_variadic (fixed : List GoType) (e : GoType) (outs : List GoType)
    (body i : Nat) (hi : fixed.length ≤ i) :
    function.expected (GoValue.func (fixed ++ [GoType.slice e]) true outs body) i = .ok e := by
  have h1 : ((fixed ++ [GoType.slice e]).length : Int) - 1 ≤ (i : Int) := by
    simp only [List.length_append, List.length_singleton]
    omega
  have h2 : (fixed ++ [GoType.slice e])[(fixed ++ [GoType.slice e]).length - 1]?
      = some (GoType.slice e) := by
    simp
  simp only [function.expected, reflect.TypeOf, GoType.IsVariadic, GoType.underlying,
    GoType.NumIn, GoType.In, h2]
  simp [h1, GoType.Elem, GoType.underlying]
  intro hc
  omega

/-- C11: the type that argument `i` of a call is coerced to is the declared
type of parameter `i`, for a function that is not variadic and for the
parameters before the last one of a variadic function; for a variadic function
whose last parameter is `...e` and every position `i` from that parameter on, it
is the element type `e`. At such a position a nil argument is accepted as the
zero value of `e` when `e` is nilable, a value of a type assignable to `e` is
accepted as it is, and `reflect.Call` runs the function on any number of
arguments that covers the parameters before the last. -/
theorem variadic_tail_expects_element_type (h : Host) (name : String) (fixed : List GoType)
    (e : GoType) (outs : List GoType) (body i : Nat) (hi : fixed.length ≤ i) :
    (∀ (ins : List GoType) (variadic : Bool) (j : Nat) (P : GoType), ins[j]? = some P →
        (variadic = false ∨ j + 1 < ins.length) →
        function.expected (GoValue.func ins variadic outs body) j = .ok P) ∧
    function.expected (GoValue.func (fixed ++ [GoType.slice e]) true outs body) i = .ok e ∧
    (nilable e.Kind = true →
      function.argument name (GoValue.func (fixed ++ [GoType.slice e]) true outs body) i
        GoValue.nil = .ok (reflect.Zero e)) ∧
    (∀ (v : GoValue) (actual : GoType), reflect.TypeOf v = some actual →
      actual.AssignableTo e = true →
      function.argument name (GoValue.func (fixed ++ [GoType.slice e]) true outs body) i v
        = .ok v) ∧
    (∀ (args : List GoValue) (w : World), fixed.length ≤ args.length →
      reflect.Call h (GoValue.func (fixed ++ [GoType.slice e]) true outs body) args w
        = (h.call body args, ⟨w.allowMissingKeys, w.trace ++ [Event.Call body args]⟩)) := by
  have hexp := function_expected_variadic fixed e outs body i hi
  refine ⟨?_, hexp, ?_, ?_, ?_⟩
  · intro ins variadic j P hP hv
    exact function_expected_fixed ins variadic outs body j P hP hv
  · intro hk
    simp only [function.argument, hexp, reflect.TypeOf, hk, if_true]
  · intro v actual hT ha
    exact function_argument_of_assignable name _ i v actual e hT hexp ha
  · intro args w hlen
    have : ¬ args.length < fixed.length := by omega
    simp [reflect.Call, this]

/-! ### The builder and the registry -/

theorem builder_refuses_unknown (funcs : FunctionMap) (name : String)
    (hn : mapaccess funcs name = none) :
    builder.refuses funcs name = some (.error (.noSuchFunction name)) := by
  simp [builder.refuses, hn]

theorem buildFunction_eq (h : Host) (b : builder) (name : String) (args : List parse.Value)
    (n : Nat) :
    builder.buildFunction h b (.mk name args) n =
      match builder.refuses b.funcs name with
      | some p => .error p
      | none =>
        match mapaccess b.funcs name with
        | none => .error (.error (.noSuchFunction name))
        | some fn =>
          match builder.buildValues h b args n with
          | .error p => .error p
          | .ok (res, next1) => .ok (.function (.mk name fn res), next1) := by
  simp only [builder.buildFunction, builder.refuses]
  cases hm : mapaccess b.funcs name with
  | none => rfl
  | some fn =>
    simp only []
    by_cases hk : reflect.KindOf fn = some reflect.Kind.Func
    · simp only [hk, ne_eq, not_true_eq_false, if_false]
    · simp only [hk, ne_eq, not_false_eq_true, if_true]

mutual
theorem buildValue_sound (h : Host) (b : builder) :
    ∀ (v : parse.Value) (n : Nat),
      (∀ r, builder.buildValue h b v n = .ok r →
        ∀ name ∈ v.calls, builder.refuses b.funcs name = none) ∧
      (∀ name, builder.buildValue h b v n = .error (.error (.noSuchFunction name)) →
        name ∈ v.calls ∧ mapaccess b.funcs name = none)
  | .mk (some s) _ _ _ _ _ _ _ _, n => by
    simp [builder.buildValue, parse.Value.calls]
  | .mk none (some x) _ _ _ _ _ _ _, n => by
    simp [builder.buildValue, parse.Value.calls]
  | .mk none none _ _ (some x) _ _ _ _, n => by
    simp [builder.buildValue, parse.Value.calls]
  | .mk none none _ _ none true _ _ _, n => by
    simp [builder.buildValue, parse.Value.calls]
  | .mk none none (some o) _ none false _ _ _, n => by
    have ih := buildObject_sound h b o n
    simp only [builder.buildValue, parse.Value.calls]
    cases hb : builder.buildObject h b o n with
    | error p =>
      simp only [hb] at ih ⊢
      refine ⟨fun r hr => by simp at hr, fun name hn => ?_⟩
      exact ih.2 name (congrArg Except.error (Except.error.inj hn))
    | ok r =>
      obtain ⟨res, n1⟩ := r
      simp only [hb] at ih ⊢
      exact ⟨fun r _ => ih.1 _ rfl, fun name hn => by simp at hn⟩
  | .mk none none none (some a) none false _ _ _, n => by
    have ih := buildValues_sound h b a n
    simp only [builder.buildValue, parse.Value.calls]
    cases hb : builder.buildValues h b a n with
    | error p =>
      simp only [hb] at ih ⊢
      refine ⟨fun r hr => by simp at hr, fun name hn => ?_⟩
      exact ih.2 name (congrArg Except.error (Except.error.inj hn))
    | ok r =>
      obtain ⟨res, n1⟩ := r
      simp only [hb] at ih ⊢
      exact ⟨fun r _ => ih.1 _ rfl, fun name hn => by simp at hn⟩
  | .mk none none none none none false (some (.mk range sub)) _ _, n => by
    simp only [builder.buildValue, parse.Value.calls]
    cases hq : builder.buildQuery h b range n with
    | error p =>
      simp only [builder.buildQuery] at hq
      cases hp : h.Parse ("\x7b" ++ range ++ "\x7d") with
      | none => simp [hp] at hq
      | some err =>
        simp only [hp, Except.error.injEq] at hq
        subst hq
        simp
    | ok r =>
      obtain ⟨over, n1⟩ := r
      have ih := buildValue_sound h b sub n1
      simp only []
      cases hb : builder.buildValue h b sub n1 with
      | error p =>
        simp only [hb] at ih ⊢
        refine ⟨fun r hr => by simp at hr, fun name hn => ?_⟩
        exact ih.2 name (congrArg Except.error (Except.error.inj hn))
      | ok r =>
        obtain ⟨res, n2⟩ := r
        simp only [hb] at ih ⊢
        exact ⟨fun r _ => ih.1 _ rfl, fun name hn => by simp at hn⟩
  | .mk none none none none none false none (some q) _, n => by
    simp only [builder.buildValue, parse.Value.calls]
    cases hq : builder.buildQuery h b q n with
    | error p =>
      simp only [builder.buildQuery] at hq
      cases hp : h.Parse ("\x7b" ++ q ++ "\x7d") with
      | none => simp [hp] at hq
      | some err =>
        simp only [hp, Except.error.injEq] at hq
        subst hq
        simp
    | ok r => simp
  | .mk none none none none none false none none (some f), n => by
    have ih := buildFunction_sound h b f n
    simp only [builder.buildValue, parse.Value.calls]
    exact ih
  | .mk none none none none none false none none none, n => by
    simp [builder.buildValue, parse.Value.calls]
theorem buildObject_sound (h : Host) (b : builder) :
    ∀ (o : parse.Object) (n : Nat),
      (∀ r, builder.buildObject h b o n = .ok r →
        ∀ name ∈ o.calls, builder.refuses b.funcs name = none) ∧
      (∀ name, builder.buildObject h b o n = .error (.error (.noSuchFunction name)) →
        name ∈ o.calls ∧ mapaccess b.funcs name = none)
  | .mk fields, n => by
    simp only [builder.buildObject, parse.Object.calls]
    exact buildFields_sound h b fields [] n
theorem buildFields_sound (h : Host) (b : builder) :
    ∀ (fs : List parse.AnnotatedField) (res : object) (n : Nat),
      (∀ r, builder.buildFields h b fs res n = .ok r →
        ∀ name ∈ parse.Value.callsOfFields fs, builder.refuses b.funcs name = none) ∧
      (∀ name, builder.buildFields h b fs res n = .error (.error (.noSuchFunction name)) →
        name ∈ parse.Value.callsOfFields fs ∧ mapaccess b.funcs name = none)
  | [], res, n => by simp [builder.buildFields, parse.Value.callsOfFields]
  | (.mk ann key v) :: rest, res, n => by
    have ih1 := buildValue_sound h b v n
    simp only [builder.buildFields, parse.Value.callsOfFields, List.mem_append]
    cases hb : builder.buildValue h b v n with
    | error p =>
      simp only [hb] at ih1 ⊢
      refine ⟨fun r hr => by simp at hr, fun name hn => ?_⟩
      have hn' := ih1.2 name (congrArg Except.error (Except.error.inj hn))
      exact ⟨Or.inl hn'.1, hn'.2⟩
    | ok r =>
      obtain ⟨templ, n1⟩ := r
      have ih2 := buildFields_sound h b rest (mapassign res key (field.mk templ ann)) n1
      simp only [hb] at ih1 ⊢
      refine ⟨fun r hr name hn => ?_, fun name hn => ?_⟩
      · rcases hn with hn | hn
        · exact ih1.1 _ rfl name hn
        · exact ih2.1 r hr name hn
      · exact ⟨Or.inr (ih2.2 name hn).1, (ih2.2 name hn).2⟩
theorem buildValues_sound (h : Host) (b : builder) :
    ∀ (vs : List parse.Value) (n : Nat),
      (∀ r, builder.buildValues h b vs n = .ok r →
        ∀ name ∈ parse.Value.callsOfValues vs, builder.refuses b.funcs name = none) ∧
      (∀ name, builder.buildValues h b vs n = .error (.error (.noSuchFunction name)) →
        name ∈ parse.Value.callsOfValues vs ∧ mapaccess b.funcs name = none)
  | [], n => by simp [builder.buildValues, parse.Value.callsOfValues]
  | v :: rest, n => by
    have ih1 := buildValue_sound h b v n
    simp only [builder.buildValues, parse.Value.callsOfValues, List.mem_append]
    cases hb : builder.buildValue h b v n with
    | error p =>
      simp only [hb] at ih1 ⊢
      refine ⟨fun r hr => by simp at hr, fun name hn => ?_⟩
      have hn' := ih1.2 name (congrArg Except.error (Except.error.inj hn))
      exact ⟨Or.inl hn'.1, hn'.2⟩
    | ok r =>
      obtain ⟨templ, n1⟩ := r
      have ih2 := buildValues_sound h b rest n1
      simp only [hb] at ih1 ⊢
      cases hb2 : builder.buildValues h b rest n1 with
      | error p =>
        simp only [hb2] at ih2 ⊢
        refine ⟨fun r hr => by simp at hr, fun name hn => ?_⟩
        have hn' := ih2.2 name (congrArg Except.error (Except.error.inj hn))
        exact ⟨Or.inr hn'.1, hn'.2⟩
      | ok r2 =>
        obtain ⟨res, n2⟩ := r2
        simp only [hb2] at ih2 ⊢
        refine ⟨fun r hr name hn => ?_, fun name hn => by simp at hn⟩
        rcases hn with hn | hn
        · exact ih1.1 _ rfl name hn
        · exact ih2.1 _ rfl name hn
theorem buildFunction_sound (h : Host) (b : builder) :
    ∀ (f : parse.Function) (n : Nat),
      (∀ r, builder.buildFunction h b f n = .ok r →
        ∀ name ∈ f.calls, builder.refuses b.funcs name = none) ∧
      (∀ name, builder.buildFunction h b f n = .error (.error (.noSuchFunction name)) →
        name ∈ f.calls ∧ mapaccess b.funcs name = none)
  | .mk fname args, n => by
    have ih := buildValues_sound h b args n
    rw [buildFunction_eq]
    simp only [parse.Function.calls, List.mem_cons]
    cases hr : builder.refuses b.funcs fname with
    | some p =>
      simp only []
      refine ⟨fun r hr => by simp at hr, fun name hn => ?_⟩
      simp only [Except.error.injEq] at hn
      subst hn
      simp only [builder.refuses] at hr
      cases hm : mapaccess b.funcs fname with
      | none =>
        simp only [hm, Option.some.injEq, PanicValue.error.injEq, Error.noSuchFunction.injEq] at hr
        subst hr
        exact ⟨Or.inl rfl, hm⟩
      | some fn =>
        simp only [hm] at hr
        split at hr <;> simp at hr
    | none =>
      simp only []
      cases hm : mapaccess b.funcs fname with
      | none => simp [builder.refuses, hm] at hr
      | some fn =>
        simp only []
        cases hb : builder.buildValues h b args n with
        | error p =>
          simp only [hb] at ih ⊢
          refine ⟨fun r hr => by simp at hr, fun name hn => ?_⟩
          have hn' := ih.2 name (congrArg Except.error (Except.error.inj hn))
          exact ⟨Or.inr hn'.1, hn'.2⟩
        | ok r2 =>
          obtain ⟨res, n2⟩ := r2
          simp only [hb] at ih ⊢
          refine ⟨fun r _ name hn => ?_, fun name hn => by simp at hn⟩
          rcases hn with hn | hn
          · rw [hn]; exact hr
          · exact ih.1 _ rfl name hn
end

theorem buildQuery_accepted (h : Host) (b : builder) (q : String) (n : Nat)
    (hq : h.Parse ("\x7b" ++ q ++ "\x7d") = none) :
    builder.buildQuery h b q n = .ok (⟨⟨n, "\x7b" ++ q ++ "\x7d"⟩⟩, n + 1) := by
  simp [builder.buildQuery, hq]

mutual
theorem buildValue_complete (h : Host) (b : builder) :
    ∀ (v : parse.Value), v.populated = true →
      (∀ q ∈ v.queries, h.Parse ("\x7b" ++ q ++ "\x7d") = none) → ∀ (n : Nat),
      (∀ p, v.calls.findSome? (builder.refuses b.funcs) = some p →
        builder.buildValue h b v n = .error p) ∧
      (v.calls.findSome? (builder.refuses b.funcs) = none →
        ∃ r, builder.buildValue h b v n = .ok r)
  | .mk (some s) _ _ _ _ _ _ _ _, _, _, n => by
    simp [builder.buildValue, parse.Value.calls]
  | .mk none (some x) _ _ _ _ _ _ _, _, _, n => by
    simp [builder.buildValue, parse.Value.calls]
  | .mk none none _ _ (some x) _ _ _ _, _, _, n => by
    simp [builder.buildValue, parse.Value.calls]
  | .mk none none _ _ none true _ _ _, _, _, n => by
    simp [builder.buildValue, parse.Value.calls]
  | .mk none none (some o) _ none false _ _ _, hp, hQ, n => by
    simp only [parse.Value.populated] at hp
    simp only [parse.Value.queries] at hQ
    have ih := buildObject_complete h b o hp hQ n
    simp only [builder.buildValue, parse.Value.calls]
    refine ⟨fun p hf => ?_, fun hf => ?_⟩
    · simp only [ih.1 p hf]
    · obtain ⟨r, hr⟩ := ih.2 hf
      obtain ⟨res, n1⟩ := r
      simp only [hr]
      exact ⟨_, rfl⟩
  | .mk none none none (some a) none false _ _ _, hp, hQ, n => by
    simp only [parse.Value.populated] at hp
    simp only [parse.Value.queries] at hQ
    have ih := buildValues_complete h b a hp hQ n
    simp only [builder.buildValue, parse.Value.calls]
    refine ⟨fun p hf => ?_, fun hf => ?_⟩
    · simp only [ih.1 p hf]
    · obtain ⟨r, hr⟩ := ih.2 hf
      obtain ⟨res, n1⟩ := r
      simp only [hr]
      exact ⟨_, rfl⟩
  | .mk none none none none none false (some (.mk range sub)) _ _, hp, hQ, n => by
    simp only [parse.Value.populated] at hp
    simp only [parse.Value.queries, List.mem_cons] at hQ
    have ih := buildValue_complete h b sub hp (fun q hq => hQ q (Or.inr hq)) (n + 1)
    simp only [builder.buildValue, parse.Value.calls,
      buildQuery_accepted h b range n (hQ range (Or.inl rfl))]
    refine ⟨fun p hf => ?_, fun hf => ?_⟩
    · simp only [ih.1 p hf]
    · obtain ⟨r, hr⟩ := ih.2 hf
      obtain ⟨res, n1⟩ := r
      simp only [hr]
      exact ⟨_, rfl⟩
  | .mk none none none none none false none (some q) _, _, hQ, n => by
    simp only [parse.Value.queries, List.mem_singleton] at hQ
    simp [builder.buildValue, parse.Value.calls, buildQuery_accepted h b q n (hQ q rfl)]
  | .mk none none none none none false none none (some f), hp, hQ, n => by
    simp only [parse.Value.populated] at hp
    simp only [parse.Value.queries] at hQ
    have ih := buildFunction_complete h b f hp hQ n
    simp only [builder.buildValue, parse.Value.calls]
    exact ih
  | .mk none none none none none false none none none, hp, _, n => by
    simp [parse.Value.populated] at hp
theorem buildObject_complete (h : Host) (b : builder) :
    ∀ (o : parse.Object), o.populated = true →
      (∀ q ∈ o.queries, h.Parse ("\x7b" ++ q ++ "\x7d") = none) → ∀ (n : Nat),
      (∀ p, o.calls.findSome? (builder.refuses b.funcs) = some p →
        builder.buildObject h b o n = .error p) ∧
      (o.calls.findSome? (builder.refuses b.funcs) = none →
        ∃ r, builder.buildObject h b o n = .ok r)
  | .mk fields, hp, hQ, n => by
    simp only [parse.Object.populated] at hp
    simp only [parse.Object.queries] at hQ
    simp only [builder.buildObject, parse.Object.calls]
    exact buildFields_complete h b fields hp hQ [] n
theorem buildFields_complete (h : Host) (b : builder) :
    ∀ (fs : List parse.AnnotatedField), parse.Value.populatedFields fs = true →
      (∀ q ∈ parse.Value.queriesOfFields fs, h.Parse ("\x7b" ++ q ++ "\x7d") = none) →
      ∀ (res : object) (n : Nat),
      (∀ p, (parse.Value.callsOfFields fs).findSome? (builder.refuses b.funcs) = some p →
        builder.buildFields h b fs res n = .error p) ∧
      ((parse.Value.callsOfFields fs).findSome? (builder.refuses b.funcs) = none →
        ∃ r, builder.buildFields h b fs res n = .ok r)
  | [], _, _, res, n => by simp [builder.buildFields, parse.Value.callsOfFields]
  | (.mk ann key v) :: rest, hp, hQ, res, n => by
    simp only [parse.Value.populatedFields, Bool.and_eq_true] at hp
    simp only [parse.Value.queriesOfFields, List.mem_append] at hQ
    have ih1 := buildValue_complete h b v hp.1 (fun q hq => hQ q (Or.inl hq)) n
    simp only [builder.buildFields, parse.Value.callsOfFields, List.findSome?_append]
    cases hf1 : v.calls.findSome? (builder.refuses b.funcs) with
    | some p1 =>
      simp only [Option.or, Option.some.injEq, ih1.1 p1 hf1]
      exact ⟨fun p hp => by rw [hp], fun hc => by simp at hc⟩
    | none =>
      obtain ⟨r, hr⟩ := ih1.2 hf1
      obtain ⟨templ, n1⟩ := r
      simp only [Option.or, hr]
      exact buildFields_complete h b rest hp.2 (fun q hq => hQ q (Or.inr hq)) _ n1
theorem buildValues_complete (h : Host) (b : builder) :
    ∀ (vs : List parse.Value), parse.Value.populatedValues vs = true →
      (∀ q ∈ parse.Value.queriesOfValues vs, h.Parse ("\x7b" ++ q ++ "\x7d") = none) →
      ∀ (n : Nat),
      (∀ p, (parse.Value.callsOfValues vs).findSome? (builder.refuses b.funcs) = some p →
        builder.buildValues h b vs n = .error p) ∧
      ((parse.Value.callsOfValues vs).findSome? (builder.refuses b.funcs) = none →
        ∃ r, builder.buildValues h b vs n = .ok r)
  | [], _, _, n => by simp [builder.buildValues, parse.Value.callsOfValues]
  | v :: rest, hp, hQ, n => by
    simp only [parse.Value.populatedValues, Bool.and_eq_true] at hp
    simp only [parse.Value.queriesOfValues, List.mem_append] at hQ
    have ih1 := buildValue_complete h b v hp.1 (fun q hq => hQ q (Or.inl hq)) n
    simp only [builder.buildValues, parse.Value.callsOfValues, List.findSome?_append]
    cases hf1 : v.calls.findSome? (builder.refuses b.funcs) with
    | some p1 =>
      simp only [Option.or, Option.some.injEq, ih1.1 p1 hf1]
      exact ⟨fun p hp => by rw [hp], fun hc => by simp at hc⟩
    | none =>
      obtain ⟨r, hr⟩ := ih1.2 hf1
      obtain ⟨templ, n1⟩ := r
      have ih2 := buildValues_complete h b rest hp.2 (fun q hq => hQ q (Or.inr hq)) n1
      simp only [Option.or, hr]
      refine ⟨fun p hf => ?_, fun hf => ?_⟩
      · simp only [ih2.1 p hf]
      · obtain ⟨r2, hr2⟩ := ih2.2 hf
        obtain ⟨res, n2⟩ := r2
        simp only [hr2]
        exact ⟨_, rfl⟩
theorem buildFunction_complete (h : Host) (b : builder) :
    ∀ (f : parse.Function), f.populated = true →
      (∀ q ∈ f.queries, h.Parse ("\x7b" ++ q ++ "\x7d") = none) → ∀ (n : Nat),
      (∀ p, f.calls.findSome? (builder.refuses b.funcs) = some p →
        builder.buildFunction h b f n = .error p) ∧
      (f.calls.findSome? (builder.refuses b.funcs) = none →
        ∃ r, builder.buildFunction h b f n = .ok r)
  | .mk fname args, hp, hQ, n => by
    simp only [parse.Function.populated] at hp
    simp only [parse.Function.queries] at hQ
    have ih := buildValues_complete h b args hp hQ n
    rw [buildFunction_eq]
    simp only [parse.Function.calls, List.findSome?_cons]
    cases hr : builder.refuses b.funcs fname with
    | some p1 =>
      simp only [Option.some.injEq]
      exact ⟨fun p hp => by rw [hp], fun hc => by simp at hc⟩
    | none =>
      simp only []
      cases hm : mapaccess b.funcs fname with
      | none => simp [builder.refuses, hm] at hr
      | some fn =>
        simp only []
        refine ⟨fun p hf => ?_, fun hf => ?_⟩
        · simp only [ih.1 p hf]
        · obtain ⟨r2, hr2⟩ := ih.2 hf
          obtain ⟨res, n2⟩ := r2
          simp only [hr2]
          exact ⟨_, rfl⟩
end

theorem findSome_at {α β : Type} (f : α → Option β) (pre : List α) (x : α) (post : List α)
    (b : β) (hpre : ∀ c ∈ pre, f c = none) (hx : f x = some b) :
    (pre ++ x :: post).findSome? f = some b := by
  induction pre with
  | nil => simp [List.findSome?, hx]
  | cons c cs ih =>
    have hc : f c = none := hpre c (List.mem_cons_self _ _)
    simp only [List.cons_append, List.findSome?, hc]
    exact ih fun d hd => hpre d (List.mem_cons_of_mem _ hd)

theorem Parse_build_eq (h : Host) (ast : parse.Template) (funcs : FunctionMap) :
    Parse.build h ast funcs =
      match builder.buildValue h ⟨funcs⟩ ast.Root 0 with
      | .ok (definition, _) => .ok ⟨definition, 0⟩
      | .error (.other r) => .panic ("jsontemplate: panic during parsing: " ++ r)
      | .error (.error e) => .err (.error e)
      | .error (.runtimeError m) => .err (.runtimeError m) := by
  unfold Parse.build
  cases builder.buildValue h ⟨funcs⟩ ast.Root 0 with
  | ok r => rfl
  | error p => cases p <;> rfl

/-- C12 (amended): when the syntax tree calls a name that is not a key of the
registry, `Parse` returns no Template; an error "no such function" that it
returns names a function that the tree calls and the registry lacks; and it
returns the error naming `name` when that call is the first one, in build
order, whose name the registry does not map to a function, the JSONPath
engine accepts every query of the tree (each in the braces in which
`builder.buildQuery` hands it over) and every Value of the tree has a
variant. -/
theorem unknown_function_fails_build (h : Host) (ast : parse.Template) (funcs : FunctionMap)
    (name : String) (hin : name ∈ ast.Root.calls) (hun : mapaccess funcs name = none) :
    (∀ t, Parse.build h ast funcs ≠ .ok t) ∧
    (∀ e, Parse.build h ast funcs = .err (.error (.noSuchFunction e)) →
      e ∈ ast.Root.calls ∧ mapaccess funcs e = none) ∧
    (∀ pre post, ast.Root.calls = pre ++ name :: post →
      (∀ c ∈ pre, builder.refuses funcs c = none) →
      (∀ q ∈ ast.Root.queries, h.Parse ("\x7b" ++ q ++ "\x7d") = none) →
      ast.Root.populated = true →
      Parse.build h ast funcs = .err (.error (.noSuchFunction name))) := by
  have hs := buildValue_sound h ⟨funcs⟩ ast.Root 0
  rw [Parse_build_eq]
  refine ⟨fun t ht => ?_, fun e he => ?_, fun pre post hc hpre hQ hp => ?_⟩
  · cases hb : builder.buildValue h ⟨funcs⟩ ast.Root 0 with
    | error p => rw [hb] at ht; cases p <;> simp at ht
    | ok r =>
      have := hs.1 r hb name hin
      rw [builder_refuses_unknown funcs name hun] at this
      cases this
  · cases hb : builder.buildValue h ⟨funcs⟩ ast.Root 0 with
    | ok r => rw [hb] at he; simp at he
    | error p =>
      rw [hb] at he
      cases p with
      | runtimeError m => simp at he
      | other m => simp at he
      | error e1 =>
        simp only [ParseResult.err.injEq, PanicValue.error.injEq] at he
        subst he
        exact hs.2 e hb
  · have hf := findSome_at (builder.refuses funcs) pre name post _ hpre
      (builder_refuses_unknown funcs name hun)
    rw [← hc] at hf
    rw [(buildValue_complete h ⟨funcs⟩ ast.Root hp hQ 0).1 _ hf]

/-- C13 (amended): when the first call, in build order, that the builder
refuses is a call of a name that the registry maps to a value that is not a
function (the JSONPath engine accepting every query of the tree, each in the
braces in which `builder.buildQuery` hands it over, and every Value having a
variant), `Parse` returns nothing: the builder panics with the string
"<name> is not a function", and the recover of `Parse` panics again with
"jsontemplate: panic during parsing: <name> is not a function". No error value
is returned. -/
theorem not_callable_panics (h : Host) (ast : parse.Template) (funcs : FunctionMap)
    (name : String) (fn : GoValue) (pre post : List String)
    (hcalls : ast.Root.calls = pre ++ name :: post)
    (hpre : ∀ c ∈ pre, builder.refuses funcs c = none)
    (hfn : mapaccess funcs name = some fn) (hk : reflect.KindOf fn ≠ some reflect.Kind.Func)
    (hQ : ∀ q ∈ ast.Root.queries, h.Parse ("\x7b" ++ q ++ "\x7d") = none)
    (hp : ast.Root.populated = true) :
    Parse.build h ast funcs =
        .panic ("jsontemplate: panic during parsing: " ++ (name ++ " is not a function")) ∧
      ∀ e, Parse.build h ast funcs ≠ .err e := by
  have hr : builder.refuses funcs name = some (.other (name ++ " is not a function")) := by
    simp [builder.refuses, hfn, hk]
  have hf := findSome_at (builder.refuses funcs) pre name post _ hpre hr
  rw [← hcalls] at hf
  rw [Parse_build_eq, (buildValue_complete h ⟨funcs⟩ ast.Root hp hQ 0).1 _ hf]
  exact ⟨rfl, fun e he => by cases he⟩

/-! ### A failure inside a render -/

theorem object_fails_at (h : Host) (d : GoValue) (opt : options) (name : String) (f : field)
    (post : List (String × field)) (p : PanicValue) (w1 w2 : World)
    (res1 : List (String × GoValue))
    (hf : f.value.interpolate h d opt w1 = (.error p, w2)) :
    ∀ (pre : List (String × field)) (res : List (String × GoValue)) (w : World),
      object.interpolate h pre d opt res w = (.ok res1, w1) →
      object.interpolate h (pre ++ (name, f) :: post) d opt res w = (.error p, w2) := by
  intro pre
  induction pre with
  | nil =>
    intro res w hpre
    simp only [object.interpolate, Prod.mk.injEq, Except.ok.injEq] at hpre
    obtain ⟨_, rfl⟩ := hpre
    obtain ⟨value, ann⟩ := f
    simp only [field.value] at hf
    simp only [List.nil_append, object.interpolate, hf]
  | cons e pre ih =>
    intro res w hpre
    obtain ⟨k, g⟩ := e
    obtain ⟨value, ann⟩ := g
    simp only [object.interpolate] at hpre
    rcases hx : template.interpolate h value d opt w with ⟨x, wa⟩
    rw [hx] at hpre
    cases x with
    | error q => simp at hpre
    | ok v =>
      simp only [] at hpre
      rw [List.cons_append, object.interpolate, hx]
      exact ih _ wa hpre

theorem array_fails_at (h : Host) (d : GoValue) (opt : options) (a : template)
    (post : List template) (p : PanicValue) (w1 w2 : World)
    (hf : a.interpolate h d opt w1 = (.error p, w2)) :
    ∀ (pre : List template) (vs : List GoValue) (w : World),
      array.interpolate h pre d opt w = (.ok vs, w1) →
      array.interpolate h (pre ++ a :: post) d opt w = (.error p, w2) := by
  intro pre
  induction pre with
  | nil =>
    intro vs w hpre
    simp only [array.interpolate, Prod.mk.injEq, Except.ok.injEq] at hpre
    obtain ⟨_, rfl⟩ := hpre
    simp only [List.nil_append, array.interpolate, hf]
  | cons e pre ih =>
    intro vs w hpre
    simp only [array.interpolate] at hpre
    rcases hx : template.interpolate h e d opt w with ⟨x, wa⟩
    rw [hx] at hpre
    cases x with
    | error q => simp at hpre
    | ok v =>
      simp only [] at hpre
      rcases hy : array.interpolate h pre d opt wa with ⟨y, wb⟩
      rw [hy] at hpre
      cases y with
      | error q => simp at hpre
      | ok us =>
        simp only [Prod.mk.injEq, Except.ok.injEq] at hpre
        obtain ⟨_, rfl⟩ := hpre
        rw [List.cons_append, array.interpolate, hx]
        simp only [ih us wa hy]

theorem generator_range_fails_at
    (body : GoValue → World → Except PanicValue GoValue × World)
    (v : reflect.Value) (post : List reflect.Value) (inner : GoValue) (p : PanicValue)
    (w1 w2 : World)
    (hin : (if v.IsValid then v.Interface else .ok GoValue.nil) = .ok inner)
    (hf : body inner w1 = (.error p, w2)) :
    ∀ (pre : List reflect.Value) (rs : List GoValue) (w : World),
      generator.range body pre w = (.ok rs, w1) →
      generator.range body (pre ++ v :: post) w = (.error p, w2) := by
  intro pre
  induction pre with
  | nil =>
    intro rs w hpre
    simp only [generator.range, Prod.mk.injEq, Except.ok.injEq] at hpre
    obtain ⟨_, rfl⟩ := hpre
    simp only [List.nil_append, generator.range, hin, hf]
  | cons e pre ih =>
    intro rs w hpre
    simp only [generator.range] at hpre
    rw [List.cons_append, generator.range]
    cases hz : (if e.IsValid then e.Interface else .ok GoValue.nil) with
    | error q => rw [hz] at hpre; simp at hpre
    | ok x0 =>
      rw [hz] at hpre
      simp only [] at hpre ⊢
      rcases hx : body x0 w with ⟨x, wa⟩
      rw [hx] at hpre
      cases x with
      | error q => simp at hpre
      | ok r =>
        simp only [] at hpre ⊢
        rcases hy : generator.range body pre wa with ⟨y, wb⟩
        rw [hy] at hpre
        cases y with
        | error q => simp at hpre
        | ok us =>
          simp only [Prod.mk.injEq, Except.ok.injEq] at hpre
          obtain ⟨_, rfl⟩ := hpre
          simp only [ih us wa hy]

theorem failure_propagates (h : Host) (opt : options) (t : template) (d : GoValue) (w : World)
    (t' : template) (d' : GoValue) (w' : World) (p : PanicValue) (w2 : World)
    (hr : Reaches h opt t d w t' d' w')
    (hf : t'.interpolate h d' opt w' = (.error p, w2)) :
    t.interpolate h d opt w = (.error p, w2) := by
  induction hr with
  | here t d w => exact hf
  | ofField pre name f post d w res1 w1 t' d' w' hpre _ ih =>
    have := object_fails_at h d opt name f post p w1 w2 res1 (ih hf) pre [] w hpre
    simp only [template.interpolate, this]
  | ofElement pre a post d w vs w1 t' d' w' hpre _ ih =>
    have := array_fails_at h d opt a post p w1 w2 (ih hf) pre vs w hpre
    simp only [template.interpolate, this]
  | ofArgument name fn pre a post d w vals w1 t' d' w' hpre _ ih =>
    have := (function_interpolate_at h name fn pre a post d opt w vals w1 hpre).2
    rw [this, ih hf]
  | ofHit over templ d w pre v post more w0 rs w1 inner t' d' w' hn1 hn2 hfind hpre hin _ ih =>
    have := generator_range_fails_at (fun inner w => template.interpolate h templ inner opt w)
      v post inner p w1 w2 hin (ih hf) pre rs w0 hpre
    simp only [template.interpolate, generator.interpolate, hn1, hn2, Bool.false_eq_true,
      if_false, hfind, this]

/-- C14: if the evaluation of a node that the render reaches (the root, a
field of an object, an element of an array, an argument of a call or the
sub-template of a generator on one of its matches, nested to any depth, the
nodes evaluated before it having succeeded) panics, then `Render` returns the
nil result together with an error. -/
theorem render_fails_as_a_whole (h : Host) (t : Template) (data : GoValue) (w : World)
    (t' : template) (d' : GoValue) (w' : World) (p : PanicValue) (w2 : World)
    (hr : Reaches h ⟨t.MissingKeys⟩ t.definition data w t' d' w')
    (hf : t'.interpolate h d' ⟨t.MissingKeys⟩ w' = (.error p, w2)) :
    ∃ e, (t.Render h data w).1 = (GoValue.nil, some e) := by
  have := failure_propagates h ⟨t.MissingKeys⟩ t.definition data w t' d' w' p w2 hr hf
  unfold Template.Render
  rw [this]
  cases p with
  | runtimeError r => exact ⟨_, rfl⟩
  | error r => exact ⟨_, rfl⟩
  | other r => exact ⟨_, rfl⟩

/-! ### Plain JSON, arrays and generators -/

mutual
theorem json_interpolate (h : Host) (d : GoValue) (o : options) :
    ∀ (t : template) (v : GoValue) (w : World), t.json = some v →
      t.interpolate h d o w = (.ok v, w)
  | .stringConstant s, v, w, hv => by
    simp only [template.json, Option.some.injEq] at hv
    subst hv
    simp [template.interpolate]
  | .boolConstant s, v, w, hv => by
    simp only [template.json, Option.some.injEq] at hv
    subst hv
    simp [template.interpolate]
  | .numberConstant s, v, w, hv => by
    simp only [template.json, Option.some.injEq] at hv
    subst hv
    simp [template.interpolate]
  | .nullConstant, v, w, hv => by
    simp only [template.json, Option.some.injEq] at hv
    subst hv
    simp [template.interpolate]
  | .object fs, v, w, hv => by
    simp only [template.json] at hv
    cases hk : template.jsonFields fs [] with
    | none => simp [hk] at hv
    | some kvs =>
      simp only [hk, Option.some.injEq] at hv
      subst hv
      simp only [template.interpolate, jsonFields_interpolate h d o fs [] kvs w hk]
  | .array a, v, w, hv => by
    simp only [template.json] at hv
    cases hk : template.jsonElements a with
    | none => simp [hk] at hv
    | some vs =>
      simp only [hk, Option.some.injEq] at hv
      subst hv
      simp only [template.interpolate, jsonElements_interpolate h d o a vs w hk]
  | .query q, v, w, hv => by simp [template.json] at hv
  | .generator g, v, w, hv => by simp [template.json] at hv
  | .function f, v, w, hv => by simp [template.json] at hv
theorem jsonFields_interpolate (h : Host) (d : GoValue) (o : options) :
    ∀ (fs : List (String × field)) (res kvs : List (String × GoValue)) (w : World),
      template.jsonFields fs res = some kvs →
      object.interpolate h fs d o res w = (.ok kvs, w)
  | [], res, kvs, w, hk => by
    simp only [template.jsonFields, Option.some.injEq] at hk
    subst hk
    simp [object.interpolate]
  | (name, .mk value ann) :: rest, res, kvs, w, hk => by
    simp only [template.jsonFields] at hk
    cases hv : template.json value with
    | none => simp [hv] at hk
    | some v =>
      simp only [hv] at hk
      simp only [object.interpolate, json_interpolate h d o value v w hv]
      exact jsonFields_interpolate h d o rest _ kvs w hk
theorem jsonElements_interpolate (h : Host) (d : GoValue) (o : options) :
    ∀ (a : List template) (vs : List GoValue) (w : World),
      template.jsonElements a = some vs →
      array.interpolate h a d o w = (.ok vs, w)
  | [], vs, w, hk => by
    simp only [template.jsonElements, Option.some.injEq] at hk
    subst hk
    simp [array.interpolate]
  | templ :: rest, vs, w, hk => by
    simp only [template.jsonElements] at hk
    cases hv : template.json templ with
    | none => simp [hv] at hk
    | some v =>
      simp only [hv] at hk
      cases hr : template.jsonElements rest with
      | none => simp [hr] at hk
      | some us =>
        simp only [hr, Option.some.injEq] at hk
        subst hk
        simp only [array.interpolate, json_interpolate h d o templ v w hv,
          jsonElements_interpolate h d o rest us w hr]
end

/-- C15: a tree built from constants, arrays and objects only evaluates, for
every host, input, policy and world, to the JSON value it denotes, and leaves
the world as it was; a constant evaluates to its value. -/
theorem plain_json_evaluates_to_itself (t : template) (v : GoValue) (hv : t.json = some v) :
    (∀ (h : Host) (data : GoValue) (opt : options) (w : World),
      t.interpolate h data opt w = (.ok v, w)) ∧
    (∀ (h : Host) (data : GoValue) (opt : options) (w : World),
      (∀ s, (template.stringConstant s).interpolate h data opt w = (.ok (GoValue.string s), w)) ∧
      (∀ n, (template.numberConstant n).interpolate h data opt w
        = (.ok (GoValue.float64 n), w)) ∧
      (∀ b, (template.boolConstant b).interpolate h data opt w = (.ok (GoValue.bool b), w)) ∧
      template.nullConstant.interpolate h data opt w = (.ok GoValue.nil, w)) := by
  refine ⟨fun h data opt w => json_interpolate h data opt t v w hv, ?_⟩
  intro h data opt w
  exact ⟨fun _ => rfl, fun _ => rfl, fun _ => rfl, rfl⟩

theorem array_interpolate_of_results (h : Host) (d : GoValue) (o : options) :
    ∀ (a : List template) (w : World),
      (∀ t ∈ a, ∃ w0 v, (template.interpolate h t d o w0).1 = .ok v) →
      ∃ vs w', array.interpolate h a d o w = (.ok vs, w') ∧
        List.Forall₂ (fun (t : template) (v : GoValue) =>
          ∀ w0, (t.interpolate h d o w0).1 = .ok v) a vs := by
  intro a
  induction a with
  | nil => intro w _; exact ⟨[], w, by simp [array.interpolate], List.Forall₂.nil⟩
  | cons t a ih =>
    intro w hok
    obtain ⟨w0, v, hv⟩ := hok t (List.mem_cons_self _ _)
    have hv' : ∀ w1, (template.interpolate h t d o w1).1 = .ok v := by
      intro w1
      rw [template_interpolate_fst h t d o w1 w0]
      exact hv
    rcases hx : template.interpolate h t d o w with ⟨x, w1⟩
    have h1 := hv' w
    rw [hx] at h1
    simp only at h1
    subst h1
    obtain ⟨vs, w', hrun, hrel⟩ := ih w1 (fun u hu => hok u (List.mem_cons_of_mem _ hu))
    refine ⟨v :: vs, w', ?_, List.Forall₂.cons hv' hrel⟩
    rw [array.interpolate, hx]
    simp only [hrun]

/-- C16: when every element node of an Array node evaluates successfully on
the input under the policy, the Array node evaluates to a `[]interface{}` with
as many values as there are element nodes, the i-th of them the result of the
i-th element node on the same input under the same policy; the Array node
without elements evaluates to the empty `[]interface{}`, not to nil. -/
theorem array_interpolate_preserves_order (h : Host) (a : List template) (data : GoValue)
    (opt : options) (w : World)
    (hok : ∀ t ∈ a, ∃ w0 v, (template.interpolate h t data opt w0).1 = .ok v) :
    (∃ vs w', (template.array a).interpolate h data opt w
          = (.ok (GoValue.slice GoType.iface vs), w') ∧
        vs.length = a.length ∧
        List.Forall₂ (fun (t : template) (v : GoValue) =>
          ∀ w0, (t.interpolate h data opt w0).1 = .ok v) a vs) ∧
    (template.array []).interpolate h data opt w = (.ok (GoValue.slice GoType.iface []), w) := by
  refine ⟨?_, rfl⟩
  obtain ⟨vs, w', hrun, hrel⟩ := array_interpolate_of_results h data opt a w hok
  exact ⟨vs, w', by simp only [template.interpolate, hrun], hrel.length_eq.symm, hrel⟩

/-- C17: on a non-nil input for which the JSONPath engine resolves the
expression to no match, a Generator node evaluates to the empty
`[]interface{}`, whatever its sub-template, and a Query node on the same
expression to nil. -/
theorem generator_of_no_match_is_empty (h : Host) (over : query) (templ : template)
    (data : GoValue) (opt : options) (w : World) (more : List (List reflect.Value))
    (hdata : data ≠ GoValue.nil)
    (hfind : h.FindResults over.expression.text (decide (opt.MissingKeys = NullOnMissing)) data
      = .ok ([] :: more)) :
    ((template.generator (.mk over templ)).interpolate h data opt w).1
        = .ok (GoValue.slice GoType.iface []) ∧
    ((template.query over).interpolate h data opt w).1 = .ok GoValue.nil := by
  constructor
  · simp only [template.interpolate, generator_interpolate_of_hits h over templ data opt w hdata,
      hfind, generator.range]
  · simp only [template.interpolate, query_interpolate_of_hits h over data opt w hdata, hfind]

/-! ### The policy of a Template -/

theorem Parse_ok_policy (h : Host) (unquote : String → Option String) (source : String)
    (funcs : FunctionMap) (t : Template) (hp : Parse h unquote source funcs = .ok t) :
    t.MissingKeys = NullOnMissing := by
  unfold Parse at hp
  cases hq : parse.Parser.Parse unquote source with
  | error e => rw [hq] at hp; cases hp
  | ok ast =>
    rw [hq] at hp
    simp only [Parse.build] at hp
    cases hb : builder.buildValue h ⟨funcs⟩ ast.Root 0 with
    | error p =>
      rw [hb] at hp
      cases p <;> cases hp
    | ok r =>
      rw [hb] at hp
      simp only [ParseResult.ok.injEq] at hp
      rw [← hp]
      rfl

/-- C18: a Template that `Parse` returns has the policy `NullOnMissing`.
`Render` evaluates the root node under the policy stored in the Template at
that moment: it succeeds with the result of the root node under that policy,
fails when the root node panics under it, and its outcome does not depend on
the flags that earlier renders left in the JSONPath expressions. So for a
root Query on the nil input the render gives nil under `NullOnMissing` and the
error "cannot execute query, input is null" once the policy is set to
`ErrorOnMissing`. -/
theorem render_uses_stored_policy (h : Host) (unquote : String → Option String)
    (source : String) (funcs : FunctionMap) (t : Template)
    (hp : Parse h unquote source funcs = .ok t) :
    t.MissingKeys = NullOnMissing ∧
    (∀ (policy : MissingKeyPolicy) (data : GoValue) (w : World),
      (∀ res w1, t.definition.interpolate h data ⟨policy⟩ w = (.ok res, w1) →
        Template.Render h ⟨t.definition, policy⟩ data w = ((res, none), w1)) ∧
      (∀ p w1, t.definition.interpolate h data ⟨policy⟩ w = (.error p, w1) →
        ∃ e, (Template.Render h ⟨t.definition, policy⟩ data w).1 = (GoValue.nil, some e)) ∧
      (∀ w', (Template.Render h ⟨t.definition, policy⟩ data w').1 =
        (Template.Render h ⟨t.definition, policy⟩ data w).1)) ∧
    (∀ q w, t.definition = .query q →
      (Template.Render h ⟨t.definition, NullOnMissing⟩ GoValue.nil w).1 = (GoValue.nil, none) ∧
      (Template.Render h ⟨t.definition, ErrorOnMissing⟩ GoValue.nil w).1 =
        (GoValue.nil, some (.recovered .queryNullInput))) := by
  refine ⟨Parse_ok_policy h unquote source funcs t hp, fun policy data w => ⟨?_, ?_, ?_⟩, ?_⟩
  · intro res w1 hi
    simp only [Template.Render, hi]
  · intro p w1 hi
    simp only [Template.Render, hi]
    cases p <;> exact ⟨_, rfl⟩
  · intro w'
    have hf := template_interpolate_fst h t.definition data ⟨policy⟩ w' w
    simp only [Template.Render]
    generalize t.definition.interpolate h data ⟨policy⟩ w' = r' at hf
    generalize t.definition.interpolate h data ⟨policy⟩ w = r at hf
    obtain ⟨a', b'⟩ := r'
    obtain ⟨a, b⟩ := r
    simp only at hf
    subst hf
    cases a' with
    | ok v => rfl
    | error p => cases p <;> rfl
  · intro q w hq
    rw [hq]
    constructor <;>
      simp [Template.Render, template.interpolate, query.interpolate, GoValue.isNil,
        NullOnMissing, ErrorOnMissing]

/-! ### Source texts of whitespace and comments -/

theorem lexNext_whitespace (c : Char) (cs : List Char) (hc : parse.whitespace c = true) :
    parse.lexNext (c :: cs) = some (⟨.Whitespace, String.mk [c]⟩, cs) := by
  have h4 : c = ' ' ∨ c = Char.ofNat 9 ∨ c = parse.newline ∨ c = Char.ofNat 13 := by
    simpa [parse.whitespace] using hc
  rcases h4 with h | h | h | h <;> subst h <;> cases cs <;> rfl

theorem lexNext_comment (cs : List Char) :
    parse.lexNext ('#' :: cs) =
      some (⟨.Comment, String.mk ('#' :: cs.takeWhile parse.commentChar)⟩,
        cs.dropWhile parse.commentChar) := by
  rfl

theorem blankFrom_dropWhile (cs : List Char) (hb : parse.blankFrom true cs = true) :
    parse.blankFrom false (cs.dropWhile parse.commentChar) = true := by
  induction cs with
  | nil => rfl
  | cons c cs ih =>
    by_cases hn : c = parse.newline
    · subst hn
      have : parse.commentChar parse.newline = false := by decide
      simp only [List.dropWhile, this]
      simp only [parse.blankFrom, if_true] at hb
      have hw : parse.whitespace parse.newline = true := by decide
      simp only [parse.blankFrom, hw, if_true]
      exact hb
    · simp only [parse.blankFrom, hn, if_false] at hb
      by_cases ha : parse.any c = true
      · simp only [ha, if_true] at hb
        have : parse.commentChar c = true := by
          simp [parse.commentChar, ha, hn]
        simp only [List.dropWhile, this]
        exact ih hb
      · simp [ha] at hb

theorem elide_blank :
    ∀ (ts : List parse.Token), (∀ s ∈ ts.map (fun t => t.symbol), s = .Whitespace ∨ s = .Comment) →
      parse.elide ts = []
  | [], _ => rfl
  | t :: ts, h => by
    have ht : t.symbol = .Whitespace ∨ t.symbol = .Comment := h _ (by simp)
    have hrest := elide_blank ts fun s hs => h s (by simp at hs ⊢; exact Or.inr hs)
    simp only [parse.elide] at hrest ⊢
    rw [List.filter_cons, hrest]
    rcases ht with ht | ht <;> simp [ht]

theorem lexAll_blank_tokens (n : Nat) :
    ∀ cs, cs.length ≤ n → parse.blankFrom false cs = true →
      ∃ ts, parse.lexAll n cs = some ts ∧
        ∀ t ∈ ts, t.symbol = .Whitespace ∨ t.symbol = .Comment := by
  induction n with
  | zero =>
    intro cs hlen _
    cases cs with
    | nil => exact ⟨[], rfl, by simp⟩
    | cons c cs => simp at hlen
  | succ n ih =>
    intro cs hlen hb
    cases cs with
    | nil => exact ⟨[], rfl, by simp⟩
    | cons c cs =>
      simp only [List.length_cons, Nat.add_le_add_iff_right] at hlen
      by_cases hw : parse.whitespace c = true
      · simp only [parse.blankFrom, hw, if_true] at hb
        simp only [parse.lexAll, lexNext_whitespace c cs hw]
        obtain ⟨ts, h, hts⟩ := ih cs hlen hb
        refine ⟨⟨.Whitespace, String.mk [c]⟩ :: ts, by simp [h], ?_⟩
        intro t ht
        rcases List.mem_cons.1 ht with rfl | ht
        · exact Or.inl rfl
        · exact hts t ht
      · simp only [parse.blankFrom, hw] at hb
        by_cases hc : c = '#'
        · subst hc
          simp only [if_true, Bool.false_eq_true, if_false] at hb
          simp only [parse.lexAll, lexNext_comment]
          obtain ⟨ts, h, hts⟩ := ih _
            (Nat.le_trans (List.dropWhile_sublist _).length_le hlen) (blankFrom_dropWhile cs hb)
          refine ⟨⟨.Comment, String.mk ('#' :: cs.takeWhile parse.commentChar)⟩ :: ts,
            by simp [h], ?_⟩
          intro t ht
          rcases List.mem_cons.1 ht with rfl | ht
          · exact Or.inr rfl
          · exact hts t ht
        · simp [hc] at hb

theorem unquoteTokens_blank (unquote : String → Option String) :
    ∀ (ts : List parse.Token), (∀ t ∈ ts, t.symbol = .Whitespace ∨ t.symbol = .Comment) →
      parse.unquoteTokens unquote ts = some ts
  | [], _ => rfl
  | t :: ts, h => by
    have ht : t.symbol ≠ .String := by
      rcases h t (List.mem_cons_self _ _) with h | h <;> rw [h] <;> decide
    simp only [parse.unquoteTokens, ht, if_false,
      unquoteTokens_blank unquote ts (fun t' ht' => h t' (List.mem_cons_of_mem _ ht'))]

theorem tokens_blank (unquote : String → Option String) (source : String)
    (hb : parse.blank source = true) : parse.tokens unquote source = .ok [] := by
  obtain ⟨ts, hl, hts⟩ := lexAll_blank_tokens source.length source.data (Nat.le_refl _) hb
  have he : parse.elide ts = [] := by
    apply elide_blank
    intro s hs
    obtain ⟨t, ht, rfl⟩ := List.mem_map.1 hs
    exact hts t ht
  simp only [parse.tokens, parse.Lex, hl, unquoteTokens_blank unquote ts hts, he]

/-- C19: on a source text that consists of whitespace and comments only (the
empty text is one), the parser is left without a token, the root node of the
grammar does not match, and `Parse` returns a parse error and no Template. -/
theorem blank_source_is_parse_error (h : Host) (unquote : String → Option String)
    (source : String) (funcs : FunctionMap) (hb : parse.blank source = true) :
    parse.tokens unquote source = .ok [] ∧
      parse.parseValue 1 [] = .noMatch ∧
      Parse h unquote source funcs = .err (.error (.parseError "unexpected token")) ∧
      (∀ t, Parse h unquote source funcs ≠ .ok t) ∧
      Parse h unquote "" funcs = .err (.error (.parseError "unexpected token")) := by
  have ht := tokens_blank unquote source hb
  have hp : Parse h unquote source funcs = .err (.error (.parseError "unexpected token")) := by
    simp only [Parse, parse.Parser.Parse, ht]
    rfl
  refine ⟨ht, rfl, hp, fun t h' => ?_, rfl⟩
  rw [hp] at h'
  cases h'

/-! ### The nodes of the grammar read only the tokens they take -/

theorem lexical_not_ident (t : parse.Token) (hl : t.lexical = true)
    (hv : t.value = "]" ∨ t.value = "\x7d" ∨ t.value = ")" ∨ t.value = "[" ∨
      t.value = "\x7b" ∨ t.value = "(") : t.symbol ≠ .Ident := by
  intro hs
  obtain ⟨sym, val⟩ := t
  simp only at hs hv
  subst hs
  rcases hv with h | h | h | h | h | h <;> subst h <;> revert hl <;> decide

theorem lexical_not_jsonpath (t : parse.Token) (hl : t.lexical = true)
    (hv : t.value = "]" ∨ t.value = "\x7d" ∨ t.value = ")" ∨ t.value = "[" ∨
      t.value = "\x7b" ∨ t.value = "(" ∨ t.value = "range") : t.symbol ≠ .JSONPath := by
  intro hs
  obtain ⟨sym, val⟩ := t
  simp only at hs hv
  subst hs
  rcases hv with h | h | h | h | h | h | h <;> subst h <;> revert hl <;> decide

theorem parseFloat_closer : strconv.ParseFloat "]" = none ∧ strconv.ParseFloat ")" = none ∧
    strconv.ParseFloat "\x7d" = none := by
  refine ⟨rfl, rfl, rfl⟩

theorem parseValue_closer (k : Nat) (c : parse.Token) (r : List parse.Token)
    (hl : c.lexical = true) (hv : c.value = "]" ∨ c.value = ")")
    (hs : c.symbol ≠ .String) : parse.parseValue (k + 1) (c :: r) = .noMatch := by
  have hi : c.symbol ≠ .Ident := lexical_not_ident c hl (by tauto)
  have hj : c.symbol ≠ .JSONPath := lexical_not_jsonpath c hl (by tauto)
  have hn : strconv.ParseFloat c.value = none := by
    rcases hv with h | h <;> rw [h] <;> rfl
  have h1 : c.value ≠ "\x7b" := by rcases hv with h | h <;> rw [h] <;> decide
  have h2 : c.value ≠ "[" := by rcases hv with h | h <;> rw [h] <;> decide
  have h3 : c.value ≠ "true" := by rcases hv with h | h <;> rw [h] <;> decide
  have h4 : c.value ≠ "false" := by rcases hv with h | h <;> rw [h] <;> decide
  have h5 : c.value ≠ "null" := by rcases hv with h | h <;> rw [h] <;> decide
  have h6 : c.value ≠ "range" := by rcases hv with h | h <;> rw [h] <;> decide
  cases r with
  | nil =>
    simp [parse.parseValue, parse.Result.orElse, parse.altString, parse.altNumber,
      parse.altObject, parse.parseObject, parse.altArray, parse.parseArray, parse.altBool,
      parse.altNull, parse.altGenerator, parse.parseGenerator, parse.altExtractor,
      parse.altFunction, parse.parseFunction, hs, hi, hj, hn, h1, h2, h3, h4, h5, h6]
  | cons o r =>
    cases r with
    | nil =>
      simp [parse.parseValue, parse.Result.orElse, parse.altString, parse.altNumber,
        parse.altObject, parse.parseObject, parse.altArray, parse.parseArray, parse.altBool,
        parse.altNull, parse.altGenerator, parse.parseGenerator, parse.altExtractor,
        parse.altFunction, parse.parseFunction, hs, hi, hj, hn, h1, h2, h3, h4, h5, h6]
    | cons o2 r =>
      simp [parse.parseValue, parse.Result.orElse, parse.altString, parse.altNumber,
        parse.altObject, parse.parseObject, parse.altArray, parse.parseArray, parse.altBool,
        parse.altNull, parse.altGenerator, parse.parseGenerator, parse.altExtractor,
        parse.altFunction, parse.parseFunction, hs, hi, hj, hn, h1, h2, h3, h4, h5, h6]

theorem parseValue_closer_string (k : Nat) (c : parse.Token) (r : List parse.Token)
    (hs : c.symbol = .String) : parse.parseValue (k + 1) (c :: r) ≠ .noMatch := by
  simp [parse.parseValue, parse.Result.orElse, parse.altString, hs]

theorem parseValue_fails_at_closer (n : Nat) (c : parse.Token) (r r' : List parse.Token)
    (hl : c.lexical = true) (hv : c.value = "]" ∨ c.value = ")")
    (h : parse.parseValue n (c :: r) = .noMatch) : parse.parseValue n (c :: r') = .noMatch := by
  cases n with
  | zero => simp [parse.parseValue] at h
  | succ k =>
    apply parseValue_closer k c r' hl hv
    intro hs
    exact parseValue_closer_string k c r hs h

theorem parseMore_stop {α : Type} (item : List parse.Token → parse.Result α) (k : Nat)
    (rest : List parse.Token)
    (h : parse.noComma rest ∨ ∃ c r, rest = c :: r ∧ item r = .noMatch) :
    parse.parseMore item (k + 1) rest = .ok [] rest := by
  cases rest with
  | nil => rfl
  | cons c r =>
    by_cases hc : c.value = ","
    · rcases h with h | ⟨c', r', he, hi⟩
      · exact absurd hc (h c r rfl)
      · simp only [List.cons.injEq] at he
        obtain ⟨rfl, rfl⟩ := he
        simp only [parse.parseMore, hc, if_true, hi]
    · simp only [parse.parseMore, hc, if_false]

theorem parseMore_stops {α : Type} (item : List parse.Token → parse.Result α) :
    ∀ (m : Nat) (ts : List parse.Token) (xs : List α) (rest : List parse.Token),
      parse.parseMore item m ts = .ok xs rest →
        parse.noComma rest ∨ ∃ c r, rest = c :: r ∧ item r = .noMatch
  | 0, ts, xs, rest, h => by simp [parse.parseMore] at h
  | m + 1, [], xs, rest, h => by
    simp only [parse.parseMore, parse.Result.ok.injEq] at h
    obtain ⟨-, rfl⟩ := h
    exact Or.inl fun t r hr => by cases hr
  | m + 1, c :: r, xs, rest, h => by
    by_cases hc : c.value = ","
    · simp only [parse.parseMore, hc, if_true] at h
      cases hi : item r with
      | ok x r1 =>
        rw [hi] at h
        simp only at h
        cases hm : parse.parseMore item m r1 with
        | ok xs1 r2 =>
          rw [hm] at h
          simp only [parse.Result.ok.injEq] at h
          obtain ⟨-, rfl⟩ := h
          exact parseMore_stops item m r1 xs1 r2 hm
        | noMatch => rw [hm] at h; cases h
        | outOfFuel => rw [hm] at h; cases h
      | noMatch =>
        rw [hi] at h
        simp only [parse.Result.ok.injEq] at h
        obtain ⟨-, rfl⟩ := h
        exact Or.inr ⟨c, r, rfl, hi⟩
      | outOfFuel => rw [hi] at h; cases h
    · simp only [parse.parseMore, hc, if_false, parse.Result.ok.injEq] at h
      obtain ⟨-, rfl⟩ := h
      exact Or.inl fun t r' hr => by
        simp only [List.cons.injEq] at hr
        obtain ⟨rfl, -⟩ := hr
        exact hc

theorem noColon_append (p rest : List parse.Token) (hp : ∀ t r, p = t :: r → t.value = ",")
    (hr : parse.noColon rest) : parse.noColon (p ++ rest) := by
  cases p with
  | nil => exact hr
  | cons t p =>
    intro t' r' he
    simp only [List.cons_append, List.cons.injEq] at he
    obtain ⟨rfl, -⟩ := he
    rw [hp t p rfl]
    decide

theorem parseMore_local {α : Type} (item : List parse.Token → parse.Result α)
    (hitem : parse.Local item) :
    ∀ (m : Nat) (ts : List parse.Token) (xs : List α) (rest : List parse.Token),
      (∀ t ∈ ts, t.lexical = true) → parse.parseMore item m ts = .ok xs rest →
        ∃ p, ts = p ++ rest ∧ (∀ t r, p = t :: r → t.value = ",") ∧
          ∀ rest', parse.noColon rest' →
            (parse.noComma rest' ∨ ∃ c r, rest' = c :: r ∧ item r = .noMatch) →
            parse.parseMore item m (p ++ rest') = .ok xs rest'
  | 0, ts, xs, rest, _, h => by simp [parse.parseMore] at h
  | m + 1, [], xs, rest, _, h => by
    simp only [parse.parseMore, parse.Result.ok.injEq] at h
    obtain ⟨rfl, rfl⟩ := h
    exact ⟨[], rfl, (fun t r hr => by cases hr), fun rest' _ hs => parseMore_stop item m rest' hs⟩
  | m + 1, c :: r, xs, rest, hwf, h => by
    have stopped : xs = [] → rest = c :: r →
        ∃ p, c :: r = p ++ rest ∧ (∀ t r, p = t :: r → t.value = ",") ∧
          ∀ rest', parse.noColon rest' →
            (parse.noComma rest' ∨ ∃ c r, rest' = c :: r ∧ item r = .noMatch) →
            parse.parseMore item (m + 1) (p ++ rest') = .ok xs rest' := by
      intro hx hr
      subst hx hr
      exact ⟨[], rfl, (fun t r hr => by cases hr),
        fun rest' _ hs => parseMore_stop item m rest' hs⟩
    by_cases hc : c.value = ","
    · simp only [parse.parseMore, hc, if_true] at h
      cases hi : item r with
      | ok x r1 =>
        rw [hi] at h
        simp only at h
        cases hm : parse.parseMore item m r1 with
        | ok xs1 r2 =>
          rw [hm] at h
          simp only [parse.Result.ok.injEq] at h
          obtain ⟨rfl, rfl⟩ := h
          obtain ⟨pi, -, hr, hloc⟩ :=
            hitem r x r1 (fun t ht => hwf t (List.mem_cons_of_mem _ ht)) hi
          have hwf1 : ∀ t ∈ r1, t.lexical = true := fun t ht =>
            hwf t (List.mem_cons_of_mem _ (by rw [hr]; exact List.mem_append_right _ ht))
          obtain ⟨p1, hr1, hhead, hnew⟩ := parseMore_local item hitem m r1 xs1 r2 hwf1 hm
          refine ⟨c :: (pi ++ p1), ?_, ?_, ?_⟩
          · rw [hr, hr1]
            simp
          · intro t r' he
            simp only [List.cons.injEq] at he
            obtain ⟨rfl, -⟩ := he
            exact hc
          · intro rest' hcol hs
            have e : c :: (pi ++ p1) ++ rest' = c :: (pi ++ (p1 ++ rest')) := by simp
            rw [e]
            simp only [parse.parseMore, hc, if_true,
              hloc (p1 ++ rest') (noColon_append p1 rest' hhead hcol), hnew rest' hcol hs]
        | noMatch => rw [hm] at h; cases h
        | outOfFuel => rw [hm] at h; cases h
      | noMatch =>
        rw [hi] at h
        simp only [parse.Result.ok.injEq] at h
        exact stopped h.1.symm h.2.symm
      | outOfFuel => rw [hi] at h; cases h
    · simp only [parse.parseMore, hc, if_false, parse.Result.ok.injEq] at h
      exact stopped h.1.symm h.2.symm

theorem skipComma_comma (k : parse.Token) (r : List parse.Token) (hk : k.value = ",") :
    parse.skipComma (k :: r) = r := by
  simp [parse.skipComma, hk]

theorem skipComma_noComma (r : List parse.Token) (h : parse.noComma r) :
    parse.skipComma r = r := by
  cases r with
  | nil => rfl
  | cons c r => simp [parse.skipComma, h c r rfl]

theorem noColon_comma (k : parse.Token) (r : List parse.Token) (hk : k.value = ",") :
    parse.noColon (k :: r) := by
  intro t r' he
  simp only [List.cons.injEq] at he
  obtain ⟨rfl, -⟩ := he
  rw [hk]
  decide

theorem parseList_local {α : Type} (item : List parse.Token → parse.Result α)
    (hitem : parse.Local item) (trailing : Bool) (m : Nat) (ts : List parse.Token)
    (xs : List α) (rest : List parse.Token) (hwf : ∀ t ∈ ts, t.lexical = true)
    (h : parse.parseList item trailing m ts = .ok xs rest) :
    ∃ p, ts = p ++ rest ∧
      (∀ rest', parse.noColon rest' → parse.noComma rest' →
        (item rest = .noMatch → item rest' = .noMatch) →
        parse.parseList item trailing m (p ++ rest') = .ok xs rest') ∧
      (trailing = true → (∃ t, p.getLast? = some t ∧ t.value ≠ ",") →
        ∀ k : parse.Token, k.value = "," → item rest = .noMatch →
        parse.parseList item trailing m (p ++ k :: rest) = .ok xs rest) := by
  unfold parse.parseList at h
  cases hi : item ts with
  | noMatch =>
    rw [hi] at h
    simp only [parse.Result.ok.injEq] at h
    obtain ⟨rfl, rfl⟩ := h
    refine ⟨[], rfl, fun rest' _ _ hf => ?_, fun _ hl => ?_⟩
    · simp only [List.nil_append, parse.parseList, hf hi]
    · obtain ⟨t, ht, -⟩ := hl
      cases ht
  | outOfFuel => rw [hi] at h; cases h
  | ok x r1 =>
    rw [hi] at h
    simp only at h
    cases hm : parse.parseMore item m r1 with
    | noMatch => rw [hm] at h; cases h
    | outOfFuel => rw [hm] at h; cases h
    | ok xs1 r2 =>
      rw [hm] at h
      simp only [parse.Result.ok.injEq] at h
      obtain ⟨rfl, hrest⟩ := h
      obtain ⟨pi, -, hr, hloc⟩ := hitem ts x r1 hwf hi
      have hwf1 : ∀ t ∈ r1, t.lexical = true := fun t ht =>
        hwf t (by rw [hr]; exact List.mem_append_right _ ht)
      obtain ⟨p1, hr1, hhead, hnew⟩ := parseMore_local item hitem m r1 xs1 r2 hwf1 hm
      have hst := parseMore_stops item m r1 xs1 r2 hm
      by_cases hcons : trailing = true ∧ ∃ k r, r2 = k :: r ∧ k.value = ","
      · obtain ⟨htr, k, r, hr2, hk⟩ := hcons
        subst hr2
        rw [htr] at hrest
        simp only [if_true, skipComma_comma k r hk] at hrest
        subst hrest
        have hir : item r = .noMatch := by
          rcases hst with hst | ⟨c, r', he, hc⟩
          · exact absurd hk (hst k r rfl)
          · simp only [List.cons.injEq] at he
            rw [he.2]
            exact hc
        refine ⟨pi ++ p1 ++ [k], by rw [hr, hr1]; simp, fun rest' hcol _ hf => ?_,
          fun _ hl => ?_⟩
        · have e : pi ++ p1 ++ [k] ++ rest' = pi ++ (p1 ++ k :: rest') := by simp
          rw [e]
          simp only [parse.parseList,
            hloc _ (noColon_append p1 _ hhead (noColon_comma k rest' hk)),
            hnew _ (noColon_comma k rest' hk) (Or.inr ⟨k, rest', rfl, hf hir⟩), htr, if_true,
            skipComma_comma k rest' hk]
        · obtain ⟨t, ht, hne⟩ := hl
          rw [List.getLast?_append_of_ne_nil _ (by simp)] at ht
          simp only [List.getLast?_singleton, Option.some.injEq] at ht
          exact absurd hk (ht ▸ hne)
      · have hr2 : rest = r2 := by
          rw [← hrest]
          cases htr : trailing with
          | false => simp
          | true =>
            simp only [if_true]
            apply skipComma_noComma
            intro t r he hv
            exact hcons ⟨htr, t, r, he, hv⟩
        subst hr2
        refine ⟨pi ++ p1, by rw [hr, hr1]; simp, fun rest' hcol hcom _ => ?_,
          fun htr _ k hk hir => ?_⟩
        · have e : pi ++ p1 ++ rest' = pi ++ (p1 ++ rest') := by simp
          rw [e]
          simp only [parse.parseList, hloc _ (noColon_append p1 _ hhead hcol),
            hnew _ hcol (Or.inl hcom), skipComma_noComma rest' hcom, ite_self]
        · have e : pi ++ p1 ++ k :: rest = pi ++ (p1 ++ k :: rest) := by simp
          rw [e]
          simp only [parse.parseList,
            hloc _ (noColon_append p1 _ hhead (noColon_comma k rest hk)),
            hnew _ (noColon_comma k rest hk) (Or.inr ⟨k, rest, rfl, hir⟩), htr, if_true,
            skipComma_comma k rest hk]

theorem parseMarker_none (k c : parse.Token) (r : List parse.Token)
    (h : ¬(k.value = "@" ∧ c.symbol = .Ident)) :
    parse.parseMarker (k :: c :: r) = ("", k :: c :: r) := by
  simp only [parse.parseMarker, h, if_false]

theorem parseMarker_some (a i : parse.Token) (r : List parse.Token)
    (h : a.value = "@" ∧ i.symbol = .Ident) :
    parse.parseMarker (a :: i :: r) = (i.value, r) := by
  simp only [parse.parseMarker, h, and_self, if_true]

theorem parseAnnotatedField_local (value : List parse.Token → parse.Result parse.Value)
    (hv : parse.Local value) : parse.Local (parse.parseAnnotatedField value) := by
  intro ts f rest hwf h
  have body : ∀ (ann : String) (pre ts1 : List parse.Token), ts = pre ++ ts1 →
      parse.parseMarker ts = (ann, ts1) →
      (∀ k c r', ts1 = k :: c :: r' →
        ∀ r'', parse.parseMarker (pre ++ k :: c :: r'') = (ann, k :: c :: r'')) →
      ∃ p, p ≠ [] ∧ ts = p ++ rest ∧
        ∀ rest', parse.noColon rest' →
          parse.parseAnnotatedField value (p ++ rest') = .ok f rest' := by
    intro ann pre ts1 hts hm hpre
    unfold parse.parseAnnotatedField at h
    rw [hm] at h
    simp only at h
    match ts1, hts, hpre with
    | [], _, _ => simp at h
    | [_], _, _ => simp at h
    | k :: c :: r, hts, hpre =>
      simp only at h
      by_cases hk : k.symbol = .String ∧ c.value = ":"
      · simp only [hk, and_self, if_true] at h
        cases hval : value r with
        | noMatch => rw [hval] at h; cases h
        | outOfFuel => rw [hval] at h; cases h
        | ok v r1 =>
          rw [hval] at h
          simp only [parse.Result.ok.injEq] at h
          obtain ⟨rfl, rfl⟩ := h
          have hwfr : ∀ t ∈ r, t.lexical = true := fun t ht =>
            hwf t (by rw [hts]; simp [ht])
          obtain ⟨pv, -, hr, hloc⟩ := hv r v r1 hwfr hval
          refine ⟨pre ++ k :: c :: pv, by simp, by rw [hts, hr]; simp, fun rest' hcol => ?_⟩
          have e : pre ++ k :: c :: pv ++ rest' = pre ++ k :: c :: (pv ++ rest') := by simp
          rw [e]
          unfold parse.parseAnnotatedField
          rw [hpre k c r rfl (pv ++ rest')]
          simp only [hk, and_self, if_true, hloc rest' hcol]
      · simp only [hk, if_false] at h
        cases h
  match ts, h, body with
  | [], h, _ => simp [parse.parseAnnotatedField, parse.parseMarker] at h
  | [t], h, _ => simp [parse.parseAnnotatedField, parse.parseMarker] at h
  | a :: i :: r, h, body =>
    by_cases hm : a.value = "@" ∧ i.symbol = .Ident
    · exact body i.value [a, i] r rfl (parseMarker_some a i r hm)
        (fun k c r' _ r'' => parseMarker_some a i _ hm)
    · refine body "" [] (a :: i :: r) rfl (parseMarker_none a i r hm)
        (fun k c r' he r'' => ?_)
      simp only [List.cons.injEq] at he
      obtain ⟨rfl, rfl, -⟩ := he
      exact parseMarker_none a i r'' hm

theorem parseAnnotatedField_closer (value : List parse.Token → parse.Result parse.Value)
    (c : parse.Token) (r : List parse.Token) (hc : c.value = "\x7d")
    (h : c.symbol ≠ .String ∨ parse.noColon r) :
    parse.parseAnnotatedField value (c :: r) = .noMatch := by
  have ha : c.value ≠ "@" := by rw [hc]; decide
  cases r with
  | nil => simp [parse.parseAnnotatedField, parse.parseMarker]
  | cons c2 r =>
    have hn : ¬(c.symbol = .String ∧ c2.value = ":") := by
      rintro ⟨h1, h2⟩
      rcases h with h | h
      · exact h h1
      · exact h c2 r rfl h2
    simp only [parse.parseAnnotatedField, parseMarker_none c c2 r (fun hh => ha hh.1), hn,
      if_false]

theorem noColon_closer (c : parse.Token) (r : List parse.Token)
    (hc : c.value = "]" ∨ c.value = "\x7d" ∨ c.value = ")") : parse.noColon (c :: r) := by
  intro t r' he
  simp only [List.cons.injEq] at he
  obtain ⟨rfl, -⟩ := he
  rcases hc with h | h | h <;> rw [h] <;> decide

theorem noComma_closer (c : parse.Token) (r : List parse.Token)
    (hc : c.value = "]" ∨ c.value = "\x7d" ∨ c.value = ")") : parse.noComma (c :: r) := by
  intro t r' he
  simp only [List.cons.injEq] at he
  obtain ⟨rfl, -⟩ := he
  rcases hc with h | h | h <;> rw [h] <;> decide

theorem parseObject_local (value : List parse.Token → parse.Result parse.Value)
    (hv : parse.Local value) (m : Nat) (ts : List parse.Token) (obj : parse.Object)
    (rest : List parse.Token) (hwf : ∀ t ∈ ts, t.lexical = true)
    (h : parse.parseObject value m ts = .ok obj rest) :
    ∃ o body c, ts = o :: (body ++ c :: rest) ∧ o.value = "\x7b" ∧ c.value = "\x7d" ∧
      (∀ rest', parse.noColon rest' →
        parse.parseObject value m (o :: (body ++ c :: rest')) = .ok obj rest') ∧
      ((∃ t, body.getLast? = some t ∧ t.value ≠ ",") → c.symbol ≠ .String →
        ∀ k : parse.Token, k.value = "," →
        parse.parseObject value m (o :: (body ++ k :: c :: rest)) = .ok obj rest) := by
  cases ts with
  | nil => simp [parse.parseObject] at h
  | cons o r =>
    by_cases ho : o.value = "\x7b"
    · simp only [parse.parseObject, ho, if_true] at h
      cases hl : parse.parseList (parse.parseAnnotatedField value) true m r with
      | noMatch => rw [hl] at h; cases h
      | outOfFuel => rw [hl] at h; cases h
      | ok fields r1 =>
        rw [hl] at h
        cases r1 with
        | nil => cases h
        | cons c rest1 =>
          simp only at h
          by_cases hc : c.value = "\x7d"
          · simp only [hc, if_true, parse.Result.ok.injEq] at h
            obtain ⟨rfl, rfl⟩ := h
            obtain ⟨p, hr, hloc, hins⟩ := parseList_local _ (parseAnnotatedField_local value hv)
              true m r fields (c :: rest1) (fun t ht => hwf t (List.mem_cons_of_mem _ ht)) hl
            refine ⟨o, p, c, by rw [hr], ho, hc, fun rest' hcol => ?_, fun hlast hs k hk => ?_⟩
            · simp only [parse.parseObject, ho, if_true,
                hloc (c :: rest') (noColon_closer c rest' (by tauto))
                  (noComma_closer c rest' (by tauto))
                  (fun _ => parseAnnotatedField_closer value c rest' hc (Or.inr hcol)), hc]
            · simp only [parse.parseObject, ho, if_true,
                hins rfl hlast k hk (parseAnnotatedField_closer value c rest1 hc (Or.inl hs)), hc]
          · simp only [hc, if_false] at h
            cases h
    · simp only [parse.parseObject, ho, if_false] at h
      cases h

theorem parseArray_local (value : List parse.Token → parse.Result parse.Value)
    (hv : parse.Local value)
    (hfail : ∀ c r r', c.lexical = true → c.value = "]" ∨ c.value = ")" →
      value (c :: r) = .noMatch → value (c :: r') = .noMatch)
    (m : Nat) (ts : List parse.Token) (els : List parse.Value)
    (rest : List parse.Token) (hwf : ∀ t ∈ ts, t.lexical = true)
    (h : parse.parseArray value m ts = .ok els rest) :
    ∃ o body c, ts = o :: (body ++ c :: rest) ∧ o.value = "[" ∧ c.value = "]" ∧
      (∀ rest', parse.noColon rest' →
        parse.parseArray value m (o :: (body ++ c :: rest')) = .ok els rest') ∧
      ((∃ t, body.getLast? = some t ∧ t.value ≠ ",") → value (c :: rest) = .noMatch →
        ∀ k : parse.Token, k.value = "," →
        parse.parseArray value m (o :: (body ++ k :: c :: rest)) = .ok els rest) := by
  cases ts with
  | nil => simp [parse.parseArray] at h
  | cons o r =>
    by_cases ho : o.value = "["
    · simp only [parse.parseArray, ho, if_true] at h
      cases hl : parse.parseList value true m r with
      | noMatch => rw [hl] at h; cases h
      | outOfFuel => rw [hl] at h; cases h
      | ok fields r1 =>
        rw [hl] at h
        cases r1 with
        | nil => cases h
        | cons c rest1 =>
          simp only at h
          by_cases hc : c.value = "]"
          · simp only [hc, if_true, parse.Result.ok.injEq] at h
            obtain ⟨rfl, rfl⟩ := h
            obtain ⟨p, hr, hloc, hins⟩ := parseList_local _ hv
              true m r fields (c :: rest1) (fun t ht => hwf t (List.mem_cons_of_mem _ ht)) hl
            have hcl : c.lexical = true := hwf c (by rw [hr]; simp)
            refine ⟨o, p, c, by rw [hr], ho, hc, fun rest' hcol => ?_, fun hlast hs k hk => ?_⟩
            · simp only [parse.parseArray, ho, if_true,
                hloc (c :: rest') (noColon_closer c rest' (by tauto))
                  (noComma_closer c rest' (by tauto))
                  (hfail c rest1 rest' hcl (Or.inl hc)), hc]
            · simp only [parse.parseArray, ho, if_true, hins rfl hlast k hk hs, hc]
          · simp only [hc, if_false] at h
            cases h
    · simp only [parse.parseArray, ho, if_false] at h
      cases h

theorem parseFunction_local (value : List parse.Token → parse.Result parse.Value)
    (hv : parse.Local value)
    (hfail : ∀ c r r', c.lexical = true → c.value = "]" ∨ c.value = ")" →
      value (c :: r) = .noMatch → value (c :: r') = .noMatch)
    (m : Nat) (ts : List parse.Token) (fn : parse.Function)
    (rest : List parse.Token) (hwf : ∀ t ∈ ts, t.lexical = true)
    (h : parse.parseFunction value m ts = .ok fn rest) :
    ∃ f o body, ts = f :: o :: (body ++ rest) ∧ f.symbol = .Ident ∧ o.value = "(" ∧
      ∀ rest', parse.noColon rest' →
        parse.parseFunction value m (f :: o :: (body ++ rest')) = .ok fn rest' := by
  match ts, h, hwf with
  | [], h, _ => simp [parse.parseFunction] at h
  | [_], h, _ => simp [parse.parseFunction] at h
  | f :: o :: r, h, hwf =>
    by_cases ho : f.symbol = .Ident ∧ o.value = "("
    · simp only [parse.parseFunction, ho, and_self, if_true] at h
      cases hl : parse.parseList value false m r with
      | noMatch => rw [hl] at h; cases h
      | outOfFuel => rw [hl] at h; cases h
      | ok args r1 =>
        rw [hl] at h
        cases r1 with
        | nil => cases h
        | cons c rest1 =>
          simp only at h
          by_cases hc : c.value = ")"
          · simp only [hc, if_true, parse.Result.ok.injEq] at h
            obtain ⟨rfl, rfl⟩ := h
            obtain ⟨p, hr, hloc, -⟩ := parseList_local _ hv
              false m r args (c :: rest1) (fun t ht => hwf t (by simp [ht])) hl
            have hcl : c.lexical = true := hwf c (by rw [hr]; simp)
            refine ⟨f, o, p ++ [c], by rw [hr]; simp, ho.1, ho.2, fun rest' hcol => ?_⟩
            have e : f :: o :: (p ++ [c] ++ rest') = f :: o :: (p ++ c :: rest') := by simp
            rw [e]
            simp only [parse.parseFunction, ho, and_self, if_true,
              hloc (c :: rest') (noColon_closer c rest' (by tauto))
                (noComma_closer c rest' (by tauto))
                (hfail c rest1 rest' hcl (Or.inr hc)), hc]
          · simp only [hc, if_false] at h
            cases h
    · simp only [parse.parseFunction, ho, if_false] at h
      cases h

theorem parseGenerator_local (value : List parse.Token → parse.Result parse.Value)
    (hv : parse.Local value) (ts : List parse.Token) (g : parse.Generator)
    (rest : List parse.Token) (hwf : ∀ t ∈ ts, t.lexical = true)
    (h : parse.parseGenerator value ts = .ok g rest) :
    ∃ r body, ts = r :: (body ++ rest) ∧ r.value = "range" ∧
      ∀ rest', parse.noColon rest' →
        parse.parseGenerator value (r :: (body ++ rest')) = .ok g rest' := by
  match ts, h, hwf with
  | [], h, _ => simp [parse.parseGenerator] at h
  | [_], h, _ => simp [parse.parseGenerator] at h
  | [_, _], h, _ => simp [parse.parseGenerator] at h
  | r :: q :: o :: r0, h, hwf =>
    by_cases ho : r.value = "range" ∧ q.symbol = .JSONPath ∧ o.value = "["
    · simp only [parse.parseGenerator, ho, and_self, if_true] at h
      cases hl : value r0 with
      | noMatch => rw [hl] at h; cases h
      | outOfFuel => rw [hl] at h; cases h
      | ok sub r1 =>
        rw [hl] at h
        cases r1 with
        | nil => cases h
        | cons c rest1 =>
          simp only at h
          by_cases hc : c.value = "]"
          · simp only [hc, if_true, parse.Result.ok.injEq] at h
            obtain ⟨rfl, rfl⟩ := h
            obtain ⟨p, -, hr, hloc⟩ := hv r0 sub (c :: rest1)
              (fun t ht => hwf t (by simp [ht])) hl
            refine ⟨r, q :: o :: (p ++ [c]), by rw [hr]; simp, ho.1, fun rest' hcol => ?_⟩
            have e : r :: (q :: o :: (p ++ [c]) ++ rest') = r :: q :: o :: (p ++ c :: rest') := by
              simp
            rw [e]
            simp only [parse.parseGenerator, ho, and_self, if_true,
              hloc (c :: rest') (noColon_closer c rest' (by tauto)), hc]
          · simp only [hc, if_false] at h
            cases h
    · simp only [parse.parseGenerator, ho, if_false] at h
      cases h

theorem orElse_ok_iff {α : Type} (r : parse.Result α) (next : Unit → parse.Result α) (a : α)
    (rest : List parse.Token) :
    r.orElse next = .ok a rest ↔ r = .ok a rest ∨ (r = .noMatch ∧ next () = .ok a rest) := by
  cases r <;> simp [parse.Result.orElse]

theorem altString_transfer (t : parse.Token) (r r' : List parse.Token)
    (h : parse.altString (t :: r) = .noMatch) : parse.altString (t :: r') = .noMatch := by
  by_cases hs : t.symbol = .String <;> simp [parse.altString, hs] at h ⊢

theorem altNumber_transfer (t : parse.Token) (r r' : List parse.Token)
    (h : parse.altNumber (t :: r) = .noMatch) : parse.altNumber (t :: r') = .noMatch := by
  by_cases hs : t.symbol = .Number
  · cases hf : strconv.ParseFloat t.value <;> simp [parse.altNumber, hs, hf] at h ⊢
  · simp [parse.altNumber, hs]

theorem altBool_transfer (t : parse.Token) (r r' : List parse.Token)
    (h : parse.altBool (t :: r) = .noMatch) : parse.altBool (t :: r') = .noMatch := by
  by_cases h1 : t.value = "true"
  · simp [parse.altBool, h1] at h
  · by_cases h2 : t.value = "false" <;> simp [parse.altBool, h1, h2] at h ⊢

theorem altNull_transfer (t : parse.Token) (r r' : List parse.Token)
    (h : parse.altNull (t :: r) = .noMatch) : parse.altNull (t :: r') = .noMatch := by
  by_cases h1 : t.value = "null" <;> simp [parse.altNull, h1] at h ⊢

theorem altExtractor_transfer (t : parse.Token) (r r' : List parse.Token)
    (h : parse.altExtractor (t :: r) = .noMatch) : parse.altExtractor (t :: r') = .noMatch := by
  by_cases hs : t.symbol = .JSONPath <;> simp [parse.altExtractor, hs] at h ⊢

theorem altObject_noMatch (value : List parse.Token → parse.Result parse.Value) (m : Nat)
    (t : parse.Token) (r : List parse.Token) (h : t.value ≠ "\x7b") :
    parse.altObject value m (t :: r) = .noMatch := by
  simp [parse.altObject, parse.parseObject, h]

theorem altArray_noMatch (value : List parse.Token → parse.Result parse.Value) (m : Nat)
    (t : parse.Token) (r : List parse.Token) (h : t.value ≠ "[") :
    parse.altArray value m (t :: r) = .noMatch := by
  simp [parse.altArray, parse.parseArray, h]

theorem altGenerator_noMatch (value : List parse.Token → parse.Result parse.Value)
    (t : parse.Token) (r : List parse.Token)
    (h : t.value ≠ "range" ∨ ∀ o r', r = o :: r' → o.symbol ≠ .JSONPath) :
    parse.altGenerator value (t :: r) = .noMatch := by
  match r, h with
  | [], _ => simp [parse.altGenerator, parse.parseGenerator]
  | [_], _ => simp [parse.altGenerator, parse.parseGenerator]
  | o :: o2 :: r', h =>
    have : ¬(t.value = "range" ∧ o.symbol = .JSONPath ∧ o2.value = "[") := by
      rintro ⟨h1, h2, -⟩
      rcases h with h | h
      · exact h h1
      · exact h o _ rfl h2
    simp [parse.altGenerator, parse.parseGenerator, this]

theorem altFunction_noMatch (value : List parse.Token → parse.Result parse.Value) (m : Nat)
    (t : parse.Token) (r : List parse.Token) (h : t.symbol ≠ .Ident) :
    parse.altFunction value m (t :: r) = .noMatch := by
  cases r <;> simp [parse.altFunction, parse.parseFunction, h]

theorem parseValue_local : ∀ n : Nat, parse.Local (parse.parseValue n)
  | 0 => by
    intro ts v rest _ h
    simp [parse.parseValue] at h
  | n + 1 => by
    have hv := parseValue_local n
    have hfail : ∀ c r r', c.lexical = true → c.value = "]" ∨ c.value = ")" →
        parse.parseValue n (c :: r) = .noMatch → parse.parseValue n (c :: r') = .noMatch :=
      fun c r r' hl hc h => parseValue_fails_at_closer n c r r' hl hc h
    intro ts v rest hwf h
    cases ts with
    | nil =>
      simp [parse.parseValue, parse.Result.orElse, parse.altString, parse.altNumber,
        parse.altObject, parse.parseObject, parse.altArray, parse.parseArray, parse.altBool,
        parse.altNull, parse.altGenerator, parse.parseGenerator, parse.altExtractor,
        parse.altFunction, parse.parseFunction] at h
    | cons t r =>
      have htl : t.lexical = true := hwf t (List.mem_cons_self _ _)
      simp only [parse.parseValue, orElse_ok_iff] at h
      rcases h with
        h | ⟨nS, h | ⟨nN, h | ⟨nO, h | ⟨nA, h | ⟨nB, h | ⟨nL, h | ⟨nG, h | ⟨nE, h⟩⟩⟩⟩⟩⟩⟩⟩
      · -- String
        by_cases hs : t.symbol = .String
        · simp only [parse.altString, hs, if_true, parse.Result.ok.injEq] at h
          obtain ⟨rfl, rfl⟩ := h
          refine ⟨[t], by simp, rfl, fun rest' _ => ?_⟩
          simp [parse.parseValue, parse.Result.orElse, parse.altString, hs]
        · simp [parse.altString, hs] at h
      · -- Number
        by_cases hs : t.symbol = .Number
        · cases hf : strconv.ParseFloat t.value with
          | none => simp [parse.altNumber, hs, hf] at h
          | some x =>
            simp only [parse.altNumber, hs, if_true, hf, parse.Result.ok.injEq] at h
            obtain ⟨rfl, rfl⟩ := h
            refine ⟨[t], by simp, rfl, fun rest' _ => ?_⟩
            simp [parse.parseValue, parse.Result.orElse, altString_transfer t r rest' nS,
              parse.altNumber, hs, hf]
        · simp [parse.altNumber, hs] at h
      · -- Object
        unfold parse.altObject at h
        cases ho : parse.parseObject (parse.parseValue n) n (t :: r) with
        | noMatch => rw [ho] at h; cases h
        | outOfFuel => rw [ho] at h; cases h
        | ok obj r1 =>
          rw [ho] at h
          simp only [parse.Result.ok.injEq] at h
          obtain ⟨rfl, rfl⟩ := h
          obtain ⟨o, body, c, hts, -, -, hloc, -⟩ := parseObject_local _ hv n _ obj r1 hwf ho
          simp only [List.cons.injEq] at hts
          obtain ⟨rfl, rfl⟩ := hts
          refine ⟨t :: (body ++ [c]), by simp, by simp, fun rest' hcol => ?_⟩
          have e : t :: (body ++ [c]) ++ rest' = t :: (body ++ c :: rest') := by simp
          rw [e]
          simp [parse.parseValue, parse.Result.orElse, altString_transfer t _ _ nS,
            altNumber_transfer t _ _ nN, parse.altObject, hloc rest' hcol]
      · -- Array
        unfold parse.altArray at h
        cases ho : parse.parseArray (parse.parseValue n) n (t :: r) with
        | noMatch => rw [ho] at h; cases h
        | outOfFuel => rw [ho] at h; cases h
        | ok els r1 =>
          rw [ho] at h
          obtain ⟨o, body, c, hts, hov, -, hloc, -⟩ :=
            parseArray_local _ hv hfail n _ els r1 hwf ho
          simp only [List.cons.injEq] at hts
          obtain ⟨rfl, rfl⟩ := hts
          have hno : t.value ≠ "\x7b" := by rw [hov]; decide
          cases els with
          | nil =>
            simp only [parse.Result.ok.injEq] at h
            obtain ⟨rfl, rfl⟩ := h
            refine ⟨t :: (body ++ [c]), by simp, by simp, fun rest' hcol => ?_⟩
            have e : t :: (body ++ [c]) ++ rest' = t :: (body ++ c :: rest') := by simp
            rw [e]
            simp [parse.parseValue, parse.Result.orElse, altString_transfer t _ _ nS,
              altNumber_transfer t _ _ nN, altObject_noMatch _ n t _ hno, parse.altArray,
              hloc rest' hcol]
          | cons x xs =>
            simp only [parse.Result.ok.injEq] at h
            obtain ⟨rfl, rfl⟩ := h
            refine ⟨t :: (body ++ [c]), by simp, by simp, fun rest' hcol => ?_⟩
            have e : t :: (body ++ [c]) ++ rest' = t :: (body ++ c :: rest') := by simp
            rw [e]
            simp [parse.parseValue, parse.Result.orElse, altString_transfer t _ _ nS,
              altNumber_transfer t _ _ nN, altObject_noMatch _ n t _ hno, parse.altArray,
              hloc rest' hcol]
      · -- Bool
        have hb : (t.value = "true" ∨ t.value = "false") ∧ rest = r ∧
            ∀ r', parse.altBool (t :: r') = .ok v r' := by
          by_cases h1 : t.value = "true"
          · simp only [parse.altBool, h1, if_true, parse.Result.ok.injEq] at h
            obtain ⟨rfl, rfl⟩ := h
            exact ⟨Or.inl h1, rfl, fun r' => by simp [parse.altBool, h1]⟩
          · by_cases h2 : t.value = "false"
            · simp only [parse.altBool, h1, if_false, h2, if_true,
                parse.Result.ok.injEq] at h
              obtain ⟨rfl, rfl⟩ := h
              exact ⟨Or.inr h2, rfl, fun r' => by simp [parse.altBool, h1, h2]⟩
            · simp [parse.altBool, h1, h2] at h
        obtain ⟨hval, rfl, hok⟩ := hb
        have hno : t.value ≠ "\x7b" := by rcases hval with h | h <;> rw [h] <;> decide
        have hna : t.value ≠ "[" := by rcases hval with h | h <;> rw [h] <;> decide
        refine ⟨[t], by simp, rfl, fun rest' _ => ?_⟩
        simp [parse.parseValue, parse.Result.orElse, altString_transfer t _ _ nS,
          altNumber_transfer t _ _ nN, altObject_noMatch _ n t _ hno,
          altArray_noMatch _ n t _ hna, hok]
      · -- Null
        by_cases h1 : t.value = "null"
        · simp only [parse.altNull, h1, if_true, parse.Result.ok.injEq] at h
          obtain ⟨rfl, rfl⟩ := h
          have hno : t.value ≠ "\x7b" := by rw [h1]; decide
          have hna : t.value ≠ "[" := by rw [h1]; decide
          refine ⟨[t], by simp, rfl, fun rest' _ => ?_⟩
          simp [parse.parseValue, parse.Result.orElse, altString_transfer t _ _ nS,
            altNumber_transfer t _ _ nN, altObject_noMatch _ n t _ hno,
            altArray_noMatch _ n t _ hna, altBool_transfer t _ _ nB, parse.altNull, h1]
        · simp [parse.altNull, h1] at h
      · -- Generator
        unfold parse.altGenerator at h
        cases ho : parse.parseGenerator (parse.parseValue n) (t :: r) with
        | noMatch => rw [ho] at h; cases h
        | outOfFuel => rw [ho] at h; cases h
        | ok g r1 =>
          rw [ho] at h
          simp only [parse.Result.ok.injEq] at h
          obtain ⟨rfl, rfl⟩ := h
          obtain ⟨o, body, hts, hov, hloc⟩ := parseGenerator_local _ hv _ g r1 hwf ho
          simp only [List.cons.injEq] at hts
          obtain ⟨rfl, rfl⟩ := hts
          have hno : t.value ≠ "\x7b" := by rw [hov]; decide
          have hna : t.value ≠ "[" := by rw [hov]; decide
          refine ⟨t :: body, by simp, by simp, fun rest' hcol => ?_⟩
          rw [List.cons_append]
          simp [parse.parseValue, parse.Result.orElse, altString_transfer t _ _ nS,
            altNumber_transfer t _ _ nN, altObject_noMatch _ n t _ hno,
            altArray_noMatch _ n t _ hna, altBool_transfer t _ _ nB,
            altNull_transfer t _ _ nL, parse.altGenerator, hloc rest' hcol]
      · -- Extractor
        by_cases hs : t.symbol = .JSONPath
        · simp only [parse.altExtractor, hs, if_true, parse.Result.ok.injEq] at h
          obtain ⟨rfl, rfl⟩ := h
          have hno : t.value ≠ "\x7b" := fun hh =>
            lexical_not_jsonpath t htl (by tauto) hs
          have hna : t.value ≠ "[" := fun hh =>
            lexical_not_jsonpath t htl (by tauto) hs
          have hng : t.value ≠ "range" := fun hh =>
            lexical_not_jsonpath t htl (by tauto) hs
          refine ⟨[t], by simp, rfl, fun rest' _ => ?_⟩
          simp [parse.parseValue, parse.Result.orElse, altString_transfer t _ _ nS,
            altNumber_transfer t _ _ nN, altObject_noMatch _ n t _ hno,
            altArray_noMatch _ n t _ hna, altBool_transfer t _ _ nB,
            altNull_transfer t _ _ nL, altGenerator_noMatch _ t _ (Or.inl hng),
            parse.altExtractor, hs]
        · simp [parse.altExtractor, hs] at h
      · -- Function
        unfold parse.altFunction at h
        cases ho : parse.parseFunction (parse.parseValue n) n (t :: r) with
        | noMatch => rw [ho] at h; cases h
        | outOfFuel => rw [ho] at h; cases h
        | ok fn r1 =>
          rw [ho] at h
          simp only [parse.Result.ok.injEq] at h
          obtain ⟨rfl, rfl⟩ := h
          obtain ⟨f, o, body, hts, hf, hov, hloc⟩ :=
            parseFunction_local _ hv hfail n _ fn r1 hwf ho
          simp only [List.cons.injEq] at hts
          obtain ⟨rfl, rfl⟩ := hts
          have hol : o.lexical = true := hwf o (by simp)
          have hno : t.value ≠ "\x7b" := fun hh => lexical_not_ident t htl (by tauto) hf
          have hna : t.value ≠ "[" := fun hh => lexical_not_ident t htl (by tauto) hf
          have hoj : o.symbol ≠ .JSONPath := lexical_not_jsonpath o hol (by tauto)
          refine ⟨t :: o :: body, by simp, by simp, fun rest' hcol => ?_⟩
          have e : t :: o :: body ++ rest' = t :: o :: (body ++ rest') := by simp
          rw [e]
          simp [parse.parseValue, parse.Result.orElse, altString_transfer t _ _ nS,
            altNumber_transfer t _ _ nN, altObject_noMatch _ n t _ hno,
            altArray_noMatch _ n t _ hna, altBool_transfer t _ _ nB,
            altNull_transfer t _ _ nL,
            altGenerator_noMatch _ t (o :: (body ++ rest')) (Or.inr (fun o' r' he => by
              simp only [List.cons.injEq] at he
              rw [← he.1]
              exact hoj)),
            altExtractor_transfer t _ _ nE, parse.altFunction, hloc rest' hcol]

theorem parseValue_trailing (n : Nat) (o c : parse.Token) (body rest : List parse.Token)
    (v : parse.Value) (hwf : ∀ t ∈ o :: (body ++ c :: rest), t.lexical = true)
    (ho : o.symbol = .Punct) (hov : o.value = "[" ∨ o.value = "\x7b")
    (hc : c.symbol = .Punct) (hlast : ∃ t, body.getLast? = some t ∧ t.value ≠ ",")
    (h : parse.parseValue n (o :: (body ++ c :: rest)) = .ok v rest) :
    parse.parseValue n (o :: (body ++ ⟨.Punct, ","⟩ :: c :: rest)) = .ok v rest := by
  have hcs : c.symbol ≠ .String := by rw [hc]; decide
  have hS : ∀ r, parse.altString (o :: r) = .noMatch := fun r => by
    simp [parse.altString, ho]
  have hN : ∀ r, parse.altNumber (o :: r) = .noMatch := fun r => by
    simp [parse.altNumber, ho]
  have hE : ∀ r, parse.altExtractor (o :: r) = .noMatch := fun r => by
    simp [parse.altExtractor, ho]
  have hB : ∀ r, parse.altBool (o :: r) = .noMatch := fun r => by
    rcases hov with hh | hh <;> simp [parse.altBool, hh]
  have hL : ∀ r, parse.altNull (o :: r) = .noMatch := fun r => by
    rcases hov with hh | hh <;> simp [parse.altNull, hh]
  have hG : ∀ value r, parse.altGenerator value (o :: r) = .noMatch := fun value r =>
    altGenerator_noMatch value o r (Or.inl (by rcases hov with hh | hh <;> rw [hh] <;> decide))
  have hF : ∀ value m r, parse.altFunction value m (o :: r) = .noMatch := fun value m r =>
    altFunction_noMatch value m o r (by rw [ho]; decide)
  cases n with
  | zero => simp [parse.parseValue] at h
  | succ n =>
    have hv := parseValue_local n
    have hfail : ∀ c r r', c.lexical = true → c.value = "]" ∨ c.value = ")" →
        parse.parseValue n (c :: r) = .noMatch → parse.parseValue n (c :: r') = .noMatch :=
      fun c r r' hl hc h => parseValue_fails_at_closer n c r r' hl hc h
    simp only [parse.parseValue, orElse_ok_iff, hS, hN, hE, hB, hL, hG, hF, false_or, true_and,
      false_and, or_false, reduceCtorEq, and_false] at h
    rcases h with h | ⟨nO, h⟩
    · unfold parse.altObject at h
      cases hobj : parse.parseObject (parse.parseValue n) n (o :: (body ++ c :: rest)) with
      | noMatch => rw [hobj] at h; cases h
      | outOfFuel => rw [hobj] at h; cases h
      | ok obj r1 =>
        rw [hobj] at h
        simp only [parse.Result.ok.injEq] at h
        obtain ⟨rfl, rfl⟩ := h
        obtain ⟨o', body', c', hts, -, -, -, hins⟩ := parseObject_local _ hv n _ obj r1 hwf hobj
        simp only [List.cons.injEq] at hts
        obtain ⟨rfl, hb⟩ := hts
        obtain ⟨rfl, hcc⟩ := List.append_inj' hb rfl
        simp only [List.cons.injEq, and_true] at hcc
        subst hcc
        simp [parse.parseValue, parse.Result.orElse, hS, hN, parse.altObject,
          hins hlast hcs ⟨.Punct, ","⟩ rfl]
    · unfold parse.altArray at h
      cases harr : parse.parseArray (parse.parseValue n) n (o :: (body ++ c :: rest)) with
      | noMatch => rw [harr] at h; cases h
      | outOfFuel => rw [harr] at h; cases h
      | ok els r1 =>
        rw [harr] at h
        have hr1 : r1 = rest := by
          cases els <;> simp only [parse.Result.ok.injEq] at h <;> exact h.2
        subst hr1
        obtain ⟨o', body', c', hts, hov', hcv, -, hins⟩ :=
          parseArray_local _ hv hfail n _ els r1 hwf harr
        simp only [List.cons.injEq] at hts
        obtain ⟨rfl, hb⟩ := hts
        obtain ⟨rfl, hcc⟩ := List.append_inj' hb rfl
        simp only [List.cons.injEq, and_true] at hcc
        subst hcc
        have hcl : c.lexical = true := hwf c (by simp)
        have hno : o.value ≠ "\x7b" := by rw [hov']; decide
        have hnm : parse.parseValue n (c :: r1) = .noMatch := by
          cases n with
          | zero =>
            obtain ⟨t, ht, -⟩ := hlast
            cases body with
            | nil => cases ht
            | cons b body =>
              simp [parse.parseArray, parse.parseList, parse.parseValue, hov'] at harr
          | succ k => exact parseValue_closer k c r1 hcl (Or.inl hcv) hcs
        have hnew := hins hlast hnm ⟨.Punct, ","⟩ rfl
        cases els with
        | nil =>
          simp only [parse.Result.ok.injEq] at h
          obtain ⟨rfl, -⟩ := h
          simp [parse.parseValue, parse.Result.orElse, hS, hN, altObject_noMatch _ n o _ hno,
            parse.altArray, hnew]
        | cons x xs =>
          simp only [parse.Result.ok.injEq] at h
          obtain ⟨rfl, -⟩ := h
          simp [parse.parseValue, parse.Result.orElse, hS, hN, altObject_noMatch _ n o _ hno,
            parse.altArray, hnew]

/-! ### More fuel does not change an answer -/

theorem parseMore_extends {α : Type} (f g : List parse.Token → parse.Result α)
    (hfg : parse.Extends f g) :
    ∀ (m m' : Nat), m ≤ m' → parse.Extends (parse.parseMore f m) (parse.parseMore g m')
  | 0, _, _ => fun ts h => by simp [parse.parseMore] at h
  | m + 1, 0, hm => by omega
  | m + 1, m' + 1, hm => by
    intro ts h
    have ih := parseMore_extends f g hfg m m' (by omega)
    cases ts with
    | nil => rfl
    | cons c r =>
      by_cases hc : c.value = ","
      · simp only [parse.parseMore, hc, if_true] at h ⊢
        cases hi : f r with
        | outOfFuel => simp [hi] at h
        | noMatch =>
          rw [hfg r (by rw [hi]; simp), hi]
        | ok x r1 =>
          rw [hi] at h
          simp only at h
          rw [hfg r (by rw [hi]; simp), hi]
          simp only
          cases hmr : parse.parseMore f m r1 with
          | outOfFuel => simp [hmr] at h
          | noMatch => rw [ih r1 (by rw [hmr]; simp), hmr]
          | ok xs r2 => rw [ih r1 (by rw [hmr]; simp), hmr]
      · simp only [parse.parseMore, hc, if_false]

theorem parseList_extends {α : Type} (f g : List parse.Token → parse.Result α)
    (hfg : parse.Extends f g) (trailing : Bool) (m m' : Nat) (hm : m ≤ m') :
    parse.Extends (parse.parseList f trailing m) (parse.parseList g trailing m') := by
  intro ts h
  unfold parse.parseList at h ⊢
  cases hi : f ts with
  | outOfFuel => simp [hi] at h
  | noMatch => rw [hfg ts (by rw [hi]; simp), hi]
  | ok x r1 =>
    rw [hi] at h
    simp only at h
    rw [hfg ts (by rw [hi]; simp), hi]
    simp only
    cases hmr : parse.parseMore f m r1 with
    | outOfFuel => simp [hmr] at h
    | noMatch => rw [parseMore_extends f g hfg m m' hm r1 (by rw [hmr]; simp), hmr]
    | ok xs r2 => rw [parseMore_extends f g hfg m m' hm r1 (by rw [hmr]; simp), hmr]

theorem parseAnnotatedField_extends (f g : List parse.Token → parse.Result parse.Value)
    (hfg : parse.Extends f g) :
    parse.Extends (parse.parseAnnotatedField f) (parse.parseAnnotatedField g) := by
  intro ts h
  unfold parse.parseAnnotatedField at h ⊢
  split
  · rename_i k c rest heq
    rw [heq] at h
    simp only at h
    by_cases hk : k.symbol = .String ∧ c.value = ":"
    · simp only [hk, and_self, if_true] at h ⊢
      cases hi : f rest with
      | outOfFuel => simp [hi] at h
      | noMatch => rw [hfg rest (by rw [hi]; simp), hi]
      | ok x r1 => rw [hfg rest (by rw [hi]; simp), hi]
    · simp only [hk, if_false]
  · rfl

theorem parseObject_extends (f g : List parse.Token → parse.Result parse.Value)
    (hfg : parse.Extends f g) (m m' : Nat) (hm : m ≤ m') :
    parse.Extends (parse.parseObject f m) (parse.parseObject g m') := by
  intro ts h
  cases ts with
  | nil => rfl
  | cons o r =>
    by_cases ho : o.value = "\x7b"
    · simp only [parse.parseObject, ho, if_true] at h ⊢
      have hl := parseList_extends _ _ (parseAnnotatedField_extends f g hfg) true m m' hm r
      cases hi : parse.parseList (parse.parseAnnotatedField f) true m r with
      | outOfFuel => simp [hi] at h
      | noMatch => rw [hl (by rw [hi]; simp), hi]
      | ok x r1 => rw [hl (by rw [hi]; simp), hi]
    · simp only [parse.parseObject, ho, if_false]

theorem parseArray_extends (f g : List parse.Token → parse.Result parse.Value)
    (hfg : parse.Extends f g) (m m' : Nat) (hm : m ≤ m') :
    parse.Extends (parse.parseArray f m) (parse.parseArray g m') := by
  intro ts h
  cases ts with
  | nil => rfl
  | cons o r =>
    by_cases ho : o.value = "["
    · simp only [parse.parseArray, ho, if_true] at h ⊢
      have hl := parseList_extends _ _ hfg true m m' hm r
      cases hi : parse.parseList f true m r with
      | outOfFuel => simp [hi] at h
      | noMatch => rw [hl (by rw [hi]; simp), hi]
      | ok x r1 => rw [hl (by rw [hi]; simp), hi]
    · simp only [parse.parseArray, ho, if_false]

theorem parseFunction_extends (f g : List parse.Token → parse.Result parse.Value)
    (hfg : parse.Extends f g) (m m' : Nat) (hm : m ≤ m') :
    parse.Extends (parse.parseFunction f m) (parse.parseFunction g m') := by
  intro ts h
  match ts, h with
  | [], _ => rfl
  | [_], _ => rfl
  | fn :: o :: r, h =>
    by_cases ho : fn.symbol = .Ident ∧ o.value = "("
    · simp only [parse.parseFunction, ho, and_self, if_true] at h ⊢
      have hl := parseList_extends _ _ hfg false m m' hm r
      cases hi : parse.parseList f false m r with
      | outOfFuel => simp [hi] at h
      | noMatch => rw [hl (by rw [hi]; simp), hi]
      | ok x r1 => rw [hl (by rw [hi]; simp), hi]
    · simp only [parse.parseFunction, ho, if_false]

theorem parseGenerator_extends (f g : List parse.Token → parse.Result parse.Value)
    (hfg : parse.Extends f g) :
    parse.Extends (parse.parseGenerator f) (parse.parseGenerator g) := by
  intro ts h
  match ts, h with
  | [], _ => rfl
  | [_], _ => rfl
  | [_, _], _ => rfl
  | r :: q :: o :: r0, h =>
    by_cases ho : r.value = "range" ∧ q.symbol = .JSONPath ∧ o.value = "["
    · simp only [parse.parseGenerator, ho, and_self, if_true] at h ⊢
      cases hi : f r0 with
      | outOfFuel => simp [hi] at h
      | noMatch => rw [hfg r0 (by rw [hi]; simp), hi]
      | ok x r1 => rw [hfg r0 (by rw [hi]; simp), hi]
    · simp only [parse.parseGenerator, ho, if_false]

theorem orElse_extends {α : Type} (r r' : parse.Result α) (next next' : Unit → parse.Result α)
    (h1 : r ≠ .outOfFuel → r' = r) (h2 : next () ≠ .outOfFuel → next' () = next ())
    (h : r.orElse next ≠ .outOfFuel) : r'.orElse next' = r.orElse next := by
  cases r with
  | outOfFuel => simp [parse.Result.orElse] at h
  | noMatch =>
    rw [h1 (by simp)]
    simp only [parse.Result.orElse] at h ⊢
    exact h2 h
  | ok a rest =>
    rw [h1 (by simp)]
    rfl

theorem parseValue_extends : ∀ (n m : Nat), n ≤ m →
    parse.Extends (parse.parseValue n) (parse.parseValue m)
  | 0, _, _ => fun ts h => by simp [parse.parseValue] at h
  | n + 1, 0, hm => by omega
  | n + 1, m + 1, hm => by
    have ih := parseValue_extends n m (by omega)
    have hnm : n ≤ m := by omega
    intro ts h
    simp only [parse.parseValue] at h ⊢
    refine orElse_extends _ _ _ _ (fun _ => rfl) (fun h => ?_) h
    refine orElse_extends _ _ _ _ (fun _ => rfl) (fun h => ?_) h
    refine orElse_extends _ _ _ _ (fun h => ?_) (fun h => ?_) h
    · unfold parse.altObject at h ⊢
      cases hi : parse.parseObject (parse.parseValue n) n ts with
      | outOfFuel => simp [hi] at h
      | noMatch => rw [parseObject_extends _ _ ih n m hnm ts (by rw [hi]; simp), hi]
      | ok x r1 => rw [parseObject_extends _ _ ih n m hnm ts (by rw [hi]; simp), hi]
    refine orElse_extends _ _ _ _ (fun h => ?_) (fun h => ?_) h
    · unfold parse.altArray at h ⊢
      cases hi : parse.parseArray (parse.parseValue n) n ts with
      | outOfFuel => simp [hi] at h
      | noMatch => rw [parseArray_extends _ _ ih n m hnm ts (by rw [hi]; simp), hi]
      | ok x r1 => rw [parseArray_extends _ _ ih n m hnm ts (by rw [hi]; simp), hi]
    refine orElse_extends _ _ _ _ (fun _ => rfl) (fun h => ?_) h
    refine orElse_extends _ _ _ _ (fun _ => rfl) (fun h => ?_) h
    refine orElse_extends _ _ _ _ (fun h => ?_) (fun h => ?_) h
    · unfold parse.altGenerator at h ⊢
      cases hi : parse.parseGenerator (parse.parseValue n) ts with
      | outOfFuel => simp [hi] at h
      | noMatch => rw [parseGenerator_extends _ _ ih ts (by rw [hi]; simp), hi]
      | ok x r1 => rw [parseGenerator_extends _ _ ih ts (by rw [hi]; simp), hi]
    refine orElse_extends _ _ _ _ (fun _ => rfl) (fun h => ?_) h
    unfold parse.altFunction at h ⊢
    cases hi : parse.parseFunction (parse.parseValue n) n ts with
    | outOfFuel => simp [hi] at h
    | noMatch => rw [parseFunction_extends _ _ ih n m hnm ts (by rw [hi]; simp), hi]
    | ok x r1 => rw [parseFunction_extends _ _ ih n m hnm ts (by rw [hi]; simp), hi]

/-! ### The tokens of the lexer -/

theorem lexNext_lexical (cs : List Char) (t : parse.Token) (rest : List Char)
    (h : parse.lexNext cs = some (t, rest)) : t.lexical = true := by
  unfold parse.lexNext at h
  obtain ⟨pm, hmem, hpm⟩ := List.exists_of_findSome?_eq_some h
  cases hm : pm.2 cs with
  | none => rw [hm] at hpm; cases hpm
  | some tr =>
    obtain ⟨text, rest1⟩ := tr
    rw [hm] at hpm
    simp only [Option.some.injEq, Prod.mk.injEq] at hpm
    obtain ⟨rfl, -⟩ := hpm
    simp only [parse.productions, List.mem_cons, List.mem_singleton, List.not_mem_nil,
      or_false] at hmem
    rcases hmem with rfl | rfl | rfl | rfl | rfl | rfl | rfl | rfl | rfl | rfl
    · rfl
    · cases cs with
      | nil => simp [parse.lexIdent] at hm
      | cons c cs =>
        by_cases hc : (parse.alpha c || c == '_') = true
        · simp only [parse.lexIdent, hc, if_true, Option.some.injEq, Prod.mk.injEq] at hm
          obtain ⟨rfl, -⟩ := hm
          simpa [parse.Token.lexical] using hc
        · simp [parse.lexIdent, hc] at hm
    · rfl
    · rfl
    · rfl
    · rfl
    · cases cs with
      | nil => simp [parse.lexJSONPath] at hm
      | cons c cs =>
        by_cases hc : c = '$'
        · simp only [parse.lexJSONPath, hc, if_true, Option.some.injEq, Prod.mk.injEq] at hm
          obtain ⟨rfl, -⟩ := hm
          rfl
        · simp [parse.lexJSONPath, hc] at hm
    · rfl
    · rfl
    · rfl

theorem lexAll_lexical : ∀ (n : Nat) (cs : List Char) (ts : List parse.Token),
    parse.lexAll n cs = some ts → ∀ t ∈ ts, t.lexical = true
  | 0, [], ts, h => by
    simp only [parse.lexAll, Option.some.injEq] at h
    subst h
    simp
  | _ + 1, [], ts, h => by
    simp only [parse.lexAll, Option.some.injEq] at h
    subst h
    simp
  | 0, _ :: _, ts, h => by simp [parse.lexAll] at h
  | n + 1, c :: cs, ts, h => by
    simp only [parse.lexAll] at h
    cases hn : parse.lexNext (c :: cs) with
    | none => rw [hn] at h; cases h
    | some tr =>
      obtain ⟨t, rest⟩ := tr
      rw [hn] at h
      simp only at h
      cases hr : parse.lexAll n rest with
      | none => rw [hr] at h; cases h
      | some ts1 =>
        rw [hr] at h
        simp only [Option.some.injEq] at h
        subst h
        intro t' ht'
        rcases List.mem_cons.1 ht' with rfl | ht'
        · exact lexNext_lexical _ _ _ hn
        · exact lexAll_lexical n rest ts1 hr t' ht'

theorem unquoteTokens_lexical (unquote : String → Option String) :
    ∀ (ts ts' : List parse.Token), parse.unquoteTokens unquote ts = some ts' →
      (∀ t ∈ ts, t.lexical = true) → ∀ t ∈ ts', t.lexical = true
  | [], ts', h, _ => by
    simp only [parse.unquoteTokens, Option.some.injEq] at h
    subst h
    simp
  | t :: ts, ts', h, hl => by
    simp only [parse.unquoteTokens] at h
    split at h
    · rename_i v rest hv hr
      simp only [Option.some.injEq] at h
      subst h
      intro t' ht'
      rcases List.mem_cons.1 ht' with rfl | ht'
      · by_cases hs : t.symbol = .String
        · simp [parse.Token.lexical, hs]
        · simp only [hs, if_false, Option.some.injEq] at hv
          subst hv
          exact hl t (List.mem_cons_self _ _)
      · exact unquoteTokens_lexical unquote ts rest hr
          (fun t ht => hl t (List.mem_cons_of_mem _ ht)) t' ht'
    · cases h

theorem tokens_lexical (unquote : String → Option String) (source : String)
    (ts : List parse.Token) (h : parse.tokens unquote source = .ok ts) :
    ∀ t ∈ ts, t.lexical = true := by
  unfold parse.tokens at h
  cases hl : parse.Lex source with
  | none => rw [hl] at h; cases h
  | some raw =>
    rw [hl] at h
    simp only at h
    cases hu : parse.unquoteTokens unquote raw with
    | none => rw [hu] at h; cases h
    | some ts1 =>
      rw [hu] at h
      simp only [Except.ok.injEq] at h
      subst h
      intro t ht
      exact unquoteTokens_lexical unquote raw ts1 hu (lexAll_lexical _ _ raw hl) t
        (List.mem_of_mem_filter ht)

theorem parseTokens_ok (ts : List parse.Token) (ast : parse.Template)
    (h : parse.parseTokens ts = .ok ast) :
    parse.parseValue (ts.length + 1) ts = .ok ast.Root [] := by
  unfold parse.parseTokens at h
  cases hp : parse.parseValue (ts.length + 1) ts with
  | noMatch => rw [hp] at h; cases h
  | outOfFuel => rw [hp] at h; cases h
  | ok root rest =>
    rw [hp] at h
    cases rest with
    | nil =>
      simp only [Except.ok.injEq] at h
      subst h
      rfl
    | cons t rest => cases h

/-- C20: take an object or array literal whose opening and closing brackets
are punctuation tokens and whose body does not end in a token ",". A comma
added after the last field or element changes nothing: on tokens as the lexer
makes them, the value that the grammar reads from the literal before any
tokens `rest` is read as well, with the same fuel or more, from the literal
with the comma (first part); and when the literal is a whole source text, the
text with the comma parses to the same syntax tree, so that `Parse` gives the
same on both texts (second part). -/
theorem trailing_comma_same_tree (o c : parse.Token) (body : List parse.Token)
    (ho : o.symbol = .Punct) (hov : o.value = "[" ∨ o.value = "\x7b")
    (hc : c.symbol = .Punct) (hlast : ∃ t, body.getLast? = some t ∧ t.value ≠ ",") :
    (∀ (n m : Nat) (rest : List parse.Token) (v : parse.Value), n ≤ m →
      (∀ t ∈ o :: (body ++ c :: rest), t.lexical = true) →
      parse.parseValue n (o :: (body ++ c :: rest)) = .ok v rest →
      parse.parseValue m (o :: (body ++ ⟨.Punct, ","⟩ :: c :: rest)) = .ok v rest) ∧
    (∀ (unquote : String → Option String) (source source' : String) (ast : parse.Template),
      parse.tokens unquote source = .ok (o :: (body ++ [c])) →
      parse.tokens unquote source' = .ok (o :: (body ++ [⟨.Punct, ","⟩, c])) →
      parse.Parser.Parse unquote source = .ok ast →
      parse.Parser.Parse unquote source' = .ok ast ∧
        ∀ (h : Host) (funcs : FunctionMap),
          Parse h unquote source' funcs = Parse h unquote source funcs) := by
  refine ⟨fun n m rest v hnm hwf h => ?_, fun unquote source source' ast hs hs' hp => ?_⟩
  · have h2 := parseValue_trailing n o c body rest v hwf ho hov hc hlast h
    rw [parseValue_extends n m hnm _ (by rw [h2]; simp), h2]
  have hwf := tokens_lexical unquote source _ hs
  have key : parse.Parser.Parse unquote source' = .ok ast := by
    simp only [parse.Parser.Parse, hs] at hp
    simp only [parse.Parser.Parse, hs']
    have h1 := parseTokens_ok _ ast hp
    have h2 := parseValue_trailing _ o c body [] ast.Root hwf ho hov hc hlast h1
    have h3 := parseValue_extends ((o :: (body ++ [c])).length + 1)
      ((o :: (body ++ [⟨.Punct, ","⟩, c])).length + 1) (by simp) _
      (by rw [h2]; simp)
    rw [h2] at h3
    unfold parse.parseTokens
    rw [h3]
  refine ⟨key, fun h funcs => ?_⟩
  simp only [Parse, key, hp]

/-! ### The fuel of the parser and of the lexer is enough -/

theorem parseMore_length {α : Type} (item : List parse.Token → parse.Result α)
    (hitem : parse.Consumes item) :
    ∀ (m : Nat) (ts : List parse.Token) (xs : List α) (rest : List parse.Token),
      parse.parseMore item m ts = .ok xs rest → rest.length ≤ ts.length
  | 0, ts, xs, rest, h => by simp [parse.parseMore] at h
  | m + 1, [], xs, rest, h => by
    simp only [parse.parseMore, parse.Result.ok.injEq] at h
    rw [← h.2]
  | m + 1, c :: r, xs, rest, h => by
    by_cases hc : c.value = ","
    · simp only [parse.parseMore, hc, if_true] at h
      cases hi : item r with
      | ok x r1 =>
        rw [hi] at h
        simp only at h
        cases hm : parse.parseMore item m r1 with
        | ok xs1 r2 =>
          rw [hm] at h
          simp only [parse.Result.ok.injEq] at h
          obtain ⟨-, rfl⟩ := h
          have h1 := hitem r x r1 hi
          have h2 := parseMore_length item hitem m r1 xs1 r2 hm
          simp only [List.length_cons]
          omega
        | noMatch => rw [hm] at h; cases h
        | outOfFuel => rw [hm] at h; cases h
      | noMatch =>
        rw [hi] at h
        simp only [parse.Result.ok.injEq] at h
        rw [← h.2]
      | outOfFuel => rw [hi] at h; cases h
    · simp only [parse.parseMore, hc, if_false, parse.Result.ok.injEq] at h
      rw [← h.2]

theorem skipComma_length (ts : List parse.Token) : (parse.skipComma ts).length ≤ ts.length := by
  cases ts with
  | nil => simp [parse.skipComma]
  | cons c r =>
    by_cases hc : c.value = "," <;> simp [parse.skipComma, hc]

theorem parseList_length {α : Type} (item : List parse.Token → parse.Result α)
    (hitem : parse.Consumes item) (trailing : Bool) (m : Nat) (ts : List parse.Token)
    (xs : List α) (rest : List parse.Token)
    (h : parse.parseList item trailing m ts = .ok xs rest) : rest.length ≤ ts.length := by
  unfold parse.parseList at h
  cases hi : item ts with
  | noMatch =>
    rw [hi] at h
    simp only [parse.Result.ok.injEq] at h
    rw [← h.2]
  | outOfFuel => rw [hi] at h; cases h
  | ok x r1 =>
    rw [hi] at h
    simp only at h
    cases hm : parse.parseMore item m r1 with
    | noMatch => rw [hm] at h; cases h
    | outOfFuel => rw [hm] at h; cases h
    | ok xs1 r2 =>
      rw [hm] at h
      simp only [parse.Result.ok.injEq] at h
      obtain ⟨-, rfl⟩ := h
      have h1 := hitem ts x r1 hi
      have h2 := parseMore_length item hitem m r1 xs1 r2 hm
      have h3 := skipComma_length r2
      cases trailing <;> simp <;> omega

theorem parseMarker_length (ts : List parse.Token) :
    (parse.parseMarker ts).2.length ≤ ts.length := by
  match ts with
  | [] => simp [parse.parseMarker]
  | [_] => simp [parse.parseMarker]
  | a :: i :: r =>
    by_cases h : a.value = "@" ∧ i.symbol = .Ident
    · rw [parseMarker_some a i r h]
      simp only [List.length_cons]
      omega
    · rw [parseMarker_none a i r h]

theorem parseAnnotatedField_consumes (value : List parse.Token → parse.Result parse.Value)
    (hv : parse.Consumes value) : parse.Consumes (parse.parseAnnotatedField value) := by
  intro ts f rest h
  have hm := parseMarker_length ts
  unfold parse.parseAnnotatedField at h
  split at h
  · rename_i k c r heq
    rw [heq] at hm
    by_cases hk : k.symbol = .String ∧ c.value = ":"
    · simp only [hk, and_self, if_true] at h
      cases hval : value r with
      | noMatch => rw [hval] at h; cases h
      | outOfFuel => rw [hval] at h; cases h
      | ok v r1 =>
        rw [hval] at h
        simp only [parse.Result.ok.injEq] at h
        obtain ⟨-, rfl⟩ := h
        have := hv r v r1 hval
        simp only [List.length_cons] at hm
        omega
    · simp only [hk, if_false] at h
      cases h
  · cases h

theorem parseAnnotatedField_answers (value : List parse.Token → parse.Result parse.Value)
    (n : Nat) (hv : parse.Answers n value) :
    parse.Answers n (parse.parseAnnotatedField value) := by
  intro ts hlen
  have hm := parseMarker_length ts
  unfold parse.parseAnnotatedField
  split
  · rename_i k c r heq
    rw [heq] at hm
    by_cases hk : k.symbol = .String ∧ c.value = ":"
    · simp only [hk, and_self, if_true]
      have hr : r.length < n := by
        simp only [List.length_cons] at hm
        omega
      cases hval : value r with
      | noMatch => simp
      | outOfFuel => exact absurd hval (hv r hr)
      | ok v r1 => simp
    · simp only [hk, if_false]
      simp
  · simp

theorem parseMore_answers {α : Type} (item : List parse.Token → parse.Result α)
    (hitem : parse.Consumes item) (n : Nat) (ha : parse.Answers n item) :
    ∀ (m : Nat) (ts : List parse.Token), ts.length < m → ts.length ≤ n →
      parse.parseMore item m ts ≠ .outOfFuel
  | 0, ts, h, _ => by omega
  | m + 1, [], _, _ => by simp [parse.parseMore]
  | m + 1, c :: r, hm, hn => by
    simp only [List.length_cons] at hm hn
    by_cases hc : c.value = ","
    · simp only [parse.parseMore, hc, if_true]
      cases hi : item r with
      | ok x r1 =>
        simp only
        have h1 := hitem r x r1 hi
        have h2 := parseMore_answers item hitem n ha m r1 (by omega) (by omega)
        cases hmr : parse.parseMore item m r1 with
        | ok xs1 r2 => simp
        | noMatch => simp
        | outOfFuel => exact absurd hmr h2
      | noMatch => simp
      | outOfFuel => exact absurd hi (ha r (by omega))
    · simp [parse.parseMore, hc]

theorem parseList_answers {α : Type} (item : List parse.Token → parse.Result α)
    (hitem : parse.Consumes item) (n : Nat) (ha : parse.Answers n item) (trailing : Bool)
    (m : Nat) (ts : List parse.Token) (hn : ts.length < n) (hm : ts.length ≤ m) :
    parse.parseList item trailing m ts ≠ .outOfFuel := by
  unfold parse.parseList
  cases hi : item ts with
  | noMatch => simp
  | outOfFuel => exact absurd hi (ha ts hn)
  | ok x r1 =>
    simp only
    have h1 := hitem ts x r1 hi
    have h2 := parseMore_answers item hitem n ha m r1 (by omega) (by omega)
    cases hmr : parse.parseMore item m r1 with
    | ok xs1 r2 => simp
    | noMatch => simp
    | outOfFuel => exact absurd hmr h2

theorem parseObject_consumes (value : List parse.Token → parse.Result parse.Value)
    (hv : parse.Consumes value) (m : Nat) : parse.Consumes (parse.parseObject value m) := by
  intro ts obj rest h
  cases ts with
  | nil => simp [parse.parseObject] at h
  | cons o r =>
    by_cases ho : o.value = "\x7b"
    · simp only [parse.parseObject, ho, if_true] at h
      cases hl : parse.parseList (parse.parseAnnotatedField value) true m r with
      | noMatch => rw [hl] at h; cases h
      | outOfFuel => rw [hl] at h; cases h
      | ok fields r1 =>
        rw [hl] at h
        have hlen := parseList_length _ (parseAnnotatedField_consumes value hv) true m r
          fields r1 hl
        cases r1 with
        | nil => cases h
        | cons c rest1 =>
          simp only at h
          by_cases hc : c.value = "\x7d"
          · simp only [hc, if_true, parse.Result.ok.injEq] at h
            obtain ⟨-, rfl⟩ := h
            simp only [List.length_cons] at hlen ⊢
            omega
          · simp only [hc, if_false] at h
            cases h
    · simp only [parse.parseObject, ho, if_false] at h
      cases h

theorem parseArray_consumes (value : List parse.Token → parse.Result parse.Value)
    (hv : parse.Consumes value) (m : Nat) : parse.Consumes (parse.parseArray value m) := by
  intro ts obj rest h
  cases ts with
  | nil => simp [parse.parseArray] at h
  | cons o r =>
    by_cases ho : o.value = "["
    · simp only [parse.parseArray, ho, if_true] at h
      cases hl : parse.parseList value true m r with
      | noMatch => rw [hl] at h; cases h
      | outOfFuel => rw [hl] at h; cases h
      | ok fields r1 =>
        rw [hl] at h
        have hlen := parseList_length _ hv true m r fields r1 hl
        cases r1 with
        | nil => cases h
        | cons c rest1 =>
          simp only at h
          by_cases hc : c.value = "]"
          · simp only [hc, if_true, parse.Result.ok.injEq] at h
            obtain ⟨-, rfl⟩ := h
            simp only [List.length_cons] at hlen ⊢
            omega
          · simp only [hc, if_false] at h
            cases h
    · simp only [parse.parseArray, ho, if_false] at h
      cases h

theorem parseFunction_consumes (value : List parse.Token → parse.Result parse.Value)
    (hv : parse.Consumes value) (m : Nat) : parse.Consumes (parse.parseFunction value m) := by
  intro ts fn rest h
  match ts, h with
  | [], h => simp [parse.parseFunction] at h
  | [_], h => simp [parse.parseFunction] at h
  | f :: o :: r, h =>
    by_cases ho : f.symbol = .Ident ∧ o.value = "("
    · simp only [parse.parseFunction, ho, and_self, if_true] at h
      cases hl : parse.parseList value false m r with
      | noMatch => rw [hl] at h; cases h
      | outOfFuel => rw [hl] at h; cases h
      | ok args r1 =>
        rw [hl] at h
        have hlen := parseList_length _ hv false m r args r1 hl
        cases r1 with
        | nil => cases h
        | cons c rest1 =>
          simp only at h
          by_cases hc : c.value = ")"
          · simp only [hc, if_true, parse.Result.ok.injEq] at h
            obtain ⟨-, rfl⟩ := h
            simp only [List.length_cons] at hlen ⊢
            omega
          · simp only [hc, if_false] at h
            cases h
    · simp only [parse.parseFunction, ho, if_false] at h
      cases h

theorem parseGenerator_consumes (value : List parse.Token → parse.Result parse.Value)
    (hv : parse.Consumes value) : parse.Consumes (parse.parseGenerator value) := by
  intro ts g rest h
  match ts, h with
  | [], h => simp [parse.parseGenerator] at h
  | [_], h => simp [parse.parseGenerator] at h
  | [_, _], h => simp [parse.parseGenerator] at h
  | r :: q :: o :: r0, h =>
    by_cases ho : r.value = "range" ∧ q.symbol = .JSONPath ∧ o.value = "["
    · simp only [parse.parseGenerator, ho, and_self, if_true] at h
      cases hl : value r0 with
      | noMatch => rw [hl] at h; cases h
      | outOfFuel => rw [hl] at h; cases h
      | ok sub r1 =>
        rw [hl] at h
        have hlen := hv r0 sub r1 hl
        cases r1 with
        | nil => cases h
        | cons c rest1 =>
          simp only at h
          by_cases hc : c.value = "]"
          · simp only [hc, if_true, parse.Result.ok.injEq] at h
            obtain ⟨-, rfl⟩ := h
            simp only [List.length_cons] at hlen ⊢
            omega
          · simp only [hc, if_false] at h
            cases h
    · simp only [parse.parseGenerator, ho, if_false] at h
      cases h

theorem parseValue_consumes : ∀ n : Nat, parse.Consumes (parse.parseValue n)
  | 0 => by
    intro ts v rest h
    simp [parse.parseValue] at h
  | n + 1 => by
    have hv := parseValue_consumes n
    intro ts v rest h
    simp only [parse.parseValue, orElse_ok_iff] at h
    rcases h with
      h | ⟨-, h | ⟨-, h | ⟨-, h | ⟨-, h | ⟨-, h | ⟨-, h | ⟨-, h | ⟨-, h⟩⟩⟩⟩⟩⟩⟩⟩
    · cases ts with
      | nil => simp [parse.altString] at h
      | cons t r =>
        by_cases hs : t.symbol = .String <;> simp [parse.altString, hs] at h
        rw [← h.2]
        simp
    · cases ts with
      | nil => simp [parse.altNumber] at h
      | cons t r =>
        by_cases hs : t.symbol = .Number
        · cases hf : strconv.ParseFloat t.value <;> simp [parse.altNumber, hs, hf] at h
          rw [← h.2]
          simp
        · simp [parse.altNumber, hs] at h
    · unfold parse.altObject at h
      cases ho : parse.parseObject (parse.parseValue n) n ts with
      | noMatch => rw [ho] at h; cases h
      | outOfFuel => rw [ho] at h; cases h
      | ok obj r1 =>
        rw [ho] at h
        simp only [parse.Result.ok.injEq] at h
        obtain ⟨-, rfl⟩ := h
        exact parseObject_consumes _ hv n ts obj r1 ho
    · unfold parse.altArray at h
      cases ho : parse.parseArray (parse.parseValue n) n ts with
      | noMatch => rw [ho] at h; cases h
      | outOfFuel => rw [ho] at h; cases h
      | ok els r1 =>
        rw [ho] at h
        have hr1 : r1 = rest := by
          cases els <;> simp only [parse.Result.ok.injEq] at h <;> exact h.2
        subst hr1
        exact parseArray_consumes _ hv n ts els r1 ho
    · cases ts with
      | nil => simp [parse.altBool] at h
      | cons t r =>
        by_cases h1 : t.value = "true"
        · simp [parse.altBool, h1] at h
          rw [← h.2]
          simp
        · by_cases h2 : t.value = "false" <;> simp [parse.altBool, h1, h2] at h
          rw [← h.2]
          simp
    · cases ts with
      | nil => simp [parse.altNull] at h
      | cons t r =>
        by_cases h1 : t.value = "null" <;> simp [parse.altNull, h1] at h
        rw [← h.2]
        simp
    · unfold parse.altGenerator at h
      cases ho : parse.parseGenerator (parse.parseValue n) ts with
      | noMatch => rw [ho] at h; cases h
      | outOfFuel => rw [ho] at h; cases h
      | ok g r1 =>
        rw [ho] at h
        simp only [parse.Result.ok.injEq] at h
        obtain ⟨-, rfl⟩ := h
        exact parseGenerator_consumes _ hv ts g r1 ho
    · cases ts with
      | nil => simp [parse.altExtractor] at h
      | cons t r =>
        by_cases hs : t.symbol = .JSONPath <;> simp [parse.altExtractor, hs] at h
        rw [← h.2]
        simp
    · unfold parse.altFunction at h
      cases ho : parse.parseFunction (parse.parseValue n) n ts with
      | noMatch => rw [ho] at h; cases h
      | outOfFuel => rw [ho] at h; cases h
      | ok fn r1 =>
        rw [ho] at h
        simp only [parse.Result.ok.injEq] at h
        obtain ⟨-, rfl⟩ := h
        exact parseFunction_consumes _ hv n ts fn r1 ho

theorem orElse_answers {α : Type} (r : parse.Result α) (next : Unit → parse.Result α)
    (h1 : r ≠ .outOfFuel) (h2 : next () ≠ .outOfFuel) : r.orElse next ≠ .outOfFuel := by
  cases r with
  | outOfFuel => exact absurd rfl h1
  | noMatch => exact h2
  | ok a rest => simp [parse.Result.orElse]

theorem parseValue_answers : ∀ n : Nat, parse.Answers n (parse.parseValue n)
  | 0 => fun ts h => by omega
  | n + 1 => by
    have ha := parseValue_answers n
    have hc := parseValue_consumes n
    intro ts hlen
    simp only [parse.parseValue]
    have hS : parse.altString ts ≠ .outOfFuel := by
      cases ts with
      | nil => simp [parse.altString]
      | cons t r => by_cases hs : t.symbol = .String <;> simp [parse.altString, hs]
    have hN : parse.altNumber ts ≠ .outOfFuel := by
      cases ts with
      | nil => simp [parse.altNumber]
      | cons t r =>
        by_cases hs : t.symbol = .Number
        · cases hf : strconv.ParseFloat t.value <;> simp [parse.altNumber, hs, hf]
        · simp [parse.altNumber, hs]
    have hB : parse.altBool ts ≠ .outOfFuel := by
      cases ts with
      | nil => simp [parse.altBool]
      | cons t r =>
        by_cases h1 : t.value = "true"
        · simp [parse.altBool, h1]
        · by_cases h2 : t.value = "false" <;> simp [parse.altBool, h1, h2]
    have hL : parse.altNull ts ≠ .outOfFuel := by
      cases ts with
      | nil => simp [parse.altNull]
      | cons t r => by_cases h1 : t.value = "null" <;> simp [parse.altNull, h1]
    have hE : parse.altExtractor ts ≠ .outOfFuel := by
      cases ts with
      | nil => simp [parse.altExtractor]
      | cons t r => by_cases hs : t.symbol = .JSONPath <;> simp [parse.altExtractor, hs]
    have hO : parse.altObject (parse.parseValue n) n ts ≠ .outOfFuel := by
      cases ts with
      | nil => simp [parse.altObject, parse.parseObject]
      | cons o r =>
        simp only [List.length_cons] at hlen
        by_cases ho : o.value = "\x7b"
        · have hl := parseList_answers _ (parseAnnotatedField_consumes _ hc) n
            (parseAnnotatedField_answers _ n ha) true n r (by omega) (by omega)
          simp only [parse.altObject, parse.parseObject, ho, if_true]
          cases hp : parse.parseList (parse.parseAnnotatedField (parse.parseValue n)) true n r with
          | outOfFuel => exact absurd hp hl
          | noMatch => simp
          | ok fields r1 =>
            cases r1 with
            | nil => simp
            | cons c rest1 => by_cases hcv : c.value = "\x7d" <;> simp [hcv]
        · simp [parse.altObject, parse.parseObject, ho]
    have hA : parse.altArray (parse.parseValue n) n ts ≠ .outOfFuel := by
      cases ts with
      | nil => simp [parse.altArray, parse.parseArray]
      | cons o r =>
        simp only [List.length_cons] at hlen
        by_cases ho : o.value = "["
        · have hl := parseList_answers _ hc n ha true n r (by omega) (by omega)
          simp only [parse.altArray, parse.parseArray, ho, if_true]
          cases hp : parse.parseList (parse.parseValue n) true n r with
          | outOfFuel => exact absurd hp hl
          | noMatch => simp
          | ok els r1 =>
            cases r1 with
            | nil => simp
            | cons c rest1 =>
              by_cases hcv : c.value = "]"
              · cases els <;> simp [hcv]
              · simp [hcv]
        · simp [parse.altArray, parse.parseArray, ho]
    have hG : parse.altGenerator (parse.parseValue n) ts ≠ .outOfFuel := by
      match ts, hlen with
      | [], _ => simp [parse.altGenerator, parse.parseGenerator]
      | [_], _ => simp [parse.altGenerator, parse.parseGenerator]
      | [_, _], _ => simp [parse.altGenerator, parse.parseGenerator]
      | r :: q :: o :: r0, hlen =>
        simp only [List.length_cons] at hlen
        by_cases ho : r.value = "range" ∧ q.symbol = .JSONPath ∧ o.value = "["
        · simp only [parse.altGenerator, parse.parseGenerator, ho, and_self, if_true]
          cases hp : parse.parseValue n r0 with
          | outOfFuel => exact absurd hp (ha r0 (by omega))
          | noMatch => simp
          | ok sub r1 =>
            cases r1 with
            | nil => simp
            | cons c rest1 => by_cases hcv : c.value = "]" <;> simp [hcv]
        · simp [parse.altGenerator, parse.parseGenerator, ho]
    have hF : parse.altFunction (parse.parseValue n) n ts ≠ .outOfFuel := by
      match ts, hlen with
      | [], _ => simp [parse.altFunction, parse.parseFunction]
      | [_], _ => simp [parse.altFunction, parse.parseFunction]
      | f :: o :: r, hlen =>
        simp only [List.length_cons] at hlen
        by_cases ho : f.symbol = .Ident ∧ o.value = "("
        · have hl := parseList_answers _ hc n ha false n r (by omega) (by omega)
          simp only [parse.altFunction, parse.parseFunction, ho, and_self, if_true]
          cases hp : parse.parseList (parse.parseValue n) false n r with
          | outOfFuel => exact absurd hp hl
          | noMatch => simp
          | ok args r1 =>
            cases r1 with
            | nil => simp
            | cons c rest1 => by_cases hcv : c.value = ")" <;> simp [hcv]
        · simp [parse.altFunction, parse.parseFunction, ho]
    exact orElse_answers _ _ hS (orElse_answers _ _ hN (orElse_answers _ _ hO
      (orElse_answers _ _ hA (orElse_answers _ _ hB (orElse_answers _ _ hL
        (orElse_answers _ _ hG (orElse_answers _ _ hE hF)))))))

theorem parseTokens_answers (ts : List parse.Token) :
    parse.parseValue (ts.length + 1) ts ≠ .outOfFuel :=
  parseValue_answers (ts.length + 1) ts (Nat.lt_succ_self _)

theorem parseValue_fuel (n : Nat) (ts : List parse.Token) (hn : ts.length < n) :
    parse.parseValue n ts = parse.parseValue (ts.length + 1) ts :=
  parseValue_extends (ts.length + 1) n (by omega) ts (parseTokens_answers ts)

theorem lexStringBody_length : ∀ cs : List Char,
    (parse.lexStringBody cs).2.length ≤ cs.length
  | [] => by simp [parse.lexStringBody]
  | c :: cs => by
    unfold parse.lexStringBody
    have ih := lexStringBody_length cs
    split
    · simp only [List.length_cons]
      omega
    · split
      · match cs with
        | [] => simp
        | d :: ds =>
          have ih2 := lexStringBody_length ds
          simp only
          split
          · simp only [List.length_cons]
            omega
          · simp
      · simp

theorem lexSign_length (cs : List Char) : (parse.lexSign cs).2.length ≤ cs.length := by
  cases cs with
  | nil => simp [parse.lexSign]
  | cons c cs => by_cases h : c = '-' <;> simp [parse.lexSign, h]

theorem lexOptionalDigit_length (cs : List Char) :
    (parse.lexOptionalDigit cs).2.length ≤ cs.length := by
  cases cs with
  | nil => simp [parse.lexOptionalDigit]
  | cons c cs => by_cases h : parse.digit c = true <;> simp [parse.lexOptionalDigit, h]

theorem dropWhile_length {α : Type} (p : α → Bool) (l : List α) :
    (l.dropWhile p).length ≤ l.length :=
  (List.dropWhile_sublist p).length_le

theorem lexComment_consumes (cs text rest : List Char)
    (h : parse.lexComment cs = some (text, rest)) : rest.length < cs.length := by
  cases cs with
  | nil => simp [parse.lexComment] at h
  | cons c cs =>
    by_cases hc : c = '#'
    · simp only [parse.lexComment, hc, if_true, Option.some.injEq, Prod.mk.injEq] at h
      rw [← h.2, List.length_cons]
      exact Nat.lt_succ_of_le (dropWhile_length _ _)
    · simp [parse.lexComment, hc] at h

theorem lexIdent_consumes (cs text rest : List Char)
    (h : parse.lexIdent cs = some (text, rest)) : rest.length < cs.length := by
  cases cs with
  | nil => simp [parse.lexIdent] at h
  | cons c cs =>
    by_cases hc : (parse.alpha c || c == '_') = true
    · simp only [parse.lexIdent, hc, if_true, Option.some.injEq, Prod.mk.injEq] at h
      rw [← h.2, List.length_cons]
      exact Nat.lt_succ_of_le (dropWhile_length _ _)
    · simp [parse.lexIdent, hc] at h

theorem lexString_consumes (cs text rest : List Char)
    (h : parse.lexString cs = some (text, rest)) : rest.length < cs.length := by
  cases cs with
  | nil => simp [parse.lexString] at h
  | cons c cs =>
    by_cases hc : c = parse.quote
    · simp only [parse.lexString, hc, if_true] at h
      have hl := lexStringBody_length cs
      cases hb : (parse.lexStringBody cs).2 with
      | nil => rw [hb] at h; cases h
      | cons q r =>
        rw [hb] at h hl
        simp only at h
        by_cases hq : q = parse.quote
        · simp only [hq, if_true, Option.some.injEq, Prod.mk.injEq] at h
          rw [← h.2]
          simp only [List.length_cons] at hl ⊢
          omega
        · simp [hq] at h
    · simp [parse.lexString, hc] at h

theorem lexInt_consumes (cs text rest : List Char)
    (h : parse.lexInt cs = some (text, rest)) : rest.length < cs.length := by
  unfold parse.lexInt at h
  have hl := lexSign_length cs
  cases hb : (parse.lexSign cs).2 with
  | nil => rw [hb] at h; cases h
  | cons d r =>
    rw [hb] at h hl
    simp only at h
    by_cases hd : parse.digit d = true
    · simp only [hd, if_true, Option.some.injEq, Prod.mk.injEq] at h
      rw [← h.2]
      have := dropWhile_length parse.digit r
      simp only [List.length_cons] at hl
      omega
    · simp [hd] at h

theorem lexFloat_consumes (cs text rest : List Char)
    (h : parse.lexFloat cs = some (text, rest)) : rest.length < cs.length := by
  unfold parse.lexFloat at h
  have hl := lexSign_length cs
  have hl2 := lexOptionalDigit_length (parse.lexSign cs).2
  split at h
  · rename_i p d r heq
    rw [heq] at hl2
    by_cases hd : p = '.' ∧ parse.digit d = true
    · simp only [hd, and_self, if_true, Option.some.injEq, Prod.mk.injEq] at h
      rw [← h.2]
      have := dropWhile_length parse.digit r
      simp only [List.length_cons] at hl2
      omega
    · simp [hd] at h
  · cases h

theorem lexNumber_consumes (cs text rest : List Char)
    (h : parse.lexNumber cs = some (text, rest)) : rest.length < cs.length := by
  unfold parse.lexNumber at h
  cases hi : parse.lexInt cs with
  | some r =>
    rw [hi] at h
    simp only [Option.some.injEq] at h
    subst h
    exact lexInt_consumes cs text rest hi
  | none =>
    rw [hi] at h
    exact lexFloat_consumes cs text rest h

theorem lexBrackets_length : ∀ (k : Nat) (cs : List Char),
    (parse.lexBrackets k cs).2.length ≤ cs.length
  | 0, cs => by simp [parse.lexBrackets]
  | k + 1, [] => by simp [parse.lexBrackets]
  | k + 1, c :: rest => by
    unfold parse.lexBrackets
    simp only
    split
    · have hd := dropWhile_length (fun x => parse.any x && x != ']') rest
      split
      · rename_i q rest1 heq
        rw [heq] at hd
        split
        · have ih := lexBrackets_length k rest1
          simp only [List.length_cons] at hd ⊢
          omega
        · simp
      · simp
    · simp

theorem lexJSONPathExpr_consumes (cs text rest : List Char)
    (h : parse.lexJSONPathExpr cs = some (text, rest)) : rest.length < cs.length := by
  unfold parse.lexJSONPathExpr at h
  cases cs with
  | nil => cases h
  | cons c r =>
    simp only at h
    by_cases hc : c = '*'
    · simp only [hc, if_true, Option.some.injEq, Prod.mk.injEq] at h
      rw [← h.2]
      simp
    · simp only [hc, if_false] at h
      cases hi : parse.lexIdent (c :: r) with
      | none => rw [hi] at h; cases h
      | some ir =>
        obtain ⟨ident, rest1⟩ := ir
        rw [hi] at h
        simp only [Option.some.injEq, Prod.mk.injEq] at h
        rw [← h.2]
        have h1 := lexIdent_consumes _ _ _ hi
        have h2 := lexBrackets_length rest1.length rest1
        omega

theorem lexSegments_length : ∀ (k : Nat) (cs : List Char),
    (parse.lexSegments k cs).2.length ≤ cs.length
  | 0, cs => by simp [parse.lexSegments]
  | k + 1, [] => by simp [parse.lexSegments]
  | k + 1, c :: rest => by
    unfold parse.lexSegments
    simp only
    split
    · have hd := dropWhile_length (fun x => x == '.') rest
      split
      · rename_i expr rest1 heq
        have h1 := lexJSONPathExpr_consumes _ _ _ heq
        have ih := lexSegments_length k rest1
        simp only [List.length_cons]
        omega
      · simp
    · simp

theorem lexJSONPath_consumes (cs text rest : List Char)
    (h : parse.lexJSONPath cs = some (text, rest)) : rest.length < cs.length := by
  cases cs with
  | nil => simp [parse.lexJSONPath] at h
  | cons c cs =>
    by_cases hc : c = '$'
    · simp only [parse.lexJSONPath, hc, if_true, Option.some.injEq, Prod.mk.injEq] at h
      rw [← h.2, List.length_cons]
      exact Nat.lt_succ_of_le (lexSegments_length _ _)
    · simp [parse.lexJSONPath, hc] at h

theorem lexPunct_consumes (cs text rest : List Char)
    (h : parse.lexPunct cs = some (text, rest)) : rest.length < cs.length := by
  cases cs with
  | nil => simp [parse.lexPunct] at h
  | cons c cs =>
    simp only [parse.lexPunct] at h
    split at h
    · simp only [Option.some.injEq, Prod.mk.injEq] at h
      rw [← h.2, List.length_cons]
      omega
    · cases h

theorem lexWhitespace_consumes (cs text rest : List Char)
    (h : parse.lexWhitespace cs = some (text, rest)) : rest.length < cs.length := by
  cases cs with
  | nil => simp [parse.lexWhitespace] at h
  | cons c cs =>
    simp only [parse.lexWhitespace] at h
    split at h
    · simp only [Option.some.injEq, Prod.mk.injEq] at h
      rw [← h.2, List.length_cons]
      omega
    · cases h

theorem lexNext_consumes (cs : List Char) (t : parse.Token) (rest : List Char)
    (h : parse.lexNext cs = some (t, rest)) : rest.length < cs.length := by
  unfold parse.lexNext at h
  obtain ⟨pm, hmem, hpm⟩ := List.exists_of_findSome?_eq_some h
  cases hm : pm.2 cs with
  | none => rw [hm] at hpm; cases hpm
  | some tr =>
    obtain ⟨text, rest1⟩ := tr
    rw [hm] at hpm
    simp only [Option.some.injEq, Prod.mk.injEq] at hpm
    obtain ⟨-, rfl⟩ := hpm
    simp only [parse.productions, List.mem_cons, List.mem_singleton, List.not_mem_nil,
      or_false] at hmem
    rcases hmem with rfl | rfl | rfl | rfl | rfl | rfl | rfl | rfl | rfl | rfl
    · exact lexComment_consumes _ _ _ hm
    · exact lexIdent_consumes _ _ _ hm
    · exact lexString_consumes _ _ _ hm
    · exact lexNumber_consumes _ _ _ hm
    · exact lexInt_consumes _ _ _ hm
    · exact lexFloat_consumes _ _ _ hm
    · exact lexJSONPath_consumes _ _ _ hm
    · exact lexJSONPathExpr_consumes _ _ _ hm
    · exact lexPunct_consumes _ _ _ hm
    · exact lexWhitespace_consumes _ _ _ hm

theorem lexAll_fuel : ∀ (n m : Nat) (cs : List Char), cs.length ≤ n → cs.length ≤ m →
    parse.lexAll n cs = parse.lexAll m cs
  | 0, 0, _, _, _ => rfl
  | 0, m + 1, [], _, _ => rfl
  | 0, _ + 1, _ :: _, hn, _ => by simp at hn
  | n + 1, 0, [], _, _ => rfl
  | _ + 1, 0, _ :: _, _, hm => by simp at hm
  | n + 1, m + 1, [], _, _ => rfl
  | n + 1, m + 1, c :: cs, hn, hm => by
    simp only [parse.lexAll]
    cases hx : parse.lexNext (c :: cs) with
    | none => rfl
    | some tr =>
      obtain ⟨t, rest⟩ := tr
      have hc := lexNext_consumes _ _ _ hx
      simp only [List.length_cons] at hn hm hc
      simp only [lexAll_fuel n m rest (by omega) (by omega)]

theorem lexBrackets_fuel : ∀ (k k' : Nat) (cs : List Char), cs.length ≤ k → cs.length ≤ k' →
    parse.lexBrackets k cs = parse.lexBrackets k' cs
  | 0, 0, _, _, _ => rfl
  | 0, k' + 1, [], _, _ => rfl
  | 0, _ + 1, _ :: _, hn, _ => by simp at hn
  | k + 1, 0, [], _, _ => rfl
  | _ + 1, 0, _ :: _, _, hm => by simp at hm
  | k + 1, k' + 1, [], _, _ => rfl
  | k + 1, k' + 1, c :: rest, hk, hk' => by
    unfold parse.lexBrackets
    simp only
    split
    · have hd := dropWhile_length (fun x => parse.any x && x != ']') rest
      split
      · rename_i q rest1 heq
        rw [heq] at hd
        simp only [List.length_cons] at hd hk hk'
        rw [lexBrackets_fuel k k' rest1 (by omega) (by omega)]
      · rfl
    · rfl

theorem lexSegments_fuel : ∀ (k k' : Nat) (cs : List Char), cs.length ≤ k → cs.length ≤ k' →
    parse.lexSegments k cs = parse.lexSegments k' cs
  | 0, 0, _, _, _ => rfl
  | 0, k' + 1, [], _, _ => rfl
  | 0, _ + 1, _ :: _, hn, _ => by simp at hn
  | k + 1, 0, [], _, _ => rfl
  | _ + 1, 0, _ :: _, _, hm => by simp at hm
  | k + 1, k' + 1, [], _, _ => rfl
  | k + 1, k' + 1, c :: rest, hk, hk' => by
    unfold parse.lexSegments
    simp only
    split
    · have hd := dropWhile_length (fun x => x == '.') rest
      split
      · rename_i expr rest1 heq
        have h1 := lexJSONPathExpr_consumes _ _ _ heq
        simp only [List.length_cons] at hk hk'
        rw [lexSegments_fuel k k' rest1 (by omega) (by omega)]
      · rfl
    · rfl

/-! ### Number literals with a decimal point -/

theorem digit_bounds (c : Char) (h : parse.digit c = true) : 48 ≤ c.toNat ∧ c.toNat ≤ 57 := by
  simp only [parse.digit, Bool.and_eq_true, decide_eq_true_eq] at h
  obtain ⟨h1, h2⟩ := h
  have h1' : ('0' : Char).toNat ≤ c.toNat := h1
  have h2' : c.toNat ≤ ('9' : Char).toNat := h2
  exact ⟨h1', h2'⟩

theorem digit_not_start (c : Char) (h : parse.digit c = true) :
    c ≠ '#' ∧ (parse.alpha c || c == '_') = false ∧ c ≠ parse.quote ∧ c ≠ '-' ∧ c ≠ '.' := by
  obtain ⟨h1, h2⟩ := digit_bounds c h
  have ne : ∀ d : Char, (d.toNat < 48 ∨ 57 < d.toNat) → c ≠ d := by
    intro d hd hcd
    rw [hcd] at h1 h2
    omega
  refine ⟨ne _ (by decide), ?_, ne _ (by decide), ne _ (by decide), ne _ (by decide)⟩
  have ha : parse.alpha c = false := by
    simp only [parse.alpha, Bool.or_eq_false_iff, Bool.and_eq_false_iff, decide_eq_false_iff_not]
    constructor
    · left
      intro hc
      have : ('a' : Char).toNat ≤ c.toNat := hc
      have : ('a' : Char).toNat = 97 := rfl
      omega
    · left
      intro hc
      have : ('A' : Char).toNat ≤ c.toNat := hc
      have : ('A' : Char).toNat = 65 := rfl
      omega
  have hu : (c == '_') = false := by
    simp only [beq_eq_false_iff_ne, ne_eq]
    exact ne _ (by decide)
  simp [ha, hu]

theorem lexAll_step (n : Nat) (cs : List Char) (t : parse.Token) (rest : List Char)
    (hn : cs.length ≤ n) (hx : parse.lexNext cs = some (t, rest)) :
    parse.lexAll n cs = (parse.lexAll n rest).map (fun ts => t :: ts) := by
  have hc := lexNext_consumes cs t rest hx
  cases cs with
  | nil => simp at hc
  | cons c cs =>
    cases n with
    | zero => simp at hn
    | succ n =>
      simp only [List.length_cons] at hn hc
      simp only [parse.lexAll, hx]
      rw [lexAll_fuel n (n + 1) rest (by omega) (by omega)]
      cases parse.lexAll (n + 1) rest <;> rfl

theorem lexNext_number (sign ip rest : List Char) (hs : sign = [] ∨ sign = ['-'])
    (hip : ip ≠ []) (hd : ∀ c ∈ ip, parse.digit c = true)
    (hr : ∀ c r, rest = c :: r → parse.digit c = false) :
    parse.lexNext (sign ++ ip ++ rest) = some (⟨.Number, String.mk (sign ++ ip)⟩, rest) := by
  cases ip with
  | nil => exact absurd rfl hip
  | cons d ds =>
    have hdd : parse.digit d = true := hd d (List.mem_cons_self _ _)
    obtain ⟨h1, h2, h3, h4, h5⟩ := digit_not_start d hdd
    have ht : (ds ++ rest).takeWhile parse.digit = ds := by
      rw [List.takeWhile_append_of_pos (fun c hc => hd c (List.mem_cons_of_mem _ hc))]
      cases rest with
      | nil => simp
      | cons c r => simp [List.takeWhile, hr c r rfl]
    have hdr : (ds ++ rest).dropWhile parse.digit = rest := by
      rw [List.dropWhile_append_of_pos (fun c hc => hd c (List.mem_cons_of_mem _ hc))]
      cases rest with
      | nil => simp
      | cons c r => simp [List.dropWhile, hr c r rfl]
    rcases hs with rfl | rfl
    · simp [parse.lexNext, parse.productions, List.findSome?, parse.lexComment, parse.lexIdent,
        parse.lexString, parse.lexNumber, parse.lexInt, parse.lexSign, h1, h2, h3, h4, hdd, ht,
        hdr]
    · have a1 : parse.alpha '-' = false := by decide
      have a2 : ¬ ('-' = parse.quote) := by decide
      simp [parse.lexNext, parse.productions, List.findSome?, parse.lexComment, parse.lexIdent,
        parse.lexString, parse.lexNumber, parse.lexInt, parse.lexSign, hdd, ht, hdr, a1, a2]

theorem lexNext_fraction (frac rest : List Char) (hf : frac ≠ [])
    (hd : ∀ c ∈ frac, parse.digit c = true)
    (hr : ∀ c r, rest = c :: r → parse.digit c = false) :
    parse.lexNext ('.' :: frac ++ rest) = some (⟨.Number, String.mk ('.' :: frac)⟩, rest) := by
  cases frac with
  | nil => exact absurd rfl hf
  | cons d ds =>
    have hdd : parse.digit d = true := hd d (List.mem_cons_self _ _)
    have ht : (ds ++ rest).takeWhile parse.digit = ds := by
      rw [List.takeWhile_append_of_pos (fun c hc => hd c (List.mem_cons_of_mem _ hc))]
      cases rest with
      | nil => simp
      | cons c r => simp [List.takeWhile, hr c r rfl]
    have hdr : (ds ++ rest).dropWhile parse.digit = rest := by
      rw [List.dropWhile_append_of_pos (fun c hc => hd c (List.mem_cons_of_mem _ hc))]
      cases rest with
      | nil => simp
      | cons c r => simp [List.dropWhile, hr c r rfl]
    have a1 : parse.alpha '.' = false := by decide
    have a2 : ¬ ('.' = parse.quote) := by decide
    have a3 : parse.digit '.' = false := by decide
    simp [parse.lexNext, parse.productions, List.findSome?, parse.lexComment, parse.lexIdent,
      parse.lexString, parse.lexNumber, parse.lexInt, parse.lexFloat, parse.lexSign,
      parse.lexOptionalDigit, hdd, ht, hdr, a1, a2, a3]

theorem parseFloat_integer (sign ip : List Char) (hs : sign = [] ∨ sign = ['-'])
    (hip : ip ≠ []) (hd : ∀ c ∈ ip, parse.digit c = true) :
    ∃ x, strconv.ParseFloat (String.mk (sign ++ ip)) = some x := by
  cases ip with
  | nil => exact absurd rfl hip
  | cons d ds =>
    have hdd : parse.digit d = true := hd d (List.mem_cons_self _ _)
    obtain ⟨-, -, -, h4, -⟩ := digit_not_start d hdd
    have hdr : (d :: ds).dropWhile parse.digit = [] := by
      rw [List.dropWhile_eq_nil_iff]
      exact hd
    cases hx : strconv.ParseFloat (String.mk (sign ++ d :: ds)) with
    | some x => exact ⟨x, rfl⟩
    | none =>
      rcases hs with rfl | rfl
      · simp [strconv.ParseFloat, parse.lexSign, h4, hdr] at hx
      · simp [strconv.ParseFloat, parse.lexSign, hdr] at hx

/-- C22, where the code does otherwise: a literal made of an optional minus
sign, one or more digits, a decimal point and one or more digits is not lexed
as one Number token. The production `Number = Int | Float` tries `Int` first,
which takes the sign and the digits before the point, and `Float` allows at
most one digit before the point; so the lexer gives two Number tokens, the
integer part and the fraction with its point, the parser reads the first as
the whole value and meets the second, and `Parse` returns a parse error for
every such source, for every registry (`12.5` and `-3.25` are such
sources). -/
theorem float_literal_is_split (sign ip frac : List Char) (hs : sign = [] ∨ sign = ['-'])
    (hip : ip ≠ []) (hipd : ∀ c ∈ ip, parse.digit c = true) (hf : frac ≠ [])
    (hfd : ∀ c ∈ frac, parse.digit c = true) :
    parse.Lex (String.mk (sign ++ ip ++ '.' :: frac)) =
        some [⟨.Number, String.mk (sign ++ ip)⟩, ⟨.Number, String.mk ('.' :: frac)⟩] ∧
      ∀ (h : Host) (unquote : String → Option String) (funcs : FunctionMap),
        Parse h unquote (String.mk (sign ++ ip ++ '.' :: frac)) funcs =
          .err (.error (.parseError ("unexpected token " ++ String.mk ('.' :: frac)))) := by
  have a3 : parse.digit '.' = false := by decide
  have h1 := lexNext_number sign ip ('.' :: frac) hs hip hipd (fun c r he => by
    simp only [List.cons.injEq] at he
    rw [← he.1]
    exact a3)
  have h2 := lexNext_fraction frac [] hf hfd (fun c r he => by cases he)
  simp only [List.append_nil] at h2
  have hlex : parse.Lex (String.mk (sign ++ ip ++ '.' :: frac)) =
      some [⟨.Number, String.mk (sign ++ ip)⟩, ⟨.Number, String.mk ('.' :: frac)⟩] := by
    show parse.lexAll (sign ++ ip ++ '.' :: frac).length (sign ++ ip ++ '.' :: frac) = _
    rw [lexAll_step _ _ _ _ (Nat.le_refl _) h1,
      lexAll_step _ _ _ _ (by simp only [List.length_append, List.length_cons]; omega) h2]
    cases (sign ++ ip ++ '.' :: frac).length <;> rfl
  refine ⟨hlex, fun h unquote funcs => ?_⟩
  obtain ⟨x, hx⟩ := parseFloat_integer sign ip hs hip hipd
  simp only [Parse, parse.Parser.Parse, parse.tokens, hlex, parse.unquoteTokens, parse.elide,
    parse.parseTokens]
  simp [parse.parseValue, parse.Result.orElse, parse.altString, parse.altNumber, hx]

/-! ### The literals `false` and `[]` -/

/-- C23, where the code does otherwise for `false`: the template `true`
compiles to the constant true, which renders to true for every input. The
template `false` does not compile: the grammar matches the word without
capturing it (`@"true" | "false"`), so the parser returns a Value with no
field set, `buildValue` reaches the default case of its switch and `Parse`
panics with "unhandled case". The node of the constant false, which only a
direct construction gives, renders to false for every input. -/
theorem false_literal_is_unhandled (h : Host) (unquote : String → Option String)
    (funcs : FunctionMap) :
    (Parse h unquote "true" funcs = .ok ⟨.boolConstant true, NullOnMissing⟩ ∧
      ∀ (data : GoValue) (w : World),
        Template.Render h ⟨.boolConstant true, NullOnMissing⟩ data w =
          ((GoValue.bool true, none), w)) ∧
    parse.Parser.Parse unquote "false" =
      .ok ⟨.mk none none none none none false none none none⟩ ∧
    Parse h unquote "false" funcs =
      .panic "jsontemplate: panic during parsing: unhandled case" ∧
    ∀ (data : GoValue) (w : World),
      Template.Render h ⟨.boolConstant false, NullOnMissing⟩ data w =
        ((GoValue.bool false, none), w) :=
  ⟨⟨rfl, fun _ _ => rfl⟩, rfl, rfl, fun _ _ => rfl⟩

/-- C24, where the code does otherwise: the source `[]` parses, to a Value
whose `Array` is the nil slice, as no element is captured; the case
`v.Array != nil` of `buildValue` does not apply to it, the switch reaches its
default case and `Parse` panics with "unhandled case", also when the empty
array is an element of another array. The array node with zero elements,
which only a direct construction gives, renders to the empty slice for every
input. -/
theorem empty_array_is_unhandled (h : Host) (unquote : String → Option String)
    (funcs : FunctionMap) :
    parse.Parser.Parse unquote "[]" =
      .ok ⟨.mk none none none none none false none none none⟩ ∧
    Parse h unquote "[]" funcs =
      .panic "jsontemplate: panic during parsing: unhandled case" ∧
    Parse h unquote "[1, [ ]]" funcs =
      .panic "jsontemplate: panic during parsing: unhandled case" ∧
    ∀ (data : GoValue) (w : World),
      Template.Render h ⟨.array [], NullOnMissing⟩ data w =
        ((GoValue.slice GoType.iface [], none), w) :=
  ⟨rfl, rfl, rfl, fun _ _ => rfl⟩

/-! ### What the builder checks of a function -/

theorem buildFunction_of_func (h : Host) (b : builder) (name : String) (ins : List GoType)
    (variadic : Bool) (outs : List GoType) (body : Nat) (args : List parse.Value) (n : Nat)
    (res : List template) (n1 : Nat)
    (hf : mapaccess b.funcs name = some (.func ins variadic outs body))
    (ha : builder.buildValues h b args n = .ok (res, n1)) :
    builder.buildFunction h b (.mk name args) n =
      .ok (.function (.mk name (.func ins variadic outs body) res), n1) := by
  simp only [builder.buildFunction, hf, reflect.KindOf, reflect.TypeOf, GoType.Kind,
    GoType.underlying, ne_eq, not_true_eq_false, if_false, ha]

/-- C26, where the code does otherwise: `buildFunction` checks that the name
is registered and that the value is a function, and nothing of its results.
With a function value of any parameter and result lists registered under
`name`, a call whose arguments build compiles to a function node that holds
this value, whatever its number of results. When the arguments of that node
evaluate and the call returns no result, `Render` fails with the runtime
error of `Call(args)[0]`; when it returns one result or more, the first one is
the value rendered. -/
theorem results_not_validated (h : Host) (funcs : FunctionMap) (name : String)
    (ins : List GoType) (variadic : Bool) (outs : List GoType) (body : Nat)
    (args : List parse.Value) (res : List template) (n1 : Nat)
    (hf : mapaccess funcs name = some (.func ins variadic outs body))
    (ha : builder.buildValues h ⟨funcs⟩ args 0 = .ok (res, n1)) :
    Parse.build h ⟨sample.callOf name args⟩ funcs =
        .ok ⟨.function (.mk name (.func ins variadic outs body) res), NullOnMissing⟩ ∧
      ∀ (data : GoValue) (policy : MissingKeyPolicy) (vals : List GoValue) (w w1 w2 : World),
        function.arguments h name (.func ins variadic outs body) res 0 data ⟨policy⟩ w =
          (.ok vals, w1) →
        (reflect.Call h (.func ins variadic outs body) vals w1 = (.ok [], w2) →
          Template.Render h ⟨.function (.mk name (.func ins variadic outs body) res), policy⟩
              data w =
            ((GoValue.nil,
              some (.whileRendering "index out of range [0] with length 0")), w2)) ∧
        (∀ r more,
          reflect.Call h (.func ins variadic outs body) vals w1 = (.ok (r :: more), w2) →
          Template.Render h ⟨.function (.mk name (.func ins variadic outs body) res), policy⟩
              data w = ((r, none), w2)) := by
  constructor
  · simp only [Parse.build, sample.callOf, builder.buildValue,
      buildFunction_of_func h ⟨funcs⟩ name ins variadic outs body args 0 res n1 hf ha]
    rfl
  · intro data policy vals w w1 w2 hargs
    constructor
    · intro hc
      simp only [Template.Render, template.interpolate, function.interpolate, hargs,
        function.call, hc]
    · intro r more hc
      simp only [Template.Render, template.interpolate, function.interpolate, hargs,
        function.call, hc]

theorem buildValues_length (h : Host) (b : builder) :
    ∀ (args : List parse.Value) (res : List template) (n n1 : Nat),
      builder.buildValues h b args n = .ok (res, n1) → res.length = args.length
  | [], res, n, n1, hb => by
    simp only [builder.buildValues, Except.ok.injEq, Prod.mk.injEq] at hb
    rw [← hb.1]
    rfl
  | v :: rest, res, n, n1, hb => by
    simp only [builder.buildValues] at hb
    cases hv : builder.buildValue h b v n with
    | error p => simp [hv] at hb
    | ok r =>
      obtain ⟨templ, next1⟩ := r
      simp only [hv] at hb
      cases hr : builder.buildValues h b rest next1 with
      | error p => simp [hr] at hb
      | ok r2 =>
        obtain ⟨res2, next2⟩ := r2
        simp only [hr, Except.ok.injEq, Prod.mk.injEq] at hb
        rw [← hb.1, List.length_cons, List.length_cons,
          buildValues_length h b rest res2 next1 next2 hr]

/-- C27, where the code does otherwise: `buildFunction` does not compare the
number of arguments with the parameter list. With a function value of any
parameter list registered under `name`, a call with any list of arguments that
build compiles to a function node with as many argument templates as the call
has arguments. The misfit shows when the node is evaluated: an argument of a
non-variadic function at a position past its parameters panics with the
runtime error of `ftype.In(i)`, and a call with fewer values than the
function has non-variadic parameters panics in `reflect.Value.Call`. -/
theorem arity_not_validated (h : Host) (funcs : FunctionMap) (name : String)
    (ins : List GoType) (variadic : Bool) (outs : List GoType) (body : Nat)
    (args : List parse.Value) (res : List template) (n1 : Nat)
    (hf : mapaccess funcs name = some (.func ins variadic outs body))
    (ha : builder.buildValues h ⟨funcs⟩ args 0 = .ok (res, n1)) :
    Parse.build h ⟨sample.callOf name args⟩ funcs =
        .ok ⟨.function (.mk name (.func ins variadic outs body) res), NullOnMissing⟩ ∧
      res.length = args.length ∧
      (∀ (i : Nat) (val : GoValue), variadic = false → ins.length ≤ i →
        function.argument name (.func ins variadic outs body) i val =
          .error (.runtimeError "index out of range")) ∧
      ∀ (vals : List GoValue) (w : World),
        vals.length < (if variadic then ins.length - 1 else ins.length) →
        function.call h (.func ins variadic outs body) vals w =
          (.error (.other "reflect: Call with too few input arguments"), w) := by
  refine ⟨?_, ?_, ?_, ?_⟩
  · simp only [Parse.build, sample.callOf, builder.buildValue,
      buildFunction_of_func h ⟨funcs⟩ name ins variadic outs body args 0 res n1 hf ha]
    rfl
  · exact buildValues_length h ⟨funcs⟩ args res 0 n1 ha
  · intro i val hv hi
    subst hv
    have : ins[i]? = none := by simp [hi]
    simp [function.argument, function.expected, reflect.TypeOf, GoType.IsVariadic,
      GoType.NumIn, GoType.In, GoType.underlying, this]
  · intro vals w hlt
    simp only [function.call, reflect.Call, hlt, if_true]

/-! ### The flags of the compiled expressions -/

theorem flagsWithin_refl (b : Bool) (w : World) : World.flagsWithin b w w :=
  fun _ => Or.inl rfl

theorem flagsWithin_trans (b : Bool) (w w1 w2 : World) (h1 : World.flagsWithin b w w1)
    (h2 : World.flagsWithin b w1 w2) : World.flagsWithin b w w2 := fun a => by
  rcases h2 a with e2 | e2
  · rcases h1 a with e1 | e1
    · exact Or.inl (e2.trans e1)
    · exact Or.inr (e2.trans e1)
  · exact Or.inr e2

theorem flagsWithin_resolve (h : Host) (j : JSONPath) (b : Bool) (d : GoValue) (w : World) :
    World.flagsWithin b w (j.FindResults h d (j.AllowMissingKeys b w)).2 := fun a => by
  simp only [JSONPath.FindResults, JSONPath.AllowMissingKeys]
  by_cases ha : a = j.addr
  · simp [ha]
  · simp [ha]

theorem query_interpolate_flags (h : Host) (q : query) (d : GoValue) (o : options) (w : World) :
    World.flagsWithin (decide (o.MissingKeys = NullOnMissing)) w (q.interpolate h d o w).2 := by
  unfold query.interpolate
  by_cases c1 : (d.isNil && decide (o.MissingKeys = NullOnMissing)) = true
  · simp only [c1, if_true]
    exact flagsWithin_refl _ _
  · by_cases c2 : (d.isNil && decide (o.MissingKeys = ErrorOnMissing)) = true
    · simp only [c1, c2, if_true, if_false]
      exact flagsWithin_refl _ _
    · simp only [c1, c2, if_false]
      have h1 := flagsWithin_resolve h q.expression (decide (o.MissingKeys = NullOnMissing)) d w
      rcases hx : q.expression.FindResults h d
        (q.expression.AllowMissingKeys (decide (o.MissingKeys = NullOnMissing)) w) with ⟨r, w2⟩
      rw [hx] at h1
      simp only at h1
      cases r with
      | error e => exact h1
      | ok hits =>
        cases hits with
        | nil => exact h1
        | cons hs tl =>
          cases hs with
          | nil => exact h1
          | cons v vs =>
            cases vs with
            | nil => simp only []; cases v.Interface <;> exact h1
            | cons v2 vs2 => simp only []; cases query.interfaces (v :: v2 :: vs2) <;> exact h1

theorem generator_range_flags (b : Bool)
    (body : GoValue → World → Except PanicValue GoValue × World)
    (hb : ∀ d w, World.flagsWithin b w (body d w).2) :
    ∀ (hits : List reflect.Value) (w : World),
      World.flagsWithin b w (generator.range body hits w).2
  | [], w => by simp only [generator.range]; exact flagsWithin_refl _ _
  | v :: vs, w => by
    simp only [generator.range]
    cases (if v.IsValid then v.Interface else .ok GoValue.nil) with
    | error p => exact flagsWithin_refl _ _
    | ok inner =>
    simp only []
    have h1 := hb inner w
    rcases hx : body inner w with ⟨r, w1⟩
    rw [hx] at h1
    cases r with
    | error p => exact h1
    | ok x =>
      simp only []
      have h2 := generator_range_flags b body hb vs w1
      rcases hy : generator.range body vs w1 with ⟨r2, w2⟩
      rw [hy] at h2
      cases r2 <;> exact flagsWithin_trans _ _ _ _ h1 h2

theorem reflect_Call_flags (h : Host) (fn : GoValue) (args : List GoValue) (w : World) :
    (reflect.Call h fn args w).2.allowMissingKeys = w.allowMissingKeys := by
  unfold reflect.Call
  cases fn <;> simp only []
  · split_ifs <;> rfl
  · split_ifs <;> rfl

theorem function_call_flags (b : Bool) (h : Host) (fn : GoValue) (args : List GoValue)
    (w : World) : World.flagsWithin b w (function.call h fn args w).2 := by
  unfold function.call
  have h1 := reflect_Call_flags h fn args w
  rcases hx : reflect.Call h fn args w with ⟨r, w1⟩
  rw [hx] at h1
  simp only at h1
  have h2 : World.flagsWithin b w w1 := fun a => Or.inl (by rw [h1])
  cases r with
  | error p => exact h2
  | ok rs => cases rs <;> exact h2

mutual
theorem template_interpolate_flags (h : Host) :
    ∀ (t : template) (d : GoValue) (o : options) (w : World),
      World.flagsWithin (decide (o.MissingKeys = NullOnMissing)) w (t.interpolate h d o w).2
  | .stringConstant s, d, o, w => by simp only [template.interpolate]; exact flagsWithin_refl _ _
  | .boolConstant s, d, o, w => by simp only [template.interpolate]; exact flagsWithin_refl _ _
  | .numberConstant s, d, o, w => by simp only [template.interpolate]; exact flagsWithin_refl _ _
  | .nullConstant, d, o, w => by simp only [template.interpolate]; exact flagsWithin_refl _ _
  | .object fs, d, o, w => by
    simp only [template.interpolate]
    have h1 := object_interpolate_flags h fs d o [] w
    rcases hx : object.interpolate h fs d o [] w with ⟨r, w1⟩
    rw [hx] at h1
    cases r <;> exact h1
  | .array a, d, o, w => by
    simp only [template.interpolate]
    have h1 := array_interpolate_flags h a d o w
    rcases hx : array.interpolate h a d o w with ⟨r, w1⟩
    rw [hx] at h1
    cases r <;> exact h1
  | .query q, d, o, w => by
    simp only [template.interpolate]
    exact query_interpolate_flags h q d o w
  | .generator g, d, o, w => by
    simp only [template.interpolate]
    exact generator_interpolate_flags h g d o w
  | .function f, d, o, w => by
    simp only [template.interpolate]
    exact function_interpolate_flags h f d o w
theorem object_interpolate_flags (h : Host) :
    ∀ (fs : List (String × field)) (d : GoValue) (o : options) (res : List (String × GoValue))
      (w : World),
      World.flagsWithin (decide (o.MissingKeys = NullOnMissing)) w
        (object.interpolate h fs d o res w).2
  | [], d, o, res, w => by simp only [object.interpolate]; exact flagsWithin_refl _ _
  | (name, .mk value ann) :: rest, d, o, res, w => by
    simp only [object.interpolate]
    have h1 := template_interpolate_flags h value d o w
    rcases hx : template.interpolate h value d o w with ⟨r, w1⟩
    rw [hx] at h1
    cases r with
    | error p => exact h1
    | ok v => exact flagsWithin_trans _ _ _ _ h1 (object_interpolate_flags h rest d o _ w1)
theorem array_interpolate_flags (h : Host) :
    ∀ (a : List template) (d : GoValue) (o : options) (w : World),
      World.flagsWithin (decide (o.MissingKeys = NullOnMissing)) w
        (array.interpolate h a d o w).2
  | [], d, o, w => by simp only [array.interpolate]; exact flagsWithin_refl _ _
  | templ :: rest, d, o, w => by
    simp only [array.interpolate]
    have h1 := template_interpolate_flags h templ d o w
    rcases hx : template.interpolate h templ d o w with ⟨r, w1⟩
    rw [hx] at h1
    cases r with
    | error p => exact h1
    | ok v =>
      simp only []
      have h2 := array_interpolate_flags h rest d o w1
      rcases hx2 : array.interpolate h rest d o w1 with ⟨r2, w2⟩
      rw [hx2] at h2
      cases r2 <;> exact flagsWithin_trans _ _ _ _ h1 h2
theorem generator_interpolate_flags (h : Host) :
    ∀ (g : generator) (d : GoValue) (o : options) (w : World),
      World.flagsWithin (decide (o.MissingKeys = NullOnMissing)) w
        (generator.interpolate h g d o w).2
  | .mk over templ, d, o, w => by
    simp only [generator.interpolate]
    by_cases c1 : (d.isNil && decide (o.MissingKeys = NullOnMissing)) = true
    · simp only [c1, if_true]
      exact flagsWithin_refl _ _
    · by_cases c2 : (d.isNil && decide (o.MissingKeys = ErrorOnMissing)) = true
      · simp only [c1, c2, if_true, if_false]
        exact flagsWithin_refl _ _
      · simp only [c1, c2, if_false]
        have h1 := flagsWithin_resolve h over.expression
          (decide (o.MissingKeys = NullOnMissing)) d w
        rcases hx : over.expression.FindResults h d
          (over.expression.AllowMissingKeys (decide (o.MissingKeys = NullOnMissing)) w)
          with ⟨r, w2⟩
        rw [hx] at h1
        simp only at h1
        cases r with
        | error e => exact h1
        | ok hits =>
          cases hits with
          | nil => exact h1
          | cons hs tl =>
            simp only []
            have h2 := generator_range_flags (decide (o.MissingKeys = NullOnMissing))
              (fun inner w => template.interpolate h templ inner o w)
              (fun d w => template_interpolate_flags h templ d o w) hs w2
            rcases hy : generator.range
              (fun inner w => template.interpolate h templ inner o w) hs w2 with ⟨r, w3⟩
            rw [hy] at h2
            cases r <;> exact flagsWithin_trans _ _ _ _ h1 h2
theorem function_interpolate_flags (h : Host) :
    ∀ (f : function) (d : GoValue) (o : options) (w : World),
      World.flagsWithin (decide (o.MissingKeys = NullOnMissing)) w
        (function.interpolate h f d o w).2
  | .mk name fn args, d, o, w => by
    simp only [function.interpolate]
    have h1 := function_arguments_flags h name fn args 0 d o w
    rcases hx : function.arguments h name fn args 0 d o w with ⟨r, w1⟩
    rw [hx] at h1
    cases r with
    | error p => exact h1
    | ok vals => exact flagsWithin_trans _ _ _ _ h1 (function_call_flags _ h fn vals w1)
theorem function_arguments_flags (h : Host) (name : String) (fn : GoValue) :
    ∀ (a : List template) (i : Nat) (d : GoValue) (o : options) (w : World),
      World.flagsWithin (decide (o.MissingKeys = NullOnMissing)) w
        (function.arguments h name fn a i d o w).2
  | [], i, d, o, w => by simp only [function.arguments]; exact flagsWithin_refl _ _
  | templ :: rest, i, d, o, w => by
    simp only [function.arguments]
    have h1 := template_interpolate_flags h templ d o w
    rcases hx : template.interpolate h templ d o w with ⟨r, w1⟩
    rw [hx] at h1
    cases r with
    | error p => exact h1
    | ok v =>
      simp only []
      cases function.argument name fn i v with
      | error p => exact h1
      | ok arg =>
        simp only []
        have h2 := function_arguments_flags h name fn rest (i + 1) d o w1
        rcases hx2 : function.arguments h name fn rest (i + 1) d o w1 with ⟨r2, w2⟩
        rw [hx2] at h2
        cases r2 <;> exact flagsWithin_trans _ _ _ _ h1 h2
end

theorem query_sets_flag (h : Host) (q : query) (d : GoValue) (o : options) (w : World)
    (hd : d.isNil = false) :
    (q.interpolate h d o w).2.allowMissingKeys q.expression.addr =
      decide (o.MissingKeys = NullOnMissing) := by
  unfold query.interpolate
  simp only [hd, Bool.false_and, Bool.false_eq_true, if_false]
  have h1 : (q.expression.FindResults h d (q.expression.AllowMissingKeys
      (decide (o.MissingKeys = NullOnMissing)) w)).2.allowMissingKeys q.expression.addr =
      decide (o.MissingKeys = NullOnMissing) := by
    simp [JSONPath.FindResults, JSONPath.AllowMissingKeys]
  rcases hx : q.expression.FindResults h d
    (q.expression.AllowMissingKeys (decide (o.MissingKeys = NullOnMissing)) w) with ⟨r, w2⟩
  rw [hx] at h1
  simp only at h1
  cases r with
  | error e => exact h1
  | ok hits =>
    cases hits with
    | nil => exact h1
    | cons hs tl =>
      cases hs with
      | nil => exact h1
      | cons v vs =>
        cases vs with
        | nil => simp only []; cases v.Interface <;> exact h1
        | cons v2 vs2 => simp only []; cases query.interfaces (v :: v2 :: vs2) <;> exact h1

theorem generator_sets_flag (h : Host) (over : query) (templ : template) (d : GoValue)
    (o : options) (w : World) (hd : d.isNil = false) :
    (generator.interpolate h (.mk over templ) d o w).2.allowMissingKeys over.expression.addr =
      decide (o.MissingKeys = NullOnMissing) := by
  simp only [generator.interpolate, hd, Bool.false_and, Bool.false_eq_true, if_false]
  have h1 : (over.expression.FindResults h d (over.expression.AllowMissingKeys
      (decide (o.MissingKeys = NullOnMissing)) w)).2.allowMissingKeys over.expression.addr =
      decide (o.MissingKeys = NullOnMissing) := by
    simp [JSONPath.FindResults, JSONPath.AllowMissingKeys]
  rcases hx : over.expression.FindResults h d
    (over.expression.AllowMissingKeys (decide (o.MissingKeys = NullOnMissing)) w) with ⟨r, w2⟩
  rw [hx] at h1
  simp only at h1
  cases r with
  | error e => exact h1
  | ok hits =>
    cases hits with
    | nil => exact h1
    | cons hs tl =>
      simp only []
      have h2 := generator_range_flags (decide (o.MissingKeys = NullOnMissing))
        (fun inner w => template.interpolate h templ inner o w)
        (fun d w => template_interpolate_flags h templ d o w) hs w2
      rcases hy : generator.range
        (fun inner w => template.interpolate h templ inner o w) hs w2 with ⟨r, w3⟩
      rw [hy] at h2
      have h3 : w3.allowMissingKeys over.expression.addr =
          decide (o.MissingKeys = NullOnMissing) := by
        rcases h2 over.expression.addr with e | e
        · exact e.trans h1
        · exact e
      cases r <;> exact h3

/-- C28, amended: an evaluation changes the `allowMissingKeys` flag of the
compiled expressions and nothing else of them. After the evaluation of any
node, from any world, every flag has the value it had before or the value
`opt.MissingKeys == NullOnMissing` (first part); and after the evaluation of a
query or a generator on an input that is not nil, the flag of the expression
the node holds has that value (second part). -/
theorem evaluation_sets_tolerance_flag (h : Host) (data : GoValue) (opt : options)
    (w : World) :
    (∀ (t : template) (a : Nat),
      (t.interpolate h data opt w).2.allowMissingKeys a = w.allowMissingKeys a ∨
      (t.interpolate h data opt w).2.allowMissingKeys a =
        decide (opt.MissingKeys = NullOnMissing)) ∧
    (data.isNil = false →
      (∀ q : query,
        ((template.query q).interpolate h data opt w).2.allowMissingKeys q.expression.addr =
          decide (opt.MissingKeys = NullOnMissing)) ∧
      ∀ (q : query) (sub : template),
        ((template.generator (.mk q sub)).interpolate h data opt w).2.allowMissingKeys
            q.expression.addr =
          decide (opt.MissingKeys = NullOnMissing)) :=
  ⟨fun t a => template_interpolate_flags h t data opt w a,
    fun hd => ⟨fun q => by
      simp only [template.interpolate]
      exact query_sets_flag h q data opt w hd,
    fun q sub => by
      simp only [template.interpolate]
      exact generator_sets_flag h q sub data opt w hd⟩⟩

/-! ### Render returns -/

/-- C30: `Render` returns for every Template, input and world, and what it
returns is the value with no error when the evaluation ends normally, and nil
with an error when it panics, whatever the class of the panic value: a
`runtime.Error` gives the "while rendering" error, another `error` is returned
itself (after the line printed), and any other value gives the "panic during
interpolation" error. Two runtime errors at hand: a second argument given to
`strings.ToUpper` indexes past its parameter list, and a function without
results has no first result; both are returned as errors. -/
theorem render_is_total (h : Host) (t : Template) (data : GoValue) (w : World) :
    ((∃ res w1, t.definition.interpolate h data ⟨t.MissingKeys⟩ w = (.ok res, w1) ∧
          Template.Render h t data w = ((res, none), w1)) ∨
      (∃ r w1, t.definition.interpolate h data ⟨t.MissingKeys⟩ w =
            (.error (.runtimeError r), w1) ∧
          Template.Render h t data w = ((.nil, some (.whileRendering r)), w1)) ∨
      (∃ e w1, t.definition.interpolate h data ⟨t.MissingKeys⟩ w = (.error (.error e), w1) ∧
          Template.Render h t data w =
            ((.nil, some (.recovered e)),
              ⟨w1.allowMissingKeys, w1.trace ++ [Event.Println "was here!"]⟩)) ∨
      (∃ r w1, t.definition.interpolate h data ⟨t.MissingKeys⟩ w = (.error (.other r), w1) ∧
          Template.Render h t data w = ((.nil, some (.panicDuringInterpolation r)), w1))) ∧
    (Template.Render sample.host
        ⟨.function (.mk "to_upper" sample.to_upper [.stringConstant "a", .stringConstant "b"]),
          NullOnMissing⟩ data w).1 =
      (.nil, some (.whileRendering "index out of range")) ∧
    (Template.Render sample.host ⟨.function (.mk "f" sample.noResult []), NullOnMissing⟩
        data w).1 =
      (.nil, some (.whileRendering "index out of range [0] with length 0")) := by
  refine ⟨?_, rfl, rfl⟩
  unfold Template.Render
  rcases hx : t.definition.interpolate h data ⟨t.MissingKeys⟩ w with ⟨r, w1⟩
  cases r with
  | ok res => exact Or.inl ⟨res, w1, rfl, rfl⟩
  | error p =>
    cases p with
    | runtimeError r => exact Or.inr (Or.inl ⟨r, w1, rfl, rfl⟩)
    | error e => exact Or.inr (Or.inr (Or.inl ⟨e, w1, rfl, rfl⟩))
    | other r => exact Or.inr (Or.inr (Or.inr ⟨r, w1, rfl, rfl⟩))

/-! ### Path queries in the source -/

theorem takeWhile_append_stop {α : Type} (p : α → Bool) (u v : List α)
    (hu : ∀ c ∈ u, p c = true)
    (hv : ∀ d v', v = d :: v' → p d = false) :
    (u ++ v).takeWhile p = u ∧ (u ++ v).dropWhile p = v := by
  induction u with
  | nil =>
    cases v with
    | nil => exact ⟨rfl, rfl⟩
    | cons d v' =>
      have := hv d v' rfl
      simp [List.takeWhile, List.dropWhile, this]
  | cons c u ih =>
    have hc := hu c (List.mem_cons_self _ _)
    have := ih (fun x hx => hu x (List.mem_cons_of_mem _ hx))
    simp [List.takeWhile, List.dropWhile, hc, this]

theorem lexBrackets_path (brackets : List (List Char))
    (hb : ∀ b ∈ brackets, ∀ x ∈ b, (parse.any x && x != ']') = true) (tail : List Char)
    (ht : ∀ c r, tail = c :: r → c ≠ '[') :
    ∀ fuel, ((brackets.map fun b => '[' :: (b ++ [']'])).flatten ++ tail).length ≤ fuel →
      parse.lexBrackets fuel ((brackets.map fun b => '[' :: (b ++ [']'])).flatten ++ tail) =
        ((brackets.map fun b => '[' :: (b ++ [']'])).flatten, tail) := by
  induction brackets with
  | nil =>
    intro fuel _
    cases fuel with
    | zero => rfl
    | succ fuel =>
      cases tail with
      | nil => rfl
      | cons c r =>
        have := ht c r rfl
        simp [parse.lexBrackets, this]
  | cons b bs ih =>
    intro fuel hfuel
    cases fuel with
    | zero => simp at hfuel
    | succ fuel =>
      have hb1 := hb b (List.mem_cons_self _ _)
      have ih1 := ih (fun b' hb' => hb b' (List.mem_cons_of_mem _ hb')) fuel (by
        simp only [List.map_cons, List.flatten_cons, List.cons_append, List.append_assoc,
          List.length_cons, List.length_append] at hfuel
        simp only [List.length_append]
        omega)
      have hsplit := takeWhile_append_stop (fun x => parse.any x && x != ']') b
        (']' :: ((bs.map fun b => '[' :: (b ++ [']'])).flatten ++ tail)) hb1
        (fun d v' hd => by
          simp only [List.cons.injEq] at hd
          rw [← hd.1]
          decide)
      simp only [List.map_cons, List.flatten_cons, List.cons_append, List.append_assoc,
        List.singleton_append, List.nil_append]
      unfold parse.lexBrackets
      simp only [if_true]
      rw [hsplit.2, hsplit.1]
      simp only [if_true, ih1]
      rfl

theorem lexIdent_path (c : Char) (cs tail : List Char)
    (hc : (parse.alpha c || c == '_') = true)
    (hcs : ∀ x ∈ cs, (x == '_' || parse.alpha x || parse.digit x) = true)
    (ht : ∀ d r, tail = d :: r → (d == '_' || parse.alpha d || parse.digit d) = false) :
    parse.lexIdent (c :: cs ++ tail) = some (c :: cs, tail) := by
  have hsplit := takeWhile_append_stop (fun x => x == '_' || parse.alpha x || parse.digit x)
    cs tail hcs ht
  simp only [List.cons_append, parse.lexIdent, hc, if_true]
  rw [hsplit.1, hsplit.2]

theorem lexJSONPathExpr_path (e : parse.PathExpr) (he : e.valid = true) (tail : List Char)
    (ht : ∀ d r, tail = d :: r →
      (d == '[' || d == '_' || parse.alpha d || parse.digit d) = false) :
    parse.lexJSONPathExpr (e.text ++ tail) = some (e.text, tail) := by
  cases e with
  | wildcard => simp [parse.PathExpr.text, parse.lexJSONPathExpr]
  | named ident brackets =>
    cases ident with
    | nil => simp [parse.PathExpr.valid] at he
    | cons c cs =>
      simp only [parse.PathExpr.valid, Bool.and_eq_true, List.all_eq_true] at he
      obtain ⟨⟨hc, hcs⟩, hb⟩ := he
      have hstar : c ≠ '*' := by
        intro h
        subst h
        revert hc
        decide
      have hbt : ∀ d r, (brackets.map fun b => '[' :: (b ++ [']'])).flatten ++ tail = d :: r →
          (d == '_' || parse.alpha d || parse.digit d) = false := by
        intro d r hd
        cases brackets with
        | nil =>
          simp only [List.map_nil, List.flatten_nil, List.nil_append] at hd
          have := ht d r hd
          simp only [Bool.or_eq_false_iff] at this ⊢
          exact ⟨⟨this.1.1.2, this.1.2⟩, this.2⟩
        | cons b bs =>
          simp only [List.map_cons, List.flatten_cons, List.cons_append, List.cons.injEq] at hd
          rw [← hd.1]
          decide
      have hid := lexIdent_path c cs _ hc hcs hbt
      have hbr := lexBrackets_path brackets
        (fun b hb1 x hx => by
          have := hb b hb1 x hx
          simp only [Bool.and_eq_true]
          exact this) tail
        (fun d r hd hq => by
          have := ht d r hd
          rw [hq] at this
          revert this
          decide) _ (le_refl _)
      simp only [parse.PathExpr.text, List.append_assoc, parse.lexJSONPathExpr]
      simp only [List.cons_append, hstar, if_false]
      rw [show c :: (cs ++ ((brackets.map fun b => '[' :: (b ++ [']'])).flatten ++ tail)) =
        c :: cs ++ ((brackets.map fun b => '[' :: (b ++ [']'])).flatten ++ tail) from rfl, hid]
      simp only [hbr]
      rfl

theorem pathExpr_head (e : parse.PathExpr) (he : e.valid = true) (tail : List Char) :
    ∀ d r, e.text ++ tail = d :: r → (d == '.') = false := by
  intro d r hd
  cases e with
  | wildcard =>
    simp only [parse.PathExpr.text, List.cons_append, List.cons.injEq] at hd
    rw [← hd.1]
    decide
  | named ident brackets =>
    cases ident with
    | nil => simp [parse.PathExpr.valid] at he
    | cons c cs =>
      simp only [parse.PathExpr.valid, Bool.and_eq_true] at he
      simp only [parse.PathExpr.text, List.cons_append, List.cons.injEq] at hd
      rw [← hd.1]
      have hc := he.1.1
      cases hdot : c == '.' with
      | false => rfl
      | true =>
        have : c = '.' := by simpa using hdot
        subst this
        revert hc
        decide

theorem segments_head (segs : List parse.PathSegment) (tail : List Char)
    (ht : parse.pathEnd tail = true) :
    ∀ d r, (segs.map parse.PathSegment.text).flatten ++ tail = d :: r →
      (d == '[' || d == '_' || parse.alpha d || parse.digit d) = false := by
  intro d r hd
  cases segs with
  | nil =>
    simp only [List.map_nil, List.flatten_nil, List.nil_append] at hd
    subst hd
    simp only [parse.pathEnd, Bool.not_eq_true', Bool.or_eq_false_iff] at ht
    simp only [Bool.or_eq_false_iff]
    exact ⟨⟨⟨ht.1.1.1.2, ht.1.1.2⟩, ht.1.2⟩, ht.2⟩
  | cons s segs =>
    simp only [List.map_cons, List.flatten_cons, parse.PathSegment.text, List.cons_append,
      List.cons.injEq] at hd
    rw [← hd.1]
    decide

theorem lexSegments_path (tail : List Char) (ht : parse.pathEnd tail = true) :
    ∀ (segs : List parse.PathSegment), (∀ s ∈ segs, s.expr.valid = true) →
      ∀ fuel, ((segs.map parse.PathSegment.text).flatten ++ tail).length ≤ fuel →
        parse.lexSegments fuel ((segs.map parse.PathSegment.text).flatten ++ tail) =
          ((segs.map parse.PathSegment.text).flatten, tail)
  | [], _, fuel, _ => by
    cases fuel with
    | zero => rfl
    | succ fuel =>
      cases tail with
      | nil => rfl
      | cons c r =>
        have hc : c ≠ '.' := by
          intro h
          subst h
          simp [parse.pathEnd] at ht
        simp [parse.lexSegments, hc]
  | s :: segs, hv, fuel, hfuel => by
    cases fuel with
    | zero => simp [parse.PathSegment.text] at hfuel
    | succ fuel =>
      have he := hv s (List.mem_cons_self _ _)
      have hsplit := takeWhile_append_stop (fun x => x == '.') (List.replicate s.dots '.')
        (s.expr.text ++ ((segs.map parse.PathSegment.text).flatten ++ tail))
        (fun c hc => by
          rw [List.eq_of_mem_replicate hc]
          rfl)
        (pathExpr_head s.expr he _)
      have hexpr := lexJSONPathExpr_path s.expr he
        ((segs.map parse.PathSegment.text).flatten ++ tail) (segments_head segs tail ht)
      have ih := lexSegments_path tail ht segs
        (fun s' hs' => hv s' (List.mem_cons_of_mem _ hs')) fuel (by
          simp only [List.map_cons, List.flatten_cons, parse.PathSegment.text, List.cons_append,
            List.append_assoc, List.length_cons, List.length_append] at hfuel
          simp only [List.length_append]
          omega)
      simp only [List.map_cons, List.flatten_cons, parse.PathSegment.text, List.cons_append,
        List.append_assoc]
      unfold parse.lexSegments
      simp only [if_true]
      rw [hsplit.2, hsplit.1, hexpr]
      simp only [ih, List.append_assoc]
      rfl

theorem lexNext_path (segs : List parse.PathSegment) (hv : ∀ s ∈ segs, s.expr.valid = true)
    (tail : List Char) (ht : parse.pathEnd tail = true) :
    parse.lexNext (parse.pathText segs ++ tail) =
      some (⟨.JSONPath, String.mk (parse.pathText segs)⟩, tail) := by
  have hseg := lexSegments_path tail ht segs hv _ (le_refl _)
  have hfloat : parse.lexFloat ('$' :: ((segs.map parse.PathSegment.text).flatten ++ tail)) =
      none := by
    simp only [parse.lexFloat, parse.lexSign, parse.lexOptionalDigit]
    cases (segs.map parse.PathSegment.text).flatten ++ tail <;> simp [parse.digit]
  simp only [parse.pathText, List.cons_append, parse.lexNext, parse.productions,
    List.findSome?, parse.lexComment, parse.lexIdent, parse.lexString, parse.lexNumber,
    parse.lexInt, parse.lexSign, hfloat, parse.lexJSONPath, hseg]
  simp [parse.alpha, parse.digit, parse.quote]

theorem lex_path (segs : List parse.PathSegment) (hv : ∀ s ∈ segs, s.expr.valid = true) :
    parse.Lex (String.mk (parse.pathText segs)) =
      some [⟨.JSONPath, String.mk (parse.pathText segs)⟩] := by
  have h1 := lexNext_path segs hv [] rfl
  rw [List.append_nil] at h1
  show parse.lexAll (parse.pathText segs).length (parse.pathText segs) = _
  rw [lexAll_step _ _ _ _ (le_refl _) h1]
  cases (parse.pathText segs).length <;> rfl

theorem lex_range_path (segs : List parse.PathSegment)
    (hv : ∀ s ∈ segs, s.expr.valid = true) :
    parse.Lex (String.mk ("range ".data ++ parse.pathText segs ++ " [null]".data)) =
      some [⟨.Ident, "range"⟩, ⟨.Whitespace, " "⟩,
        ⟨.JSONPath, String.mk (parse.pathText segs)⟩,
        ⟨.Whitespace, " "⟩, ⟨.Punct, "["⟩, ⟨.Ident, "null"⟩, ⟨.Punct, "]"⟩] := by
  have h3 := lexNext_path segs hv [' ', '[', 'n', 'u', 'l', 'l', ']'] rfl
  have h1 : parse.lexNext ('r' :: 'a' :: 'n' :: 'g' :: 'e' :: ' ' ::
      (parse.pathText segs ++ [' ', '[', 'n', 'u', 'l', 'l', ']'])) =
      some (⟨.Ident, "range"⟩,
        ' ' :: (parse.pathText segs ++ [' ', '[', 'n', 'u', 'l', 'l', ']'])) := by
    simp [parse.lexNext, parse.productions, List.findSome?, parse.lexComment, parse.lexIdent,
      parse.alpha, parse.digit, List.takeWhile, List.dropWhile]
  have h2 : parse.lexNext (' ' :: (parse.pathText segs ++ [' ', '[', 'n', 'u', 'l', 'l', ']'])) =
      some (⟨.Whitespace, " "⟩, parse.pathText segs ++ [' ', '[', 'n', 'u', 'l', 'l', ']']) :=
    lexNext_whitespace ' ' _ (by decide)
  rw [show "range ".data ++ parse.pathText segs ++ " [null]".data =
    'r' :: 'a' :: 'n' :: 'g' :: 'e' :: ' ' ::
      (parse.pathText segs ++ [' ', '[', 'n', 'u', 'l', 'l', ']']) from rfl]
  show parse.lexAll (List.length _) _ = _
  rw [lexAll_step _ _ _ _ (le_refl _) h1, lexAll_step _ _ _ _ (by simp) h2,
    lexAll_step _ _ _ _ (by simp) h3,
    lexAll_fuel _ 7 [' ', '[', 'n', 'u', 'l', 'l', ']'] (by simp) (by simp)]
  rfl

/-- C25, amended: a path query made of `$` and segments, each a dot, further
dots, and `*` or an identifier followed by bracketed parts, is lexed as one
JSONPath token whenever the text after it does not go on with the path (first
part); as a whole source it parses to a Value whose `Extractor` is exactly
its text, and after `range` to a Generator whose `Range` is exactly its text
(second and third parts). The builder hands that text to the parser of the
JSONPath engine between braces, as the JSONPath template `\x7b` text `\x7d`:
the query it builds holds the expression of the text in braces when the
engine accepts it, and the build panics with the invalid-jsonpath error when
the engine refuses it (last two parts). -/
theorem path_query_is_one_token (segs : List parse.PathSegment)
    (hv : ∀ s ∈ segs, s.expr.valid = true) :
    (∀ tail, parse.pathEnd tail = true →
      parse.lexNext (parse.pathText segs ++ tail) =
        some (⟨.JSONPath, String.mk (parse.pathText segs)⟩, tail)) ∧
    (∀ unquote, parse.Parser.Parse unquote (String.mk (parse.pathText segs)) =
      .ok ⟨.mk none none none none none false none (some (String.mk (parse.pathText segs)))
        none⟩) ∧
    (∀ unquote,
      parse.Parser.Parse unquote
          (String.mk ("range ".data ++ parse.pathText segs ++ " [null]".data)) =
        .ok ⟨.mk none none none none none false
          (some (.mk (String.mk (parse.pathText segs))
            (.mk none none none none none true none none none))) none none⟩) ∧
    (∀ (h : Host) (b : builder) (next : Nat),
      h.Parse ("\x7b" ++ String.mk (parse.pathText segs) ++ "\x7d") = none →
      b.buildQuery h (String.mk (parse.pathText segs)) next =
        .ok (⟨⟨next, "\x7b" ++ String.mk (parse.pathText segs) ++ "\x7d"⟩⟩, next + 1)) ∧
    ∀ (h : Host) (b : builder) (next : Nat) (err : String),
      h.Parse ("\x7b" ++ String.mk (parse.pathText segs) ++ "\x7d") = some err →
      b.buildQuery h (String.mk (parse.pathText segs)) next =
        .error (.error (.invalidJSONPath err)) := by
  refine ⟨fun tail ht => lexNext_path segs hv tail ht, fun unquote => ?_, fun unquote => ?_,
    fun h b next hp => ?_, fun h b next err hp => ?_⟩
  · simp only [parse.Parser.Parse, parse.tokens, lex_path segs hv, parse.unquoteTokens,
      parse.elide]
    rfl
  · simp only [parse.Parser.Parse, parse.tokens, lex_range_path segs hv, parse.unquoteTokens,
      parse.elide]
    rfl
  · simp only [builder.buildQuery, hp]
  · simp only [builder.buildQuery, hp]

/-! ### The same outcome from any world and in any order of the fields -/

theorem forall2_of_index {α β : Type} (R : α → β → Prop) :
    ∀ (xs : List α) (ys : List β), xs.length = ys.length →
      (∀ (i : Nat) x y, xs[i]? = some x → ys[i]? = some y → R x y) → List.Forall₂ R xs ys
  | [], [], _, _ => List.Forall₂.nil
  | [], _ :: _, hl, _ => by simp at hl
  | _ :: _, [], hl, _ => by simp at hl
  | x :: xs, y :: ys, hl, hi =>
    List.Forall₂.cons (hi 0 x y (by simp) (by simp))
      (forall2_of_index R xs ys (by simpa using hl)
        (fun i a b ha hb => hi (i + 1) a b (by simpa using ha) (by simpa using hb)))

theorem index_of_forall2 {α β : Type} (R : α → β → Prop) (xs : List α) (ys : List β)
    (h : List.Forall₂ R xs ys) :
    xs.length = ys.length ∧ ∀ (i : Nat) x y, xs[i]? = some x → ys[i]? = some y → R x y := by
  induction h with
  | nil => exact ⟨rfl, fun i x y hx => by simp at hx⟩
  | cons hr _ ih =>
    refine ⟨by simp [ih.1], fun i x y hx hy => ?_⟩
    cases i with
    | zero =>
      simp only [List.getElem?_cons_zero, Option.some.injEq] at hx hy
      subst hx
      subst hy
      exact hr
    | succ i =>
      simp only [List.getElem?_cons_succ] at hx hy
      exact ih.2 i x y hx hy

theorem outcome_same_refl (r : Except PanicValue GoValue) : Outcome.Same r r := by
  cases r with
  | error p => trivial
  | ok v => exact GoValue.Same.refl v

theorem same_typeOf (v v1 : GoValue) (h : GoValue.Same v v1) :
    reflect.TypeOf v = reflect.TypeOf v1 := by
  cases h <;> rfl

theorem mapaccess_mem {α : Type} : ∀ (m : List (String × α)) (k : String) (v : α),
    mapaccess m k = some v → (k, v) ∈ m
  | [], _, _, h => by simp [mapaccess] at h
  | (k1, v1) :: rest, k, v, h => by
    simp only [mapaccess] at h
    by_cases hk : k1 = k
    · simp only [hk, if_true, Option.some.injEq] at h
      subst hk
      subst h
      exact List.mem_cons_self _ _
    · simp only [hk, if_false] at h
      exact List.mem_cons_of_mem _ (mapaccess_mem rest k v h)

theorem mem_mapaccess {α : Type} : ∀ (m : List (String × α)) (k : String) (v : α),
    (m.map Prod.fst).Nodup → (k, v) ∈ m → mapaccess m k = some v
  | [], _, _, _, h => by simp at h
  | (k1, v1) :: rest, k, v, hn, h => by
    simp only [List.map_cons, List.nodup_cons] at hn
    simp only [mapaccess]
    rcases List.mem_cons.mp h with e | e
    · simp only [Prod.mk.injEq] at e
      simp [e.1, e.2]
    · have hne : k1 ≠ k := by
        intro hk
        subst hk
        exact hn.1 (List.mem_map.mpr ⟨(k1, v), e, rfl⟩)
      simp only [hne, if_false]
      exact mem_mapaccess rest k v hn.2 e

theorem object_interpolate_fails (h : Host) (d : GoValue) (o : options) (e : String × field) :
    ∀ (fs : List (String × field)), e ∈ fs →
      (∀ w0, ∃ p, (e.2.value.interpolate h d o w0).1 = .error p) →
      ∀ (res : List (String × GoValue)) (w : World),
        ∃ p, (object.interpolate h fs d o res w).1 = .error p
  | [], he, _, _, _ => by simp at he
  | (name, .mk value ann) :: rest, he, hf, res, w => by
    simp only [object.interpolate]
    rcases hx : template.interpolate h value d o w with ⟨r, w1⟩
    cases r with
    | error p => exact ⟨p, rfl⟩
    | ok v =>
      simp only []
      rcases List.mem_cons.mp he with e1 | e1
      · subst e1
        obtain ⟨p, hp⟩ := hf w
        simp only [field.value] at hp
        rw [hx] at hp
        cases hp
      · exact object_interpolate_fails h d o e rest e1 hf _ w1

theorem array_interpolate_same (h : Host) (d : GoValue) (o : options) (a a1 : List template)
    (hr : List.Forall₂ (fun t t1 => ∀ w w1,
      Outcome.Same (template.interpolate h t d o w).1 (template.interpolate h t1 d o w1).1)
      a a1) :
    ∀ w w1,
      Outcome.SameList (array.interpolate h a d o w).1 (array.interpolate h a1 d o w1).1 := by
  induction hr with
  | nil =>
    intro w w1
    simp only [array.interpolate, Outcome.SameList]
    exact List.Forall₂.nil
  | @cons t t1 rest rest1 ht _ ih =>
    intro w w1
    simp only [array.interpolate]
    have h1 := ht w w1
    rcases hx : template.interpolate h t d o w with ⟨r, w2⟩
    rcases hy : template.interpolate h t1 d o w1 with ⟨r1, w3⟩
    rw [hx, hy] at h1
    cases r with
    | error p =>
      cases r1 with
      | error p1 => trivial
      | ok v1 => exact h1.elim
    | ok v =>
      cases r1 with
      | error p1 => exact h1.elim
      | ok v1 =>
        simp only []
        have h2 := ih w2 w3
        rcases hx2 : array.interpolate h rest d o w2 with ⟨r2, w4⟩
        rcases hy2 : array.interpolate h rest1 d o w3 with ⟨r3, w5⟩
        rw [hx2, hy2] at h2
        cases r2 with
        | error p =>
          cases r3 with
          | error p1 => trivial
          | ok v1 => exact h2.elim
        | ok vs =>
          cases r3 with
          | error p1 => exact h2.elim
          | ok vs1 => exact List.Forall₂.cons h1 h2

theorem generator_range_same
    (body body1 : GoValue → World → Except PanicValue GoValue × World)
    (hb : ∀ d w w1, Outcome.Same (body d w).1 (body1 d w1).1) :
    ∀ (hits : List reflect.Value) (w w1 : World),
      Outcome.SameList (generator.range body hits w).1 (generator.range body1 hits w1).1
  | [], w, w1 => by
    simp only [generator.range, Outcome.SameList]
    exact List.Forall₂.nil
  | v :: vs, w, w1 => by
    simp only [generator.range]
    cases (if v.IsValid then v.Interface else .ok GoValue.nil) with
    | error p => trivial
    | ok inner =>
    simp only []
    have h1 := hb inner w w1
    rcases hx : body inner w with ⟨r, w2⟩
    rcases hy : body1 inner w1 with ⟨r1, w3⟩
    rw [hx, hy] at h1
    cases r with
    | error p =>
      cases r1 with
      | error p1 => trivial
      | ok v1 => exact h1.elim
    | ok x =>
      cases r1 with
      | error p1 => exact h1.elim
      | ok x1 =>
        simp only []
        have h2 := generator_range_same body body1 hb vs w2 w3
        rcases hx2 : generator.range body vs w2 with ⟨r2, w4⟩
        rcases hy2 : generator.range body1 vs w3 with ⟨r3, w5⟩
        rw [hx2, hy2] at h2
        cases r2 with
        | error p =>
          cases r3 with
          | error p1 => trivial
          | ok v1 => exact h2.elim
        | ok rs =>
          cases r3 with
          | error p1 => exact h2.elim
          | ok rs1 => exact List.Forall₂.cons h1 h2

theorem function_argument_same (name : String) (fn : GoValue) (i : Nat) (v v1 : GoValue)
    (hs : GoValue.Same v v1) :
    Outcome.Same (function.argument name fn i v) (function.argument name fn i v1) := by
  unfold function.argument
  cases function.expected fn i with
  | error p => trivial
  | ok expected =>
    simp only []
    rw [← same_typeOf v v1 hs]
    cases reflect.TypeOf v with
    | none => exact outcome_same_refl _
    | some actual =>
      simp only []
      split_ifs
      · exact GoValue.Same.ptr actual v v1 hs
      · trivial
      · exact hs
      · trivial

theorem function_arguments_same (h : Host) (name : String) (fn : GoValue) (d : GoValue)
    (o : options) (a a1 : List template)
    (hr : List.Forall₂ (fun t t1 => ∀ w w1,
      Outcome.Same (template.interpolate h t d o w).1 (template.interpolate h t1 d o w1).1)
      a a1) :
    ∀ i w w1, Outcome.SameList (function.arguments h name fn a i d o w).1
      (function.arguments h name fn a1 i d o w1).1 := by
  induction hr with
  | nil =>
    intro i w w1
    simp only [function.arguments, Outcome.SameList]
    exact List.Forall₂.nil
  | @cons t t1 rest rest1 ht _ ih =>
    intro i w w1
    simp only [function.arguments]
    have h1 := ht w w1
    rcases hx : template.interpolate h t d o w with ⟨r, w2⟩
    rcases hy : template.interpolate h t1 d o w1 with ⟨r1, w3⟩
    rw [hx, hy] at h1
    cases r with
    | error p =>
      cases r1 with
      | error p1 => trivial
      | ok v1 => exact h1.elim
    | ok v =>
      cases r1 with
      | error p1 => exact h1.elim
      | ok v1 =>
        simp only []
        have h3 := function_argument_same name fn i v v1 h1
        cases hp : function.argument name fn i v with
        | error p =>
          cases hq : function.argument name fn i v1 with
          | error p1 => trivial
          | ok arg1 =>
            rw [hp, hq] at h3
            exact h3.elim
        | ok arg =>
          cases hq : function.argument name fn i v1 with
          | error p1 =>
            rw [hp, hq] at h3
            exact h3.elim
          | ok arg1 =>
            rw [hp, hq] at h3
            simp only []
            have h2 := ih (i + 1) w2 w3
            rcases hx2 : function.arguments h name fn rest (i + 1) d o w2 with ⟨r2, w4⟩
            rcases hy2 : function.arguments h name fn rest1 (i + 1) d o w3 with ⟨r3, w5⟩
            rw [hx2, hy2] at h2
            cases r2 with
            | error p =>
              cases r3 with
              | error p1 => trivial
              | ok v1 => exact h2.elim
            | ok vs =>
              cases r3 with
              | error p1 => exact h2.elim
              | ok vs1 => exact List.Forall₂.cons h3 h2

theorem host_call_same (h : Host) (hp : h.pure) (body : Nat) (vals vals1 : List GoValue)
    (hv : GoValue.SameList vals vals1) :
    (∃ p p1, h.call body vals = .error p ∧ h.call body vals1 = .error p1) ∨
      ∃ rs rs1, h.call body vals = .ok rs ∧ h.call body vals1 = .ok rs1 ∧
        GoValue.SameList rs rs1 := by
  have h1 := hp body vals vals1 hv
  cases hx : h.call body vals with
  | error p =>
    cases hy : h.call body vals1 with
    | error p1 => exact Or.inl ⟨p, p1, rfl, rfl⟩
    | ok rs1 =>
      rw [hx, hy] at h1
      exact h1.elim
  | ok rs =>
    cases hy : h.call body vals1 with
    | error p1 =>
      rw [hx, hy] at h1
      exact h1.elim
    | ok rs1 =>
      rw [hx, hy] at h1
      exact Or.inr ⟨rs, rs1, rfl, rfl, h1⟩

theorem reflect_Call_same (h : Host) (hp : h.pure) (fn : GoValue) (vals vals1 : List GoValue)
    (hv : GoValue.SameList vals vals1) (w w1 : World) :
    (∃ p p1, (reflect.Call h fn vals w).1 = .error p ∧
        (reflect.Call h fn vals1 w1).1 = .error p1) ∨
      ∃ rs rs1, (reflect.Call h fn vals w).1 = .ok rs ∧
        (reflect.Call h fn vals1 w1).1 = .ok rs1 ∧ GoValue.SameList rs rs1 := by
  unfold reflect.Call
  cases fn with
  | func ins variadic outs body =>
    simp only [← hv.1]
    split_ifs
    all_goals first
      | exact Or.inl ⟨_, _, rfl, rfl⟩
      | exact host_call_same h hp body vals vals1 hv
  | zero t =>
    simp only []
    split_ifs <;> exact Or.inl ⟨_, _, rfl, rfl⟩
  | nil => exact Or.inl ⟨_, _, rfl, rfl⟩
  | bool b => exact Or.inl ⟨_, _, rfl, rfl⟩
  | int n => exact Or.inl ⟨_, _, rfl, rfl⟩
  | float64 x => exact Or.inl ⟨_, _, rfl, rfl⟩
  | string s => exact Or.inl ⟨_, _, rfl, rfl⟩
  | slice e xs => exact Or.inl ⟨_, _, rfl, rfl⟩
  | map e kvs => exact Or.inl ⟨_, _, rfl, rfl⟩
  | ptr e v => exact Or.inl ⟨_, _, rfl, rfl⟩
  | struct n fs => exact Or.inl ⟨_, _, rfl, rfl⟩

theorem function_call_same (h : Host) (hp : h.pure) (fn : GoValue) (vals vals1 : List GoValue)
    (hv : List.Forall₂ GoValue.Same vals vals1) (w w1 : World) :
    Outcome.Same (function.call h fn vals w).1 (function.call h fn vals1 w1).1 := by
  have hidx := index_of_forall2 _ _ _ hv
  have h1 := reflect_Call_same h hp fn vals vals1 hidx w w1
  unfold function.call
  rcases hx : reflect.Call h fn vals w with ⟨r, w2⟩
  rcases hy : reflect.Call h fn vals1 w1 with ⟨r1, w3⟩
  rw [hx, hy] at h1
  simp only at h1
  rcases h1 with ⟨p, p1, e1, e2⟩ | ⟨rs, rs1, e1, e2, hs⟩
  · subst e1
    subst e2
    trivial
  · subst e1
    subst e2
    cases rs with
    | nil =>
      cases rs1 with
      | nil => trivial
      | cons r1 more1 =>
        have := hs.1
        simp at this
    | cons r more =>
      cases rs1 with
      | nil =>
        have := hs.1
        simp at this
      | cons r1 more1 => exact hs.2 0 r r1 (by simp) (by simp)

theorem template_interpolate_same (h : Host) (hp : h.pure) (o : options) :
    ∀ t t1, template.Reordered t t1 → ∀ d w w1,
      Outcome.Same (template.interpolate h t d o w).1 (template.interpolate h t1 d o w1).1 := by
  intro t t1 hr
  induction hr with
  | refl t =>
    intro d w w1
    rw [template_interpolate_fst h t d o w w1]
    exact outcome_same_refl _
  | object fs fs1 hn hn1 hkeys _ _ ih =>
    intro d w w1
    simp only [template.interpolate]
    by_cases hall : ∀ e ∈ fs, ∃ v, (e.2.value.interpolate h d o w).1 = .ok v
    · have hall1 : ∀ e ∈ fs1, ∃ v, (e.2.value.interpolate h d o w1).1 = .ok v := by
        intro e he
        have hm1 := mem_mapaccess fs1 e.1 e.2 hn1 he
        have hsome : (mapaccess fs e.1).isSome = true := by
          rw [hkeys, hm1]
          rfl
        obtain ⟨f, hf⟩ := Option.isSome_iff_exists.mp hsome
        obtain ⟨v, hv⟩ := hall (e.1, f) (mapaccess_mem fs e.1 f hf)
        have hsame := ih e.1 f e.2 hf hm1 d w w1
        simp only at hv
        rw [hv] at hsame
        cases hx : (e.2.value.interpolate h d o w1).1 with
        | error p =>
          rw [hx] at hsame
          exact hsame.elim
        | ok v1 => exact ⟨v1, rfl⟩
      obtain ⟨kvs, w2, hrun, hrel⟩ := object_interpolate_of_results h d o fs [] w
        (by simpa using hn) (fun e he => ⟨w, hall e he⟩)
      obtain ⟨kvs1, w3, hrun1, hrel1⟩ := object_interpolate_of_results h d o fs1 [] w1
        (by simpa using hn1) (fun e he => ⟨w1, hall1 e he⟩)
      rw [hrun, hrun1]
      simp only [List.nil_append]
      refine GoValue.Same.map _ kvs kvs1 (fun k => ?_) (fun k x y hx hy => ?_)
      · have ha := mapaccess_of_forall2 h d o fs kvs hrel k
        have hb := mapaccess_of_forall2 h d o fs1 kvs1 hrel1 k
        have hk := hkeys k
        cases hf : mapaccess fs k with
        | none =>
          rw [hf] at hk
          have hf1 : mapaccess fs1 k = none := by
            cases hq : mapaccess fs1 k with
            | none => rfl
            | some f1 =>
              rw [hq] at hk
              cases hk
          rw [ha.2 hf, hb.2 hf1]
        | some f =>
          rw [hf] at hk
          obtain ⟨f1, hf1⟩ := Option.isSome_iff_exists.mp hk.symm
          obtain ⟨v, hv, _⟩ := ha.1 f hf
          obtain ⟨v1, hv1, _⟩ := hb.1 f1 hf1
          rw [hv, hv1]
          rfl
      · have ha := mapaccess_of_forall2 h d o fs kvs hrel k
        have hb := mapaccess_of_forall2 h d o fs1 kvs1 hrel1 k
        cases hf : mapaccess fs k with
        | none =>
          rw [ha.2 hf] at hx
          cases hx
        | some f =>
          cases hf1 : mapaccess fs1 k with
          | none =>
            rw [hb.2 hf1] at hy
            cases hy
          | some f1 =>
            obtain ⟨v, hv, hev⟩ := ha.1 f hf
            obtain ⟨v1, hv1, hev1⟩ := hb.1 f1 hf1
            rw [hv] at hx
            rw [hv1] at hy
            cases hx
            cases hy
            have hsame := ih k f f1 hf hf1 d w w1
            rw [hev w, hev1 w1] at hsame
            exact hsame
    · push_neg at hall
      obtain ⟨e, he, hne⟩ := hall
      have hfail : ∀ w0, ∃ p, (e.2.value.interpolate h d o w0).1 = .error p := by
        intro w0
        rw [template_interpolate_fst h e.2.value d o w0 w]
        cases hx : (e.2.value.interpolate h d o w).1 with
        | error p => exact ⟨p, rfl⟩
        | ok v => exact (hne v hx).elim
      obtain ⟨p, hp1⟩ := object_interpolate_fails h d o e fs he hfail [] w
      have hm := mem_mapaccess fs e.1 e.2 hn he
      have hsome : (mapaccess fs1 e.1).isSome = true := by
        rw [← hkeys, hm]
        rfl
      obtain ⟨f1, hf1⟩ := Option.isSome_iff_exists.mp hsome
      have hfail1 : ∀ w0, ∃ p, (f1.value.interpolate h d o w0).1 = .error p := by
        intro w0
        have hsame := ih e.1 e.2 f1 hm hf1 d w w0
        obtain ⟨q, hq⟩ := hfail w
        rw [hq] at hsame
        cases hx : (f1.value.interpolate h d o w0).1 with
        | error p => exact ⟨p, rfl⟩
        | ok v =>
          rw [hx] at hsame
          exact hsame.elim
      obtain ⟨p1, hp2⟩ := object_interpolate_fails h d o (e.1, f1) fs1
        (mapaccess_mem fs1 e.1 f1 hf1) hfail1 [] w1
      rcases hx : object.interpolate h fs d o [] w with ⟨r, w2⟩
      rcases hy : object.interpolate h fs1 d o [] w1 with ⟨r1, w3⟩
      rw [hx] at hp1
      rw [hy] at hp2
      simp only at hp1 hp2
      subst hp1
      subst hp2
      trivial
  | array a a1 hl _ ih =>
    intro d w w1
    simp only [template.interpolate]
    have h1 := array_interpolate_same h d o a a1
      (forall2_of_index _ a a1 hl (fun i t t1 ht ht1 w w1 => ih i t t1 ht ht1 d w w1)) w w1
    rcases hx : array.interpolate h a d o w with ⟨r, w2⟩
    rcases hy : array.interpolate h a1 d o w1 with ⟨r1, w3⟩
    rw [hx, hy] at h1
    cases r with
    | error p =>
      cases r1 with
      | error p1 => trivial
      | ok v1 => exact h1.elim
    | ok vs =>
      cases r1 with
      | error p1 => exact h1.elim
      | ok vs1 =>
        have hidx := index_of_forall2 _ _ _ h1
        exact GoValue.Same.slice _ vs vs1 hidx.1 hidx.2
  | generator over t t1 _ ih =>
    intro d w w1
    simp only [template.interpolate, generator.interpolate]
    by_cases c1 : (d.isNil && decide (o.MissingKeys = NullOnMissing)) = true
    · simp only [c1, if_true]
      exact GoValue.Same.refl _
    · by_cases c2 : (d.isNil && decide (o.MissingKeys = ErrorOnMissing)) = true
      · simp only [c1, c2, if_true, if_false]
        trivial
      · simp only [c1, c2, JSONPath.FindResults, JSONPath.AllowMissingKeys, if_true, if_false]
        simp only [Bool.false_eq_true, if_false, if_true]
        cases h.FindResults over.expression.text (decide (o.MissingKeys = NullOnMissing)) d with
        | error e => trivial
        | ok hits =>
          cases hits with
          | nil => trivial
          | cons hs tl =>
            simp only []
            generalize hwa : (World.mk _ _ : World) = wa
            generalize hwb : (World.mk _ _ : World) = wb
            have h1 := generator_range_same
              (fun inner w => template.interpolate h t inner o w)
              (fun inner w => template.interpolate h t1 inner o w)
              (fun d w w1 => ih d w w1) hs wa wb
            rcases hx : generator.range
              (fun inner w => template.interpolate h t inner o w) hs wa with ⟨r, w2⟩
            rcases hy : generator.range
              (fun inner w => template.interpolate h t1 inner o w) hs wb with ⟨r1, w3⟩
            rw [hx, hy] at h1
            cases r with
            | error p =>
              cases r1 with
              | error p1 => trivial
              | ok v1 => exact h1.elim
            | ok vs =>
              cases r1 with
              | error p1 => exact h1.elim
              | ok vs1 =>
                have hidx := index_of_forall2 _ _ _ h1
                exact GoValue.Same.slice _ vs vs1 hidx.1 hidx.2
  | function name fn args args1 hl _ ih =>
    intro d w w1
    simp only [template.interpolate, function.interpolate]
    have h1 := function_arguments_same h name fn d o args args1
      (forall2_of_index _ args args1 hl (fun i t t1 ht ht1 w w1 => ih i t t1 ht ht1 d w w1))
      0 w w1
    rcases hx : function.arguments h name fn args 0 d o w with ⟨r, w2⟩
    rcases hy : function.arguments h name fn args1 0 d o w1 with ⟨r1, w3⟩
    rw [hx, hy] at h1
    cases r with
    | error p =>
      cases r1 with
      | error p1 => trivial
      | ok v1 => exact h1.elim
    | ok vs =>
      cases r1 with
      | error p1 => exact h1.elim
      | ok vs1 => exact function_call_same h hp fn vs vs1 h1 w2 w3

/-- C29: with a host whose functions are pure, an evaluation is determined by
the node tree, the input and the policy. The outcome does not depend on the
world that the evaluation starts in, that is on the flags that earlier
evaluations have left in the compiled expressions (first part); and the node
tree with the fields of its objects in another order, at any depth, evaluated
on the same input under the same policy from any other world, gives the same
outcome: both give a value, the same one when maps are compared by their
entries, or both fail (second part). -/
theorem evaluation_is_deterministic (h : Host) (hp : h.pure) (t t1 : template)
    (hr : template.Reordered t t1) (data : GoValue) (opt : options) (w w1 : World) :
    (t.interpolate h data opt w).1 = (t.interpolate h data opt w1).1 ∧
      Outcome.Same (t.interpolate h data opt w).1 (t1.interpolate h data opt w1).1 :=
  ⟨template_interpolate_fst h t data opt w w1,
    template_interpolate_same h hp opt t t1 hr data w w1⟩

/-! ### Comments -/

theorem lexStringBody_text : ∀ cs : List Char,
    (parse.lexStringBody cs).1 ++ (parse.lexStringBody cs).2 = cs
  | [] => by simp [parse.lexStringBody]
  | c :: cs => by
    unfold parse.lexStringBody
    have ih := lexStringBody_text cs
    split
    · simp only [List.cons_append, ih]
    · split
      · match cs with
        | [] => simp
        | d :: ds =>
          have ih2 := lexStringBody_text ds
          simp only
          split
          · simp only [List.cons_append, ih2]
          · simp
      · simp

theorem lexSign_text (cs : List Char) : (parse.lexSign cs).1 ++ (parse.lexSign cs).2 = cs := by
  cases cs with
  | nil => simp [parse.lexSign]
  | cons c cs => by_cases h : c = '-' <;> simp [parse.lexSign, h]

theorem lexOptionalDigit_text (cs : List Char) :
    (parse.lexOptionalDigit cs).1 ++ (parse.lexOptionalDigit cs).2 = cs := by
  cases cs with
  | nil => simp [parse.lexOptionalDigit]
  | cons c cs => by_cases h : parse.digit c = true <;> simp [parse.lexOptionalDigit, h]

theorem lexComment_text (cs text rest : List Char)
    (h : parse.lexComment cs = some (text, rest)) : cs = text ++ rest := by
  cases cs with
  | nil => simp [parse.lexComment] at h
  | cons c cs =>
    by_cases hc : c = '#'
    · simp only [parse.lexComment, hc, if_true, Option.some.injEq, Prod.mk.injEq] at h
      rw [← h.1, ← h.2, hc, List.cons_append, List.takeWhile_append_dropWhile]
    · simp [parse.lexComment, hc] at h

theorem lexIdent_text (cs text rest : List Char)
    (h : parse.lexIdent cs = some (text, rest)) : cs = text ++ rest := by
  cases cs with
  | nil => simp [parse.lexIdent] at h
  | cons c cs =>
    by_cases hc : (parse.alpha c || c == '_') = true
    · simp only [parse.lexIdent, hc, if_true, Option.some.injEq, Prod.mk.injEq] at h
      rw [← h.1, ← h.2, List.cons_append, List.takeWhile_append_dropWhile]
    · simp [parse.lexIdent, hc] at h

theorem lexString_text (cs text rest : List Char)
    (h : parse.lexString cs = some (text, rest)) : cs = text ++ rest := by
  cases cs with
  | nil => simp [parse.lexString] at h
  | cons c cs =>
    by_cases hc : c = parse.quote
    · simp only [parse.lexString, hc, if_true] at h
      have hl := lexStringBody_text cs
      cases hb : (parse.lexStringBody cs).2 with
      | nil => rw [hb] at h; cases h
      | cons q r =>
        rw [hb] at h hl
        simp only at h
        by_cases hq : q = parse.quote
        · simp only [hq, if_true, Option.some.injEq, Prod.mk.injEq] at h
          rw [hq] at hl
          rw [← h.1, ← h.2, hc]
          simp only [List.cons_append, List.append_assoc, List.singleton_append,
            List.nil_append]
          rw [hl]
        · simp [hq] at h
    · simp [parse.lexString, hc] at h

theorem lexInt_text (cs text rest : List Char)
    (h : parse.lexInt cs = some (text, rest)) : cs = text ++ rest := by
  unfold parse.lexInt at h
  have hl := lexSign_text cs
  cases hb : (parse.lexSign cs).2 with
  | nil => rw [hb] at h; cases h
  | cons d r =>
    rw [hb] at h hl
    simp only at h
    by_cases hd : parse.digit d = true
    · simp only [hd, if_true, Option.some.injEq, Prod.mk.injEq] at h
      rw [← h.1, ← h.2, List.append_assoc, List.cons_append,
        List.takeWhile_append_dropWhile, hl]
    · simp [hd] at h

theorem lexFloat_text (cs text rest : List Char)
    (h : parse.lexFloat cs = some (text, rest)) : cs = text ++ rest := by
  unfold parse.lexFloat at h
  have hl := lexSign_text cs
  have hl2 := lexOptionalDigit_text (parse.lexSign cs).2
  split at h
  · rename_i p d r heq
    rw [heq] at hl2
    by_cases hd : p = '.' ∧ parse.digit d = true
    · simp only [hd, and_self, if_true, Option.some.injEq, Prod.mk.injEq] at h
      rw [← h.1, ← h.2]
      simp only [List.append_assoc, List.cons_append, List.takeWhile_append_dropWhile]
      rw [← hd.1, hl2, hl]
    · simp [hd] at h
  · cases h

theorem lexNumber_text (cs text rest : List Char)
    (h : parse.lexNumber cs = some (text, rest)) : cs = text ++ rest := by
  unfold parse.lexNumber at h
  cases hi : parse.lexInt cs with
  | some r =>
    rw [hi] at h
    simp only [Option.some.injEq] at h
    subst h
    exact lexInt_text cs text rest hi
  | none =>
    rw [hi] at h
    exact lexFloat_text cs text rest h

theorem lexBrackets_text : ∀ (k : Nat) (cs : List Char),
    (parse.lexBrackets k cs).1 ++ (parse.lexBrackets k cs).2 = cs
  | 0, cs => by simp [parse.lexBrackets]
  | k + 1, [] => by simp [parse.lexBrackets]
  | k + 1, c :: rest => by
    unfold parse.lexBrackets
    simp only
    split
    · have hd := List.takeWhile_append_dropWhile (fun x => parse.any x && x != ']') rest
      split
      · rename_i q rest1 heq
        rw [heq] at hd
        split
        · have ih := lexBrackets_text k rest1
          simp only [List.cons_append, List.append_assoc, ih, hd]
        · simp
      · simp
    · simp

theorem lexJSONPathExpr_text (cs text rest : List Char)
    (h : parse.lexJSONPathExpr cs = some (text, rest)) : cs = text ++ rest := by
  unfold parse.lexJSONPathExpr at h
  cases cs with
  | nil => cases h
  | cons c r =>
    simp only at h
    by_cases hc : c = '*'
    · simp only [hc, if_true, Option.some.injEq, Prod.mk.injEq] at h
      rw [← h.1, ← h.2, hc]
      rfl
    · simp only [hc, if_false] at h
      cases hi : parse.lexIdent (c :: r) with
      | none => rw [hi] at h; cases h
      | some res =>
        obtain ⟨ident, rest1⟩ := res
        rw [hi] at h
        simp only [Option.some.injEq, Prod.mk.injEq] at h
        rw [← h.1, ← h.2, List.append_assoc, lexBrackets_text, lexIdent_text _ _ _ hi]

theorem lexSegments_text : ∀ (k : Nat) (cs : List Char),
    (parse.lexSegments k cs).1 ++ (parse.lexSegments k cs).2 = cs
  | 0, cs => by simp [parse.lexSegments]
  | k + 1, [] => by simp [parse.lexSegments]
  | k + 1, c :: rest => by
    unfold parse.lexSegments
    simp only
    split
    · cases he : parse.lexJSONPathExpr (rest.dropWhile fun x => x == '.') with
      | none => simp
      | some res =>
        obtain ⟨expr, rest1⟩ := res
        have h1 := lexJSONPathExpr_text _ _ _ he
        have ih := lexSegments_text k rest1
        have hd := List.takeWhile_append_dropWhile (fun x => x == '.') rest
        simp only [List.cons_append, List.append_assoc, ih]
        rw [← h1, hd]
    · simp

theorem lexJSONPath_text (cs text rest : List Char)
    (h : parse.lexJSONPath cs = some (text, rest)) : cs = text ++ rest := by
  cases cs with
  | nil => simp [parse.lexJSONPath] at h
  | cons c cs =>
    by_cases hc : c = '$'
    · simp only [parse.lexJSONPath, hc, if_true, Option.some.injEq, Prod.mk.injEq] at h
      rw [← h.1, ← h.2, hc, List.cons_append, lexSegments_text]
    · simp [parse.lexJSONPath, hc] at h

theorem lexPunct_text (cs text rest : List Char)
    (h : parse.lexPunct cs = some (text, rest)) : cs = text ++ rest := by
  cases cs with
  | nil => simp [parse.lexPunct] at h
  | cons c cs =>
    simp only [parse.lexPunct] at h
    split at h
    · simp only [Option.some.injEq, Prod.mk.injEq] at h
      rw [← h.1, ← h.2]
      rfl
    · cases h

theorem lexWhitespace_text (cs text rest : List Char)
    (h : parse.lexWhitespace cs = some (text, rest)) : cs = text ++ rest := by
  cases cs with
  | nil => simp [parse.lexWhitespace] at h
  | cons c cs =>
    simp only [parse.lexWhitespace] at h
    split at h
    · simp only [Option.some.injEq, Prod.mk.injEq] at h
      rw [← h.1, ← h.2]
      rfl
    · cases h

theorem append_right_length {α : Type} (a b P : List α) (h : a ++ P = b ++ P) : a = b :=
  List.append_cancel_right h

theorem dropWhile_stable (p : Char → Bool) (P r0 : List Char) :
    ∀ (a0 a1 : List Char), (a1 = [] → p '#' = false) →
      (a0 ++ P).dropWhile p = a1 ++ P →
      (a0 ++ '#' :: r0).takeWhile p = (a0 ++ P).takeWhile p ∧
        (a0 ++ '#' :: r0).dropWhile p = a1 ++ '#' :: r0 ∧
        a0 = (a0 ++ P).takeWhile p ++ a1
  | [], a1, hp, h => by
    have hl := dropWhile_length p P
    simp only [List.nil_append] at h
    rw [h, List.length_append] at hl
    have ha1 : a1 = [] := List.eq_nil_of_length_eq_zero (by omega)
    subst ha1
    simp only [List.nil_append] at h ⊢
    have hp1 := hp rfl
    have ht : P.takeWhile p = [] := by
      have := List.takeWhile_append_dropWhile p P
      rw [h] at this
      exact List.append_left_eq_self.mp this
    simp [List.takeWhile, List.dropWhile, hp1, ht]
  | c :: a0, a1, hp, h => by
    by_cases hc : p c = true
    · simp only [List.cons_append, List.dropWhile_cons, hc, if_true] at h
      obtain ⟨h1, h2, h3⟩ := dropWhile_stable p P r0 a0 a1 hp h
      simp only [List.cons_append, List.takeWhile_cons, List.dropWhile_cons, hc, if_true, h1, h2]
      exact ⟨trivial, trivial, by rw [← h3]⟩
    · simp only [List.cons_append, List.dropWhile_cons, hc] at h
      have ha := append_right_length (c :: a0) a1 P (by simpa using h)
      subst ha
      simp [List.takeWhile, List.dropWhile, hc]

theorem lexComment_stable (a a1 P r0 x : List Char) (ha1 : a1 ≠ [])
    (h : parse.lexComment (a ++ P) = some (x, a1 ++ P)) :
    parse.lexComment (a ++ '#' :: r0) = some (x, a1 ++ '#' :: r0) := by
  cases a with
  | nil =>
    have := lexComment_consumes _ _ _ h
    simp only [List.nil_append, List.length_append] at this
    omega
  | cons c a0 =>
    by_cases hc : c = '#'
    · simp only [List.cons_append, parse.lexComment, hc, if_true, Option.some.injEq,
        Prod.mk.injEq] at h ⊢
      obtain ⟨h1, h2, _⟩ := dropWhile_stable parse.commentChar P r0 a0 a1
        (fun e => (ha1 e).elim) h.2
      rw [h1, h2]
      exact ⟨h.1, rfl⟩
    · simp [parse.lexComment, hc] at h

theorem lexComment_none (c : Char) (v v1 : List Char) (h : parse.lexComment (c :: v) = none) :
    parse.lexComment (c :: v1) = none := by
  by_cases hc : c = '#'
  · simp [parse.lexComment, hc] at h
  · simp [parse.lexComment, hc]

theorem lexIdent_stable (a a1 P r0 x : List Char)
    (h : parse.lexIdent (a ++ P) = some (x, a1 ++ P)) :
    parse.lexIdent (a ++ '#' :: r0) = some (x, a1 ++ '#' :: r0) := by
  cases a with
  | nil =>
    have := lexIdent_consumes _ _ _ h
    simp only [List.nil_append, List.length_append] at this
    omega
  | cons c a0 =>
    by_cases hc : (parse.alpha c || c == '_') = true
    · simp only [List.cons_append, parse.lexIdent, hc, if_true, Option.some.injEq,
        Prod.mk.injEq] at h ⊢
      obtain ⟨h1, h2, _⟩ := dropWhile_stable
        (fun x => x == '_' || parse.alpha x || parse.digit x) P r0 a0 a1
        (fun _ => by decide) h.2
      rw [h1, h2]
      exact ⟨h.1, rfl⟩
    · simp [parse.lexIdent, hc] at h

theorem lexIdent_none (c : Char) (v v1 : List Char) (h : parse.lexIdent (c :: v) = none) :
    parse.lexIdent (c :: v1) = none := by
  by_cases hc : (parse.alpha c || c == '_') = true
  · simp [parse.lexIdent, hc] at h
  · simp [parse.lexIdent, hc]

theorem lexPunct_stable (a a1 P r0 x : List Char)
    (h : parse.lexPunct (a ++ P) = some (x, a1 ++ P)) :
    parse.lexPunct (a ++ '#' :: r0) = some (x, a1 ++ '#' :: r0) := by
  cases a with
  | nil =>
    have := lexPunct_consumes _ _ _ h
    simp only [List.nil_append, List.length_append] at this
    omega
  | cons c a0 =>
    simp only [List.cons_append, parse.lexPunct] at h ⊢
    split at h
    · rename_i hc
      simp only [Option.some.injEq, Prod.mk.injEq] at h
      rw [if_pos hc, ← h.1, append_right_length a0 a1 P h.2]
    · cases h

theorem lexPunct_none (c : Char) (v v1 : List Char) (h : parse.lexPunct (c :: v) = none) :
    parse.lexPunct (c :: v1) = none := by
  simp only [parse.lexPunct] at h ⊢
  split at h
  · cases h
  · rename_i hc
    rw [if_neg hc]

theorem lexWhitespace_stable (a a1 P r0 x : List Char)
    (h : parse.lexWhitespace (a ++ P) = some (x, a1 ++ P)) :
    parse.lexWhitespace (a ++ '#' :: r0) = some (x, a1 ++ '#' :: r0) := by
  cases a with
  | nil =>
    have := lexWhitespace_consumes _ _ _ h
    simp only [List.nil_append, List.length_append] at this
    omega
  | cons c a0 =>
    simp only [List.cons_append, parse.lexWhitespace] at h ⊢
    split at h
    · rename_i hc
      simp only [Option.some.injEq, Prod.mk.injEq] at h
      rw [if_pos hc, ← h.1, append_right_length a0 a1 P h.2]
    · cases h

theorem lexStringBody_ordinary (c : Char) (cs : List Char)
    (h1 : (parse.any c && c != parse.quote && c != parse.backslash) = true) :
    parse.lexStringBody (c :: cs) =
      (c :: (parse.lexStringBody cs).1, (parse.lexStringBody cs).2) := by
  conv_lhs => unfold parse.lexStringBody
  simp only [h1, if_true]

theorem lexStringBody_escape (d : Char) (ds : List Char) (hd : parse.any d = true) :
    parse.lexStringBody (parse.backslash :: d :: ds) =
      (parse.backslash :: d :: (parse.lexStringBody ds).1, (parse.lexStringBody ds).2) := by
  conv_lhs => unfold parse.lexStringBody
  have h1 : (parse.any parse.backslash && parse.backslash != parse.quote &&
      parse.backslash != parse.backslash) = false := by decide
  simp only [h1, hd, if_true]
  simp

theorem lexStringBody_escape_bad (d : Char) (ds : List Char) (hd : parse.any d = false) :
    parse.lexStringBody (parse.backslash :: d :: ds) = ([], parse.backslash :: d :: ds) := by
  conv_lhs => unfold parse.lexStringBody
  have h1 : (parse.any parse.backslash && parse.backslash != parse.quote &&
      parse.backslash != parse.backslash) = false := by decide
  simp only [h1, hd]
  simp

theorem lexStringBody_escape_end :
    parse.lexStringBody [parse.backslash] = ([], [parse.backslash]) := by
  decide

theorem lexStringBody_stop (c : Char) (cs : List Char)
    (h1 : (parse.any c && c != parse.quote && c != parse.backslash) = false)
    (h2 : c ≠ parse.backslash) :
    parse.lexStringBody (c :: cs) = ([], c :: cs) := by
  conv_lhs => unfold parse.lexStringBody
  simp only [h1, h2]
  simp

theorem lexStringBody_stable (P r0 : List Char) :
    ∀ (n : Nat) (a0 a1 : List Char), a0.length ≤ n →
      (parse.lexStringBody (a0 ++ P)).2 = parse.quote :: (a1 ++ P) →
      (parse.lexStringBody (a0 ++ '#' :: r0)).1 = (parse.lexStringBody (a0 ++ P)).1 ∧
        (parse.lexStringBody (a0 ++ '#' :: r0)).2 = parse.quote :: (a1 ++ '#' :: r0)
  | _, [], a1, _, h => by
    have hl := lexStringBody_length P
    simp only [List.nil_append] at h
    rw [h] at hl
    simp only [List.length_cons, List.length_append] at hl
    omega
  | 0, _ :: _, _, hn, _ => by simp at hn
  | n + 1, c :: a0, a1, hn, h => by
    simp only [List.length_cons, Nat.add_le_add_iff_right] at hn
    simp only [List.cons_append] at h ⊢
    by_cases h1 : (parse.any c && c != parse.quote && c != parse.backslash) = true
    · rw [lexStringBody_ordinary c (a0 ++ P) h1] at h ⊢
      rw [lexStringBody_ordinary c (a0 ++ '#' :: r0) h1]
      obtain ⟨e1, e2⟩ := lexStringBody_stable P r0 n a0 a1 hn h
      simp only [e1, e2, and_self]
    · have h1f : (parse.any c && c != parse.quote && c != parse.backslash) = false := by
        simpa using h1
      by_cases h2 : c = parse.backslash
      · subst h2
        cases a0 with
        | nil =>
          simp only [List.nil_append] at h
          cases P with
          | nil =>
            rw [lexStringBody_escape_end] at h
            simp only [List.cons.injEq] at h
            exact absurd h.1 (by decide)
          | cons d ds =>
            by_cases hd : parse.any d = true
            · rw [lexStringBody_escape d ds hd] at h
              have hl := lexStringBody_length ds
              simp only at h
              rw [h] at hl
              simp only [List.length_cons, List.length_append] at hl
              omega
            · rw [lexStringBody_escape_bad d ds (by simpa using hd)] at h
              simp only [List.cons.injEq] at h
              exact absurd h.1 (by decide)
        | cons d a2 =>
          simp only [List.cons_append] at h ⊢
          by_cases hd : parse.any d = true
          · rw [lexStringBody_escape d (a2 ++ P) hd] at h ⊢
            rw [lexStringBody_escape d (a2 ++ '#' :: r0) hd]
            obtain ⟨e1, e2⟩ := lexStringBody_stable P r0 n a2 a1
              (by simp only [List.length_cons] at hn; omega) h
            simp only [e1, e2, and_self]
          · rw [lexStringBody_escape_bad d _ (by simpa using hd)] at h
            simp only [List.cons.injEq] at h
            exact absurd h.1 (by decide)
      · rw [lexStringBody_stop c (a0 ++ P) h1f h2] at h ⊢
        rw [lexStringBody_stop c (a0 ++ '#' :: r0) h1f h2]
        simp only [List.cons.injEq] at h
        rw [append_right_length a0 a1 P h.2, h.1]
        exact ⟨rfl, rfl⟩

theorem lexString_stable (a a1 P r0 x : List Char)
    (h : parse.lexString (a ++ P) = some (x, a1 ++ P)) :
    parse.lexString (a ++ '#' :: r0) = some (x, a1 ++ '#' :: r0) := by
  cases a with
  | nil =>
    have := lexString_consumes _ _ _ h
    simp only [List.nil_append, List.length_append] at this
    omega
  | cons c a0 =>
    by_cases hc : c = parse.quote
    · simp only [List.cons_append, parse.lexString, hc, if_true] at h ⊢
      cases hb : (parse.lexStringBody (a0 ++ P)).2 with
      | nil => rw [hb] at h; cases h
      | cons q r =>
        rw [hb] at h
        simp only at h
        by_cases hq : q = parse.quote
        · simp only [hq, if_true, Option.some.injEq, Prod.mk.injEq] at h
          rw [hq, h.2] at hb
          obtain ⟨e1, e2⟩ := lexStringBody_stable P r0 a0.length a0 a1 (le_refl _) hb
          rw [e2]
          simp only [if_true, e1, h.1]
        · simp [hq] at h
    · simp [parse.lexString, hc] at h

theorem lexString_none (c : Char) (v1 : List Char) (hc : c ≠ parse.quote) :
    parse.lexString (c :: v1) = none := by
  simp [parse.lexString, hc]

theorem head_stable (p : Char → Bool) (hp : p '#' = false) (a1 P r0 : List Char)
    (h : ∀ c r, a1 ++ P = c :: r → p c = false) :
    ∀ c r, a1 ++ '#' :: r0 = c :: r → p c = false := by
  intro c r hc
  cases a1 with
  | nil =>
    simp only [List.nil_append, List.cons.injEq] at hc
    rw [← hc.1]
    exact hp
  | cons d a2 =>
    simp only [List.cons_append, List.cons.injEq] at hc
    rw [← hc.1]
    exact h d (a2 ++ P) rfl

theorem dropWhile_head {α : Type} (p : α → Bool) (l : List α) :
    ∀ c r, l.dropWhile p = c :: r → p c = false := by
  intro c r h
  induction l with
  | nil => simp at h
  | cons d l ih =>
    by_cases hd : p d = true
    · simp only [List.dropWhile_cons, hd, if_true] at h
      exact ih h
    · simp only [List.dropWhile_cons, hd] at h
      simp only [Bool.false_eq_true, if_false, List.cons.injEq] at h
      rw [← h.1]
      simpa using hd

theorem takeWhile_all {α : Type} (p : α → Bool) (l : List α) :
    ∀ c ∈ l.takeWhile p, p c = true := by
  intro c hc
  exact (List.mem_takeWhile_imp hc)

theorem lexInt_shape (cs x rest : List Char) (h : parse.lexInt cs = some (x, rest)) :
    ∃ sgn d ds, x = sgn ++ d :: ds ∧ (sgn = [] ∨ sgn = ['-']) ∧ parse.digit d = true ∧
      (∀ c ∈ ds, parse.digit c = true) ∧
      ∀ c r, rest = c :: r → parse.digit c = false := by
  unfold parse.lexInt at h
  have hs : (parse.lexSign cs).1 = [] ∨ (parse.lexSign cs).1 = ['-'] := by
    cases cs with
    | nil => exact Or.inl rfl
    | cons c cs =>
      by_cases hc : c = '-'
      · exact Or.inr (by simp [parse.lexSign, hc])
      · exact Or.inl (by simp [parse.lexSign, hc])
  cases hb : (parse.lexSign cs).2 with
  | nil => rw [hb] at h; cases h
  | cons d r =>
    rw [hb] at h
    simp only at h
    by_cases hd : parse.digit d = true
    · simp only [hd, if_true, Option.some.injEq, Prod.mk.injEq] at h
      exact ⟨(parse.lexSign cs).1, d, r.takeWhile parse.digit, h.1.symm, hs, hd,
        takeWhile_all _ _, fun c r1 hc => dropWhile_head parse.digit r c r1 (h.2.trans hc)⟩
    · simp [hd] at h

theorem digit_not_minus (d : Char) (hd : parse.digit d = true) : d ≠ '-' := by
  intro h
  subst h
  revert hd
  decide

theorem lexInt_build (sgn : List Char) (d : Char) (ds rest : List Char)
    (hs : sgn = [] ∨ sgn = ['-']) (hd : parse.digit d = true)
    (hds : ∀ c ∈ ds, parse.digit c = true)
    (hr : ∀ c r, rest = c :: r → parse.digit c = false) :
    parse.lexInt (sgn ++ d :: ds ++ rest) = some (sgn ++ d :: ds, rest) := by
  have hsplit := takeWhile_append_stop parse.digit ds rest hds hr
  have hm := digit_not_minus d hd
  rcases hs with e | e
  · subst e
    simp only [List.nil_append, List.cons_append, parse.lexInt, parse.lexSign, hm, if_false, hd,
      if_true, hsplit.1, hsplit.2]
  · subst e
    simp only [List.cons_append, List.nil_append, parse.lexInt, parse.lexSign, if_true, hd,
      hsplit.1, hsplit.2]

theorem lexInt_stable (a a1 P r0 x : List Char)
    (h : parse.lexInt (a ++ P) = some (x, a1 ++ P)) :
    parse.lexInt (a ++ '#' :: r0) = some (x, a1 ++ '#' :: r0) := by
  obtain ⟨sgn, d, ds, hx, hs, hd, hds, hr⟩ := lexInt_shape _ _ _ h
  have ht := lexInt_text _ _ _ h
  rw [← List.append_assoc] at ht
  have ha := append_right_length _ _ _ ht
  have := lexInt_build sgn d ds (a1 ++ '#' :: r0) hs hd hds
    (head_stable parse.digit (by decide) a1 P r0 hr)
  rw [ha, hx, List.append_assoc]
  exact this

theorem lexFloat_shape (cs x rest : List Char) (h : parse.lexFloat cs = some (x, rest)) :
    ∃ sgn dig d ds, x = sgn ++ dig ++ '.' :: d :: ds ∧ (sgn = [] ∨ sgn = ['-']) ∧
      (dig = [] ∨ ∃ e, dig = [e] ∧ parse.digit e = true) ∧ parse.digit d = true ∧
      (∀ c ∈ ds, parse.digit c = true) ∧
      ∀ c r, rest = c :: r → parse.digit c = false := by
  unfold parse.lexFloat at h
  have hs : (parse.lexSign cs).1 = [] ∨ (parse.lexSign cs).1 = ['-'] := by
    cases cs with
    | nil => exact Or.inl rfl
    | cons c cs =>
      by_cases hc : c = '-'
      · exact Or.inr (by simp [parse.lexSign, hc])
      · exact Or.inl (by simp [parse.lexSign, hc])
  have hg : ∀ v, (parse.lexOptionalDigit v).1 = [] ∨
      ∃ e, (parse.lexOptionalDigit v).1 = [e] ∧ parse.digit e = true := by
    intro v
    cases v with
    | nil => exact Or.inl rfl
    | cons c cs =>
      by_cases hc : parse.digit c = true
      · exact Or.inr ⟨c, by simp [parse.lexOptionalDigit, hc], hc⟩
      · exact Or.inl (by simp [parse.lexOptionalDigit, hc])
  split at h
  · rename_i p d r heq
    by_cases hd : p = '.' ∧ parse.digit d = true
    · simp only [hd, and_self, if_true, Option.some.injEq, Prod.mk.injEq] at h
      refine ⟨(parse.lexSign cs).1, (parse.lexOptionalDigit (parse.lexSign cs).2).1, d,
        r.takeWhile parse.digit, ?_, hs, hg _, hd.2, takeWhile_all _ _,
        fun c r1 hc => dropWhile_head parse.digit r c r1 (h.2.trans hc)⟩
      rw [← h.1]
    · simp [hd] at h
  · cases h

theorem lexFloat_build (sgn dig : List Char) (d : Char) (ds rest : List Char)
    (hs : sgn = [] ∨ sgn = ['-'])
    (hg : dig = [] ∨ ∃ e, dig = [e] ∧ parse.digit e = true) (hd : parse.digit d = true)
    (hds : ∀ c ∈ ds, parse.digit c = true)
    (hr : ∀ c r, rest = c :: r → parse.digit c = false) :
    parse.lexFloat (sgn ++ dig ++ '.' :: d :: ds ++ rest) =
      some (sgn ++ dig ++ '.' :: d :: ds, rest) := by
  have hsplit := takeWhile_append_stop parse.digit ds rest hds hr
  have hdot : parse.digit '.' = false := by decide
  have hdm : ('.' : Char) ≠ '-' := by decide
  rcases hg with e | ⟨e, e1, e2⟩
  · subst e
    rcases hs with e | e
    · subst e
      simp only [List.nil_append, List.cons_append, parse.lexFloat, parse.lexSign, hdm, if_false,
        parse.lexOptionalDigit, hdot, hd, and_self, if_true, hsplit.1, hsplit.2]
      simp [hd, hsplit.1, hsplit.2]
    · subst e
      simp only [List.nil_append, List.cons_append, List.append_nil, parse.lexFloat,
        parse.lexSign, if_true, parse.lexOptionalDigit, hdot, hd, and_self, hsplit.1, hsplit.2]
      simp [hd, hsplit.1, hsplit.2]
  · subst e1
    have hem := digit_not_minus e e2
    rcases hs with e | e
    · subst e
      simp only [List.nil_append, List.cons_append, parse.lexFloat, parse.lexSign, hem, if_false,
        parse.lexOptionalDigit, e2, hd, and_self, if_true, hsplit.1, hsplit.2]
    · subst e
      simp only [List.nil_append, List.cons_append, parse.lexFloat,
        parse.lexSign, if_true, parse.lexOptionalDigit, e2, hd, and_self, hsplit.1, hsplit.2]

theorem lexFloat_stable (a a1 P r0 x : List Char)
    (h : parse.lexFloat (a ++ P) = some (x, a1 ++ P)) :
    parse.lexFloat (a ++ '#' :: r0) = some (x, a1 ++ '#' :: r0) := by
  obtain ⟨sgn, dig, d, ds, hx, hs, hg, hd, hds, hr⟩ := lexFloat_shape _ _ _ h
  have ht := lexFloat_text _ _ _ h
  rw [← List.append_assoc] at ht
  have ha := append_right_length _ _ _ ht
  have := lexFloat_build sgn dig d ds (a1 ++ '#' :: r0) hs hg hd hds
    (head_stable parse.digit (by decide) a1 P r0 hr)
  rw [ha, hx, List.append_assoc]
  exact this

theorem prefix_before_hash : ∀ (w a rest1 r0 : List Char), (∀ c ∈ w, c ≠ '#') →
    a ++ '#' :: r0 = w ++ rest1 → ∃ a2, a = w ++ a2
  | [], a, _, _, _, _ => ⟨a, rfl⟩
  | c :: w, [], rest1, r0, hw, h => by
    simp only [List.nil_append, List.cons_append, List.cons.injEq] at h
    exact absurd h.1.symm (hw c (List.mem_cons_self _ _))
  | c :: w, d :: a, rest1, r0, hw, h => by
    simp only [List.cons_append, List.cons.injEq] at h
    obtain ⟨a2, ha2⟩ := prefix_before_hash w a rest1 r0
      (fun x hx => hw x (List.mem_cons_of_mem _ hx)) h.2
    exact ⟨a2, by rw [h.1, ha2]; rfl⟩

theorem digit_not_hash (d : Char) (hd : parse.digit d = true) : d ≠ '#' := by
  intro h
  subst h
  revert hd
  decide

theorem lexInt_some (sgn : List Char) (d : Char) (rest : List Char)
    (hs : sgn = [] ∨ sgn = ['-']) (hd : parse.digit d = true) :
    parse.lexInt (sgn ++ d :: rest) ≠ none := by
  have := lexInt_build sgn d (rest.takeWhile parse.digit) (rest.dropWhile parse.digit) hs hd
    (takeWhile_all _ _) (dropWhile_head _ _)
  rw [List.append_assoc, List.cons_append, List.takeWhile_append_dropWhile] at this
  rw [this]
  simp

theorem lexInt_none (a P r0 : List Char) (h : parse.lexInt (a ++ P) = none) :
    parse.lexInt (a ++ '#' :: r0) = none := by
  cases hn : parse.lexInt (a ++ '#' :: r0) with
  | none => rfl
  | some res =>
    obtain ⟨x, rest1⟩ := res
    obtain ⟨sgn, d, ds, hx, hs, hd, _, _⟩ := lexInt_shape _ _ _ hn
    have ht := lexInt_text _ _ _ hn
    rw [hx, List.append_assoc, List.cons_append,
      show sgn ++ d :: (ds ++ rest1) = (sgn ++ [d]) ++ (ds ++ rest1) by simp] at ht
    obtain ⟨a2, ha2⟩ := prefix_before_hash (sgn ++ [d]) a _ r0 (fun c hc => by
      rcases List.mem_append.mp hc with e | e
      · rcases hs with e1 | e1
        · rw [e1] at e
          cases e
        · rw [e1] at e
          simp only [List.mem_singleton] at e
          rw [e]
          decide
      · simp only [List.mem_singleton] at e
        rw [e]
        exact digit_not_hash d hd) ht
    exfalso
    apply lexInt_some sgn d (a2 ++ P) hs hd
    rw [← h, ha2]
    simp

theorem lexFloat_some (sgn dig : List Char) (d : Char) (rest : List Char)
    (hs : sgn = [] ∨ sgn = ['-'])
    (hg : dig = [] ∨ ∃ e, dig = [e] ∧ parse.digit e = true) (hd : parse.digit d = true) :
    parse.lexFloat (sgn ++ dig ++ '.' :: d :: rest) ≠ none := by
  have := lexFloat_build sgn dig d (rest.takeWhile parse.digit) (rest.dropWhile parse.digit)
    hs hg hd (takeWhile_all _ _) (dropWhile_head _ _)
  rw [List.append_assoc (sgn ++ dig), List.cons_append, List.cons_append,
    List.takeWhile_append_dropWhile] at this
  rw [this]
  simp

theorem lexFloat_none (a P r0 : List Char) (h : parse.lexFloat (a ++ P) = none) :
    parse.lexFloat (a ++ '#' :: r0) = none := by
  cases hn : parse.lexFloat (a ++ '#' :: r0) with
  | none => rfl
  | some res =>
    obtain ⟨x, rest1⟩ := res
    obtain ⟨sgn, dig, d, ds, hx, hs, hg, hd, _, _⟩ := lexFloat_shape _ _ _ hn
    have ht := lexFloat_text _ _ _ hn
    rw [hx, show sgn ++ dig ++ '.' :: d :: ds ++ rest1 =
      (sgn ++ dig ++ ['.', d]) ++ (ds ++ rest1) by simp] at ht
    obtain ⟨a2, ha2⟩ := prefix_before_hash (sgn ++ dig ++ ['.', d]) a _ r0 (fun c hc => by
      rcases List.mem_append.mp hc with e | e
      · rcases List.mem_append.mp e with e0 | e0
        · rcases hs with e1 | e1
          · rw [e1] at e0
            cases e0
          · rw [e1] at e0
            simp only [List.mem_singleton] at e0
            rw [e0]
            decide
        · rcases hg with e1 | ⟨g, e1, e2⟩
          · rw [e1] at e0
            cases e0
          · rw [e1] at e0
            simp only [List.mem_singleton] at e0
            rw [e0]
            exact digit_not_hash g e2
      · simp only [List.mem_cons, List.mem_singleton, List.not_mem_nil, or_false] at e
        rcases e with e | e
        · rw [e]
          decide
        · rw [e]
          exact digit_not_hash d hd) ht
    exfalso
    apply lexFloat_some sgn dig d (a2 ++ P) hs hg hd
    rw [← h, ha2]
    simp

theorem lexNumber_stable (a a1 P r0 x : List Char)
    (h : parse.lexNumber (a ++ P) = some (x, a1 ++ P)) :
    parse.lexNumber (a ++ '#' :: r0) = some (x, a1 ++ '#' :: r0) := by
  unfold parse.lexNumber at h ⊢
  cases hi : parse.lexInt (a ++ P) with
  | some r =>
    rw [hi] at h
    simp only [Option.some.injEq] at h
    subst h
    rw [lexInt_stable a a1 P r0 x hi]
  | none =>
    rw [hi] at h
    rw [lexInt_none a P r0 hi]
    exact lexFloat_stable a a1 P r0 x h

theorem lexNumber_none (a P r0 : List Char) (h : parse.lexNumber (a ++ P) = none) :
    parse.lexNumber (a ++ '#' :: r0) = none ∧ parse.lexInt (a ++ '#' :: r0) = none ∧
      parse.lexFloat (a ++ '#' :: r0) = none := by
  unfold parse.lexNumber at h ⊢
  cases hi : parse.lexInt (a ++ P) with
  | some r => rw [hi] at h; cases h
  | none =>
    rw [hi] at h
    rw [lexInt_none a P r0 hi]
    exact ⟨lexFloat_none a P r0 h, rfl, lexFloat_none a P r0 h⟩

theorem suffix_split : ∀ (X Y b0 P : List Char), X ++ Y = b0 ++ P → P.length ≤ Y.length →
    ∃ b2, Y = b2 ++ P ∧ b0 = X ++ b2
  | [], Y, b0, P, h, _ => ⟨b0, by simpa using h, rfl⟩
  | c :: X, Y, [], P, h, hl => by
    have := congrArg List.length h
    simp only [List.cons_append, List.length_cons, List.length_append, List.nil_append] at this
    omega
  | c :: X, Y, d :: b0, P, h, hl => by
    simp only [List.cons_append, List.cons.injEq] at h
    obtain ⟨b2, h1, h2⟩ := suffix_split X Y b0 P h.2 hl
    exact ⟨b2, h1, by rw [h.1, h2]; rfl⟩

theorem lexBrackets_stable (P r0 : List Char) :
    ∀ (N : Nat) (b b1 u : List Char),
      parse.lexBrackets N (b ++ P) = (u, b1 ++ P) →
      (∀ r, b1 ++ '#' :: r0 ≠ '[' :: r) →
      parse.lexBrackets N (b ++ '#' :: r0) = (u, b1 ++ '#' :: r0)
  | 0, b, b1, u, h, _ => by
    simp only [parse.lexBrackets, Prod.mk.injEq] at h ⊢
    rw [append_right_length b b1 P h.2]
    exact ⟨h.1, rfl⟩
  | N + 1, [], b1, u, h, _ => by
    have ht := lexBrackets_text (N + 1) ([] ++ P)
    rw [h] at ht
    simp only [List.nil_append] at ht
    have hl := congrArg List.length ht
    simp only [List.length_append] at hl
    have hb1 : b1 = [] := List.eq_nil_of_length_eq_zero (by omega)
    have hu : u = [] := List.eq_nil_of_length_eq_zero (by omega)
    subst hb1
    subst hu
    simp [parse.lexBrackets]
  | N + 1, c :: b0, b1, u, h, hq => by
    simp only [List.cons_append] at h ⊢
    unfold parse.lexBrackets at h ⊢
    simp only at h ⊢
    by_cases hc : c = '['
    · simp only [hc, if_true] at h ⊢
      cases hd : (b0 ++ P).dropWhile (fun x => parse.any x && x != ']') with
      | nil =>
        rw [hd] at h
        simp only [Prod.mk.injEq] at h
        have hb := append_right_length ('[' :: b0) b1 P h.2
        exact absurd (by rw [← hb]; rfl) (hq (b0 ++ '#' :: r0))
      | cons q rest1 =>
        rw [hd] at h
        simp only at h
        by_cases hqq : q = ']'
        · simp only [hqq, if_true, Prod.mk.injEq] at h
          have hl1 := lexBrackets_length N rest1
          rw [h.2] at hl1
          have hsplit := List.takeWhile_append_dropWhile
            (fun x => parse.any x && x != ']') (b0 ++ P)
          rw [hd] at hsplit
          obtain ⟨b2, hb2, hb0⟩ := suffix_split _ (q :: rest1) b0 P hsplit (by
            simp only [List.length_cons, List.length_append] at hl1 ⊢
            omega)
          cases b2 with
          | nil =>
            have := congrArg List.length hb2
            simp only [List.length_cons, List.nil_append, List.length_append] at this hl1
            omega
          | cons q2 b3 =>
            simp only [List.cons_append, List.cons.injEq] at hb2
            rw [hb2.2] at h
            have hrec := lexBrackets_stable P r0 N b3 b1 _ (Prod.ext rfl h.2) hq
            rw [hqq, hb2.2] at hd
            obtain ⟨e1, e2, _⟩ := dropWhile_stable (fun x => parse.any x && x != ']') P r0 b0
              (']' :: b3) (fun e => by cases e) hd
            rw [e2, e1]
            simp only [List.cons_append, if_true, hrec, Prod.mk.injEq, and_true]
            exact h.1
        · simp only [hqq, if_false, Prod.mk.injEq] at h
          have hb := append_right_length ('[' :: b0) b1 P h.2
          exact absurd (by rw [← hb]; rfl) (hq (b0 ++ '#' :: r0))
    · simp only [hc, if_false, Prod.mk.injEq] at h ⊢
      have hb := append_right_length (c :: b0) b1 P h.2
      rw [← hb]
      exact ⟨h.1, rfl⟩

theorem lexJSONPathExpr_none (c : Char) (v v1 : List Char)
    (h : parse.lexJSONPathExpr (c :: v) = none) : parse.lexJSONPathExpr (c :: v1) = none := by
  unfold parse.lexJSONPathExpr at h ⊢
  simp only at h ⊢
  by_cases hc : c = '*'
  · simp [hc] at h
  · simp only [hc, if_false] at h ⊢
    cases hi : parse.lexIdent (c :: v) with
    | none => rw [lexIdent_none c v v1 hi]
    | some res => rw [hi] at h; cases h

theorem lexJSONPathExpr_hash (r0 : List Char) : parse.lexJSONPathExpr ('#' :: r0) = none := by
  simp [parse.lexJSONPathExpr, parse.lexIdent, parse.alpha]

theorem lexJSONPathExpr_stable (a a1 P r0 x : List Char)
    (h : parse.lexJSONPathExpr (a ++ P) = some (x, a1 ++ P))
    (hq : ∀ r, a1 ++ '#' :: r0 ≠ '[' :: r) :
    parse.lexJSONPathExpr (a ++ '#' :: r0) = some (x, a1 ++ '#' :: r0) := by
  cases a with
  | nil =>
    have := lexJSONPathExpr_consumes _ _ _ h
    simp only [List.nil_append, List.length_append] at this
    omega
  | cons c a0 =>
    simp only [List.cons_append] at h ⊢
    unfold parse.lexJSONPathExpr at h ⊢
    simp only at h ⊢
    by_cases hc : c = '*'
    · simp only [hc, if_true, Option.some.injEq, Prod.mk.injEq] at h ⊢
      rw [append_right_length a0 a1 P h.2]
      exact ⟨h.1, rfl⟩
    · simp only [hc, if_false] at h ⊢
      cases hi : parse.lexIdent (c :: (a0 ++ P)) with
      | none => rw [hi] at h; cases h
      | some res =>
        obtain ⟨ident, rest1⟩ := res
        rw [hi] at h
        simp only [Option.some.injEq, Prod.mk.injEq] at h
        have hl1 := lexBrackets_length rest1.length rest1
        rw [h.2] at hl1
        have ht := lexIdent_text _ _ _ hi
        obtain ⟨b2, hb2, _⟩ := suffix_split ident rest1 (c :: a0) P ht.symm (by
          simp only [List.length_append] at hl1
          omega)
        subst hb2
        have hi2 := lexIdent_stable (c :: a0) b2 P r0 ident hi
        simp only [List.cons_append] at hi2
        rw [hi2]
        simp only [Option.some.injEq, Prod.mk.injEq]
        have hN : parse.lexBrackets (max (b2 ++ P).length (b2 ++ '#' :: r0).length) (b2 ++ P) =
            ((parse.lexBrackets (b2 ++ P).length (b2 ++ P)).1, a1 ++ P) := by
          rw [lexBrackets_fuel _ (b2 ++ P).length (b2 ++ P) (le_max_left _ _) (le_refl _)]
          exact Prod.ext rfl h.2
        have hs := lexBrackets_stable P r0 _ b2 a1 _ hN hq
        rw [lexBrackets_fuel (b2 ++ '#' :: r0).length
          (max (b2 ++ P).length (b2 ++ '#' :: r0).length) _ (le_refl _) (le_max_right _ _), hs]
        exact ⟨h.1, rfl⟩

theorem dots_expr_none (P r0 : List Char) : ∀ b : List Char,
    parse.lexJSONPathExpr ((b ++ P).dropWhile fun x => x == '.') = none →
    parse.lexJSONPathExpr ((b ++ '#' :: r0).dropWhile fun x => x == '.') = none
  | [], _ => by
    simp only [List.nil_append]
    rw [show ('#' :: r0).dropWhile (fun x => x == '.') = '#' :: r0 from by
      simp [List.dropWhile]]
    exact lexJSONPathExpr_hash r0
  | c :: b, h => by
    simp only [List.cons_append] at h ⊢
    by_cases hc : (c == '.') = true
    · simp only [List.dropWhile_cons, hc, if_true] at h ⊢
      exact dots_expr_none P r0 b h
    · simp only [List.dropWhile_cons, hc] at h ⊢
      simp only [Bool.false_eq_true, if_false] at h ⊢
      exact lexJSONPathExpr_none c _ _ h

theorem lexSegments_stable (P r0 : List Char) :
    ∀ (N : Nat) (b b1 u : List Char),
      parse.lexSegments N (b ++ P) = (u, b1 ++ P) →
      (∀ r, b1 ++ '#' :: r0 ≠ '[' :: r) →
      parse.lexSegments N (b ++ '#' :: r0) = (u, b1 ++ '#' :: r0)
  | 0, b, b1, u, h, _ => by
    simp only [parse.lexSegments, Prod.mk.injEq] at h ⊢
    rw [append_right_length b b1 P h.2]
    exact ⟨h.1, rfl⟩
  | N + 1, [], b1, u, h, _ => by
    have ht := lexSegments_text (N + 1) ([] ++ P)
    rw [h] at ht
    simp only [List.nil_append] at ht
    have hl := congrArg List.length ht
    simp only [List.length_append] at hl
    have hb1 : b1 = [] := List.eq_nil_of_length_eq_zero (by omega)
    have hu : u = [] := List.eq_nil_of_length_eq_zero (by omega)
    subst hb1
    subst hu
    simp [parse.lexSegments]
  | N + 1, c :: b0, b1, u, h, hq => by
    simp only [List.cons_append] at h ⊢
    unfold parse.lexSegments at h ⊢
    simp only at h ⊢
    by_cases hc : c = '.'
    · simp only [hc, if_true] at h ⊢
      cases he : parse.lexJSONPathExpr ((b0 ++ P).dropWhile fun x => x == '.') with
      | none =>
        rw [he] at h
        rw [dots_expr_none P r0 b0 he]
        simp only [Prod.mk.injEq] at h ⊢
        have hb := append_right_length ('.' :: b0) b1 P h.2
        rw [← hb]
        exact ⟨h.1, rfl⟩
      | some res =>
        obtain ⟨expr, rest1⟩ := res
        rw [he] at h
        simp only [Prod.mk.injEq] at h
        have hl1 := lexSegments_length N rest1
        rw [h.2] at hl1
        have hte := lexJSONPathExpr_text _ _ _ he
        have hce := lexJSONPathExpr_consumes _ _ _ he
        have hsplit := List.takeWhile_append_dropWhile (fun x => x == '.') (b0 ++ P)
        obtain ⟨b2, hb2, _⟩ := suffix_split _ _ b0 P hsplit (by
          rw [hte]
          simp only [List.length_append] at hl1 ⊢
          omega)
        obtain ⟨b3, hb3, _⟩ := suffix_split expr rest1 b2 P (by rw [← hb2, hte]) (by
          simp only [List.length_append] at hl1
          omega)
        subst hb3
        have hb2ne : b2 ≠ [] := by
          intro e
          subst e
          rw [hb2] at hce
          simp only [List.nil_append, List.length_append] at hce
          omega
        obtain ⟨e1, e2, _⟩ := dropWhile_stable (fun x => x == '.') P r0 b0 b2
          (fun e => (hb2ne e).elim) hb2
        have hq3 : ∀ r, b3 ++ '#' :: r0 ≠ '[' :: r := by
          intro r hr
          cases b3 with
          | nil => simp at hr
          | cons d b4 =>
            simp only [List.cons_append, List.cons.injEq] at hr
            have hstop : parse.lexSegments N (d :: b4 ++ P) = ([], d :: b4 ++ P) := by
              rw [hr.1]
              cases N with
              | zero => rfl
              | succ N => simp [parse.lexSegments]
            rw [hstop] at h
            have hb := append_right_length (d :: b4) b1 P h.2
            rw [← hb, hr.1] at hq
            exact hq (b4 ++ '#' :: r0) rfl
        rw [hb2] at he
        have hes := lexJSONPathExpr_stable b2 b3 P r0 expr he hq3
        have hrec := lexSegments_stable P r0 N b3 b1 _ (Prod.ext rfl h.2) hq
        rw [e2, e1, hes]
        simp only [hrec, Prod.mk.injEq, and_true]
        exact h.1
    · simp only [hc, if_false, Prod.mk.injEq] at h ⊢
      have hb := append_right_length (c :: b0) b1 P h.2
      rw [← hb]
      exact ⟨h.1, rfl⟩

theorem lexJSONPath_stable (a a1 P r0 x : List Char)
    (h : parse.lexJSONPath (a ++ P) = some (x, a1 ++ P))
    (hq : ∀ r, a1 ++ '#' :: r0 ≠ '[' :: r) :
    parse.lexJSONPath (a ++ '#' :: r0) = some (x, a1 ++ '#' :: r0) := by
  cases a with
  | nil =>
    have := lexJSONPath_consumes _ _ _ h
    simp only [List.nil_append, List.length_append] at this
    omega
  | cons c a0 =>
    by_cases hc : c = '$'
    · simp only [List.cons_append, parse.lexJSONPath, hc, if_true, Option.some.injEq,
        Prod.mk.injEq] at h ⊢
      have hN : parse.lexSegments (max (a0 ++ P).length (a0 ++ '#' :: r0).length) (a0 ++ P) =
          ((parse.lexSegments (a0 ++ P).length (a0 ++ P)).1, a1 ++ P) := by
        rw [lexSegments_fuel _ (a0 ++ P).length (a0 ++ P) (le_max_left _ _) (le_refl _)]
        exact Prod.ext rfl h.2
      have hs := lexSegments_stable P r0 _ a0 a1 _ hN hq
      rw [lexSegments_fuel (a0 ++ '#' :: r0).length
        (max (a0 ++ P).length (a0 ++ '#' :: r0).length) _ (le_refl _) (le_max_right _ _), hs]
      exact ⟨h.1, rfl⟩
    · simp [parse.lexJSONPath, hc] at h

theorem lexJSONPath_none (c : Char) (v v1 : List Char) (h : parse.lexJSONPath (c :: v) = none) :
    parse.lexJSONPath (c :: v1) = none := by
  by_cases hc : c = '$'
  · simp [parse.lexJSONPath, hc] at h
  · simp [parse.lexJSONPath, hc]

theorem lexJSONPathExpr_star_stable (a a1 P r0 x : List Char)
    (h : parse.lexJSONPathExpr (a ++ P) = some (x, a1 ++ P))
    (hi : parse.lexIdent (a ++ P) = none) :
    parse.lexJSONPathExpr (a ++ '#' :: r0) = some (x, a1 ++ '#' :: r0) := by
  cases a with
  | nil =>
    have := lexJSONPathExpr_consumes _ _ _ h
    simp only [List.nil_append, List.length_append] at this
    omega
  | cons c a0 =>
    simp only [List.cons_append] at h hi ⊢
    unfold parse.lexJSONPathExpr at h ⊢
    simp only at h ⊢
    by_cases hc : c = '*'
    · simp only [hc, if_true, Option.some.injEq, Prod.mk.injEq] at h ⊢
      rw [append_right_length a0 a1 P h.2]
      exact ⟨h.1, rfl⟩
    · simp only [hc, if_false, hi] at h
      cases h

theorem lexNext_quote (v : List Char) (h : parse.lexString (parse.quote :: v) = none) :
    parse.lexNext (parse.quote :: v) = some (⟨.Punct, String.mk [parse.quote]⟩, v) := by
  have hf : parse.lexFloat (parse.quote :: v) = none := by
    simp only [parse.lexFloat, parse.lexSign, parse.lexOptionalDigit]
    cases v <;> simp [parse.digit, parse.quote]
  simp only [parse.lexNext, parse.productions, List.findSome?, h, hf, parse.lexNumber,
    parse.lexInt, parse.lexSign]
  simp [parse.lexComment, parse.lexIdent, parse.lexJSONPath, parse.lexJSONPathExpr,
    parse.lexPunct, parse.alpha, parse.digit, parse.quote]

theorem lexNext_stable (a a1 P r0 : List Char) (t : parse.Token)
    (h : parse.lexNext (a ++ P) = some (t, a1 ++ P))
    (hcm : t.symbol = .Comment → a1 ≠ [])
    (hqt : t ≠ ⟨.Punct, String.mk [parse.quote]⟩)
    (hbr : t.symbol = .JSONPath → ∀ r, a1 ++ '#' :: r0 ≠ '[' :: r) :
    parse.lexNext (a ++ '#' :: r0) = some (t, a1 ++ '#' :: r0) := by
  cases a with
  | nil =>
    have := lexNext_consumes _ _ _ h
    simp only [List.nil_append, List.length_append] at this
    omega
  | cons c a0 =>
    by_cases hsq : c = parse.quote ∧ parse.lexString (c :: (a0 ++ P)) = none
    · obtain ⟨e1, e2⟩ := hsq
      subst e1
      rw [List.cons_append, lexNext_quote _ e2] at h
      simp only [Option.some.injEq, Prod.mk.injEq] at h
      exact absurd h.1.symm hqt
    · simp only [List.cons_append] at h ⊢
      simp only [parse.lexNext, parse.productions, List.findSome?] at h ⊢
      cases h1 : parse.lexComment (c :: (a0 ++ P)) with
      | some res =>
        obtain ⟨x, rest⟩ := res
        rw [h1] at h
        simp only [Option.some.injEq, Prod.mk.injEq] at h
        rw [h.2] at h1
        have := lexComment_stable (c :: a0) a1 P r0 x (hcm (by rw [← h.1])) h1
        simp only [List.cons_append] at this
        rw [this]
        simp only [Option.some.injEq, Prod.mk.injEq, and_true]
        exact h.1
      | none =>
      rw [h1] at h
      rw [lexComment_none c _ (a0 ++ '#' :: r0) h1]
      simp only at h ⊢
      cases h2 : parse.lexIdent (c :: (a0 ++ P)) with
      | some res =>
        obtain ⟨x, rest⟩ := res
        rw [h2] at h
        simp only [Option.some.injEq, Prod.mk.injEq] at h
        rw [h.2] at h2
        have := lexIdent_stable (c :: a0) a1 P r0 x h2
        simp only [List.cons_append] at this
        rw [this]
        simp only [Option.some.injEq, Prod.mk.injEq, and_true]
        exact h.1
      | none =>
      rw [h2] at h
      rw [lexIdent_none c _ (a0 ++ '#' :: r0) h2]
      simp only at h ⊢
      cases h3 : parse.lexString (c :: (a0 ++ P)) with
      | some res =>
        obtain ⟨x, rest⟩ := res
        rw [h3] at h
        simp only [Option.some.injEq, Prod.mk.injEq] at h
        rw [h.2] at h3
        have := lexString_stable (c :: a0) a1 P r0 x h3
        simp only [List.cons_append] at this
        rw [this]
        simp only [Option.some.injEq, Prod.mk.injEq, and_true]
        exact h.1
      | none =>
      rw [h3] at h
      have hcq : c ≠ parse.quote := fun e => hsq ⟨e, h3⟩
      rw [lexString_none c (a0 ++ '#' :: r0) hcq]
      simp only at h ⊢
      cases h4 : parse.lexNumber (c :: (a0 ++ P)) with
      | some res =>
        obtain ⟨x, rest⟩ := res
        rw [h4] at h
        simp only [Option.some.injEq, Prod.mk.injEq] at h
        rw [h.2] at h4
        have := lexNumber_stable (c :: a0) a1 P r0 x h4
        simp only [List.cons_append] at this
        rw [this]
        simp only [Option.some.injEq, Prod.mk.injEq, and_true]
        exact h.1
      | none =>
      rw [h4] at h
      have h4n := lexNumber_none (c :: a0) P r0 h4
      simp only [List.cons_append] at h4n
      rw [h4n.1, h4n.2.1, h4n.2.2]
      have h4i : parse.lexInt (c :: (a0 ++ P)) = none := by
        unfold parse.lexNumber at h4
        cases hi : parse.lexInt (c :: (a0 ++ P)) with
        | none => rfl
        | some r => rw [hi] at h4; cases h4
      have h4f : parse.lexFloat (c :: (a0 ++ P)) = none := by
        unfold parse.lexNumber at h4
        rw [h4i] at h4
        exact h4
      rw [h4i, h4f] at h
      simp only at h ⊢
      cases h7 : parse.lexJSONPath (c :: (a0 ++ P)) with
      | some res =>
        obtain ⟨x, rest⟩ := res
        rw [h7] at h
        simp only [Option.some.injEq, Prod.mk.injEq] at h
        rw [h.2] at h7
        have := lexJSONPath_stable (c :: a0) a1 P r0 x h7 (hbr (by rw [← h.1]))
        simp only [List.cons_append] at this
        rw [this]
        simp only [Option.some.injEq, Prod.mk.injEq, and_true]
        exact h.1
      | none =>
      rw [h7] at h
      rw [lexJSONPath_none c _ (a0 ++ '#' :: r0) h7]
      simp only at h ⊢
      cases h8 : parse.lexJSONPathExpr (c :: (a0 ++ P)) with
      | some res =>
        obtain ⟨x, rest⟩ := res
        rw [h8] at h
        simp only [Option.some.injEq, Prod.mk.injEq] at h
        rw [h.2] at h8
        have := lexJSONPathExpr_star_stable (c :: a0) a1 P r0 x h8 h2
        simp only [List.cons_append] at this
        rw [this]
        simp only [Option.some.injEq, Prod.mk.injEq, and_true]
        exact h.1
      | none =>
      rw [h8] at h
      rw [lexJSONPathExpr_none c _ (a0 ++ '#' :: r0) h8]
      simp only at h ⊢
      cases h9 : parse.lexPunct (c :: (a0 ++ P)) with
      | some res =>
        obtain ⟨x, rest⟩ := res
        rw [h9] at h
        simp only [Option.some.injEq, Prod.mk.injEq] at h
        rw [h.2] at h9
        have := lexPunct_stable (c :: a0) a1 P r0 x h9
        simp only [List.cons_append] at this
        rw [this]
        simp only [Option.some.injEq, Prod.mk.injEq, and_true]
        exact h.1
      | none =>
      rw [h9] at h
      rw [lexPunct_none c _ (a0 ++ '#' :: r0) h9]
      simp only at h ⊢
      cases h10 : parse.lexWhitespace (c :: (a0 ++ P)) with
      | some res =>
        obtain ⟨x, rest⟩ := res
        rw [h10] at h
        simp only [Option.some.injEq, Prod.mk.injEq] at h
        rw [h.2] at h10
        have := lexWhitespace_stable (c :: a0) a1 P r0 x h10
        simp only [List.cons_append] at this
        rw [this]
        simp only [Option.some.injEq, Prod.mk.injEq, and_true]
        exact h.1
      | none =>
        rw [h10] at h
        cases h

theorem lexNext_text (cs : List Char) (t : parse.Token) (rest : List Char)
    (h : parse.lexNext cs = some (t, rest)) : cs = t.value.data ++ rest := by
  unfold parse.lexNext at h
  obtain ⟨pm, hmem, hpm⟩ := List.exists_of_findSome?_eq_some h
  cases hm : pm.2 cs with
  | none => rw [hm] at hpm; cases hpm
  | some tr =>
    obtain ⟨text, rest1⟩ := tr
    rw [hm] at hpm
    simp only [Option.some.injEq, Prod.mk.injEq] at hpm
    obtain ⟨rfl, rfl⟩ := hpm
    simp only [parse.productions, List.mem_cons, List.mem_singleton, List.not_mem_nil,
      or_false] at hmem
    rcases hmem with rfl | rfl | rfl | rfl | rfl | rfl | rfl | rfl | rfl | rfl
    · exact lexComment_text _ _ _ hm
    · exact lexIdent_text _ _ _ hm
    · exact lexString_text _ _ _ hm
    · exact lexNumber_text _ _ _ hm
    · exact lexInt_text _ _ _ hm
    · exact lexFloat_text _ _ _ hm
    · exact lexJSONPath_text _ _ _ hm
    · exact lexJSONPathExpr_text _ _ _ hm
    · exact lexPunct_text _ _ _ hm
    · exact lexWhitespace_text _ _ _ hm

theorem lexNext_comment_inv (cs : List Char) (t : parse.Token) (rest : List Char)
    (h : parse.lexNext cs = some (t, rest)) (hs : t.symbol = .Comment) :
    ∃ v, cs = '#' :: v := by
  unfold parse.lexNext at h
  obtain ⟨pm, hmem, hpm⟩ := List.exists_of_findSome?_eq_some h
  cases hm : pm.2 cs with
  | none => rw [hm] at hpm; cases hpm
  | some tr =>
    obtain ⟨text, rest1⟩ := tr
    rw [hm] at hpm
    simp only [Option.some.injEq, Prod.mk.injEq] at hpm
    obtain ⟨rfl, rfl⟩ := hpm
    simp only [parse.productions, List.mem_cons, List.mem_singleton, List.not_mem_nil,
      or_false] at hmem
    rcases hmem with rfl | rfl | rfl | rfl | rfl | rfl | rfl | rfl | rfl | rfl
    · cases cs with
      | nil => simp [parse.lexComment] at hm
      | cons c cs =>
        by_cases hc : c = '#'
        · exact ⟨cs, by rw [hc]⟩
        · simp [parse.lexComment, hc] at hm
    all_goals cases hs

theorem lexNext_bracket (v : List Char) :
    parse.lexNext ('[' :: v) = some (⟨.Punct, "["⟩, v) := by
  have hf : parse.lexFloat ('[' :: v) = none := by
    simp only [parse.lexFloat, parse.lexSign, parse.lexOptionalDigit]
    cases v <;> simp [parse.digit]
  simp only [parse.lexNext, parse.productions, List.findSome?, hf, parse.lexNumber,
    parse.lexInt, parse.lexSign]
  simp [parse.lexComment, parse.lexIdent, parse.lexString, parse.lexJSONPath,
    parse.lexJSONPathExpr, parse.lexPunct, parse.alpha, parse.digit, parse.quote]

theorem lexUntil_length (n : Nat) : ∀ (fuel : Nat) (cs : List Char) (ts : List parse.Token),
    parse.lexUntil n fuel cs = some ts → n ≤ cs.length
  | 0, cs, ts, h => by
    simp only [parse.lexUntil] at h
    split at h
    · omega
    · cases h
  | fuel + 1, cs, ts, h => by
    simp only [parse.lexUntil] at h
    split at h
    · omega
    · cases hx : parse.lexNext cs with
      | none => rw [hx] at h; cases h
      | some res =>
        obtain ⟨t, rest⟩ := res
        rw [hx] at h
        simp only at h
        cases hr : parse.lexUntil n fuel rest with
        | none => rw [hr] at h; cases h
        | some ts1 =>
          have := lexUntil_length n fuel rest ts1 hr
          have := lexNext_consumes _ _ _ hx
          omega

theorem settled_tail (t : parse.Token) (ts : List parse.Token)
    (h : parse.settled (t :: ts) = true) :
    t ≠ ⟨.Punct, String.mk [parse.quote]⟩ ∧
      (t.symbol = .JSONPath → ∀ n r, ts = n :: r → n.value ≠ "[") ∧
      parse.settled ts = true := by
  simp only [parse.settled, Bool.and_eq_true, Bool.not_eq_true', decide_eq_false_iff_not,
    Bool.and_eq_false_iff, decide_eq_true_eq] at h
  refine ⟨h.1.1, fun hs n r hn => ?_, h.2⟩
  subst hn
  rcases h.1.2 with e | e
  · exact absurd hs e
  · simpa using e

theorem lexUntil_here (n : Nat) (fuel : Nat) (cs : List Char) (ts : List parse.Token)
    (h : parse.lexUntil n fuel cs = some ts) (hl : cs.length = n) : ts = [] := by
  cases fuel with
  | zero =>
    simp only [parse.lexUntil, hl, if_true, Option.some.injEq] at h
    exact h.symm
  | succ fuel =>
    simp only [parse.lexUntil, hl, if_true, Option.some.injEq] at h
    exact h.symm

theorem lexUntil_bracket (n : Nat) (fuel : Nat) (v : List Char) (ts : List parse.Token)
    (h : parse.lexUntil n fuel ('[' :: v) = some ts) (hl : ('[' :: v).length ≠ n) :
    ∃ r, ts = ⟨.Punct, "["⟩ :: r := by
  cases fuel with
  | zero =>
    simp only [parse.lexUntil] at h
    split at h
    · rename_i e
      exact absurd e hl
    · cases h
  | succ fuel =>
    simp only [parse.lexUntil, hl, if_false, lexNext_bracket] at h
    cases hr : parse.lexUntil n fuel v with
    | none => rw [hr] at h; cases h
    | some ts0 =>
      rw [hr] at h
      simp only [Option.some.injEq] at h
      exact ⟨ts0, h.symm⟩

theorem elide_cons (t : parse.Token) (ts : List parse.Token) :
    parse.elide (t :: ts) =
      (if t.symbol ≠ .Whitespace ∧ t.symbol ≠ .Comment then [t] else []) ++
        parse.elide ts := by
  simp only [parse.elide, List.filter_cons]
  split_ifs <;> simp_all

theorem lexAll_commented (P text : List Char)
    (htext : ∀ c ∈ text, parse.commentChar c = true)
    (hP : ∀ c r, P = c :: r → parse.commentChar c = false) :
    ∀ (fuel : Nat) (a : List Char) (ts : List parse.Token),
      parse.lexUntil P.length fuel (a ++ P) = some ts → parse.settled ts = true →
      ∃ ts1, parse.elide ts1 = parse.elide ts ∧
        (∀ n, (a ++ '#' :: (text ++ P)).length ≤ n →
          parse.lexAll n (a ++ '#' :: (text ++ P)) =
            (parse.lexAll n P).map (fun r => ts1 ++ r)) ∧
        ∀ n, (a ++ P).length ≤ n →
          parse.lexAll n (a ++ P) = (parse.lexAll n P).map (fun r => ts ++ r) := by
  have hsplit := takeWhile_append_stop parse.commentChar text P htext hP
  have hhere : ∀ (a : List Char) (ts : List parse.Token), (a ++ P).length = P.length →
      (ts = []) →
      ∃ ts1, parse.elide ts1 = parse.elide ts ∧
        (∀ n, (a ++ '#' :: (text ++ P)).length ≤ n →
          parse.lexAll n (a ++ '#' :: (text ++ P)) =
            (parse.lexAll n P).map (fun r => ts1 ++ r)) ∧
        ∀ n, (a ++ P).length ≤ n →
          parse.lexAll n (a ++ P) = (parse.lexAll n P).map (fun r => ts ++ r) := by
    intro a ts hl hts
    have ha : a = [] := List.eq_nil_of_length_eq_zero (by
      simp only [List.length_append] at hl
      omega)
    subst ha
    subst hts
    refine ⟨[⟨.Comment, String.mk ('#' :: text)⟩], rfl, fun n hn => ?_, fun n _ => ?_⟩
    · have hx := lexNext_comment (text ++ P)
      rw [hsplit.1, hsplit.2] at hx
      rw [List.nil_append] at hn ⊢
      rw [lexAll_step n _ _ _ hn hx]
      rfl
    · simp only [List.nil_append]
      cases parse.lexAll n P <;> rfl
  intro fuel
  induction fuel with
  | zero =>
    intro a ts h _
    simp only [parse.lexUntil] at h
    split at h
    · rename_i hl
      exact hhere a ts hl (by simpa using h.symm)
    · cases h
  | succ fuel ih =>
    intro a ts h hs
    simp only [parse.lexUntil] at h
    split at h
    · rename_i hl
      exact hhere a ts hl (by simpa using h.symm)
    · rename_i hl
      cases hx : parse.lexNext (a ++ P) with
      | none => rw [hx] at h; cases h
      | some res =>
        obtain ⟨t, rest⟩ := res
        rw [hx] at h
        simp only at h
        cases hr : parse.lexUntil P.length fuel rest with
        | none => rw [hr] at h; cases h
        | some ts0 =>
          rw [hr] at h
          simp only [Option.some.injEq] at h
          subst h
          have hlen := lexUntil_length _ _ _ _ hr
          have htx := lexNext_text _ _ _ hx
          obtain ⟨a1, ha1, haa⟩ := suffix_split _ _ a P htx.symm hlen
          subst ha1
          obtain ⟨hqt, hbr, hs0⟩ := settled_tail t ts0 hs
          by_cases hmerge : t.symbol = .Comment ∧ a1 = []
          · obtain ⟨hsym, ha1⟩ := hmerge
            subst ha1
            simp only [List.nil_append] at hr hx
            have hts0 := lexUntil_here _ _ _ _ hr rfl
            subst hts0
            obtain ⟨v, hv⟩ := lexNext_comment_inv _ _ _ hx hsym
            cases a with
            | nil => simp at hl
            | cons c a0 =>
              simp only [List.cons_append, List.cons.injEq] at hv
              obtain ⟨hc, hv⟩ := hv
              subst hc
              have hx2 := lexNext_comment (a0 ++ P)
              rw [List.cons_append, hx2] at hx
              simp only [Option.some.injEq, Prod.mk.injEq] at hx
              have htd := List.takeWhile_append_dropWhile parse.commentChar (a0 ++ P)
              rw [hx.2] at htd
              have hta := append_right_length _ _ _ htd
              have ha0 : ∀ c ∈ a0, parse.commentChar c = true := by
                intro c hc
                rw [← hta] at hc
                exact takeWhile_all _ _ c hc
              have hsp := takeWhile_append_stop parse.commentChar (a0 ++ '#' :: text) P
                (fun c hc => by
                  rcases List.mem_append.mp hc with e | e
                  · exact ha0 c e
                  · rcases List.mem_cons.mp e with e | e
                    · rw [e]
                      decide
                    · exact htext c e) hP
              have hx3 := lexNext_comment (a0 ++ '#' :: (text ++ P))
              rw [show a0 ++ '#' :: (text ++ P) = (a0 ++ '#' :: text) ++ P by simp,
                hsp.1, hsp.2,
                show (a0 ++ '#' :: text) ++ P = a0 ++ '#' :: (text ++ P) by simp] at hx3
              refine ⟨[⟨.Comment, String.mk ('#' :: (a0 ++ '#' :: text))⟩], ?_,
                fun n hn => ?_, fun n hn => ?_⟩
              · rw [elide_cons, elide_cons]
                simp [hsym]
              · simp only [List.cons_append] at hn ⊢
                rw [lexAll_step n _ _ _ hn hx3]
                rfl
              · simp only [List.cons_append] at hn ⊢
                rw [lexAll_step n _ _ _ hn hx2, hx.2, hx.1]
                rfl
          · have hcm : t.symbol = .Comment → a1 ≠ [] := fun e1 e2 => hmerge ⟨e1, e2⟩
            have hbr1 : t.symbol = .JSONPath → ∀ r, a1 ++ '#' :: (text ++ P) ≠ '[' :: r := by
              intro hsym r hr1
              cases a1 with
              | nil =>
                simp only [List.nil_append, List.cons.injEq] at hr1
                exact absurd hr1.1 (by decide)
              | cons d a2 =>
                simp only [List.cons_append, List.cons.injEq] at hr1
                rw [hr1.1, List.cons_append] at hr
                obtain ⟨r2, hr2⟩ := lexUntil_bracket _ _ _ _ hr (by
                  simp only [List.length_cons, List.length_append]
                  omega)
                exact hbr hsym _ _ hr2 rfl
            have hst := lexNext_stable a a1 P (text ++ P) t hx hcm hqt hbr1
            obtain ⟨ts1, he, hnew, hold⟩ := ih a1 ts0 hr hs0
            have hc1 := lexNext_consumes _ _ _ hx
            have hc2 := lexNext_consumes _ _ _ hst
            refine ⟨t :: ts1, ?_, fun n hn => ?_, fun n hn => ?_⟩
            · rw [elide_cons, elide_cons, he]
            · rw [lexAll_step n _ _ _ hn hst, hnew n (by omega)]
              cases parse.lexAll n P <;> rfl
            · rw [lexAll_step n _ _ _ hn hx, hold n (by omega)]
              cases parse.lexAll n P <;> rfl

theorem unquoteTokens_elide (u : String → Option String) : ∀ ts : List parse.Token,
    (parse.unquoteTokens u ts).map parse.elide = parse.unquoteTokens u (parse.elide ts)
  | [] => rfl
  | t :: ts => by
    have ih := unquoteTokens_elide u ts
    rw [elide_cons]
    by_cases hk : t.symbol ≠ .Whitespace ∧ t.symbol ≠ .Comment
    · rw [if_pos hk, List.singleton_append]
      simp only [parse.unquoteTokens]
      rw [← ih]
      cases (if t.symbol = .String then u t.value else some t.value) with
      | none => rfl
      | some v =>
        cases parse.unquoteTokens u ts with
        | none => rfl
        | some rest =>
          simp only [Option.map_some', Option.some.injEq]
          rw [elide_cons, if_pos hk]
          rfl
    · rw [if_neg hk, List.nil_append]
      simp only [parse.unquoteTokens]
      rw [← ih]
      have hns : t.symbol ≠ .String := by
        intro e
        rw [e] at hk
        exact hk ⟨by decide, by decide⟩
      simp only [hns, if_false]
      cases parse.unquoteTokens u ts with
      | none => rfl
      | some rest =>
        simp only [Option.map_some', Option.some.injEq]
        rw [elide_cons, if_neg hk]
        rfl

theorem tokens_congr (u : String → Option String) (s1 s2 : String)
    (h : (parse.Lex s1).map parse.elide = (parse.Lex s2).map parse.elide) :
    parse.tokens u s1 = parse.tokens u s2 := by
  unfold parse.tokens
  cases h1 : parse.Lex s1 with
  | none =>
    cases h2 : parse.Lex s2 with
    | none => rfl
    | some r2 =>
      rw [h1, h2] at h
      cases h
  | some r1 =>
    cases h2 : parse.Lex s2 with
    | none =>
      rw [h1, h2] at h
      cases h
    | some r2 =>
      rw [h1, h2] at h
      simp only [Option.map_some', Option.some.injEq] at h
      have e1 := unquoteTokens_elide u r1
      have e2 := unquoteTokens_elide u r2
      rw [h, ← e2] at e1
      simp only
      cases hq1 : parse.unquoteTokens u r1 with
      | none =>
        cases hq2 : parse.unquoteTokens u r2 with
        | none => rfl
        | some t2 =>
          rw [hq1, hq2] at e1
          cases e1
      | some t1 =>
        cases hq2 : parse.unquoteTokens u r2 with
        | none =>
          rw [hq1, hq2] at e1
          cases e1
        | some t2 =>
          rw [hq1, hq2] at e1
          simp only [Option.map_some', Option.some.injEq] at e1
          simp only [e1]

/-- C21, where the code does otherwise for characters above U+FFFF. First
part, what does hold: take a source `pre ++ post` in which a token ends where
`pre` ends, whose tokens up to there hold no double quote left alone and no
JSONPath token followed at once by `[` (no string and no bracketed part left
unclosed), and whose rest `post` is empty or starts with the end of a line. A
comment, `#` and a `text` of characters up to U+FFFF other than the line
feed, inserted there changes nothing: the parser reads the same tokens and
returns the same syntax tree, or the same error, and `Parse` gives the same.
Second part: the character U+1F600 is not one that the production
`Comment = "#" { "\u0000"…"\uffff"-"\n" }` goes on over; with `#` and that
character inserted after `[1, ` in the source of the array of 1 and 2, the
lexer fails and `Parse` returns a parse error, though the doc comment of
`Parse` has everything from `#` to the end of the line ignored. -/
theorem comment_is_ignored_up_to_ffff (pre post text : List Char) (ts : List parse.Token)
    (hb : parse.lexUntil post.length (pre ++ post).length (pre ++ post) = some ts)
    (hs : parse.settled ts = true)
    (ht : ∀ c ∈ text, parse.commentChar c = true)
    (hp : post = [] ∨ ∃ r, post = parse.newline :: r)
    (unquote : String → Option String) :
    (parse.tokens unquote (String.mk (pre ++ '#' :: (text ++ post))) =
        parse.tokens unquote (String.mk (pre ++ post)) ∧
      parse.Parser.Parse unquote (String.mk (pre ++ '#' :: (text ++ post))) =
        parse.Parser.Parse unquote (String.mk (pre ++ post)) ∧
      ∀ (h : Host) (funcs : FunctionMap),
        Parse h unquote (String.mk (pre ++ '#' :: (text ++ post))) funcs =
          Parse h unquote (String.mk (pre ++ post)) funcs) ∧
    parse.commentChar (Char.ofNat 128512) = false ∧
    parse.Lex ("[1, #" ++ String.singleton (Char.ofNat 128512) ++ "\n2]") = none ∧
    ∀ (h : Host) (funcs : FunctionMap),
      Parse h unquote "[1, \n2]" funcs =
          .ok ⟨.array [.numberConstant 1, .numberConstant 2], NullOnMissing⟩ ∧
        Parse h unquote ("[1, #" ++ String.singleton (Char.ofNat 128512) ++ "\n2]") funcs =
          .err (.error (.parseError "invalid token")) := by
  have hP : ∀ c r, post = c :: r → parse.commentChar c = false := by
    intro c r hc
    rcases hp with e | ⟨r1, e⟩
    · rw [e] at hc
      cases hc
    · rw [e] at hc
      simp only [List.cons.injEq] at hc
      rw [← hc.1]
      decide
  obtain ⟨ts1, he, hnew, hold⟩ := lexAll_commented post text ht hP _ pre ts hb hs
  have htok : parse.tokens unquote (String.mk (pre ++ '#' :: (text ++ post))) =
      parse.tokens unquote (String.mk (pre ++ post)) := by
    apply tokens_congr
    show (parse.lexAll (List.length _) (pre ++ '#' :: (text ++ post))).map parse.elide =
      (parse.lexAll (List.length _) (pre ++ post)).map parse.elide
    rw [hnew _ (le_refl _), hold _ (le_refl _),
      lexAll_fuel (pre ++ '#' :: (text ++ post)).length (pre ++ post).length post
        (by simp only [List.length_append, List.length_cons]; omega)
        (by simp only [List.length_append]; omega)]
    cases parse.lexAll (pre ++ post).length post with
    | none => rfl
    | some r =>
      simp only [Option.map_some', Option.some.injEq, parse.elide, List.filter_append]
      have he1 : List.filter (fun t => decide (t.symbol ≠ .Whitespace ∧ t.symbol ≠ .Comment))
          ts1 = List.filter (fun t => decide (t.symbol ≠ .Whitespace ∧ t.symbol ≠ .Comment))
          ts := he
      rw [he1]
  refine ⟨⟨htok, ?_, fun h funcs => ?_⟩, by decide, by decide,
    fun h funcs => ⟨rfl, rfl⟩⟩
  · simp only [parse.Parser.Parse, htok]
  · simp only [Parse, parse.Parser.Parse, htok]

/-! ### When the build succeeds -/

theorem buildQuery_cases (h : Host) (b : builder) (q : String) (n : Nat) :
    (h.Parse ("\x7b" ++ q ++ "\x7d") = none ∧
      builder.buildQuery h b q n = .ok (⟨⟨n, "\x7b" ++ q ++ "\x7d"⟩⟩, n + 1)) ∨
    (∃ err, h.Parse ("\x7b" ++ q ++ "\x7d") = some err ∧
      builder.buildQuery h b q n = .error (.error (.invalidJSONPath err))) := by
  simp only [builder.buildQuery]
  cases hp : h.Parse ("\x7b" ++ q ++ "\x7d") with
  | none => exact Or.inl ⟨rfl, rfl⟩
  | some err => exact Or.inr ⟨err, rfl, rfl⟩

theorem mirroredByList_length (funcs : FunctionMap) :
    ∀ (vs : List parse.Value) (ts : List template),
      parse.Value.mirroredByList funcs vs ts → ts.length = vs.length
  | [], [], _ => rfl
  | v :: vs, t :: ts, hm => by
    simp only [parse.Value.mirroredByList] at hm
    simp [mirroredByList_length funcs vs ts hm.2]
  | [], _ :: _, hm => by simp [parse.Value.mirroredByList] at hm
  | _ :: _, [], hm => by simp [parse.Value.mirroredByList] at hm

theorem mirroredByList_index (funcs : FunctionMap) :
    ∀ (vs : List parse.Value) (ts : List template),
      parse.Value.mirroredByList funcs vs ts →
      ∀ (i : Nat) (v : parse.Value) (t : template), vs[i]? = some v → ts[i]? = some t →
        parse.Value.mirroredBy funcs v t
  | [], [], _, i, v, t, hv, _ => by simp at hv
  | v0 :: vs, t0 :: ts, hm, 0, v, t, hv, ht => by
    simp only [parse.Value.mirroredByList] at hm
    simp only [List.getElem?_cons_zero, Option.some.injEq] at hv ht
    subst hv ht
    exact hm.1
  | v0 :: vs, t0 :: ts, hm, i + 1, v, t, hv, ht => by
    simp only [parse.Value.mirroredByList] at hm
    simp only [List.getElem?_cons_succ] at hv ht
    exact mirroredByList_index funcs vs ts hm.2 i v t hv ht
  | [], _ :: _, hm, _, _, _, _, _ => by simp [parse.Value.mirroredByList] at hm
  | _ :: _, [], hm, _, _, _, _, _ => by simp [parse.Value.mirroredByList] at hm

mutual
theorem buildValue_mirrors (h : Host) (b : builder) :
    ∀ (v : parse.Value) (n : Nat) (t : template) (n' : Nat),
      builder.buildValue h b v n = .ok (t, n') →
      (∀ q ∈ v.queries, h.Parse ("\x7b" ++ q ++ "\x7d") = none) ∧ v.mirroredBy b.funcs t
  | .mk (some s) _ _ _ _ _ _ _ _, n, t, n', hb => by
    simp only [builder.buildValue, Except.ok.injEq, Prod.mk.injEq] at hb
    simp [parse.Value.queries, parse.Value.mirroredBy, hb.1]
  | .mk none (some x) _ _ _ _ _ _ _, n, t, n', hb => by
    simp only [builder.buildValue, Except.ok.injEq, Prod.mk.injEq] at hb
    simp [parse.Value.queries, parse.Value.mirroredBy, hb.1]
  | .mk none none _ _ (some x) _ _ _ _, n, t, n', hb => by
    simp only [builder.buildValue, Except.ok.injEq, Prod.mk.injEq] at hb
    simp [parse.Value.queries, parse.Value.mirroredBy, hb.1]
  | .mk none none _ _ none true _ _ _, n, t, n', hb => by
    simp only [builder.buildValue, Except.ok.injEq, Prod.mk.injEq] at hb
    simp [parse.Value.queries, parse.Value.mirroredBy, hb.1]
  | .mk none none (some o) _ none false _ _ _, n, t, n', hb => by
    simp only [builder.buildValue] at hb
    cases ho : builder.buildObject h b o n with
    | error p => simp [ho] at hb
    | ok r =>
      obtain ⟨res, n1⟩ := r
      simp only [ho, Except.ok.injEq, Prod.mk.injEq] at hb
      have ih := buildObject_mirrors h b o n res n1 ho
      simp only [parse.Value.queries, parse.Value.mirroredBy]
      exact ⟨ih.1, res, hb.1.symm, ih.2⟩
  | .mk none none none (some a) none false _ _ _, n, t, n', hb => by
    simp only [builder.buildValue] at hb
    cases ho : builder.buildValues h b a n with
    | error p => simp [ho] at hb
    | ok r =>
      obtain ⟨res, n1⟩ := r
      simp only [ho, Except.ok.injEq, Prod.mk.injEq] at hb
      have ih := buildValues_mirrors h b a n res n1 ho
      simp only [parse.Value.queries, parse.Value.mirroredBy]
      exact ⟨ih.1, res, hb.1.symm, ih.2⟩
  | .mk none none none none none false (some (.mk range sub)) _ _, n, t, n', hb => by
    simp only [builder.buildValue] at hb
    rcases buildQuery_cases h b range n with ⟨hp, hq⟩ | ⟨err, hp, hq⟩
    · simp only [hq] at hb
      cases hs : builder.buildValue h b sub (n + 1) with
      | error p => simp [hs] at hb
      | ok r =>
        obtain ⟨tsub, n2⟩ := r
        simp only [hs, Except.ok.injEq, Prod.mk.injEq] at hb
        have ih := buildValue_mirrors h b sub (n + 1) tsub n2 hs
        simp only [parse.Value.queries, parse.Value.mirroredBy, List.mem_cons]
        refine ⟨fun q hq => ?_, n, tsub, hb.1.symm, ih.2⟩
        rcases hq with rfl | hq
        · exact hp
        · exact ih.1 q hq
    · simp [hq] at hb
  | .mk none none none none none false none (some q) _, n, t, n', hb => by
    simp only [builder.buildValue] at hb
    rcases buildQuery_cases h b q n with ⟨hp, hq⟩ | ⟨err, hp, hq⟩
    · simp only [hq, Except.ok.injEq, Prod.mk.injEq] at hb
      simp only [parse.Value.queries, parse.Value.mirroredBy, List.mem_singleton]
      exact ⟨fun q' hq' => by rw [hq']; exact hp, n, hb.1.symm⟩
    · simp [hq] at hb
  | .mk none none none none none false none none (some f), n, t, n', hb => by
    simp only [builder.buildValue] at hb
    have ih := buildFunction_mirrors h b f n t n' hb
    simp only [parse.Value.queries, parse.Value.mirroredBy]
    exact ih
  | .mk none none none none none false none none none, n, t, n', hb => by
    simp [builder.buildValue] at hb
theorem buildObject_mirrors (h : Host) (b : builder) :
    ∀ (o : parse.Object) (n : Nat) (res : object) (n' : Nat),
      builder.buildObject h b o n = .ok (res, n') →
      (∀ q ∈ o.queries, h.Parse ("\x7b" ++ q ++ "\x7d") = none) ∧ o.mirroredBy b.funcs res
  | .mk fields, n, res, n', hb => by
    simp only [builder.buildObject] at hb
    have ih := buildFields_mirrors h b fields [] n res n' hb
    simp only [parse.Object.queries, parse.Object.mirroredBy]
    refine ⟨ih.1, fun k => ?_, ih.2⟩
    have hk := (builder_buildFields_keys h b fields [] n res n' hb k).2
    simpa [mapaccess] using hk
theorem buildFields_mirrors (h : Host) (b : builder) :
    ∀ (fs : List parse.AnnotatedField) (acc : object) (n : Nat) (res : object) (n' : Nat),
      builder.buildFields h b fs acc n = .ok (res, n') →
      (∀ q ∈ parse.Value.queriesOfFields fs, h.Parse ("\x7b" ++ q ++ "\x7d") = none) ∧
        parse.Value.mirroredByFields b.funcs fs res
  | [], acc, n, res, n', hb => by
    simp [parse.Value.queriesOfFields, parse.Value.mirroredByFields]
  | (.mk ann key v) :: rest, acc, n, res, n', hb => by
    simp only [builder.buildFields] at hb
    cases hv : builder.buildValue h b v n with
    | error p => simp [hv] at hb
    | ok r =>
      obtain ⟨templ, n1⟩ := r
      simp only [hv] at hb
      have ih1 := buildValue_mirrors h b v n templ n1 hv
      have ih2 := buildFields_mirrors h b rest _ n1 res n' hb
      simp only [parse.Value.queriesOfFields, parse.Value.mirroredByFields, List.mem_append]
      refine ⟨fun q hq => hq.elim (ih1.1 q) (ih2.1 q), ?_, ih2.2⟩
      by_cases hk : ∃ f ∈ rest, f.Key = key
      · exact Or.inl hk
      · refine Or.inr ⟨templ, ?_, ih1.2⟩
        have hkeep := (builder_buildFields_keys h b rest _ n1 res n' hb key).1
          (fun f hf he => hk ⟨f, hf, he⟩)
        rw [hkeep, mapaccess_mapassign_same]
theorem buildValues_mirrors (h : Host) (b : builder) :
    ∀ (vs : List parse.Value) (n : Nat) (res : List template) (n' : Nat),
      builder.buildValues h b vs n = .ok (res, n') →
      (∀ q ∈ parse.Value.queriesOfValues vs, h.Parse ("\x7b" ++ q ++ "\x7d") = none) ∧
        parse.Value.mirroredByList b.funcs vs res
  | [], n, res, n', hb => by
    simp only [builder.buildValues, Except.ok.injEq, Prod.mk.injEq] at hb
    simp [parse.Value.queriesOfValues, parse.Value.mirroredByList, ← hb.1]
  | v :: rest, n, res, n', hb => by
    simp only [builder.buildValues] at hb
    cases hv : builder.buildValue h b v n with
    | error p => simp [hv] at hb
    | ok r =>
      obtain ⟨templ, n1⟩ := r
      simp only [hv] at hb
      cases hr : builder.buildValues h b rest n1 with
      | error p => simp [hr] at hb
      | ok r2 =>
        obtain ⟨res2, n2⟩ := r2
        simp only [hr, Except.ok.injEq, Prod.mk.injEq] at hb
        have ih1 := buildValue_mirrors h b v n templ n1 hv
        have ih2 := buildValues_mirrors h b rest n1 res2 n2 hr
        rw [← hb.1]
        simp only [parse.Value.queriesOfValues, parse.Value.mirroredByList, List.mem_append]
        exact ⟨fun q hq => hq.elim (ih1.1 q) (ih2.1 q), ih1.2, ih2.2⟩
theorem buildFunction_mirrors (h : Host) (b : builder) :
    ∀ (f : parse.Function) (n : Nat) (t : template) (n' : Nat),
      builder.buildFunction h b f n = .ok (t, n') →
      (∀ q ∈ f.queries, h.Parse ("\x7b" ++ q ++ "\x7d") = none) ∧ f.mirroredBy b.funcs t
  | .mk fname args, n, t, n', hb => by
    rw [buildFunction_eq] at hb
    cases hr : builder.refuses b.funcs fname with
    | some p => simp [hr] at hb
    | none =>
      simp only [hr] at hb
      cases hm : mapaccess b.funcs fname with
      | none => simp [hm] at hb
      | some fn =>
        simp only [hm] at hb
        cases ha : builder.buildValues h b args n with
        | error p => simp [ha] at hb
        | ok r =>
          obtain ⟨res, n1⟩ := r
          simp only [ha, Except.ok.injEq, Prod.mk.injEq] at hb
          have ih := buildValues_mirrors h b args n res n1 ha
          simp only [parse.Function.queries, parse.Function.mirroredBy]
          exact ⟨ih.1, fn, res, hb.1.symm, hm, ih.2⟩
end

theorem builder_refuses_callable (funcs : FunctionMap)
    (hc : ∀ e ∈ funcs, reflect.KindOf e.2 = some reflect.Kind.Func) (name : String)
    (hn : (mapaccess funcs name).isSome = true) : builder.refuses funcs name = none := by
  cases hm : mapaccess funcs name with
  | none => simp [hm] at hn
  | some fn =>
    have hk := hc (name, fn) (mapaccess_mem funcs name fn hm)
    simp only at hk
    simp [builder.refuses, hm, hk]

theorem builder_refuses_error (funcs : FunctionMap)
    (hc : ∀ e ∈ funcs, reflect.KindOf e.2 = some reflect.Kind.Func) (name : String)
    (p : PanicValue) (hr : builder.refuses funcs name = some p) : ∃ e, p = .error e := by
  cases hm : mapaccess funcs name with
  | none =>
    simp only [builder.refuses, hm, Option.some.injEq] at hr
    exact ⟨_, hr.symm⟩
  | some fn =>
    have hk := hc (name, fn) (mapaccess_mem funcs name fn hm)
    simp only at hk
    simp [builder.refuses, hm, hk] at hr

mutual
theorem buildValue_decides (h : Host) (b : builder)
    (hc : ∀ e ∈ b.funcs, reflect.KindOf e.2 = some reflect.Kind.Func) :
    ∀ (v : parse.Value), v.populated = true → ∀ (n : Nat),
      (∀ p, builder.buildValue h b v n = .error p → ∃ e, p = .error e) ∧
      ((∀ name ∈ v.calls, (mapaccess b.funcs name).isSome = true) →
        (∀ q ∈ v.queries, h.Parse ("\x7b" ++ q ++ "\x7d") = none) →
        ∃ r, builder.buildValue h b v n = .ok r)
  | .mk (some s) _ _ _ _ _ _ _ _, _, n => by
    simp [builder.buildValue]
  | .mk none (some x) _ _ _ _ _ _ _, _, n => by
    simp [builder.buildValue]
  | .mk none none _ _ (some x) _ _ _ _, _, n => by
    simp [builder.buildValue]
  | .mk none none _ _ none true _ _ _, _, n => by
    simp [builder.buildValue]
  | .mk none none (some o) _ none false _ _ _, hp, n => by
    simp only [parse.Value.populated] at hp
    have ih := buildObject_decides h b hc o hp n
    simp only [builder.buildValue, parse.Value.calls, parse.Value.queries]
    cases ho : builder.buildObject h b o n with
    | error p =>
      simp only [ho] at ih ⊢
      refine ⟨fun p' hp' => ?_, fun hn hq => ?_⟩
      · rw [← Except.error.inj hp']
        exact ih.1 p rfl
      · obtain ⟨r, hr⟩ := ih.2 hn hq
        simp at hr
    | ok r =>
      obtain ⟨res, n1⟩ := r
      simp
  | .mk none none none (some a) none false _ _ _, hp, n => by
    simp only [parse.Value.populated] at hp
    have ih := buildValues_decides h b hc a hp n
    simp only [builder.buildValue, parse.Value.calls, parse.Value.queries]
    cases ho : builder.buildValues h b a n with
    | error p =>
      simp only [ho] at ih ⊢
      refine ⟨fun p' hp' => ?_, fun hn hq => ?_⟩
      · rw [← Except.error.inj hp']
        exact ih.1 p rfl
      · obtain ⟨r, hr⟩ := ih.2 hn hq
        simp at hr
    | ok r =>
      obtain ⟨res, n1⟩ := r
      simp
  | .mk none none none none none false (some (.mk range sub)) _ _, hp, n => by
    simp only [parse.Value.populated] at hp
    simp only [builder.buildValue, parse.Value.calls, parse.Value.queries, List.mem_cons]
    rcases buildQuery_cases h b range n with ⟨hpq, hq⟩ | ⟨err, hpq, hq⟩
    · have ih := buildValue_decides h b hc sub hp (n + 1)
      simp only [hq]
      cases hs : builder.buildValue h b sub (n + 1) with
      | error p =>
        simp only [hs] at ih ⊢
        refine ⟨fun p' hp' => ?_, fun hn hqs => ?_⟩
        · rw [← Except.error.inj hp']
          exact ih.1 p rfl
        · obtain ⟨r, hr⟩ := ih.2 hn (fun q hq => hqs q (Or.inr hq))
          simp at hr
      | ok r =>
        obtain ⟨res, n1⟩ := r
        simp
    · simp only [hq]
      refine ⟨fun p' hp' => ⟨_, (Except.error.inj hp').symm⟩, fun hn hqs => ?_⟩
      have := hqs range (Or.inl rfl)
      simp [hpq] at this
  | .mk none none none none none false none (some q) _, _, n => by
    simp only [builder.buildValue, parse.Value.calls, parse.Value.queries, List.mem_singleton]
    rcases buildQuery_cases h b q n with ⟨hpq, hq⟩ | ⟨err, hpq, hq⟩
    · simp [hq]
    · simp only [hq]
      refine ⟨fun p' hp' => ⟨_, (Except.error.inj hp').symm⟩, fun hn hqs => ?_⟩
      have := hqs q rfl
      simp [hpq] at this
  | .mk none none none none none false none none (some f), hp, n => by
    simp only [parse.Value.populated] at hp
    have ih := buildFunction_decides h b hc f hp n
    simp only [builder.buildValue, parse.Value.calls, parse.Value.queries]
    exact ih
  | .mk none none none none none false none none none, hp, n => by
    simp [parse.Value.populated] at hp
theorem buildObject_decides (h : Host) (b : builder)
    (hc : ∀ e ∈ b.funcs, reflect.KindOf e.2 = some reflect.Kind.Func) :
    ∀ (o : parse.Object), o.populated = true → ∀ (n : Nat),
      (∀ p, builder.buildObject h b o n = .error p → ∃ e, p = .error e) ∧
      ((∀ name ∈ o.calls, (mapaccess b.funcs name).isSome = true) →
        (∀ q ∈ o.queries, h.Parse ("\x7b" ++ q ++ "\x7d") = none) →
        ∃ r, builder.buildObject h b o n = .ok r)
  | .mk fields, hp, n => by
    simp only [parse.Object.populated] at hp
    simp only [builder.buildObject, parse.Object.calls, parse.Object.queries]
    exact buildFields_decides h b hc fields hp [] n
theorem buildFields_decides (h : Host) (b : builder)
    (hc : ∀ e ∈ b.funcs, reflect.KindOf e.2 = some reflect.Kind.Func) :
    ∀ (fs : List parse.AnnotatedField), parse.Value.populatedFields fs = true →
      ∀ (acc : object) (n : Nat),
      (∀ p, builder.buildFields h b fs acc n = .error p → ∃ e, p = .error e) ∧
      ((∀ name ∈ parse.Value.callsOfFields fs, (mapaccess b.funcs name).isSome = true) →
        (∀ q ∈ parse.Value.queriesOfFields fs, h.Parse ("\x7b" ++ q ++ "\x7d") = none) →
        ∃ r, builder.buildFields h b fs acc n = .ok r)
  | [], _, acc, n => by simp [builder.buildFields]
  | (.mk ann key v) :: rest, hp, acc, n => by
    simp only [parse.Value.populatedFields, Bool.and_eq_true] at hp
    have ih1 := buildValue_decides h b hc v hp.1 n
    simp only [builder.buildFields, parse.Value.callsOfFields, parse.Value.queriesOfFields,
      List.mem_append]
    cases hv : builder.buildValue h b v n with
    | error p =>
      simp only [hv] at ih1 ⊢
      refine ⟨fun p' hp' => ?_, fun hn hq => ?_⟩
      · rw [← Except.error.inj hp']
        exact ih1.1 p rfl
      · obtain ⟨r, hr⟩ := ih1.2 (fun x hx => hn x (Or.inl hx)) (fun x hx => hq x (Or.inl hx))
        simp at hr
    | ok r =>
      obtain ⟨templ, n1⟩ := r
      have ih2 := buildFields_decides h b hc rest hp.2 (mapassign acc key (field.mk templ ann)) n1
      simp only []
      exact ⟨ih2.1, fun hn hq =>
        ih2.2 (fun x hx => hn x (Or.inr hx)) (fun x hx => hq x (Or.inr hx))⟩
theorem buildValues_decides (h : Host) (b : builder)
    (hc : ∀ e ∈ b.funcs, reflect.KindOf e.2 = some reflect.Kind.Func) :
    ∀ (vs : List parse.Value), parse.Value.populatedValues vs = true → ∀ (n : Nat),
      (∀ p, builder.buildValues h b vs n = .error p → ∃ e, p = .error e) ∧
      ((∀ name ∈ parse.Value.callsOfValues vs, (mapaccess b.funcs name).isSome = true) →
        (∀ q ∈ parse.Value.queriesOfValues vs, h.Parse ("\x7b" ++ q ++ "\x7d") = none) →
        ∃ r, builder.buildValues h b vs n = .ok r)
  | [], _, n => by simp [builder.buildValues]
  | v :: rest, hp, n => by
    simp only [parse.Value.populatedValues, Bool.and_eq_true] at hp
    have ih1 := buildValue_decides h b hc v hp.1 n
    simp only [builder.buildValues, parse.Value.callsOfValues, parse.Value.queriesOfValues,
      List.mem_append]
    cases hv : builder.buildValue h b v n with
    | error p =>
      simp only [hv] at ih1 ⊢
      refine ⟨fun p' hp' => ?_, fun hn hq => ?_⟩
      · rw [← Except.error.inj hp']
        exact ih1.1 p rfl
      · obtain ⟨r, hr⟩ := ih1.2 (fun x hx => hn x (Or.inl hx)) (fun x hx => hq x (Or.inl hx))
        simp at hr
    | ok r =>
      obtain ⟨templ, n1⟩ := r
      have ih2 := buildValues_decides h b hc rest hp.2 n1
      simp only []
      cases hr : builder.buildValues h b rest n1 with
      | error p =>
        simp only [hr] at ih2 ⊢
        refine ⟨fun p' hp' => ?_, fun hn hq => ?_⟩
        · rw [← Except.error.inj hp']
          exact ih2.1 p rfl
        · obtain ⟨r, hr⟩ := ih2.2 (fun x hx => hn x (Or.inr hx)) (fun x hx => hq x (Or.inr hx))
          simp at hr
      | ok r2 =>
        obtain ⟨res2, n2⟩ := r2
        simp
theorem buildFunction_decides (h : Host) (b : builder)
    (hc : ∀ e ∈ b.funcs, reflect.KindOf e.2 = some reflect.Kind.Func) :
    ∀ (f : parse.Function), f.populated = true → ∀ (n : Nat),
      (∀ p, builder.buildFunction h b f n = .error p → ∃ e, p = .error e) ∧
      ((∀ name ∈ f.calls, (mapaccess b.funcs name).isSome = true) →
        (∀ q ∈ f.queries, h.Parse ("\x7b" ++ q ++ "\x7d") = none) →
        ∃ r, builder.buildFunction h b f n = .ok r)
  | .mk fname args, hp, n => by
    simp only [parse.Function.populated] at hp
    have ih := buildValues_decides h b hc args hp n
    rw [buildFunction_eq]
    simp only [parse.Function.calls, parse.Function.queries, List.mem_cons]
    cases hr : builder.refuses b.funcs fname with
    | some p1 =>
      simp only []
      refine ⟨fun p' hp' => ?_, fun hn hq => ?_⟩
      · rw [← Except.error.inj hp']
        exact builder_refuses_error b.funcs hc fname p1 hr
      · have := builder_refuses_callable b.funcs hc fname (hn fname (Or.inl rfl))
        simp [hr] at this
    | none =>
      simp only []
      cases hm : mapaccess b.funcs fname with
      | none => simp [builder.refuses, hm] at hr
      | some fn =>
        simp only []
        cases ha : builder.buildValues h b args n with
        | error p =>
          simp only [ha] at ih ⊢
          refine ⟨fun p' hp' => ?_, fun hn hq => ?_⟩
          · rw [← Except.error.inj hp']
            exact ih.1 p rfl
          · obtain ⟨r, hr⟩ := ih.2 (fun x hx => hn x (Or.inr hx)) hq
            simp at hr
        | ok r =>
          obtain ⟨res, n1⟩ := r
          simp
end


mutual
theorem tagged_value : ∀ (v : parse.Value), v.tagged = true →
    v.populated = true ∧ v.calls = v.functionNames ∧ v.queries = v.queryStrings
  | .mk (some s) x o a bo nu g e f, ht => by
    cases x <;> cases o <;> cases a <;> cases bo <;> cases nu <;> cases g <;> cases e <;>
      cases f <;> simp [parse.Value.tagged] at ht
    simp [parse.Value.populated, parse.Value.calls, parse.Value.queries,
      parse.Value.functionNames, parse.Value.queryStrings]
  | .mk none (some x) o a bo nu g e f, ht => by
    cases o <;> cases a <;> cases bo <;> cases nu <;> cases g <;> cases e <;>
      cases f <;> simp [parse.Value.tagged] at ht
    simp [parse.Value.populated, parse.Value.calls, parse.Value.queries,
      parse.Value.functionNames, parse.Value.queryStrings]
  | .mk none none o a (some x) nu g e f, ht => by
    cases o <;> cases a <;> cases nu <;> cases g <;> cases e <;>
      cases f <;> simp [parse.Value.tagged] at ht
    simp [parse.Value.populated, parse.Value.calls, parse.Value.queries,
      parse.Value.functionNames, parse.Value.queryStrings]
  | .mk none none o a none true g e f, ht => by
    cases o <;> cases a <;> cases g <;> cases e <;>
      cases f <;> simp [parse.Value.tagged] at ht
    simp [parse.Value.populated, parse.Value.calls, parse.Value.queries,
      parse.Value.functionNames, parse.Value.queryStrings]
  | .mk none none (some o) a none false g e f, ht => by
    cases a <;> cases g <;> cases e <;> cases f <;> simp only [parse.Value.tagged] at ht <;>
      (first | exact absurd ht Bool.false_ne_true | skip)
    have ih := tagged_object o ht
    simp [parse.Value.populated, parse.Value.calls, parse.Value.queries,
      parse.Value.functionNames, parse.Value.queryStrings, ih]
  | .mk none none none (some a) none false g e f, ht => by
    cases g <;> cases e <;> cases f <;> simp only [parse.Value.tagged] at ht <;>
      (first | exact absurd ht Bool.false_ne_true | skip)
    have ih := tagged_values a ht
    simp [parse.Value.populated, parse.Value.calls, parse.Value.queries,
      parse.Value.functionNames, parse.Value.queryStrings, ih]
  | .mk none none none none none false (some (.mk range sub)) e f, ht => by
    cases e <;> cases f <;> simp only [parse.Value.tagged] at ht <;>
      (first | exact absurd ht Bool.false_ne_true | skip)
    have ih := tagged_value sub ht
    simp [parse.Value.populated, parse.Value.calls, parse.Value.queries,
      parse.Value.functionNames, parse.Value.queryStrings, ih]
  | .mk none none none none none false none (some q) f, ht => by
    cases f <;> simp only [parse.Value.tagged] at ht <;>
      (first | exact absurd ht Bool.false_ne_true | skip)
    simp [parse.Value.populated, parse.Value.calls, parse.Value.queries,
      parse.Value.functionNames, parse.Value.queryStrings]
  | .mk none none none none none false none none (some f), ht => by
    simp only [parse.Value.tagged] at ht
    have ih := tagged_function f ht
    simp [parse.Value.populated, parse.Value.calls, parse.Value.queries,
      parse.Value.functionNames, parse.Value.queryStrings, ih]
  | .mk none none none none none false none none none, ht => by
    simp [parse.Value.tagged] at ht
theorem tagged_object : ∀ (o : parse.Object), o.tagged = true →
    o.populated = true ∧ o.calls = o.functionNames ∧ o.queries = o.queryStrings
  | .mk fields, ht => by
    simp only [parse.Object.tagged] at ht
    have ih := tagged_fields fields ht
    simp [parse.Object.populated, parse.Object.calls, parse.Object.queries,
      parse.Object.functionNames, parse.Object.queryStrings, ih]
theorem tagged_fields : ∀ (fs : List parse.AnnotatedField),
    parse.Value.taggedFields fs = true →
    parse.Value.populatedFields fs = true ∧
      parse.Value.callsOfFields fs = parse.Value.functionNamesOfFields fs ∧
      parse.Value.queriesOfFields fs = parse.Value.queryStringsOfFields fs
  | [], _ => by
    simp [parse.Value.populatedFields, parse.Value.callsOfFields, parse.Value.queriesOfFields,
      parse.Value.functionNamesOfFields, parse.Value.queryStringsOfFields]
  | (.mk ann key v) :: rest, ht => by
    simp only [parse.Value.taggedFields, Bool.and_eq_true] at ht
    have ih1 := tagged_value v ht.1
    have ih2 := tagged_fields rest ht.2
    simp [parse.Value.populatedFields, parse.Value.callsOfFields, parse.Value.queriesOfFields,
      parse.Value.functionNamesOfFields, parse.Value.queryStringsOfFields, ih1, ih2]
theorem tagged_values : ∀ (vs : List parse.Value), parse.Value.taggedValues vs = true →
    parse.Value.populatedValues vs = true ∧
      parse.Value.callsOfValues vs = parse.Value.functionNamesOfValues vs ∧
      parse.Value.queriesOfValues vs = parse.Value.queryStringsOfValues vs
  | [], _ => by
    simp [parse.Value.populatedValues, parse.Value.callsOfValues, parse.Value.queriesOfValues,
      parse.Value.functionNamesOfValues, parse.Value.queryStringsOfValues]
  | v :: rest, ht => by
    simp only [parse.Value.taggedValues, Bool.and_eq_true] at ht
    have ih1 := tagged_value v ht.1
    have ih2 := tagged_values rest ht.2
    simp [parse.Value.populatedValues, parse.Value.callsOfValues, parse.Value.queriesOfValues,
      parse.Value.functionNamesOfValues, parse.Value.queryStringsOfValues, ih1, ih2]
theorem tagged_function : ∀ (f : parse.Function), f.tagged = true →
    f.populated = true ∧ f.calls = f.functionNames ∧ f.queries = f.queryStrings
  | .mk fname args, ht => by
    simp only [parse.Function.tagged] at ht
    have ih := tagged_values args ht
    simp [parse.Function.populated, parse.Function.calls, parse.Function.queries,
      parse.Function.functionNames, parse.Function.queryStrings, ih]
end

theorem build_decided_by_lookups (h : Host) (ast : parse.Template) (funcs : FunctionMap)
    (hp : ast.Root.populated = true)
    (hc : ∀ e ∈ funcs, reflect.KindOf e.2 = some reflect.Kind.Func) :
    ((∃ t, Parse.build h ast funcs = .ok t ∧ ast.Root.mirroredBy funcs t.definition) ↔
      ((∀ name ∈ ast.Root.calls, (mapaccess funcs name).isSome = true) ∧
        ∀ q ∈ ast.Root.queries, h.Parse ("\x7b" ++ q ++ "\x7d") = none)) ∧
    (¬ ((∀ name ∈ ast.Root.calls, (mapaccess funcs name).isSome = true) ∧
        ∀ q ∈ ast.Root.queries, h.Parse ("\x7b" ++ q ++ "\x7d") = none) →
      ∃ e, Parse.build h ast funcs = .err (.error e)) := by
  have hd := buildValue_decides h ⟨funcs⟩ hc ast.Root hp 0
  have hs := buildValue_sound h ⟨funcs⟩ ast.Root 0
  have hfwd : ∀ t n, builder.buildValue h ⟨funcs⟩ ast.Root 0 = .ok (t, n) →
      (∀ name ∈ ast.Root.calls, (mapaccess funcs name).isSome = true) ∧
        ∀ q ∈ ast.Root.queries, h.Parse ("\x7b" ++ q ++ "\x7d") = none := by
    intro t n hb
    refine ⟨fun name hn => ?_, (buildValue_mirrors h ⟨funcs⟩ ast.Root 0 t n hb).1⟩
    have hr := hs.1 _ hb name hn
    cases hm : mapaccess funcs name with
    | none => rw [builder_refuses_unknown funcs name hm] at hr; cases hr
    | some fn => rfl
  rw [Parse_build_eq]
  cases hb : builder.buildValue h ⟨funcs⟩ ast.Root 0 with
  | ok r =>
    obtain ⟨t, n⟩ := r
    have hm := (buildValue_mirrors h ⟨funcs⟩ ast.Root 0 t n hb).2
    have hcond := hfwd t n hb
    exact ⟨⟨fun _ => hcond, fun _ => ⟨⟨t, 0⟩, rfl, hm⟩⟩, fun hn => absurd hcond hn⟩
  | error p =>
    obtain ⟨e, rfl⟩ := hd.1 p hb
    refine ⟨⟨fun ht => ?_, fun hcond => ?_⟩, fun _ => ⟨e, rfl⟩⟩
    · obtain ⟨t, ht, _⟩ := ht
      cases ht
    · obtain ⟨r, hr⟩ := hd.2 hcond.1 hcond.2
      rw [hb] at hr
      cases hr

/-- C31: take a syntax tree that is a tagged union throughout, each of its
Values with exactly one alternative set (what the specification takes an AST
Value to be, and what the grammar fills), and a registry whose values are all
functions. The build of `Parse` returns a Template whose node tree mirrors the
syntax tree (a literal as its constant, an array and the arguments of a call
position by position and as many, an object with the keys of its fields and
no other, a call with the value registered under its name, a query with the
text of its source in braces) if and only if every function name called
anywhere in the tree is a key of the registry and the JSONPath engine accepts
every Extractor text and every Generator range of the tree, each in the
braces in which `builder.buildQuery` hands it over; and when that condition
fails, the build returns an error. -/
theorem build_succeeds_exactly_when (h : Host) (ast : parse.Template) (funcs : FunctionMap)
    (ht : ast.Root.tagged = true)
    (hc : ∀ e ∈ funcs, reflect.KindOf e.2 = some reflect.Kind.Func) :
    ((∃ t, Parse.build h ast funcs = .ok t ∧ ast.Root.mirroredBy funcs t.definition) ↔
      ((∀ name ∈ ast.Root.functionNames, (mapaccess funcs name).isSome = true) ∧
        ∀ q ∈ ast.Root.queryStrings, h.Parse ("\x7b" ++ q ++ "\x7d") = none)) ∧
    (¬ ((∀ name ∈ ast.Root.functionNames, (mapaccess funcs name).isSome = true) ∧
        ∀ q ∈ ast.Root.queryStrings, h.Parse ("\x7b" ++ q ++ "\x7d") = none) →
      ∃ e, Parse.build h ast funcs = .err (.error e)) := by
  obtain ⟨hp, hn, hq⟩ := tagged_value ast.Root ht
  rw [← hn, ← hq]
  exact build_decided_by_lookups h ast funcs hp hc

/-! ## The theorems at concrete inputs -/

/-- The query `$.items[*]` over two items, under the example host, gives the
sequence of both. -/
theorem query_collapses_matches_witness :
    GoValue.map GoType.iface
        [("items", GoValue.slice GoType.iface [GoValue.float64 1, GoValue.float64 2])]
      ≠ GoValue.nil ∧
    ((template.query ⟨⟨0, "\x7b$.items[*]\x7d"⟩⟩).interpolate sample.host
        (GoValue.map GoType.iface
          [("items", GoValue.slice GoType.iface [GoValue.float64 1, GoValue.float64 2])])
        ⟨NullOnMissing⟩ World.init).1
      = .ok (GoValue.slice GoType.iface [GoValue.float64 1, GoValue.float64 2]) :=
  ⟨fun e => GoValue.noConfusion e,
   (query_collapses_matches sample.host ⟨⟨0, "\x7b$.items[*]\x7d"⟩⟩
      (GoValue.map GoType.iface
        [("items", GoValue.slice GoType.iface [GoValue.float64 1, GoValue.float64 2])])
      ⟨NullOnMissing⟩ World.init [GoValue.float64 1, GoValue.float64 2] []
      (fun e => GoValue.noConfusion e) rfl).2.2 (by decide)⟩

/-- The template `range $.items[*] [ ... ]` with the sub-template of the
object "v": `$.n`, on the input with the items of "n": 1 and "n": 2, gives
the sequence of the objects "v": 1 and "v": 2. -/
theorem generator_maps_matches_witness :
    ((template.generator (.mk ⟨⟨0, "\x7b$.items[*]\x7d"⟩⟩
        (template.object [("v", field.mk (template.query ⟨⟨1, "\x7b$.n\x7d"⟩⟩) "")]))).interpolate
        sample.host
        (GoValue.map GoType.iface [("items", GoValue.slice GoType.iface
          [GoValue.map GoType.iface [("n", GoValue.float64 1)],
           GoValue.map GoType.iface [("n", GoValue.float64 2)]])])
        ⟨NullOnMissing⟩ World.init).1
      = .ok (GoValue.slice GoType.iface
          [GoValue.map GoType.iface [("v", GoValue.float64 1)],
           GoValue.map GoType.iface [("v", GoValue.float64 2)]]) :=
  (generator_maps_matches sample.host ⟨⟨0, "\x7b$.items[*]\x7d"⟩⟩
    (template.object [("v", field.mk (template.query ⟨⟨1, "\x7b$.n\x7d"⟩⟩) "")])
    (GoValue.map GoType.iface [("items", GoValue.slice GoType.iface
      [GoValue.map GoType.iface [("n", GoValue.float64 1)],
       GoValue.map GoType.iface [("n", GoValue.float64 2)]])])
    ⟨NullOnMissing⟩ World.init
    [GoValue.map GoType.iface [("n", GoValue.float64 1)],
     GoValue.map GoType.iface [("n", GoValue.float64 2)]]
    [GoValue.map GoType.iface [("v", GoValue.float64 1)],
     GoValue.map GoType.iface [("v", GoValue.float64 2)]]
    []
    (fun e => GoValue.noConfusion e) rfl
    (List.Forall₂.cons ⟨World.init, rfl⟩
      (List.Forall₂.cons ⟨World.init, rfl⟩ List.Forall₂.nil))).1

/-- The query `$.a` on a map without the key "a", under the example host: nil
under `NullOnMissing`, a failure under `ErrorOnMissing`. -/
theorem query_tolerance_follows_policy_witness :
    ((template.query ⟨⟨0, "\x7b$.a\x7d"⟩⟩).interpolate sample.host
        (GoValue.map GoType.iface [("b", GoValue.float64 1)]) ⟨NullOnMissing⟩ World.init).1
      = .ok GoValue.nil ∧
    ((template.query ⟨⟨0, "\x7b$.a\x7d"⟩⟩).interpolate sample.host
        (GoValue.map GoType.iface [("b", GoValue.float64 1)]) ⟨ErrorOnMissing⟩ World.init).1
      = .error (.error (.queryFailed "a is not found")) :=
  (query_tolerance_follows_policy sample.host ⟨⟨0, "\x7b$.a\x7d"⟩⟩
    (GoValue.map GoType.iface [("b", GoValue.float64 1)]) ⟨NullOnMissing⟩ World.init
    (fun e => GoValue.noConfusion e)).2.2 [] "a is not found" rfl rfl

/-- Annotating the field "x" of an object with `@deprecated` does not change
what the object evaluates to. -/
theorem object_interpolate_maps_fields_witness :
    (template.object [("x", field.mk (template.numberConstant 1) "deprecated"),
        ("y", field.mk (template.query ⟨⟨0, "\x7b$.n\x7d"⟩⟩) "")]).interpolate sample.host
        (GoValue.map GoType.iface [("n", GoValue.float64 2)]) ⟨NullOnMissing⟩ World.init
      = (template.object [("x", field.mk (template.numberConstant 1) ""),
        ("y", field.mk (template.query ⟨⟨0, "\x7b$.n\x7d"⟩⟩) "")]).interpolate sample.host
        (GoValue.map GoType.iface [("n", GoValue.float64 2)]) ⟨NullOnMissing⟩ World.init :=
  (object_interpolate_maps_fields sample.host
    [("x", field.mk (template.numberConstant 1) ""),
     ("y", field.mk (template.query ⟨⟨0, "\x7b$.n\x7d"⟩⟩) "")]
    (GoValue.map GoType.iface [("n", GoValue.float64 2)]) ⟨NullOnMissing⟩ World.init
    (by decide)
    (by
      intro e he
      simp only [List.mem_cons, List.mem_singleton, List.not_mem_nil, or_false] at he
      rcases he with rfl | rfl
      · exact ⟨World.init, GoValue.float64 1, rfl⟩
      · exact ⟨World.init, GoValue.float64 2, rfl⟩)).2.1
    [("x", field.mk (template.numberConstant 1) "deprecated"),
     ("y", field.mk (template.query ⟨⟨0, "\x7b$.n\x7d"⟩⟩) "")] rfl

/-- The object with the fields "a": 1 and "a": 2 builds to the single field
"a": 2. -/
theorem buildObject_last_duplicate_wins_witness :
    builder.buildObject sample.host ⟨[]⟩
        (parse.Object.mk ([.mk "" "a" (.mk none (some 1) none none none false none none none)]
          ++ .mk "" "a" (.mk none (some 2) none none none false none none none) :: [])) 0
      = .ok ([("a", field.mk (template.numberConstant 2) "")], 0) ∧
    ∃ o1 n1 t n2,
      builder.buildObject sample.host ⟨[]⟩
          (parse.Object.mk [.mk "" "a" (.mk none (some 1) none none none false none none none)]) 0
        = .ok (o1, n1) ∧
      builder.buildValue sample.host ⟨[]⟩
          (.mk none (some 2) none none none false none none none) n1 = .ok (t, n2) ∧
      mapaccess [("a", field.mk (template.numberConstant 2) "")] "a" = some (field.mk t "") :=
  ⟨rfl,
   (buildObject_last_duplicate_wins sample.host ⟨[]⟩
      [.mk "" "a" (.mk none (some 1) none none none false none none none)] []
      "" "a" (.mk none (some 2) none none none false none none none)
      0 [("a", field.mk (template.numberConstant 2) "")] 0 [] GoValue.nil World.init
      rfl (fun f hf => absurd hf (List.not_mem_nil f))).1⟩

/-- The call `to_upper($.name)` on the input with "name": "ana" calls
`strings.ToUpper` on "ana" and gives "ANA", also as the field "greeting" of an
object. -/
theorem function_returns_call_result_witness :
    (∃ w1 : World,
      (template.function (.mk "to_upper" (GoValue.func [GoType.string] false [GoType.string] 0)
          [template.query ⟨⟨0, "\x7b$.name\x7d"⟩⟩])).interpolate sample.host
          (GoValue.map GoType.iface [("name", GoValue.string "ana")]) ⟨NullOnMissing⟩ World.init
        = (.ok (GoValue.string "ANA"),
            ⟨w1.allowMissingKeys, w1.trace ++ [Event.Call 0 [GoValue.string "ana"]]⟩)) ∧
    (template.object [("greeting", field.mk (template.function (.mk "to_upper"
        (GoValue.func [GoType.string] false [GoType.string] 0)
        [template.query ⟨⟨0, "\x7b$.name\x7d"⟩⟩])) "")]).interpolate sample.host
        (GoValue.map GoType.iface [("name", GoValue.string "ana")]) ⟨NullOnMissing⟩ World.init
      = (.ok (GoValue.map GoType.iface [("greeting", GoValue.string "ANA")]),
          ⟨fun a => if a = 0 then true else false,
           [Event.AllowMissingKeys 0 true,
            Event.FindResults 0 (GoValue.map GoType.iface [("name", GoValue.string "ana")]),
            Event.Call 0 [GoValue.string "ana"]]⟩) :=
  ⟨function_returns_call_result sample.host "to_upper" [GoType.string] false
      [GoType.string] 0 [template.query ⟨⟨0, "\x7b$.name\x7d"⟩⟩] [GoValue.string "ana"]
      (GoValue.map GoType.iface [("name", GoValue.string "ana")]) ⟨NullOnMissing⟩ World.init
      (GoValue.string "ANA") [] rfl
      (List.Forall₂.cons ⟨World.init, rfl⟩ List.Forall₂.nil)
      (fun i v hv => by
        cases i with
        | zero =>
          simp only [List.getElem?_cons_zero, Option.some.injEq] at hv
          subst hv
          exact ⟨GoType.string, GoType.string, rfl, rfl, rfl⟩
        | succ j => simp at hv)
      rfl,
   rfl⟩

/-- The tests "fancy" and "null to float" of the package: nil for the
`*float64` parameter of `fancy` is passed as the nil pointer, nil for its
`float64` parameter is refused. -/
theorem nil_argument_zero_or_error_witness :
    (template.function (.mk "fancy" sample.fancy
        ([template.numberConstant 1] ++ template.nullConstant ::
          [template.nullConstant, template.nullConstant]))).interpolate sample.host
        GoValue.nil ⟨NullOnMissing⟩ World.init
      = function.call sample.host sample.fancy
          ([GoValue.float64 1] ++ reflect.Zero (GoType.ptr GoType.float64) ::
            [GoValue.zero (GoType.slice GoType.int), GoValue.nil]) World.init ∧
    (template.function (.mk "fancy" sample.fancy
        ([] ++ template.nullConstant ::
          [template.nullConstant, template.nullConstant, template.nullConstant]))).interpolate
        sample.host GoValue.nil ⟨NullOnMissing⟩ World.init
      = (.error (.error (.nilArgument 1 "fancy" GoType.float64)), World.init) :=
  ⟨(nil_argument_zero_or_error sample.host "fancy" sample.fancy
      [template.numberConstant 1] template.nullConstant
      [template.nullConstant, template.nullConstant] GoValue.nil ⟨NullOnMissing⟩ World.init
      [GoValue.float64 1] World.init World.init (GoType.ptr GoType.float64)
      rfl rfl rfl).2.1 rfl,
   (nil_argument_zero_or_error sample.host "fancy" sample.fancy
      [] template.nullConstant
      [template.nullConstant, template.nullConstant, template.nullConstant]
      GoValue.nil ⟨NullOnMissing⟩ World.init
      [] World.init World.init GoType.float64 rfl rfl rfl).2.2 rfl⟩

/-- The test "number to pointer" of the package: the number 1 for the
`*float64` parameter of `fancy` is passed as a pointer to 1, and the call
returns "ok". -/
theorem value_boxed_for_pointer_parameter_witness :
    (template.function (.mk "fancy" sample.fancy
        ([template.numberConstant 1] ++ template.numberConstant 1 ::
          [template.nullConstant, template.nullConstant]))).interpolate sample.host
        GoValue.nil ⟨NullOnMissing⟩ World.init
      = function.call sample.host sample.fancy
          ([GoValue.float64 1] ++ GoValue.ptr GoType.float64 (GoValue.float64 1) ::
            [GoValue.zero (GoType.slice GoType.int), GoValue.nil]) World.init ∧
    function.call sample.host sample.fancy
        ([GoValue.float64 1] ++ GoValue.ptr GoType.float64 (GoValue.float64 1) ::
          [GoValue.zero (GoType.slice GoType.int), GoValue.nil]) World.init
      = (.ok (GoValue.string "ok"),
          ⟨fun _ => false,
           [Event.Call 1 [GoValue.float64 1, GoValue.ptr GoType.float64 (GoValue.float64 1),
             GoValue.zero (GoType.slice GoType.int), GoValue.nil]]⟩) :=
  ⟨(value_boxed_for_pointer_parameter sample.host "fancy" sample.fancy
      [template.numberConstant 1] (template.numberConstant 1)
      [template.nullConstant, template.nullConstant] GoValue.nil ⟨NullOnMissing⟩ World.init
      [GoValue.float64 1] World.init World.init (GoValue.float64 1) GoType.float64
      rfl rfl rfl (by decide) rfl).2.2,
   rfl⟩

/-- The number 1 is refused as the argument of `strings.ToUpper`. -/
theorem unassignable_argument_fails_witness :
    (template.function (.mk "to_upper" sample.to_upper
        ([] ++ template.numberConstant 1 :: []))).interpolate sample.host
        GoValue.nil ⟨NullOnMissing⟩ World.init
      = (.error (.error (.argumentMismatch (GoValue.float64 1) GoType.float64 1 "to_upper"
          GoType.string)), World.init) :=
  unassignable_argument_fails sample.host "to_upper" sample.to_upper
    [] (template.numberConstant 1) [] GoValue.nil ⟨NullOnMissing⟩ World.init
    [] World.init World.init (GoValue.float64 1) GoType.float64 GoType.string
    rfl rfl rfl rfl rfl

theorem variadic_tail_expects_element_type_witness :
    function.expected sample.fancy 6 = .ok GoType.iface ∧
    function.argument "fancy" sample.fancy 5 GoValue.nil = .ok GoValue.nil ∧
    (template.function (.mk "fancy" sample.fancy
        [template.numberConstant 1, template.nullConstant, template.nullConstant,
         template.numberConstant 1, template.numberConstant 2, template.nullConstant,
         template.numberConstant 3])).interpolate sample.host GoValue.nil ⟨NullOnMissing⟩
        World.init
      = (.ok (GoValue.string "ok"),
          ⟨fun _ => false,
           [Event.Call 1 [GoValue.float64 1, GoValue.zero (GoType.ptr GoType.float64),
             GoValue.zero (GoType.slice GoType.int), GoValue.float64 1, GoValue.float64 2,
             GoValue.nil, GoValue.float64 3]]⟩) :=
  ⟨(variadic_tail_expects_element_type sample.host "fancy"
      [GoType.float64, GoType.ptr GoType.float64, GoType.slice GoType.int, GoType.iface]
      GoType.iface [GoType.string] 1 6 (by decide)).2.1,
   (variadic_tail_expects_element_type sample.host "fancy"
      [GoType.float64, GoType.ptr GoType.float64, GoType.slice GoType.int, GoType.iface]
      GoType.iface [GoType.string] 1 5 (by decide)).2.2.1 rfl,
   rfl⟩

theorem unknown_function_counterexample :
    (parse.Parser.Parse sample.unquote "[f(), g()]" =
        .ok ⟨sample.arrayOf [sample.callOf "f" [], sample.callOf "g" []]⟩ ∧
      "g" ∈ (sample.arrayOf [sample.callOf "f" [], sample.callOf "g" []]).calls ∧
      mapaccess ([] : FunctionMap) "g" = none ∧
      Parse sample.host sample.unquote "[f(), g()]" [] = .err (.error (.noSuchFunction "f")) ∧
      Parse sample.host sample.unquote "[f(), g()]" [] ≠ .err (.error (.noSuchFunction "g"))) ∧
    (parse.Parser.Parse sample.unquote "[notfunc(), missing()]" =
        .ok ⟨sample.arrayOf [sample.callOf "notfunc" [], sample.callOf "missing" []]⟩ ∧
      "missing" ∈ (sample.arrayOf [sample.callOf "notfunc" [], sample.callOf "missing" []]).calls ∧
      mapaccess [("notfunc", GoValue.string "x")] "missing" = none ∧
      Parse sample.host sample.unquote "[notfunc(), missing()]"
          [("notfunc", GoValue.string "x")] =
        .panic "jsontemplate: panic during parsing: notfunc is not a function") := by
  refine ⟨⟨rfl, ?_, rfl, rfl, ?_⟩, rfl, ?_, rfl, rfl⟩
  · show "g" ∈ ["f", "g"]
    decide
  · intro hc
    have : Parse sample.host sample.unquote "[f(), g()]" [] =
        .err (.error (.noSuchFunction "f")) := rfl
    rw [this] at hc
    simp at hc
  · show "missing" ∈ ["notfunc", "missing"]
    decide

theorem not_callable_counterexample :
    parse.Parser.Parse sample.unquote "f()" = .ok ⟨sample.callOf "f" []⟩ ∧
    mapaccess [("f", GoValue.string "x")] "f" = some (GoValue.string "x") ∧
    reflect.KindOf (GoValue.string "x") = some reflect.Kind.String ∧
    Parse sample.host sample.unquote "f()" [("f", GoValue.string "x")] =
      .panic "jsontemplate: panic during parsing: f is not a function" ∧
    ∀ e, Parse sample.host sample.unquote "f()" [("f", GoValue.string "x")] ≠ .err e := by
  refine ⟨rfl, rfl, rfl, rfl, fun e he => ?_⟩
  have : Parse sample.host sample.unquote "f()" [("f", GoValue.string "x")] =
      .panic "jsontemplate: panic during parsing: f is not a function" := rfl
  rw [this] at he
  cases he

theorem unknown_function_fails_build_witness :
    sample.narrow.Parse "\x7b$.hello[1:5]\x7d" = some "unsupported" ∧
    Parse.build sample.narrow
        ⟨sample.arrayOf [sample.extractorOf "$.name", sample.callOf "to_upper" [],
          sample.callOf "g" [sample.extractorOf "$.items[*]"]]⟩
        [("to_upper", sample.to_upper)] = .err (.error (.noSuchFunction "g")) :=
  ⟨rfl, (unknown_function_fails_build sample.narrow
    ⟨sample.arrayOf [sample.extractorOf "$.name", sample.callOf "to_upper" [],
      sample.callOf "g" [sample.extractorOf "$.items[*]"]]⟩
    [("to_upper", sample.to_upper)] "g" (by show "g" ∈ ["to_upper", "g"]; decide) rfl).2.2
    ["to_upper"] [] rfl (by intro c hc; simp at hc; subst hc; rfl)
    (by
      intro q hq
      have hq1 : q ∈ ["$.name", "$.items[*]"] := hq
      simp at hq1
      rcases hq1 with rfl | rfl <;> rfl)
    rfl⟩

theorem not_callable_panics_witness :
    sample.narrow.Parse "\x7b$.hello[1:5]\x7d" = some "unsupported" ∧
    Parse.build sample.narrow
        ⟨sample.arrayOf [sample.extractorOf "$.name", sample.callOf "to_upper" [],
          sample.callOf "f" [sample.extractorOf "$.items[*]"]]⟩
        [("to_upper", sample.to_upper), ("f", GoValue.string "x")] =
      .panic "jsontemplate: panic during parsing: f is not a function" :=
  ⟨rfl, (not_callable_panics sample.narrow
    ⟨sample.arrayOf [sample.extractorOf "$.name", sample.callOf "to_upper" [],
      sample.callOf "f" [sample.extractorOf "$.items[*]"]]⟩
    [("to_upper", sample.to_upper), ("f", GoValue.string "x")] "f" (GoValue.string "x")
    ["to_upper"] [] rfl (by intro c hc; simp at hc; subst hc; rfl) rfl (by decide)
    (by
      intro q hq
      have hq1 : q ∈ ["$.name", "$.items[*]"] := hq
      simp at hq1
      rcases hq1 with rfl | rfl <;> rfl)
    rfl).1⟩

theorem render_fails_as_a_whole_witness :
    ∃ e, (Template.Render sample.host
        ⟨template.object ([("x", field.mk (template.numberConstant 1) "")] ++
          ("y", field.mk (template.array ([template.boolConstant true] ++
            template.query ⟨⟨0, "\x7b$.a\x7d"⟩⟩ :: [])) "") :: []), ErrorOnMissing⟩
        (GoValue.map GoType.iface [("b", GoValue.float64 1)]) World.init).1
      = (GoValue.nil, some e) :=
  render_fails_as_a_whole sample.host _ _ World.init
    (template.query ⟨⟨0, "\x7b$.a\x7d"⟩⟩) (GoValue.map GoType.iface [("b", GoValue.float64 1)])
    World.init (.error (.queryFailed "a is not found"))
    ⟨fun a => if a = 0 then false else false,
      [Event.AllowMissingKeys 0 false,
       Event.FindResults 0 (GoValue.map GoType.iface [("b", GoValue.float64 1)])]⟩
    (Reaches.ofField _ _ _ _ _ _ [("x", GoValue.float64 1)] World.init _ _ _ rfl
      (Reaches.ofElement _ _ _ _ _ [GoValue.bool true] World.init _ _ _ rfl
        (Reaches.here _ _ _)))
    rfl

theorem plain_json_evaluates_to_itself_witness :
    (template.object [("foo", field.mk (template.stringConstant "hello") ""),
        ("bar", field.mk (template.array [template.numberConstant 1, template.numberConstant 2,
          template.numberConstant 3]) "")]).interpolate sample.host
        (GoValue.string "any input") ⟨ErrorOnMissing⟩ World.init
      = (.ok (GoValue.map GoType.iface [("foo", GoValue.string "hello"),
          ("bar", GoValue.slice GoType.iface
            [GoValue.float64 1, GoValue.float64 2, GoValue.float64 3])]), World.init) :=
  (plain_json_evaluates_to_itself
    (template.object [("foo", field.mk (template.stringConstant "hello") ""),
      ("bar", field.mk (template.array [template.numberConstant 1, template.numberConstant 2,
        template.numberConstant 3]) "")])
    (GoValue.map GoType.iface [("foo", GoValue.string "hello"),
      ("bar", GoValue.slice GoType.iface
        [GoValue.float64 1, GoValue.float64 2, GoValue.float64 3])])
    rfl).1 sample.host (GoValue.string "any input") ⟨ErrorOnMissing⟩ World.init

theorem array_interpolate_preserves_order_witness :
    ∃ vs w', (template.array [template.numberConstant 1, template.numberConstant 2,
          template.numberConstant 3]).interpolate sample.host GoValue.nil ⟨NullOnMissing⟩
          World.init
        = (.ok (GoValue.slice GoType.iface vs), w') ∧
      vs.length = 3 ∧
      List.Forall₂ (fun (t : template) (v : GoValue) =>
          ∀ w0, (t.interpolate sample.host GoValue.nil ⟨NullOnMissing⟩ w0).1 = .ok v)
        [template.numberConstant 1, template.numberConstant 2, template.numberConstant 3] vs :=
  (array_interpolate_preserves_order sample.host
    [template.numberConstant 1, template.numberConstant 2, template.numberConstant 3]
    GoValue.nil ⟨NullOnMissing⟩ World.init
    (fun t ht => by
      simp only [List.mem_cons, List.mem_singleton, List.not_mem_nil, or_false] at ht
      rcases ht with rfl | rfl | rfl
      · exact ⟨World.init, GoValue.float64 1, rfl⟩
      · exact ⟨World.init, GoValue.float64 2, rfl⟩
      · exact ⟨World.init, GoValue.float64 3, rfl⟩)).1

theorem generator_of_no_match_is_empty_witness :
    ((template.generator (.mk ⟨⟨0, "\x7b$.a\x7d"⟩⟩ (template.query ⟨⟨1, "\x7b$\x7d"⟩⟩))).interpolate
        sample.host (GoValue.map GoType.iface [("b", GoValue.float64 1)]) ⟨NullOnMissing⟩
        World.init).1
      = .ok (GoValue.slice GoType.iface []) ∧
    ((template.query ⟨⟨0, "\x7b$.a\x7d"⟩⟩).interpolate
        sample.host (GoValue.map GoType.iface [("b", GoValue.float64 1)]) ⟨NullOnMissing⟩
        World.init).1
      = .ok GoValue.nil :=
  generator_of_no_match_is_empty sample.host ⟨⟨0, "\x7b$.a\x7d"⟩⟩
    (template.query ⟨⟨1, "\x7b$\x7d"⟩⟩) (GoValue.map GoType.iface [("b", GoValue.float64 1)])
    ⟨NullOnMissing⟩ World.init [] (fun e => GoValue.noConfusion e) rfl

theorem render_uses_stored_policy_witness :
    Parse sample.host sample.unquote "$.name" [] =
        .ok ⟨.query ⟨⟨0, "\x7b$.name\x7d"⟩⟩, NullOnMissing⟩ ∧
      (Template.Render sample.host ⟨.query ⟨⟨0, "\x7b$.name\x7d"⟩⟩, NullOnMissing⟩
          (.map .iface [("age", .float64 3)]) World.init).1 = (GoValue.nil, none) ∧
      (Template.Render sample.host ⟨.query ⟨⟨0, "\x7b$.name\x7d"⟩⟩, ErrorOnMissing⟩
          (.map .iface [("age", .float64 3)]) World.init).1 =
        (GoValue.nil, some (.recovered (.queryFailed "name is not found"))) ∧
      (Template.Render sample.host ⟨.query ⟨⟨0, "\x7b$.name\x7d"⟩⟩, NullOnMissing⟩
          GoValue.nil World.init).1 = (GoValue.nil, none) ∧
      (Template.Render sample.host ⟨.query ⟨⟨0, "\x7b$.name\x7d"⟩⟩, ErrorOnMissing⟩
          GoValue.nil World.init).1 = (GoValue.nil, some (.recovered .queryNullInput)) :=
  ⟨rfl, rfl, rfl,
    (render_uses_stored_policy sample.host sample.unquote "$.name" []
      ⟨.query ⟨⟨0, "\x7b$.name\x7d"⟩⟩, NullOnMissing⟩ rfl).2.2 _ World.init rfl⟩

theorem blank_source_is_parse_error_witness :
    parse.blank " # only a comment\n\t" = true ∧
      Parse sample.host sample.unquote " # only a comment\n\t" [] =
        .err (.error (.parseError "unexpected token")) :=
  ⟨by decide, (blank_source_is_parse_error sample.host sample.unquote
    " # only a comment\n\t" [] (by decide)).2.2.1⟩

theorem trailing_comma_same_tree_witness :
    (parse.Parser.Parse sample.unquote "[1, \"b\" , ] # one more comma" =
        .ok ⟨sample.arrayOf [.mk none (some 1) none none none false none none none,
          .mk (some "b") none none none none false none none none]⟩ ∧
      ∀ (h : Host) (funcs : FunctionMap),
        Parse h sample.unquote "[1, \"b\" , ] # one more comma" funcs =
          Parse h sample.unquote "[1, \"b\"]" funcs) ∧
    (parse.Parser.Parse sample.unquote "\x7b\"a\": [true],\x7d" =
        .ok ⟨.mk none none (some (.mk [.mk "" "a" (sample.arrayOf
          [.mk none none none none (some true) false none none none])])) none none false
          none none none⟩ ∧
      ∀ (h : Host) (funcs : FunctionMap),
        Parse h sample.unquote "\x7b\"a\": [true],\x7d" funcs =
          Parse h sample.unquote "\x7b\"a\": [true]\x7d" funcs) :=
  ⟨(trailing_comma_same_tree ⟨.Punct, "["⟩ ⟨.Punct, "]"⟩
      [⟨.Number, "1"⟩, ⟨.Punct, ","⟩, ⟨.String, "b"⟩] rfl (Or.inl rfl) rfl
      ⟨⟨.String, "b"⟩, rfl, by decide⟩).2 sample.unquote "[1, \"b\"]"
      "[1, \"b\" , ] # one more comma" _ rfl rfl rfl,
    (trailing_comma_same_tree ⟨.Punct, "\x7b"⟩ ⟨.Punct, "\x7d"⟩
      [⟨.String, "a"⟩, ⟨.Punct, ":"⟩, ⟨.Punct, "["⟩, ⟨.Ident, "true"⟩, ⟨.Punct, "]"⟩] rfl
      (Or.inr rfl) rfl ⟨⟨.Punct, "]"⟩, rfl, by decide⟩).2 sample.unquote
      "\x7b\"a\": [true]\x7d" "\x7b\"a\": [true],\x7d" _ rfl rfl rfl⟩

theorem float_literal_is_split_witness :
    parse.Lex "12.5" = some [⟨.Number, "12"⟩, ⟨.Number, ".5"⟩] ∧
      Parse sample.host sample.unquote "12.5" [] =
        .err (.error (.parseError "unexpected token .5")) :=
  ⟨(float_literal_is_split [] ['1', '2'] ['5'] (Or.inl rfl) (by decide) (by decide) (by decide)
      (by decide)).1,
    (float_literal_is_split [] ['1', '2'] ['5'] (Or.inl rfl) (by decide) (by decide) (by decide)
      (by decide)).2 sample.host sample.unquote []⟩

theorem results_not_validated_witness :
    Parse sample.host sample.unquote "f()" [("f", sample.noResult)] =
        .ok ⟨.function (.mk "f" sample.noResult []), NullOnMissing⟩ ∧
      Template.Render sample.host ⟨.function (.mk "f" sample.noResult []), NullOnMissing⟩
          GoValue.nil World.init =
        ((GoValue.nil, some (.whileRendering "index out of range [0] with length 0")),
          ⟨World.init.allowMissingKeys, [Event.Call 2 []]⟩) :=
  ⟨rfl, ((results_not_validated sample.host [("f", sample.noResult)] "f" [] false [] 2 [] [] 0
    rfl rfl).2 GoValue.nil NullOnMissing [] World.init World.init _ rfl).1 rfl⟩

theorem arity_not_validated_witness :
    (Parse sample.host sample.unquote "to_upper()" [("to_upper", sample.to_upper)] =
        .ok ⟨.function (.mk "to_upper" sample.to_upper []), NullOnMissing⟩ ∧
      Template.Render sample.host ⟨.function (.mk "to_upper" sample.to_upper []), NullOnMissing⟩
          GoValue.nil World.init =
        ((GoValue.nil,
          some (.panicDuringInterpolation "reflect: Call with too few input arguments")),
          World.init)) ∧
    (Parse sample.host sample.unquote "to_upper(\"a\", \"b\")"
          [("to_upper", sample.to_upper)] =
        .ok ⟨.function (.mk "to_upper" sample.to_upper
          [.stringConstant "a", .stringConstant "b"]), NullOnMissing⟩ ∧
      Template.Render sample.host
          ⟨.function (.mk "to_upper" sample.to_upper
            [.stringConstant "a", .stringConstant "b"]), NullOnMissing⟩
          GoValue.nil World.init =
        ((GoValue.nil, some (.whileRendering "index out of range")), World.init)) :=
  ⟨⟨(arity_not_validated sample.host [("to_upper", sample.to_upper)] "to_upper" [.string] false
      [.string] 0 [] [] 0 rfl rfl).1, rfl⟩, rfl, rfl⟩

theorem evaluation_sets_tolerance_flag_witness :
    (GoValue.map .iface [("name", .string "x")]).isNil = false ∧
      ((template.query ⟨⟨0, "\x7b$.name\x7d"⟩⟩).interpolate sample.host
          (.map .iface [("name", .string "x")]) ⟨NullOnMissing⟩
          World.init).2.allowMissingKeys 0 = decide (NullOnMissing = NullOnMissing) :=
  ⟨rfl, ((evaluation_sets_tolerance_flag sample.host (.map .iface [("name", .string "x")])
    ⟨NullOnMissing⟩ World.init).2 rfl).1 ⟨⟨0, "\x7b$.name\x7d"⟩⟩⟩

theorem expression_is_modified_counterexample :
    World.init.allowMissingKeys 0 = false ∧
      ((template.query ⟨⟨0, "\x7b$.name\x7d"⟩⟩).interpolate sample.host
          (.map .iface [("name", .string "x")]) ⟨NullOnMissing⟩ World.init) =
        (.ok (.string "x"),
          ⟨fun a => if a = 0 then true else false,
            [Event.AllowMissingKeys 0 true,
              Event.FindResults 0 (.map .iface [("name", .string "x")])]⟩) ∧
      ((template.generator (.mk ⟨⟨0, "\x7b$.items[*]\x7d"⟩⟩ .nullConstant)).interpolate
          sample.host (.map .iface [("items", .slice .iface [])]) ⟨NullOnMissing⟩
          World.init).2.allowMissingKeys 0 = true := by
  refine ⟨rfl, ?_, rfl⟩
  simp [template.interpolate, query.interpolate, GoValue.isNil, JSONPath.FindResults,
    JSONPath.AllowMissingKeys, sample.host, sample.field, mapaccess, World.init,
    reflect.Value.Interface, NullOnMissing]

theorem path_query_is_one_token_witness :
    (∀ s ∈ sample.path, s.expr.valid = true) ∧
      parse.Parser.Parse sample.unquote "$.foo.bar[234]..baz[*]" =
        .ok ⟨.mk none none none none none false none (some "$.foo.bar[234]..baz[*]") none⟩ :=
  ⟨by decide, (path_query_is_one_token sample.path (by decide)).2.1 sample.unquote⟩

theorem bare_path_counterexample :
    sample.strict.Parse "$.a" = some "no braces" ∧
      parse.Parser.Parse sample.unquote "$.a" =
        .ok ⟨.mk none none none none none false none (some "$.a") none⟩ ∧
      Parse sample.strict sample.unquote "$.a" [] =
        .ok ⟨.query ⟨⟨0, "\x7b$.a\x7d"⟩⟩, NullOnMissing⟩ :=
  ⟨rfl, rfl, rfl⟩

theorem sample_call_same (body : Nat) (args args1 : List GoValue)
    (hs : GoValue.SameList args args1) :
    sample.host.call body args1 = sample.host.call body args := by
  obtain ⟨hl, hi⟩ := hs
  rcases body with _ | _ | n
  · cases args with
    | nil =>
      cases args1 with
      | nil => rfl
      | cons y ys => simp at hl
    | cons x xs =>
      cases args1 with
      | nil => simp at hl
      | cons y ys =>
        have hxy := hi 0 x y (by simp) (by simp)
        cases xs with
        | cons x2 xs2 =>
          cases ys with
          | nil => simp at hl
          | cons y2 ys2 => cases x <;> cases y <;> rfl
        | nil =>
          cases ys with
          | cons y2 ys2 => simp at hl
          | nil =>
            cases hxy <;> rfl
  · rfl
  · rfl

theorem sample_host_pure : sample.host.pure := by
  intro body args args1 hs
  rw [sample_call_same body args args1 hs]
  cases sample.host.call body args with
  | error p => trivial
  | ok rs => exact ⟨rfl, fun i x y hx hy => by
      rw [hx] at hy
      cases hy
      exact GoValue.Same.refl x⟩

theorem sample_reordered : template.Reordered sample.ab sample.ba := by
  refine template.Reordered.object _ _ (by decide) (by decide) (fun k => ?_)
    (fun k f f1 hf hf1 => ?_) (fun k f f1 hf hf1 => ?_)
  · simp only [mapaccess]
    by_cases ha : "a" = k
    · subst ha
      rfl
    · by_cases hb : "b" = k
      · subst hb
        rfl
      · simp [ha, hb]
  · simp only [mapaccess] at hf hf1
    by_cases ha : "a" = k
    · subst ha
      simp only [if_true, Option.some.injEq] at hf
      have hf2 : some (field.mk (.query ⟨⟨0, "\x7b$.a\x7d"⟩⟩) "") = some f1 := hf1
      cases hf2
      subst hf
      rfl
    · by_cases hb : "b" = k
      · subst hb
        simp only [if_true, Option.some.injEq] at hf1
        have hf2 : some (field.mk (.stringConstant "x") "") = some f := hf
        cases hf2
        subst hf1
        rfl
      · simp [ha, hb] at hf
  · simp only [mapaccess] at hf hf1
    by_cases ha : "a" = k
    · subst ha
      simp only [if_true, Option.some.injEq] at hf
      have hf2 : some (field.mk (.query ⟨⟨0, "\x7b$.a\x7d"⟩⟩) "") = some f1 := hf1
      cases hf2
      subst hf
      exact template.Reordered.refl _
    · by_cases hb : "b" = k
      · subst hb
        simp only [if_true, Option.some.injEq] at hf1
        have hf2 : some (field.mk (.stringConstant "x") "") = some f := hf
        cases hf2
        subst hf1
        exact template.Reordered.refl _
      · simp [ha, hb] at hf

theorem evaluation_is_deterministic_witness :
    sample.host.pure ∧ template.Reordered sample.ab sample.ba ∧
      (sample.ab.interpolate sample.host (.map .iface [("a", .string "1")]) ⟨ErrorOnMissing⟩
          World.init).1 =
        (sample.ab.interpolate sample.host (.map .iface [("a", .string "1")]) ⟨ErrorOnMissing⟩
          ⟨fun _ => true, []⟩).1 ∧
      Outcome.Same
        (sample.ab.interpolate sample.host (.map .iface [("a", .string "1")]) ⟨ErrorOnMissing⟩
          World.init).1
        (sample.ba.interpolate sample.host (.map .iface [("a", .string "1")]) ⟨ErrorOnMissing⟩
          ⟨fun _ => true, []⟩).1 :=
  ⟨sample_host_pure, sample_reordered,
    evaluation_is_deterministic sample.host sample_host_pure sample.ab sample.ba
      sample_reordered (.map .iface [("a", .string "1")]) ⟨ErrorOnMissing⟩ World.init
      ⟨fun _ => true, []⟩⟩

theorem comment_is_ignored_up_to_ffff_witness :
    parse.lexUntil 3 12 "[$.a[0], \n1]".data =
        some [⟨.Punct, "["⟩, ⟨.JSONPath, "$.a[0]"⟩, ⟨.Punct, ","⟩, ⟨.Whitespace, " "⟩] ∧
      Parse sample.host sample.unquote "[$.a[0], # \"]\n1]" [] =
        Parse sample.host sample.unquote "[$.a[0], \n1]" [] ∧
      Parse sample.host sample.unquote "[$.a[0], \n1]" [] =
        .ok ⟨.array [.query ⟨⟨0, "\x7b$.a[0]\x7d"⟩⟩, .numberConstant 1], NullOnMissing⟩ :=
  ⟨by decide,
    ((comment_is_ignored_up_to_ffff "[$.a[0], ".data "\n1]".data " \"]".data
      [⟨.Punct, "["⟩, ⟨.JSONPath, "$.a[0]"⟩, ⟨.Punct, ","⟩, ⟨.Whitespace, " "⟩]
      (by decide) (by decide) (by decide) (Or.inr ⟨_, rfl⟩) sample.unquote).1.2.2
      sample.host []), rfl⟩

theorem build_succeeds_exactly_when_witness :
    parse.Parser.Parse sample.unquote
        "\x7b\"names\": range $.items[*] [to_upper($.name)], \"rest\": [null]\x7d" =
      .ok ⟨sample.names⟩ ∧
    sample.names.tagged = true ∧
    (∃ t, Parse.build sample.narrow ⟨sample.names⟩ [("to_upper", sample.to_upper)] = .ok t ∧
      sample.names.mirroredBy [("to_upper", sample.to_upper)] t.definition) ∧
    (∃ e, Parse.build sample.narrow ⟨sample.arrayOf [sample.extractorOf "$.name",
      sample.extractorOf "$.hello[1:5]"]⟩ [] = .err (.error e)) :=
  ⟨rfl, rfl,
    (build_succeeds_exactly_when sample.narrow ⟨sample.names⟩ [("to_upper", sample.to_upper)] rfl
      (by intro e he; simp at he; subst he; rfl)).1.2
      ⟨by intro name hn; have hn1 : name ∈ ["to_upper"] := hn; simp at hn1; subst hn1; rfl,
        by
          intro q hq
          have hq1 : q ∈ ["$.items[*]", "$.name"] := hq
          simp at hq1
          rcases hq1 with rfl | rfl <;> rfl⟩,
    (build_succeeds_exactly_when sample.narrow ⟨sample.arrayOf [sample.extractorOf "$.name",
      sample.extractorOf "$.hello[1:5]"]⟩ [] rfl (by intro e he; simp at he)).2
      (fun hcond => by
        have hq := hcond.2 "$.hello[1:5]"
          (by show "$.hello[1:5]" ∈ ["$.name", "$.hello[1:5]"]; decide)
        revert hq
        decide)⟩

end jsontemplate
